import Mathlib

/-!
# ONNC graph splitting (`lib/Analysis/SplitNode.cpp`)

A shallow embedding of the split-node shape calculus, the split-node factory,
the half-size partition finder, the sub-graph extraction and the split-graph
manager, followed by the properties proved about them.

Conventions of the embedding.

* `int64_t` values are `Int`.  An operand or an arithmetic result outside the
  range of `int64_t` is a signed overflow, undefined behaviour in C++: the
  execution yields no value (`int64`).
  The C++ operators `/` and `%` on `int64_t` are `Int.tdiv` and `Int.tmod`.
* `uint64_t` and `unsigned` values are `Nat` reduced modulo `2^64` and `2^32`.
* Pointers to nodes, values and graphs are indices into tables.  A function
  returns `none` for an execution that yields no value: a failed `assert`, an
  access outside a vector, a null or dangling pointer, a division by zero, a
  signed overflow.
* Text written to `outs()` and `errs()` is not part of the state.
-/

namespace Onnc

/-! ## The IR -/

/-- Node kinds (`xSymbol`) that the pass tells apart; every other symbol is
`other n`. -/
inductive Kind where
  | kUndefined
  | kParam
  | kReturn
  | kConv
  | kGemm
  | kReshape
  | MaxPool
  | Load
  | Store
  | SubGraph
  | SubGraphKind
  | other (n : Nat)
  deriving DecidableEq

abbrev NodeId := Nat
abbrev ValueId := Nat
abbrev GraphId := Nat

/-- The type `LongInts` is `std::vector<int64_t>`. -/
abbrev LongInts := List Int

/-- One entry of `xValue::uses()`. -/
structure Use where
  user : NodeId
  offset : Nat
  deriving DecidableEq

/-- An `xValue`: its producer (`node()`, `none` for a null pointer), the index
of the value among the producer's outputs, the `dim` of each entry of
`sizes()`, the unique name if one was set, the element type and the use
list. -/
structure Value where
  node : Option NodeId
  offset : Nat
  sizes : LongInts
  unique_name : Option String
  elemType : Nat
  uses : List Use
  deriving DecidableEq

/-- The attributes of a node that the pass reads.  The readers
`GetConvKernelShape`, `GetAttrVals`, `GetPads` and `IsTranspose` are not part
of the sources at hand: the record holds the vectors and flags they return.
`g` is the graph-valued attribute of a `SubGraph` node. -/
structure Attributes where
  kernel_shape : LongInts
  strides : LongInts
  padBegin : LongInts
  padEnd : LongInts
  transA : Bool
  transB : Bool
  g : Option GraphId
  deriving DecidableEq

/-- Attributes of a freshly created node. -/
def Attributes.empty : Attributes :=
  { kernel_shape := [], strides := [], padBegin := [], padEnd := [],
    transA := false, transB := false, g := none }

/-- An `xNode`: kind, ordered inputs, ordered outputs, attributes. -/
structure Node where
  kind : Kind
  inputs : List ValueId
  outputs : List ValueId
  attrs : Attributes
  deriving DecidableEq

/-- An `xGraph`: the node and value objects it owns, each under its unique
number, the node list in list order (`nodes()`, which holds neither the
return node nor the parameter node), the return node and the next unique
number. -/
structure Graph where
  name : String
  nodeTable : List (NodeId × Node)
  valueTable : List (ValueId × Value)
  order : List NodeId
  return_node : NodeId
  next_unique : Nat
  deriving DecidableEq

def Graph.node? (g : Graph) (n : NodeId) : Option Node :=
  g.nodeTable.lookup n

def Graph.value? (g : Graph) (v : ValueId) : Option Value :=
  g.valueTable.lookup v

/-- Sizes of `inputs()[i]` of node `n`: `n.inputs()[i]->sizes()`. -/
def Graph.inputSizes (g : Graph) (n : NodeId) (i : Nat) : Option LongInts := do
  let nd ← g.node? n
  let v ← nd.inputs[i]?
  let val ← g.value? v
  pure val.sizes

/-- Function `GetValueSizes`. -/
def GetValueSizes (pV : Value) : LongInts :=
  pV.sizes

/-- Function `IsType`: `pNode->kind() == xSymbol(pKind)`. -/
def IsType (pKind : Kind) (pNode : Node) : Bool :=
  pNode.kind == pKind

/-- Function `SkipWhenCalMemSize`. -/
def SkipWhenCalMemSize (pNode : Node) : Bool :=
  IsType Kind.Load pNode || IsType Kind.Store pNode || IsType Kind.SubGraph pNode

/-- Function `GetOutputValueSizes`. -/
def GetOutputValueSizes (g : Graph) (pN : Node) : Option LongInts :=
  match pN.outputs with
  | [] => some []
  | v :: _ => (g.value? v).map GetValueSizes

/-! ## IR operations

The node, value and graph classes are those of the ONNX IR, an external
library; the operations below follow the IR mutation surface of the
specification. -/

/-- Replace the object stored under key `k`. -/
def tableSet {α : Type} (t : List (Nat × α)) (k : Nat) (a : α) : List (Nat × α) :=
  t.map (fun p => if p.1 = k then (k, a) else p)

/-- Remove the object stored under key `k`. -/
def tableErase {α : Type} (t : List (Nat × α)) (k : Nat) : List (Nat × α) :=
  t.filter (fun p => !(p.1 == k))

def Graph.setNode (g : Graph) (n : NodeId) (nd : Node) : Graph :=
  { g with nodeTable := tableSet g.nodeTable n nd }

def Graph.setValue (g : Graph) (v : ValueId) (val : Value) : Graph :=
  { g with valueTable := tableSet g.valueTable v val }

/-- Modelled from the spec: `Value::uniqueName()`, the name that was set or
else the decimal form of the unique number. -/
def Graph.uniqueName (g : Graph) (v : ValueId) : Option String := do
  let val ← g.value? v
  pure (val.unique_name.getD (toString v))

/-- Modelled from the spec: `Node::inGraphList()`. -/
def Graph.inGraphList (g : Graph) (n : NodeId) : Bool :=
  n == g.return_node || g.order.contains n

/-- Modelled from the spec: `new xGraph()`, an empty graph with its return
node and its parameter node. -/
def Graph.new : Graph :=
  { name := "",
    nodeTable := [(0, { kind := Kind.kReturn, inputs := [], outputs := [],
                        attrs := Attributes.empty }),
                  (1, { kind := Kind.kParam, inputs := [], outputs := [],
                        attrs := Attributes.empty })],
    valueTable := [], order := [], return_node := 0, next_unique := 2 }

/-- Modelled from the spec: `Node::addOutput()`. -/
def Graph.addOutput (g : Graph) (n : NodeId) : Option (Graph × ValueId) := do
  let nd ← g.node? n
  let v := g.next_unique
  let val : Value := { node := some n, offset := nd.outputs.length, sizes := [],
                       unique_name := none, elemType := 0, uses := [] }
  let g1 : Graph := { g with valueTable := g.valueTable ++ [(v, val)], next_unique := v + 1 }
  pure (g1.setNode n { nd with outputs := nd.outputs ++ [v] }, v)

/-- Modelled from the spec: `Node::addInput(value)`, which also records the
use on the value. -/
def Graph.addInput (g : Graph) (n : NodeId) (v : ValueId) : Option Graph := do
  let nd ← g.node? n
  let val ← g.value? v
  let g1 := g.setValue v { val with uses := val.uses ++ [⟨n, nd.inputs.length⟩] }
  pure (g1.setNode n { nd with inputs := nd.inputs ++ [v] })

/-- Modelled from the spec: `xGraph::create(kind, num_outputs)`; the node is
not yet in the node list. -/
def Graph.create (g : Graph) (kind : Kind) (num_outputs : Nat) : Option (Graph × NodeId) := do
  let n := g.next_unique
  let nd : Node := { kind := kind, inputs := [], outputs := [], attrs := Attributes.empty }
  let g1 : Graph := { g with nodeTable := g.nodeTable ++ [(n, nd)], next_unique := n + 1 }
  let g2 ← (List.range num_outputs).foldlM (fun g _ => (g.addOutput n).map Prod.fst) g1
  pure (g2, n)

/-- Modelled from the spec: `xGraph::create(kind, inputs, num_outputs)`. -/
def Graph.createWith (g : Graph) (kind : Kind) (inputs : List ValueId) (num_outputs : Nat) :
    Option (Graph × NodeId) := do
  let (g1, n) ← g.create kind num_outputs
  let g2 ← inputs.foldlM (fun g v => g.addInput n v) g1
  pure (g2, n)

/-- Modelled from the spec: `Node::output()`, the only output. -/
def Graph.output (g : Graph) (n : NodeId) : Option ValueId := do
  let nd ← g.node? n
  match nd.outputs with
  | [v] => some v
  | _ => none

/-- Modelled from the spec: `Node::input()`, the only input. -/
def Graph.input (g : Graph) (n : NodeId) : Option ValueId := do
  let nd ← g.node? n
  match nd.inputs with
  | [v] => some v
  | _ => none

/-- Modelled from the spec: `Node::insertBefore(target)`; inserting before the
return node appends to the node list. -/
def Graph.insertBefore (g : Graph) (n target : NodeId) : Option Graph :=
  if g.inGraphList n then none
  else if target = g.return_node then some { g with order := g.order ++ [n] }
  else if g.order.contains target then
    some { g with order := g.order.takeWhile (fun x => !(x == target)) ++
                            n :: g.order.dropWhile (fun x => !(x == target)) }
  else none

/-- Modelled from the spec: `Node::insertAfter(target)`; inserting after the
return node, the sentinel of the list, puts the node first. -/
def Graph.insertAfter (g : Graph) (n target : NodeId) : Option Graph :=
  if g.inGraphList n then none
  else if target = g.return_node then some { g with order := n :: g.order }
  else if g.order.contains target then
    some { g with order := g.order.takeWhile (fun x => !(x == target)) ++
                            target :: n :: (g.order.dropWhile (fun x => !(x == target))).tail }
  else none

/-- Modelled from the spec: `xGraph::appendNode`. -/
def Graph.appendNode (g : Graph) (n : NodeId) : Option Graph :=
  g.insertBefore n g.return_node

/-- Modelled from the spec: `Node::removeFromList()`. -/
def Graph.removeFromList (g : Graph) (n : NodeId) : Option Graph :=
  if g.order.contains n then some { g with order := g.order.filter (fun x => !(x == n)) }
  else none

/-- Modelled from the spec: `Node::moveBefore(target)`. -/
def Graph.moveBefore (g : Graph) (n target : NodeId) : Option Graph := do
  let g1 ← g.removeFromList n
  g1.insertBefore n target

/-- Modelled from the spec: `a->isBefore(b)`, the relative position predicate:
`b` is found walking the node list from the successor of `a` up to the
return node. -/
def Graph.isBefore (g : Graph) (a b : NodeId) : Option Bool := do
  let na ← g.node? a
  let nb ← g.node? b
  if a = b then pure false
  else if na.kind = Kind.kParam then pure true
  else if nb.kind = Kind.kParam then pure false
  else if !g.inGraphList b then none
  else if a = g.return_node then pure (g.order.contains b)
  else if g.order.contains a then
    pure ((g.order.dropWhile (fun x => !(x == a))).tail.contains b)
  else none

/-- Modelled from the spec: `Value::copyMetadata(from)`: element type, sizes
and, if `from` has one, the unique name. -/
def Graph.copyMetadata (g : Graph) (v : ValueId) (src : Value) : Option Graph := do
  let val ← g.value? v
  pure (g.setValue v { val with elemType := src.elemType, sizes := src.sizes,
                                unique_name := match src.unique_name with
                                  | some s => some s
                                  | none => val.unique_name })

/-- Modelled from the spec: `Value::setUniqueName`. -/
def Graph.setUniqueName (g : Graph) (v : ValueId) (name : String) : Option Graph := do
  let val ← g.value? v
  pure (g.setValue v { val with unique_name := some name })

/-- Modelled from the spec: `Value::replaceAllUsesWith(newValue)`: every use
is redirected, in order, and appended to the uses of `newValue`. -/
def Graph.replaceAllUsesWith (g : Graph) (v newValue : ValueId) : Option Graph := do
  let val ← g.value? v
  let g1 ← val.uses.foldlM (fun g u => do
      let nd ← g.node? u.user
      let nv ← g.value? newValue
      if u.offset < nd.inputs.length then
        pure ((g.setNode u.user { nd with inputs := nd.inputs.set u.offset newValue }).setValue
          newValue { nv with uses := nv.uses ++ [u] })
      else none) g
  let val1 ← g1.value? v
  pure (g1.setValue v { val1 with uses := [] })

/-- Modelled from the spec: `Node::removeAllInputs()`: the use of each input
is erased from the input value, then the inputs are cleared. -/
def Graph.removeAllInputs (g : Graph) (n : NodeId) : Option Graph := do
  let nd ← g.node? n
  let g1 ← (List.range nd.inputs.length).foldlM (fun g i => do
      let v ← nd.inputs[i]?
      let val ← g.value? v
      if val.uses.contains ⟨n, i⟩ then
        pure (g.setValue v { val with uses := val.uses.erase ⟨n, i⟩ })
      else none) g
  let nd1 ← g1.node? n
  pure (g1.setNode n { nd1 with inputs := [] })

/-- Modelled from the spec: `Node::destroy()`: the node must be in the node
list and its outputs unused; the outputs and the node are freed. -/
def Graph.destroy (g : Graph) (n : NodeId) : Option Graph := do
  let nd ← g.node? n
  if !g.inGraphList n then none
  else do
    let g1 ← nd.outputs.reverse.foldlM (fun g v => do
        let val ← g.value? v
        if val.uses.isEmpty then
          pure { g with valueTable := tableErase g.valueTable v }
        else none) g
    let g2 ← g1.removeAllInputs n
    let g3 ← if n = g2.return_node then none else g2.removeFromList n
    pure { g3 with nodeTable := tableErase g3.nodeTable n }

/-- Modelled from the spec: `Node::copyAttributes`. -/
def Graph.copyAttributes (g : Graph) (n : NodeId) (src : Node) : Option Graph := do
  let nd ← g.node? n
  pure (g.setNode n { nd with attrs := src.attrs })

/-! ## Split nodes -/

/-- The dynamic class of a split node. -/
inductive SplitVariant where
  | SplitNode
  | SplitConv
  | SplitGemm
  | SplitPool
  | SplitReshape
  deriving DecidableEq

/-- A `SplitNode` object with the members of its derived classes. -/
structure SplitNode where
  variant : SplitVariant
  m_OutSizes : LongInts
  m_NewOutSizes : LongInts
  m_SizeCalByOtherNode : Bool
  m_Node : NodeId
  m_PadBegin : LongInts
  m_PadEnd : LongInts
  m_KShape : LongInts
  m_Stride : LongInts
  deriving DecidableEq

/-- Constructor `SplitNode::SplitNode(pN, pSizeDecideByOtherNode)`. -/
def SplitNode.new (g : Graph) (pN : NodeId) (pSizeDecideByOtherNode : Bool) :
    Option SplitNode := do
  let nd ← g.node? pN
  let out ← GetOutputValueSizes g nd
  pure { variant := SplitVariant.SplitNode, m_OutSizes := out, m_NewOutSizes := out,
         m_SizeCalByOtherNode := pSizeDecideByOtherNode, m_Node := pN,
         m_PadBegin := [], m_PadEnd := [], m_KShape := [], m_Stride := [] }

/-- Constructor `SplitConv::SplitConv`. -/
def SplitConv (g : Graph) (pN : NodeId) : Option SplitNode := do
  let sn ← SplitNode.new g pN false
  let nd ← g.node? pN
  if nd.kind = Kind.kConv then
    pure { sn with variant := SplitVariant.SplitConv,
                   m_KShape := nd.attrs.kernel_shape, m_Stride := nd.attrs.strides,
                   m_PadBegin := nd.attrs.padBegin, m_PadEnd := nd.attrs.padEnd }
  else none

/-- Constructor `SplitGemm::SplitGemm`. -/
def SplitGemm (g : Graph) (pN : NodeId) : Option SplitNode := do
  let sn ← SplitNode.new g pN false
  pure { sn with variant := SplitVariant.SplitGemm }

/-- Constructor `SplitPool::SplitPool`. -/
def SplitPool (g : Graph) (pN : NodeId) : Option SplitNode := do
  let sn ← SplitNode.new g pN false
  let nd ← g.node? pN
  if nd.kind = Kind.MaxPool then
    pure { sn with variant := SplitVariant.SplitPool,
                   m_KShape := nd.attrs.kernel_shape, m_Stride := nd.attrs.strides,
                   m_PadBegin := nd.attrs.padBegin, m_PadEnd := nd.attrs.padEnd }
  else none

/-- Constructor `SplitReshape::SplitReshape`. -/
def SplitReshape (g : Graph) (pN : NodeId) : Option SplitNode := do
  let sn ← SplitNode.new g pN false
  pure { sn with variant := SplitVariant.SplitReshape }

/-- Method `SplitNode::useNewOutSize`. -/
def SplitNode.useNewOutSize (sn : SplitNode) (pNewOutSize : LongInts) : SplitNode × Bool :=
  ({ sn with m_NewOutSizes := pNewOutSize }, true)

/-- Method `SplitNode::getNewOutputSize`. -/
def SplitNode.getNewOutputSize (sn : SplitNode) (_pIdx : Nat) : LongInts :=
  sn.m_NewOutSizes

/-- Method `SplitNode::skipWhenCalMemSize`. -/
def SplitNode.skipWhenCalMemSize (sn : SplitNode) : Bool :=
  sn.m_SizeCalByOtherNode

/-- Method `SplitNode::resetSize`. -/
def SplitNode.resetSize (sn : SplitNode) : SplitNode :=
  { sn with m_NewOutSizes := sn.m_OutSizes }

/-- Assignment `xs[i] = v` into a vector of fixed size. -/
def setAt (xs : LongInts) (i : Nat) (v : Int) : Option LongInts :=
  if i < xs.length then some (xs.set i v) else none

/-- Least value of `int64_t`. -/
def INT64_MIN : Int := -9223372036854775808

/-- Greatest value of `int64_t`. -/
def INT64_MAX : Int := 9223372036854775807

/-- The integer `x` is a value of `int64_t`. -/
def inInt64 (x : Int) : Bool :=
  decide (INT64_MIN ≤ x) && decide (x ≤ INT64_MAX)

/-- The integer `x` as an operand or a result of `int64_t` arithmetic: a
value outside the range of the type is a signed overflow and yields no
value. -/
def int64 (x : Int) : Option Int :=
  if inInt64 x then some x else none

/-- The expression `(y - 1) * s - pb - pe + k` of `SplitConv::calNewInputSize`
in `int64_t` arithmetic, operator by operator. -/
def SplitConv.extent (y s pb pe k : Int) : Option Int := do
  let y ← int64 y
  let s ← int64 s
  let pb ← int64 pb
  let pe ← int64 pe
  let k ← int64 k
  let a ← int64 (y - 1)
  let b ← int64 (a * s)
  let c ← int64 (b - pb)
  let d ← int64 (c - pe)
  int64 (d + k)

/-- Body of the loop of `SplitConv::calNewInputSize`, case 0. -/
def SplitConv.axisStep (sn : SplitNode) (newIS : LongInts) (i : Nat) : Option LongInts := do
  let y ← sn.m_NewOutSizes[i + 2]?
  let s ← sn.m_Stride[i]?
  let pb ← sn.m_PadBegin[i]?
  let pe ← sn.m_PadEnd[i]?
  let k ← sn.m_KShape[i]?
  let x ← SplitConv.extent y s pb pe k
  setAt newIS (i + 2) x

/-- Method `SplitConv::calNewInputSize`. -/
def SplitConv.calNewInputSize (g : Graph) (sn : SplitNode) (pIdx : Nat) : Option LongInts :=
  match pIdx with
  | 0 => do
    let xDim ← g.inputSizes sn.m_Node 0
    let n0 ← sn.m_NewOutSizes[0]?
    let newIS ← setAt [0, 0, 0, 0] 0 n0
    let c ← xDim[1]?
    let newIS ← setAt newIS 1 c
    let numAxis := xDim.length - 2
    (List.range numAxis).foldlM (SplitConv.axisStep sn) newIS
  | 1 => do
    let wDim ← g.inputSizes sn.m_Node 1
    let m ← sn.m_NewOutSizes[1]?
    let newIS ← setAt (List.replicate wDim.length 0) 0 m
    (List.range' 1 (wDim.length - 1)).foldlM
      (fun newIS i => do
        let w ← wDim[i]?
        setAt newIS i w) newIS
  | 2 => do
    let m ← sn.m_NewOutSizes[1]?
    pure [m]
  | _ => none

/-- Method `SplitGemm::calNewInputSize`. -/
def SplitGemm.calNewInputSize (g : Graph) (sn : SplitNode) (pIdx : Nat) : Option LongInts := do
  let nd ← g.node? sn.m_Node
  let aDim ← g.inputSizes sn.m_Node 0
  let K ← if nd.attrs.transA then aDim[0]? else aDim[1]?
  match pIdx with
  | 0 => do
    let m ← sn.m_NewOutSizes[0]?
    if nd.attrs.transA then pure [K, m] else pure [m, K]
  | 1 => do
    let n ← sn.m_NewOutSizes[1]?
    if nd.attrs.transB then pure [n, K] else pure [K, n]
  | 2 => g.inputSizes sn.m_Node 2
  | _ => none

/-- The expression `y * s - pb - pe + 2 * (k / 2)` of
`SplitPool::calNewInputSize` in `int64_t` arithmetic, operator by operator. -/
def SplitPool.extent (y s pb pe k : Int) : Option Int := do
  let y ← int64 y
  let s ← int64 s
  let pb ← int64 pb
  let pe ← int64 pe
  let k ← int64 k
  let a ← int64 (y * s)
  let b ← int64 (a - pb)
  let c ← int64 (b - pe)
  let h ← int64 (k.tdiv 2)
  let e ← int64 (2 * h)
  int64 (c + e)

/-- Body of the loop of `SplitPool::calNewInputSize`. -/
def SplitPool.axisStep (sn : SplitNode) (newIS : LongInts) (i : Nat) : Option LongInts := do
  let y ← sn.m_NewOutSizes[i + 2]?
  let s ← sn.m_Stride[i]?
  let pb ← sn.m_PadBegin[i]?
  let pe ← sn.m_PadEnd[i]?
  let k ← sn.m_KShape[i]?
  let x ← SplitPool.extent y s pb pe k
  setAt newIS (i + 2) x

/-- No signed overflow in the evaluation of `(y - 1) * s - pb - pe + k`: the
operands and the result of every operator are values of `int64_t`. -/
def SplitConv.fits (y s pb pe k : Int) : Bool :=
  inInt64 y && inInt64 s && inInt64 pb && inInt64 pe && inInt64 k && inInt64 (y - 1) &&
    inInt64 ((y - 1) * s) && inInt64 ((y - 1) * s - pb) && inInt64 ((y - 1) * s - pb - pe) &&
    inInt64 ((y - 1) * s - pb - pe + k)

/-- No signed overflow in the evaluation of `y * s - pb - pe + 2 * (k / 2)`:
the operands and the result of every operator are values of `int64_t`. -/
def SplitPool.fits (y s pb pe k : Int) : Bool :=
  inInt64 y && inInt64 s && inInt64 pb && inInt64 pe && inInt64 k && inInt64 (y * s) &&
    inInt64 (y * s - pb) && inInt64 (y * s - pb - pe) && inInt64 (k.tdiv 2) &&
    inInt64 (2 * k.tdiv 2) && inInt64 (y * s - pb - pe + 2 * k.tdiv 2)

/-- Method `SplitPool::calNewInputSize`. -/
def SplitPool.calNewInputSize (g : Graph) (sn : SplitNode) (pIdx : Nat) : Option LongInts :=
  if pIdx = 0 then do
    let xDim ← g.inputSizes sn.m_Node 0
    let n0 ← sn.m_NewOutSizes[0]?
    let newIS ← setAt [0, 0, 0, 0] 0 n0
    let c ← sn.m_NewOutSizes[1]?
    let newIS ← setAt newIS 1 c
    let numAxis := xDim.length - 2
    (List.range numAxis).foldlM (SplitPool.axisStep sn) newIS
  else none

/-- Body of the loop of `SplitReshape::calNewInputSize`: the pair
`(origCHWSize, newCHWSize)` after the step for index `i`. -/
def SplitReshape.sizeStep (sn : SplitNode) (acc : Int × Int) (i : Nat) : Option (Int × Int) := do
  let a ← (sn.m_NewOutSizes[i]?).bind int64
  let b ← (sn.m_OutSizes[i]?).bind int64
  let x ← int64 (acc.1 * a)
  let y ← int64 (acc.2 * b)
  pure (x, y)

/-- Method `SplitReshape::calNewInputSize`. -/
def SplitReshape.calNewInputSize (g : Graph) (sn : SplitNode) (pIdx : Nat) : Option LongInts :=
  if pIdx > 1 then none
  else if pIdx = 1 then some []
  else if sn.m_OutSizes.length ≠ 2 then none
  else do
    let origSizes ← g.inputSizes sn.m_Node 0
    let n0 ← sn.m_NewOutSizes[0]?
    let newIS ← setAt (List.replicate origSizes.length 0) 0 n0
    let (origCHWSize, newCHWSize) ←
      (List.range' 1 (sn.m_NewOutSizes.length - 1)).foldlM (SplitReshape.sizeStep sn) (1, 1)
    if origCHWSize < newCHWSize then none
    else if newCHWSize = 0 then none
    else
      let resizeFactor := origCHWSize.tdiv newCHWSize
      if resizeFactor = 0 then none
      else do
        let c ← (origSizes[1]?).bind int64
        let q ← int64 (c.tdiv resizeFactor)
        let newIS ← setAt newIS 1 q
        let h ← origSizes[2]?
        let newIS ← setAt newIS 2 h
        let w ← origSizes[3]?
        setAt newIS 3 w

/-- Virtual method `calNewInputSize`, dispatched on the dynamic class. -/
def SplitNode.calNewInputSize (g : Graph) (sn : SplitNode) (pIdx : Nat) : Option LongInts :=
  match sn.variant with
  | SplitVariant.SplitNode => some sn.m_NewOutSizes
  | SplitVariant.SplitConv => SplitConv.calNewInputSize g sn pIdx
  | SplitVariant.SplitGemm => SplitGemm.calNewInputSize g sn pIdx
  | SplitVariant.SplitPool => SplitPool.calNewInputSize g sn pIdx
  | SplitVariant.SplitReshape => SplitReshape.calNewInputSize g sn pIdx

/-- Collaborators that are not part of the sources at hand: the predicate
`OutputSizeIsInputSize` of `ONNXUtils` and the `size` field of
`TargetTransformInfo::getOperatorMemUsage(node)`, a `uint64_t`. -/
structure Target where
  OutputSizeIsInputSize : Graph → NodeId → Bool
  getOperatorMemUsage : Graph → NodeId → Nat

/-- Function `SplitNodeCreator`, the factory. -/
def SplitNodeCreator (T : Target) (g : Graph) (pN : NodeId) : Option SplitNode := do
  let nd ← g.node? pN
  if T.OutputSizeIsInputSize g pN then SplitNode.new g pN false
  else if IsType Kind.Load nd || IsType Kind.Store nd then SplitNode.new g pN true
  else if nd.kind = Kind.kConv then SplitConv g pN
  else if nd.kind = Kind.MaxPool then SplitPool g pN
  else if nd.kind = Kind.kGemm then SplitGemm g pN
  else if nd.kind = Kind.kReshape then SplitReshape g pN
  else none

/-- Modelled from the spec: the output extent of a window operator along one
spatial axis.  `UpdateConvOutputInfo` of `UpdateGraphOutputSize.cpp`, which
computes it, is missing; the formula is the one of the comment in
`SplitConv::calNewInputSize`, `(D - K + x_begin + x_end)/s + 1`, with the
integer division of C++. -/
def outputExtent (X k pb pe s : Int) : Int :=
  (X - k + pb + pe).tdiv s + 1

/-! ## Partition finder -/

/-- Modulus of `unsigned`. -/
def UNSIGNED : Nat := 2 ^ 32

/-- Modulus of `uint64_t`. -/
def UINT64 : Nat := 2 ^ 64

/-- The type `DegreeMap` is `std::unordered_map<xNode *, unsigned>`; it is
only accessed by key. -/
abbrev DegreeMap := List (NodeId × Nat)

/-- Assignment `m[k] = a`. -/
def mapInsert {α : Type} (m : List (Nat × α)) (k : Nat) (a : α) : List (Nat × α) :=
  if (m.lookup k).isSome then tableSet m k a else m ++ [(k, a)]

/-- Insertion into an `std::unordered_set<xNode *>`. -/
def setInsert (s : List NodeId) (n : NodeId) : List NodeId :=
  if s.contains n then s else s ++ [n]

/-- The order in which an `std::unordered_set` or `std::unordered_map` over
node pointers lists its elements is fixed by the hashing of the C++ library:
`iter` maps the elements, in insertion order, to the order of iteration. -/
structure HashOrder where
  iter : List NodeId → List NodeId
  perm : ∀ l, (iter l).Perm l

/-- Bound on the number of rounds of a worklist loop over a graph: the number
of node objects and of use entries, plus one. -/
def Graph.fuel (g : Graph) : Nat :=
  g.nodeTable.length + (g.valueTable.map (fun p => p.2.uses.length)).sum + 1

/-- Function `BuildDegreeMap`. -/
def BuildDegreeMap (g : Graph) : Option DegreeMap :=
  g.order.foldlM (fun dmap n => do
    let nd ← g.node? n
    if nd.kind = Kind.kUndefined then pure dmap
    else do
      let degcnt ← nd.inputs.foldlM (fun degcnt v => do
          let val ← g.value? v
          pure (if val.node = none then (degcnt + UNSIGNED - 1) % UNSIGNED else degcnt))
        (nd.inputs.length % UNSIGNED)
      pure (mapInsert dmap n degcnt)) []

/-- The nodes of degree zero, in graph order; the head of the list is the
back of the `worklist` vector. -/
def initWorklist (g : Graph) (dmap : DegreeMap) : Option (List NodeId) :=
  g.order.foldlM (fun worklist n => do
    let nd ← g.node? n
    if nd.kind = Kind.kUndefined then pure worklist
    else if (dmap.lookup n).getD 0 = 0 then pure (n :: worklist)
    else pure worklist) []

/-- The degree update of the users of node `n`, shared by
`findHalfSizeSplitPoints` and `TopologicalSort`: users other than the return
node lose one degree and enter the worklist at degree zero. -/
def updateDegrees (g : Graph) (n : NodeId) (dmap : DegreeMap) (worklist : List NodeId) :
    Option (DegreeMap × List NodeId) := do
  let nd ← g.node? n
  nd.outputs.foldlM (fun st v => do
    let val ← g.value? v
    val.uses.foldlM (fun st u => do
      let un ← g.node? u.user
      if un.kind = Kind.kReturn then pure st
      else do
        let d ← st.1.lookup u.user
        let d1 := (d + UNSIGNED - 1) % UNSIGNED
        pure (tableSet st.1 u.user d1, if d1 = 0 then u.user :: st.2 else st.2)) st)
    (dmap, worklist)

/-- Local variables of the traversal of `findHalfSizeSplitPoints`. -/
structure FinderState where
  dmap : DegreeMap
  worklist : List NodeId
  grpA : List NodeId
  grpB : List NodeId
  accumulateSize : Nat
  size_a : Nat
  lastNode : Option NodeId

/-- The `while (!worklist.empty())` loop of `findHalfSizeSplitPoints`. -/
def findLoop (T : Target) (g : Graph) (total : Nat) : Nat → FinderState → Option FinderState
  | 0, st => if st.worklist.isEmpty then some st else none
  | fuel + 1, st =>
    match st.worklist with
    | [] => some st
    | n :: rest => do
      let (dmap, worklist) ← updateDegrees g n st.dmap rest
      let nd ← g.node? n
      if SkipWhenCalMemSize nd then
        findLoop T g total fuel { st with dmap := dmap, worklist := worklist }
      else
        let st1 : FinderState :=
          if st.accumulateSize < total / 2 then
            { st with grpA := setInsert st.grpA n, size_a := st.accumulateSize }
          else
            { st with grpB := setInsert st.grpB n }
        findLoop T g total fuel
          { st1 with dmap := dmap, worklist := worklist, lastNode := some n,
                     accumulateSize := (st.accumulateSize + T.getOperatorMemUsage g n) % UINT64 }

/-- The loop of `findHalfSizeSplitPoints` that puts each Load into the group
of its first user and each Store and SubGraph into the group of its
producer. -/
def groupLoadStore (g : Graph) (grpA grpB : List NodeId) :
    Option (List NodeId × List NodeId) :=
  g.order.foldlM (fun grp n => do
    let nd ← g.node? n
    if IsType Kind.Load nd then do
      let out ← g.output n
      let val ← g.value? out
      let u ← val.uses[0]?
      if grp.1.contains u.user then pure (setInsert grp.1 n, grp.2)
      else pure (grp.1, setInsert grp.2 n)
    else if IsType Kind.Store nd || IsType Kind.SubGraph nd then do
      let inp ← g.input n
      let val ← g.value? inp
      let inA := match val.node with
        | some p => grp.1.contains p
        | none => false
      if inA then pure (setInsert grp.1 n, grp.2)
      else pure (grp.1, setInsert grp.2 n)
    else pure grp) (grpA, grpB)

/-- The split points of `findHalfSizeSplitPoints`: a node of group A once for
each use outside group A, which must be in group B, then the Loads of
group B; both groups are walked in the order of the hash set. -/
def collectSplitPts (H : HashOrder) (g : Graph) (grpA grpB : List NodeId) :
    Option (List NodeId) := do
  let splitPts ← (H.iter grpA).foldlM (fun pts n => do
      let nd ← g.node? n
      nd.outputs.foldlM (fun pts outv => do
        let val ← g.value? outv
        val.uses.foldlM (fun pts u =>
          if grpA.contains u.user then some pts
          else if grpB.contains u.user then some (pts ++ [n])
          else none) pts) pts) []
  (H.iter grpB).foldlM (fun pts n => do
      let nd ← g.node? n
      if IsType Kind.Load nd then pure (pts ++ [n]) else pure pts) splitPts

/-- Function `findHalfSizeSplitPoints`.  When no node was counted, the code
inserts the null `lastNode` into group B and dereferences it in its last
loop: that execution yields no value. -/
def findHalfSizeSplitPoints (T : Target) (H : HashOrder) (g : Graph) :
    Option (List NodeId) := do
  let total ← g.order.foldlM (fun total n => do
      let nd ← g.node? n
      if nd.kind = Kind.kUndefined || SkipWhenCalMemSize nd then pure total
      else pure ((total + T.getOperatorMemUsage g n) % UINT64)) 0
  let dmap ← BuildDegreeMap g
  let worklist ← initWorklist g dmap
  let st ← findLoop T g total g.fuel
    { dmap := dmap, worklist := worklist, grpA := [], grpB := [], accumulateSize := 0,
      size_a := 0, lastNode := none }
  if st.grpB.isEmpty && st.grpA.length == 1 then pure []
  else do
    let grp ← if st.grpB.isEmpty then
        match st.lastNode with
        | none => none
        | some lastNode => some (st.grpA.erase lastNode, [lastNode])
      else some (st.grpA, st.grpB)
    let grp ← groupLoadStore g grp.1 grp.2
    collectSplitPts H g grp.1 grp.2

/-! ## Sub-graph extraction -/

/-- The type `NodeNodeMap` is `std::unordered_map<xNode*, xNode*>`, kept in
insertion order. -/
abbrev NodeNodeMap := List (NodeId × NodeId)

/-- The type `LoadStorePair` is `std::pair<xNode*, xNode*>`; the second
component may be null. -/
abbrev LoadStorePair := NodeId × Option NodeId

/-- The `while (!worklist.empty())` loop of `cloneNodeAndSuccessors`; `old` is
the graph of the cloned nodes, the state holds the new graph, the map from
old to new nodes and the set of cloned nodes. -/
def cloneLoop (old : Graph) :
    Nat → List NodeId → Graph × NodeNodeMap × List NodeId →
      Option (Graph × NodeNodeMap × List NodeId)
  | 0, worklist, st => if worklist.isEmpty then some st else none
  | _ + 1, [], st => some st
  | fuel + 1, oldN :: worklist, (pNewGraph, pOldNewMap, pHasCloned) =>
    if pHasCloned.contains oldN then
      cloneLoop old fuel worklist (pNewGraph, pOldNewMap, pHasCloned)
    else do
      let ond ← old.node? oldN
      let (g1, newN) ← pNewGraph.create ond.kind ond.outputs.length
      let g2 ← g1.copyAttributes newN ond
      let g3 ← g2.appendNode newN
      let nnd ← g3.node? newN
      let (g4, worklist1) ← (List.range ond.outputs.length).foldlM (fun st i => do
          let outv ← ond.outputs[i]?
          let oval ← old.value? outv
          let nv ← nnd.outputs[i]?
          let g ← st.1.copyMetadata nv oval
          pure (g, (oval.uses.map Use.user).reverse ++ st.2)) (g3, worklist)
      cloneLoop old fuel worklist1
        (g4, mapInsert pOldNewMap oldN newN, setInsert pHasCloned oldN)

/-- Function `cloneNodeAndSuccessors`. -/
def cloneNodeAndSuccessors (old : Graph) (pNode : NodeId)
    (st : Graph × NodeNodeMap × List NodeId) : Option (Graph × NodeNodeMap × List NodeId) :=
  cloneLoop old old.fuel [pNode] st

/-- Function `rebuildInputs`; `old` is the graph of the cloned nodes.  The
map is walked in the order of the hash map. -/
def rebuildInputs (H : HashOrder) (old pNewGraph : Graph) (pOldNewMap : NodeNodeMap) :
    Option (Graph × NodeNodeMap) := do
  let (g1, oldRetN) ← (H.iter (pOldNewMap.map Prod.fst)).foldlM (fun st oldN => do
      let newN ← pOldNewMap.lookup oldN
      let ond ← old.node? oldN
      ond.inputs.foldlM (fun st oldv => do
        let oval ← old.value? oldv
        match oval.node.bind (fun p => pOldNewMap.lookup p) with
        | none => pure st
        | some newParent => do
          let nnd ← st.1.node? newN
          let pnd ← st.1.node? newParent
          let out0 ← pnd.outputs[0]?
          let g ← st.1.addInput newN out0
          pure (g, if nnd.kind = Kind.kReturn then some oldN else st.2)) st)
    (pNewGraph, (none : Option NodeId))
  match oldRetN with
  | none => pure (g1, pOldNewMap)
  | some r => do
    let newRetN ← pOldNewMap.lookup r
    let nnd ← g1.node? newRetN
    let g2 ← nnd.inputs.foldlM (fun g input => g.addInput g.return_node input) g1
    let g3 ← g2.destroy newRetN
    pure (g3, tableErase pOldNewMap r)

/-- The storage of a use vector when `std::vector::erase` removes the use `u`:
the first component is the vector, the second what the storage holds behind
its end.  The uses behind `u` move one place down and the place of the last
use keeps its content. -/
def eraseFromBuffer (buf : List Use × List Use) (u : Use) : List Use × List Use :=
  match buf.1.getLast? with
  | none => buf
  | some l => if buf.1.contains u then (buf.1.erase u, l :: buf.2) else buf

/-- Body of the loop `for (auto u : outv->uses())` of
`removeNodeAndSuccessors` at the place `i` of the vector.  The loop walks the
places that the vector had when the loop began, while `removeAllInputs`
erases the uses by `u.user` from the same vector: the use read at place `i` is
what the storage holds there by then.  The state holds the graph, the
worklist and the storage behind the end of the vector. -/
def detachStep (outv : ValueId) (st : Graph × List NodeId × List Use) (i : Nat) :
    Option (Graph × List NodeId × List Use) := do
  let val ← st.1.value? outv
  let u ← (val.uses ++ st.2.2)[i]?
  let und ← st.1.node? u.user
  let g ← st.1.removeAllInputs u.user
  let erased := (List.range und.inputs.length).filterMap (fun k =>
    if und.inputs[k]? = some outv then some (Use.mk u.user k) else none)
  pure (g, u.user :: st.2.1, (erased.foldl eraseFromBuffer (val.uses, st.2.2)).2)

/-- The loop `for (auto u : outv->uses())` of `removeNodeAndSuccessors` for
the output `outv`: the inputs of the users are removed and the users join the
worklist. -/
def detachUses (outv : ValueId) (st : Graph × List NodeId) : Option (Graph × List NodeId) := do
  let val ← st.1.value? outv
  let r ← (List.range val.uses.length).foldlM (detachStep outv) (st.1, st.2, [])
  pure (r.1, r.2.1)

/-- The `while (!worklist.empty())` loop of `removeNodeAndSuccessors`. -/
def removeLoop :
    Nat → List NodeId → Graph × List NodeId → Option (Graph × List NodeId)
  | 0, worklist, st => if worklist.isEmpty then some st else none
  | _ + 1, [], st => some st
  | fuel + 1, oldN :: worklist, (g, pHasRemoved) => do
    let nd ← g.node? oldN
    if nd.kind = Kind.kReturn then removeLoop fuel worklist (g, pHasRemoved)
    else if pHasRemoved.contains oldN then removeLoop fuel worklist (g, pHasRemoved)
    else do
      let (g1, worklist1) ← nd.outputs.foldlM (fun st outv => detachUses outv st) (g, worklist)
      let g2 ← g1.destroy oldN
      removeLoop fuel worklist1 (g2, setInsert pHasRemoved oldN)

/-- Function `removeNodeAndSuccessors`. -/
def removeNodeAndSuccessors (g : Graph) (pNode : NodeId) (pHasRemoved : List NodeId) :
    Option (Graph × List NodeId) :=
  removeLoop g.fuel [pNode] (g, pHasRemoved)

/-- The first user of a use list in `createLoadStoreAtNode`: `none` is the
null pointer. -/
def firstUser (g : Graph) (uses : List Use) : Option (Option NodeId) :=
  uses.foldlM (fun (first : Option NodeId) (u : Use) =>
    match first with
    | none => some (some u.user)
    | some f => (g.isBefore f u.user).map (fun b => if b then some f else some u.user))
    (none : Option NodeId)

/-- First half of the body of the loop of `createLoadStoreAtNode`: the new
Load is put before the first user of `outv` and takes over the uses of
`outv`. -/
def createLoadAtValue (g : Graph) (outv : ValueId) : Option (Graph × NodeId) := do
  let val ← g.value? outv
  let firstOpt ← firstUser g val.uses
  let first ← firstOpt
  let r ← g.create Kind.Load 1
  let g2 ← r.1.insertBefore r.2 first
  let lo ← g2.output r.2
  let g3 ← g2.copyMetadata lo val
  let g4 ← g3.replaceAllUsesWith outv lo
  pure (g4, r.2)

/-- Second half of the body of the loop of `createLoadStoreAtNode`: the new
Store takes `outv` as input and is put after `pN`. -/
def createStoreAtValue (g : Graph) (pN : NodeId) (outv : ValueId) :
    Option (Graph × NodeId) := do
  let r ← g.createWith Kind.Store [outv] 1
  let so ← r.1.output r.2
  let val ← r.1.value? outv
  let g6 ← r.1.copyMetadata so val
  let name ← g6.uniqueName outv
  let g7 ← g6.setUniqueName so (name ++ ".store")
  let g8 ← g7.insertAfter r.2 pN
  pure (g8, r.2)

/-- Body of the loop of `createLoadStoreAtNode` for the output `outv` of
`pN`. -/
def createLoadStoreAtValue (pN : NodeId) (st : Graph × List LoadStorePair) (outv : ValueId) :
    Option (Graph × List LoadStorePair) := do
  let l ← createLoadAtValue st.1 outv
  let s ← createStoreAtValue l.1 pN outv
  pure (s.1, st.2 ++ [(l.2, some s.2)])

/-- Function `createLoadStoreAtNode`. -/
def createLoadStoreAtNode (pGraph : Graph) (pN : NodeId)
    (pNewLoadStores : List LoadStorePair) : Option (Graph × List LoadStorePair) := do
  let nd ← pGraph.node? pN
  nd.outputs.foldlM (createLoadStoreAtValue pN) (pGraph, pNewLoadStores)

/-- Modelled from the spec: the successor of a node list iterator; the return
node is the end of the list and is followed by the first node. -/
def Graph.next (g : Graph) (n : NodeId) : Option NodeId :=
  if n = g.return_node then some (g.order.head?.getD g.return_node)
  else if g.order.contains n then
    some ((g.order.dropWhile (fun x => !(x == n))).tail.head?.getD g.return_node)
  else none

/-- The `while (!worklist.empty())` loop of `TopologicalSort`. -/
def topoLoop (g : Graph) :
    Nat → DegreeMap × List NodeId × List NodeId → Option (List NodeId)
  | 0, (_, worklist, orderedList) => if worklist.isEmpty then some orderedList else none
  | _ + 1, (_, [], orderedList) => some orderedList
  | fuel + 1, (dmap, n :: worklist, orderedList) => do
    let (dmap1, worklist1) ← updateDegrees g n dmap worklist
    topoLoop g fuel (dmap1, worklist1, orderedList ++ [n])

/-- Function `TopologicalSort`. -/
def TopologicalSort (pGraph : Graph) : Option Graph := do
  let dmap ← BuildDegreeMap pGraph
  let worklist ← initWorklist pGraph dmap
  let orderedList ← topoLoop pGraph pGraph.fuel (dmap, worklist, [])
  let begin := pGraph.order.head?.getD pGraph.return_node
  let bnd ← pGraph.node? begin
  let it ← if bnd.kind = Kind.kUndefined then pGraph.next begin else some begin
  let (g1, _) ← orderedList.foldlM (fun st n =>
      if st.2 ≠ n then do
        let g ← st.1.moveBefore n st.2
        pure (g, st.2)
      else do
        let it1 ← st.1.next st.2
        pure (st.1, it1)) (pGraph, it)
  pure g1

/-- Function `SplitSubGraph`; `newId` is the handle of the new graph object.
The result is the rewritten parent graph and the new graph. -/
def SplitSubGraph (H : HashOrder) (pGraph : Graph) (newId : GraphId)
    (pSplitPts : List NodeId) : Option (Graph × Graph) := do
  let newGraph : Graph := { Graph.new with name := pGraph.name ++ ".sub" }
  let (g1, newLoadStores) ← pSplitPts.foldlM (fun st spNode => do
      let nd ← st.1.node? spNode
      if IsType Kind.Load nd then pure (st.1, st.2 ++ [(spNode, none)])
      else createLoadStoreAtNode st.1 spNode st.2) (pGraph, ([] : List LoadStorePair))
  let (ng1, OldNewMap, _) ← newLoadStores.foldlM
      (fun st ldst => cloneNodeAndSuccessors g1 ldst.1 st)
      (newGraph, ([] : NodeNodeMap), ([] : List NodeId))
  let (ng2, _) ← rebuildInputs H g1 ng1 OldNewMap
  let (g2, subgN) ← g1.create Kind.SubGraph 1
  let snd ← g2.node? subgN
  let g3 := g2.setNode subgN { snd with attrs := { snd.attrs with g := some newId } }
  let (g4, _) ← newLoadStores.foldlM (fun st ldst => do
      let (g, removed) ← removeNodeAndSuccessors st.1 ldst.1 st.2
      match ldst.2 with
      | some storeN => do
        let so ← g.output storeN
        let g ← g.addInput subgN so
        pure (g, removed)
      | none => pure (g, removed)) (g3, ([] : List NodeId))
  let g5 ← g4.insertBefore subgN g4.return_node
  let so ← g5.output subgN
  let g6 ← g5.addInput g5.return_node so
  let ng3 ← TopologicalSort ng2
  pure (g6, ng3)

/-! ## Split graphs and their manager -/

/-- A `SplitGraph` object: `m_Graph` refers to a graph object of the manager
state, `m_SplitNodes` is the map from nodes to split nodes in insertion
order. -/
structure SplitGraph where
  m_Graph : GraphId
  m_SplitNodes : List (NodeId × SplitNode)
  m_Stores : List NodeId
  m_CurSplitAxis : List Nat
  m_CurSplitFactor : List Nat
  m_AllocSuccess : Bool
  m_AllocSize : Nat
  deriving DecidableEq

/-- Method `SplitGraph::clear`. -/
def SplitGraph.clear (sg : SplitGraph) : SplitGraph :=
  { sg with m_Stores := [], m_CurSplitAxis := [], m_CurSplitFactor := [], m_SplitNodes := [] }

/-- Body of the loop of `SplitGraph::rebuildSplitNodes` for the node `n`. -/
def SplitGraph.rebuildStep (T : Target) (g : Graph) (sg : SplitGraph) (n : NodeId) :
    Option SplitGraph := do
  let nd ← g.node? n
  if nd.kind = Kind.kUndefined || IsType Kind.SubGraphKind nd then pure sg
  else do
    let sn ← SplitNodeCreator T g n
    let sg1 := { sg with m_SplitNodes := mapInsert sg.m_SplitNodes n sn }
    if IsType Kind.Store nd then
      pure { sg1 with m_CurSplitAxis := sg1.m_CurSplitAxis ++ [0],
                      m_CurSplitFactor := sg1.m_CurSplitFactor ++ [1],
                      m_Stores := sg1.m_Stores ++ [n] }
    else pure sg1

/-- Method `SplitGraph::rebuildSplitNodes`; `g` is the graph object that
`m_Graph` refers to. -/
def SplitGraph.rebuildSplitNodes (T : Target) (g : Graph) (sg : SplitGraph) :
    Option SplitGraph :=
  g.order.foldlM (SplitGraph.rebuildStep T g) sg.clear

/-- Constructor `SplitGraph::SplitGraph`. -/
def SplitGraph.new (T : Target) (g : Graph) (pGraph : GraphId) : Option SplitGraph :=
  SplitGraph.rebuildSplitNodes T g
    { m_Graph := pGraph, m_SplitNodes := [], m_Stores := [], m_CurSplitAxis := [],
      m_CurSplitFactor := [], m_AllocSuccess := false, m_AllocSize := 0 }

/-- A `SplitGraphManager` object together with the graph objects that its
split graphs refer to; a graph handle is an index into `graphs`. -/
structure SplitGraphManager where
  graphs : List Graph
  m_SubGraphs : List SplitGraph
  deriving DecidableEq

/-- Constructor `SplitGraphManager::SplitGraphManager`. -/
def SplitGraphManager.new (T : Target) (pGraph : Graph) : Option SplitGraphManager := do
  let sg ← SplitGraph.new T pGraph 0
  pure { graphs := [pGraph], m_SubGraphs := [sg] }

/-- Method `SplitGraphManager::splitNewSubGraph`; the split graph `pSpGraph`
is given by its index in `m_SubGraphs`.  The result is the index of the new
split graph, or `none` for the null pointer, and the state after the call. -/
def SplitGraphManager.splitNewSubGraph (T : Target) (H : HashOrder) (m : SplitGraphManager)
    (pSpGraph : Nat) : Option (Option Nat × SplitGraphManager) := do
  let sg ← m.m_SubGraphs[pSpGraph]?
  let g ← m.graphs[sg.m_Graph]?
  let splitPts ← findHalfSizeSplitPoints T H g
  if splitPts.isEmpty then pure (none, m)
  else do
    let newId := m.graphs.length
    let (g1, newGraph) ← SplitSubGraph H g newId splitPts
    let sg1 ← sg.rebuildSplitNodes T g1
    let nsg ← SplitGraph.new T newGraph newId
    pure (some m.m_SubGraphs.length,
          { graphs := m.graphs.set sg.m_Graph g1 ++ [newGraph],
            m_SubGraphs := m.m_SubGraphs.set pSpGraph sg1 ++ [nsg] })

/-! ## Example graphs -/

/-- A value produced by node `n` at output `offset`. -/
def mkValue (n : NodeId) (offset : Nat) (sizes : LongInts) (name : String)
    (uses : List Use) : Value :=
  { node := some n, offset := offset, sizes := sizes, unique_name := some name, elemType := 1,
    uses := uses }

/-- Attributes of a two-dimensional window: kernel, stride and pad are the
same on both axes. -/
def windowAttrs (k s p : Int) : Attributes :=
  { Attributes.empty with kernel_shape := [k, k], strides := [s, s],
                          padBegin := [p, p], padEnd := [p, p] }

/-- Conv(N=10, C=3, H=W=224, K=3, S=1, P=1) with 64 output channels: node 0 is
the parameter node, node 1 the convolution, node 2 the return node. -/
def convGraph : Graph :=
  { name := "conv",
    nodeTable :=
      [(0, { kind := Kind.kParam, inputs := [], outputs := [0, 1, 2], attrs := Attributes.empty }),
       (1, { kind := Kind.kConv, inputs := [0, 1, 2], outputs := [3], attrs := windowAttrs 3 1 1 }),
       (2, { kind := Kind.kReturn, inputs := [3], outputs := [], attrs := Attributes.empty })],
    valueTable :=
      [(0, mkValue 0 0 [10, 3, 224, 224] "x" [⟨1, 0⟩]),
       (1, mkValue 0 1 [64, 3, 3, 3] "w" [⟨1, 1⟩]),
       (2, mkValue 0 2 [64] "b" [⟨1, 2⟩]),
       (3, mkValue 1 0 [10, 64, 224, 224] "y" [⟨2, 0⟩])],
    order := [1], return_node := 2, next_unique := 10 }

/-- Gemm(transA=0, transB=1, M=10, K=9216, N=4096). -/
def gemmGraph : Graph :=
  { name := "gemm",
    nodeTable :=
      [(0, { kind := Kind.kParam, inputs := [], outputs := [0, 1, 2], attrs := Attributes.empty }),
       (1, { kind := Kind.kGemm, inputs := [0, 1, 2], outputs := [3],
             attrs := { Attributes.empty with transB := true } }),
       (2, { kind := Kind.kReturn, inputs := [3], outputs := [], attrs := Attributes.empty })],
    valueTable :=
      [(0, mkValue 0 0 [10, 9216] "a" [⟨1, 0⟩]),
       (1, mkValue 0 1 [4096, 9216] "b" [⟨1, 1⟩]),
       (2, mkValue 0 2 [4096] "c" [⟨1, 2⟩]),
       (3, mkValue 1 0 [10, 4096] "y" [⟨2, 0⟩])],
    order := [1], return_node := 2, next_unique := 10 }

/-- MaxPool with a square window `k`, stride `s`, pad `p` on an input of
spatial extent `x` by `x` and an output of spatial extent `y` by `y`. -/
def poolGraph (k s p x y : Int) : Graph :=
  { name := "pool",
    nodeTable :=
      [(0, { kind := Kind.kParam, inputs := [], outputs := [0], attrs := Attributes.empty }),
       (1, { kind := Kind.MaxPool, inputs := [0], outputs := [1], attrs := windowAttrs k s p }),
       (2, { kind := Kind.kReturn, inputs := [1], outputs := [], attrs := Attributes.empty })],
    valueTable :=
      [(0, mkValue 0 0 [10, 96, x, x] "x" [⟨1, 0⟩]),
       (1, mkValue 1 0 [10, 96, y, y] "y" [⟨2, 0⟩])],
    order := [1], return_node := 2, next_unique := 10 }

/-- The Reshape of the comment in `SplitReshape::calNewInputSize`:
`(10, 256, 6, 6)` to `(10, 9216)`. -/
def reshapeGraph : Graph :=
  { name := "reshape",
    nodeTable :=
      [(0, { kind := Kind.kParam, inputs := [], outputs := [0, 1], attrs := Attributes.empty }),
       (1, { kind := Kind.kReshape, inputs := [0, 1], outputs := [2], attrs := Attributes.empty }),
       (2, { kind := Kind.kReturn, inputs := [2], outputs := [], attrs := Attributes.empty })],
    valueTable :=
      [(0, mkValue 0 0 [10, 256, 6, 6] "pool5_1" [⟨1, 0⟩]),
       (1, mkValue 0 1 [2] "OC2_DUMMY_1" [⟨1, 1⟩]),
       (2, mkValue 1 0 [10, 9216] "OC2_DUMMY_0" [⟨2, 0⟩])],
    order := [1], return_node := 2, next_unique := 10 }

/-- Conv with a square kernel `k`, stride `s`, pad `p` on an input of spatial
extent `x` by `x` whose recorded output has spatial extent `y` by `y`. -/
def convGraphOf (k s p x y : Int) : Graph :=
  { name := "conv",
    nodeTable :=
      [(0, { kind := Kind.kParam, inputs := [], outputs := [0, 1, 2], attrs := Attributes.empty }),
       (1, { kind := Kind.kConv, inputs := [0, 1, 2], outputs := [3], attrs := windowAttrs k s p }),
       (2, { kind := Kind.kReturn, inputs := [3], outputs := [], attrs := Attributes.empty })],
    valueTable :=
      [(0, mkValue 0 0 [1, 3, x, x] "x" [⟨1, 0⟩]),
       (1, mkValue 0 1 [8, 3, k, k] "w" [⟨1, 1⟩]),
       (2, mkValue 0 2 [8] "b" [⟨1, 2⟩]),
       (3, mkValue 1 0 [1, 8, y, y] "y" [⟨2, 0⟩])],
    order := [1], return_node := 2, next_unique := 10 }

/-- The split node that `SplitConv` builds for `convGraph`. -/
def convSplitNode : SplitNode :=
  { variant := SplitVariant.SplitConv, m_OutSizes := [10, 64, 224, 224],
    m_NewOutSizes := [10, 64, 224, 224], m_SizeCalByOtherNode := false, m_Node := 1,
    m_PadBegin := [1, 1], m_PadEnd := [1, 1], m_KShape := [3, 3], m_Stride := [1, 1] }

/-- The split node that `SplitGemm` builds for `gemmGraph`. -/
def gemmSplitNode : SplitNode :=
  { variant := SplitVariant.SplitGemm, m_OutSizes := [10, 4096],
    m_NewOutSizes := [10, 4096], m_SizeCalByOtherNode := false, m_Node := 1,
    m_PadBegin := [], m_PadEnd := [], m_KShape := [], m_Stride := [] }

/-- The split node that `SplitPool` builds for `poolGraph k s p x y`. -/
def poolSplitNode (k s p y : Int) : SplitNode :=
  { variant := SplitVariant.SplitPool, m_OutSizes := [10, 96, y, y],
    m_NewOutSizes := [10, 96, y, y], m_SizeCalByOtherNode := false, m_Node := 1,
    m_PadBegin := [p, p], m_PadEnd := [p, p], m_KShape := [k, k], m_Stride := [s, s] }

/-- The split node that `SplitReshape` builds for `reshapeGraph`. -/
def reshapeSplitNode : SplitNode :=
  { variant := SplitVariant.SplitReshape, m_OutSizes := [10, 9216],
    m_NewOutSizes := [10, 9216], m_SizeCalByOtherNode := false, m_Node := 1,
    m_PadBegin := [], m_PadEnd := [], m_KShape := [], m_Stride := [] }

/-- The split node that `SplitConv` builds for `convGraphOf k s p x y`. -/
def convSplitNodeOf (k s p y : Int) : SplitNode :=
  { variant := SplitVariant.SplitConv, m_OutSizes := [1, 8, y, y],
    m_NewOutSizes := [1, 8, y, y], m_SizeCalByOtherNode := false, m_Node := 1,
    m_PadBegin := [p, p], m_PadEnd := [p, p], m_KShape := [k, k], m_Stride := [s, s] }

/-- A node of an example graph with empty attributes. -/
def mkNode (kind : Kind) (inputs outputs : List ValueId) : Node :=
  { kind := kind, inputs := inputs, outputs := outputs, attrs := Attributes.empty }

/-- A chain Load, `a`, `b`, return of two element-wise nodes of kind
`other 0`: node 0 is the return node, node 1 the parameter node, nodes 2, 3
and 4 the Load, `a` and `b`; values 5, 6 and 7 are their outputs. -/
def chainGraph : Graph :=
  { name := "chain",
    nodeTable :=
      [(0, mkNode Kind.kReturn [7] []),
       (1, mkNode Kind.kParam [] []),
       (2, mkNode Kind.Load [] [5]),
       (3, mkNode (Kind.other 0) [5] [6]),
       (4, mkNode (Kind.other 0) [6] [7])],
    valueTable :=
      [(5, mkValue 2 0 [1, 8, 4, 4] "x" [⟨3, 0⟩]),
       (6, mkValue 3 0 [1, 8, 4, 4] "a" [⟨4, 0⟩]),
       (7, mkValue 4 0 [1, 8, 4, 4] "b" [⟨0, 0⟩])],
    order := [2, 3, 4], return_node := 0, next_unique := 8 }

/-- A graph of one counted node: Load, `a`, return. -/
def singleGraph : Graph :=
  { name := "single",
    nodeTable :=
      [(0, mkNode Kind.kReturn [4] []),
       (1, mkNode Kind.kParam [] []),
       (2, mkNode Kind.Load [] [3]),
       (5, mkNode (Kind.other 0) [3] [4])],
    valueTable :=
      [(3, mkValue 2 0 [1, 8, 4, 4] "x" [⟨5, 0⟩]),
       (4, mkValue 5 0 [1, 8, 4, 4] "a" [⟨0, 0⟩])],
    order := [2, 5], return_node := 0, next_unique := 6 }

/-- A target for the example graphs: nodes of kind `other 0` and SubGraph
nodes keep the size of their input, and every node uses 100 bytes. -/
def exampleTarget : Target :=
  { OutputSizeIsInputSize := fun g n =>
      match g.node? n with
      | some nd => nd.kind == Kind.other 0 || nd.kind == Kind.SubGraph
      | none => false,
    getOperatorMemUsage := fun _ _ => 100 }

/-- A target whose predicate `OutputSizeIsInputSize` holds of no node. -/
def plainTarget : Target :=
  { OutputSizeIsInputSize := fun _ _ => false,
    getOperatorMemUsage := fun _ _ => 100 }

/-- A hash order that lists the elements in insertion order. -/
def insertionOrder : HashOrder :=
  { iter := fun l => l, perm := fun l => List.Perm.refl l }

/-- The manager that `SplitGraphManager::SplitGraphManager` builds for
`chainGraph` and `exampleTarget`. -/
def chainManager : SplitGraphManager :=
  { graphs := [chainGraph],
    m_SubGraphs :=
      [{ m_Graph := 0,
         m_SplitNodes :=
           [(2, { variant := SplitVariant.SplitNode, m_OutSizes := [1, 8, 4, 4],
                  m_NewOutSizes := [1, 8, 4, 4], m_SizeCalByOtherNode := true, m_Node := 2,
                  m_PadBegin := [], m_PadEnd := [], m_KShape := [], m_Stride := [] }),
            (3, { variant := SplitVariant.SplitNode, m_OutSizes := [1, 8, 4, 4],
                  m_NewOutSizes := [1, 8, 4, 4], m_SizeCalByOtherNode := false, m_Node := 3,
                  m_PadBegin := [], m_PadEnd := [], m_KShape := [], m_Stride := [] }),
            (4, { variant := SplitVariant.SplitNode, m_OutSizes := [1, 8, 4, 4],
                  m_NewOutSizes := [1, 8, 4, 4], m_SizeCalByOtherNode := false, m_Node := 4,
                  m_PadBegin := [], m_PadEnd := [], m_KShape := [], m_Stride := [] })],
         m_Stores := [], m_CurSplitAxis := [], m_CurSplitFactor := [],
         m_AllocSuccess := false, m_AllocSize := 0 }] }

/-- The manager that `SplitGraphManager::SplitGraphManager` builds for
`singleGraph` and `exampleTarget`. -/
def singleManager : SplitGraphManager :=
  { graphs := [singleGraph],
    m_SubGraphs :=
      [{ m_Graph := 0,
         m_SplitNodes :=
           [(2, { variant := SplitVariant.SplitNode, m_OutSizes := [1, 8, 4, 4],
                  m_NewOutSizes := [1, 8, 4, 4], m_SizeCalByOtherNode := true, m_Node := 2,
                  m_PadBegin := [], m_PadEnd := [], m_KShape := [], m_Stride := [] }),
            (5, { variant := SplitVariant.SplitNode, m_OutSizes := [1, 8, 4, 4],
                  m_NewOutSizes := [1, 8, 4, 4], m_SizeCalByOtherNode := false, m_Node := 5,
                  m_PadBegin := [], m_PadEnd := [], m_KShape := [], m_Stride := [] })],
         m_Stores := [], m_CurSplitAxis := [], m_CurSplitFactor := [],
         m_AllocSuccess := false, m_AllocSize := 0 }] }

/-- The parent graph after the extraction from `chainGraph` at the split
point `a`: Load, `a`, the new Store 10 and the SubGraph node 12. -/
def chainParentAfter : Graph :=
  { name := "chain",
    nodeTable :=
      [(0, mkNode Kind.kReturn [13] []),
       (1, mkNode Kind.kParam [] []),
       (2, mkNode Kind.Load [] [5]),
       (3, mkNode (Kind.other 0) [5] [6]),
       (10, mkNode Kind.Store [6] [11]),
       (12, { kind := Kind.SubGraph, inputs := [11], outputs := [13],
              attrs := { Attributes.empty with g := some 1 } })],
    valueTable :=
      [(5, mkValue 2 0 [1, 8, 4, 4] "x" [⟨3, 0⟩]),
       (6, mkValue 3 0 [1, 8, 4, 4] "a" [⟨10, 0⟩]),
       (11, mkValue 10 0 [1, 8, 4, 4] "a.store" [⟨12, 0⟩]),
       (13, { node := some 12, offset := 0, sizes := [], unique_name := none, elemType := 0,
              uses := [⟨0, 0⟩] })],
    order := [2, 3, 10, 12], return_node := 0, next_unique := 14 }

/-- The graph extracted from `chainGraph` at the split point `a`: a Load and
the clone of `b`, which feeds the return node. -/
def chainSubGraph : Graph :=
  { name := "chain.sub",
    nodeTable :=
      [(0, mkNode Kind.kReturn [5] []),
       (1, mkNode Kind.kParam [] []),
       (2, mkNode Kind.Load [] [3]),
       (4, mkNode (Kind.other 0) [3] [5])],
    valueTable :=
      [(3, mkValue 2 0 [1, 8, 4, 4] "a" [⟨4, 0⟩]),
       (5, mkValue 4 0 [1, 8, 4, 4] "b" [⟨0, 0⟩])],
    order := [2, 4], return_node := 0, next_unique := 7 }

/-- A default split node of output size `(1, 8, 4, 4)`. -/
def plainSplitNode (n : NodeId) (skip : Bool) (out : LongInts) : SplitNode :=
  { variant := SplitVariant.SplitNode, m_OutSizes := out, m_NewOutSizes := out,
    m_SizeCalByOtherNode := skip, m_Node := n,
    m_PadBegin := [], m_PadEnd := [], m_KShape := [], m_Stride := [] }

/-- The split graph of `chainParentAfter` for `exampleTarget`. -/
def chainParentSplit : SplitGraph :=
  { m_Graph := 0,
    m_SplitNodes :=
      [(2, plainSplitNode 2 true [1, 8, 4, 4]), (3, plainSplitNode 3 false [1, 8, 4, 4]),
       (10, plainSplitNode 10 true [1, 8, 4, 4]), (12, plainSplitNode 12 false [])],
    m_Stores := [10], m_CurSplitAxis := [0], m_CurSplitFactor := [1],
    m_AllocSuccess := false, m_AllocSize := 0 }

/-- The split graph of `chainSubGraph` for `exampleTarget`. -/
def chainSubSplit : SplitGraph :=
  { m_Graph := 1,
    m_SplitNodes :=
      [(2, plainSplitNode 2 true [1, 8, 4, 4]), (4, plainSplitNode 4 false [1, 8, 4, 4])],
    m_Stores := [], m_CurSplitAxis := [], m_CurSplitFactor := [],
    m_AllocSuccess := false, m_AllocSize := 0 }

/-! ## Groups of the partition finder -/

/-- The first loop of `findHalfSizeSplitPoints`: the total required size. -/
def totalSize (T : Target) (g : Graph) : Option Nat :=
  g.order.foldlM (fun total n => do
      let nd ← g.node? n
      if nd.kind = Kind.kUndefined || SkipWhenCalMemSize nd then pure total
      else pure ((total + T.getOperatorMemUsage g n) % UINT64)) 0

/-- The part of `findHalfSizeSplitPoints` up to the end of the traversal. -/
def traverse (T : Target) (g : Graph) : Option FinderState := do
  let total ← totalSize T g
  let dmap ← BuildDegreeMap g
  let worklist ← initWorklist g dmap
  findLoop T g total g.fuel
    { dmap := dmap, worklist := worklist, grpA := [], grpB := [], accumulateSize := 0,
      size_a := 0, lastNode := none }

/-- The groups A and B of `findHalfSizeSplitPoints` when it reaches the search
for split points; the inner `none` is the early return of the empty list. -/
def halfSizeGroups (T : Target) (g : Graph) :
    Option (Option (List NodeId × List NodeId)) := do
  let st ← traverse T g
  if st.grpB.isEmpty && st.grpA.length == 1 then pure none
  else do
    let grp ← if st.grpB.isEmpty then
        match st.lastNode with
        | none => none
        | some lastNode => some (st.grpA.erase lastNode, [lastNode])
      else some (st.grpA, st.grpB)
    let grp ← groupLoadStore g grp.1 grp.2
    pure (some grp)

/-- The use list of value `v`. -/
def valueUses (g : Graph) (v : ValueId) : List Use :=
  match g.value? v with
  | none => []
  | some val => val.uses

/-- The uses of the outputs of node `n`, output by output. -/
def usesOf (g : Graph) (n : NodeId) : List Use :=
  match g.node? n with
  | none => []
  | some nd => nd.outputs.flatMap (valueUses g)

/-- The number of uses of the outputs of node `n` by nodes outside `grpA`. -/
def crossingCount (g : Graph) (grpA : List NodeId) (n : NodeId) : Nat :=
  (usesOf g n).countP (fun u => !grpA.contains u.user)

/-- Whether node `n` is a Load of the graph. -/
def isLoad (g : Graph) (n : NodeId) : Bool :=
  match g.node? n with
  | none => false
  | some nd => IsType Kind.Load nd

/-! ## Loop bodies of the partition finder -/

/-- Body of the loop of `findHalfSizeSplitPoints` that adds up the sizes. -/
def totalStep (T : Target) (g : Graph) (total : Nat) (n : NodeId) : Option Nat := do
  let nd ← g.node? n
  if nd.kind = Kind.kUndefined || SkipWhenCalMemSize nd then pure total
  else pure ((total + T.getOperatorMemUsage g n) % UINT64)

/-- The degree count of a node in `BuildDegreeMap`. -/
def degreeCount (g : Graph) (nd : Node) : Option Nat :=
  nd.inputs.foldlM (fun degcnt v => do
      let val ← g.value? v
      pure (if val.node = none then (degcnt + UNSIGNED - 1) % UNSIGNED else degcnt))
    (nd.inputs.length % UNSIGNED)

/-- Body of the loop of `BuildDegreeMap`. -/
def degreeStep (g : Graph) (dmap : DegreeMap) (n : NodeId) : Option DegreeMap := do
  let nd ← g.node? n
  if nd.kind = Kind.kUndefined then pure dmap
  else do
    let degcnt ← degreeCount g nd
    pure (mapInsert dmap n degcnt)

/-- Body of the loop that fills the worklist with the nodes of degree zero. -/
def worklistStep (g : Graph) (dmap : DegreeMap) (worklist : List NodeId) (n : NodeId) :
    Option (List NodeId) := do
  let nd ← g.node? n
  if nd.kind = Kind.kUndefined then pure worklist
  else if (dmap.lookup n).getD 0 = 0 then pure (n :: worklist)
  else pure worklist

/-- Body of the loop of `updateDegrees` over the uses of a value. -/
def updateUse (g : Graph) (st : DegreeMap × List NodeId) (u : Use) :
    Option (DegreeMap × List NodeId) := do
  let un ← g.node? u.user
  if un.kind = Kind.kReturn then pure st
  else do
    let d ← st.1.lookup u.user
    let d1 := (d + UNSIGNED - 1) % UNSIGNED
    pure (tableSet st.1 u.user d1, if d1 = 0 then u.user :: st.2 else st.2)

/-- Body of the loop of `updateDegrees` over the outputs of a node. -/
def updateValue (g : Graph) (st : DegreeMap × List NodeId) (v : ValueId) :
    Option (DegreeMap × List NodeId) := do
  let val ← g.value? v
  val.uses.foldlM (updateUse g) st

/-- Body of the loop of `groupLoadStore`. -/
def groupStep (g : Graph) (grp : List NodeId × List NodeId) (n : NodeId) :
    Option (List NodeId × List NodeId) := do
  let nd ← g.node? n
  if IsType Kind.Load nd then do
    let out ← g.output n
    let val ← g.value? out
    let u ← val.uses[0]?
    if grp.1.contains u.user then pure (setInsert grp.1 n, grp.2)
    else pure (grp.1, setInsert grp.2 n)
  else if IsType Kind.Store nd || IsType Kind.SubGraph nd then do
    let inp ← g.input n
    let val ← g.value? inp
    let inA := match val.node with
      | some p => grp.1.contains p
      | none => false
    if inA then pure (setInsert grp.1 n, grp.2)
    else pure (grp.1, setInsert grp.2 n)
  else pure grp

/-! ## Linear chains -/

/-- `IsChainFrom g ins ns`: the nodes `ns` form a chain in `g`.  The first
node has the inputs `ins`; every node is neither undefined nor a return node
and has one output, produced by it, whose only use is input 0 of the next
node, or an input of the return node for the last node. -/
def IsChainFrom (g : Graph) : List ValueId → List NodeId → Prop
  | _, [] => True
  | ins, n :: rest =>
    ∃ nd v val, g.node? n = some nd ∧ nd.kind ≠ Kind.kUndefined ∧ nd.kind ≠ Kind.kReturn ∧
      nd.inputs = ins ∧ nd.outputs = [v] ∧ g.value? v = some val ∧ val.node = some n ∧
      (match rest with
       | [] => ∃ k rn, val.uses = [⟨g.return_node, k⟩] ∧
                 g.node? g.return_node = some rn ∧ rn.kind = Kind.kReturn
       | n' :: _ => val.uses = [⟨n', 0⟩]) ∧
      IsChainFrom g [v] rest

/-- A linear chain `n1 -> n2 -> ... -> nm -> return`: the node list of the
graph is `ns`, without repetition, the inputs of the first node have no
producer, and every node feeds the next one. -/
structure IsChain (g : Graph) (ns : List NodeId) : Prop where
  order : g.order = ns
  nodup : ns.Nodup
  links : ∃ ins, (∀ v ∈ ins, ∃ val, g.value? v = some val ∧ val.node = none) ∧
    IsChainFrom g ins ns

/-- Every node of the list is counted by the partition finder: it is not a
Load, a Store or a SubGraph. -/
def AllCounted (g : Graph) (ns : List NodeId) : Prop :=
  ∀ n ∈ ns, ∀ nd, g.node? n = some nd → SkipWhenCalMemSize nd = false

/-- The assignment of the nodes of a traversal to the groups: the running
size, group A and group B after the nodes `ns` were dequeued in this
order. -/
def assignGroups (T : Target) (g : Graph) (total : Nat) :
    List NodeId → Nat × List NodeId × List NodeId → Nat × List NodeId × List NodeId
  | [], s => s
  | n :: ns, (acc, grpA, grpB) =>
    assignGroups T g total ns
      ((acc + T.getOperatorMemUsage g n) % UINT64,
       if acc < total / 2 then (setInsert grpA n, grpB) else (grpA, setInsert grpB n))

/-- The total size of the nodes `ns`, added up as `uint64_t`. -/
def sumUsage (T : Target) (g : Graph) (ns : List NodeId) (acc : Nat) : Nat :=
  ns.foldl (fun t n => (t + T.getOperatorMemUsage g n) % UINT64) acc

/-- Body of the reordering loop of `TopologicalSort`: the state is the graph
and the cursor `it`. -/
def reorderStep (st : Graph × NodeId) (n : NodeId) : Option (Graph × NodeId) :=
  if st.2 ≠ n then do
    let g ← st.1.moveBefore n st.2
    pure (g, st.2)
  else do
    let it1 ← st.1.next st.2
    pure (st.1, it1)

/-- The spec's "emitted in graph iteration order": of any two entries of
`pts`, the earlier one comes earlier in the node list of the graph. -/
def inGraphOrder (g : Graph) (pts : List NodeId) : Prop :=
  pts.Pairwise (fun p q => g.order.indexOf p < g.order.indexOf q)

instance (g : Graph) (pts : List NodeId) : Decidable (inGraphOrder g pts) := by
  unfold inGraphOrder
  infer_instance

/-- The spec's "in topological order": every node of the node list comes
after the producers of its inputs that are in the node list. -/
def Graph.inTopologicalOrder (g : Graph) : Bool :=
  (List.range g.order.length).all (fun i =>
    match g.order[i]? with
    | none => false
    | some n =>
      match g.node? n with
      | none => false
      | some nd => nd.inputs.all (fun v =>
          match g.value? v with
          | none => false
          | some val =>
            match val.node with
            | none => true
            | some p => (g.order.take i).contains p || !g.order.contains p))

/-! ## Example graphs of the partition finder -/

/-- A value without a producer: `node()` is null. -/
def freeValue (sizes : LongInts) (name : String) (uses : List Use) : Value :=
  { node := none, offset := 0, sizes := sizes, unique_name := some name, elemType := 1,
    uses := uses }

/-- A target that reports the usage `s` for every node; element-wise nodes of
kind `other 0` and SubGraph nodes keep the size of their input. -/
def uniformTarget (s : Nat) : Target :=
  { OutputSizeIsInputSize := fun g n =>
      match g.node? n with
      | some nd => nd.kind == Kind.other 0 || nd.kind == Kind.SubGraph
      | none => false,
    getOperatorMemUsage := fun _ _ => s }

/-- A Conv alone in its graph, on values that no node produces: node 1 is the
convolution, node 2 the return node. -/
def loneConvGraph : Graph :=
  { name := "lone conv",
    nodeTable :=
      [(0, { kind := Kind.kParam, inputs := [], outputs := [], attrs := Attributes.empty }),
       (1, { kind := Kind.kConv, inputs := [0, 1, 2], outputs := [3], attrs := windowAttrs 3 1 1 }),
       (2, { kind := Kind.kReturn, inputs := [3], outputs := [], attrs := Attributes.empty })],
    valueTable :=
      [(0, freeValue [10, 3, 224, 224] "x" [⟨1, 0⟩]),
       (1, freeValue [64, 3, 3, 3] "w" [⟨1, 1⟩]),
       (2, freeValue [64] "b" [⟨1, 2⟩]),
       (3, mkValue 1 0 [10, 64, 224, 224] "y" [⟨2, 0⟩])],
    order := [1], return_node := 2, next_unique := 10 }

/-- A Conv whose three inputs are the outputs of Load nodes: nodes 4, 5 and 6
are the Loads, node 1 the convolution, node 2 the return node. -/
def loadConvGraph : Graph :=
  { name := "load conv",
    nodeTable :=
      [(0, { kind := Kind.kParam, inputs := [], outputs := [], attrs := Attributes.empty }),
       (1, { kind := Kind.kConv, inputs := [0, 1, 2], outputs := [3], attrs := windowAttrs 3 1 1 }),
       (2, { kind := Kind.kReturn, inputs := [3], outputs := [], attrs := Attributes.empty }),
       (4, mkNode Kind.Load [] [0]),
       (5, mkNode Kind.Load [] [1]),
       (6, mkNode Kind.Load [] [2])],
    valueTable :=
      [(0, mkValue 4 0 [10, 3, 224, 224] "x" [⟨1, 0⟩]),
       (1, mkValue 5 0 [64, 3, 3, 3] "w" [⟨1, 1⟩]),
       (2, mkValue 6 0 [64] "b" [⟨1, 2⟩]),
       (3, mkValue 1 0 [10, 64, 224, 224] "y" [⟨2, 0⟩])],
    order := [4, 5, 6, 1], return_node := 2, next_unique := 10 }

/-- The chain Conv, Relu, return: node 1 is the convolution, node 3 the
element-wise node, node 2 the return node. -/
def pairGraph : Graph :=
  { name := "pair",
    nodeTable :=
      [(0, { kind := Kind.kParam, inputs := [], outputs := [], attrs := Attributes.empty }),
       (1, { kind := Kind.kConv, inputs := [0, 1, 2], outputs := [3], attrs := windowAttrs 3 1 1 }),
       (2, { kind := Kind.kReturn, inputs := [4], outputs := [], attrs := Attributes.empty }),
       (3, mkNode (Kind.other 0) [3] [4])],
    valueTable :=
      [(0, freeValue [10, 3, 224, 224] "x" [⟨1, 0⟩]),
       (1, freeValue [64, 3, 3, 3] "w" [⟨1, 1⟩]),
       (2, freeValue [64] "b" [⟨1, 2⟩]),
       (3, mkValue 1 0 [10, 64, 224, 224] "y" [⟨3, 0⟩]),
       (4, mkValue 3 0 [10, 64, 224, 224] "z" [⟨2, 0⟩])],
    order := [1, 3], return_node := 2, next_unique := 10 }

/-- A chain of six element-wise nodes 2, 3, 4, 5, 6 and 7 whose outputs are
the values 8 to 13; value 14 has no producer; node 0 is the return node. -/
def sixGraph : Graph :=
  { name := "six",
    nodeTable :=
      [(0, mkNode Kind.kReturn [13] []),
       (1, mkNode Kind.kParam [] []),
       (2, mkNode (Kind.other 0) [14] [8]),
       (3, mkNode (Kind.other 0) [8] [9]),
       (4, mkNode (Kind.other 0) [9] [10]),
       (5, mkNode (Kind.other 0) [10] [11]),
       (6, mkNode (Kind.other 0) [11] [12]),
       (7, mkNode (Kind.other 0) [12] [13])],
    valueTable :=
      [(8, mkValue 2 0 [1, 8, 4, 4] "a" [⟨3, 0⟩]),
       (9, mkValue 3 0 [1, 8, 4, 4] "b" [⟨4, 0⟩]),
       (10, mkValue 4 0 [1, 8, 4, 4] "c" [⟨5, 0⟩]),
       (11, mkValue 5 0 [1, 8, 4, 4] "d" [⟨6, 0⟩]),
       (12, mkValue 6 0 [1, 8, 4, 4] "e" [⟨7, 0⟩]),
       (13, mkValue 7 0 [1, 8, 4, 4] "f" [⟨0, 0⟩]),
       (14, freeValue [1, 8, 4, 4] "x" [⟨2, 0⟩])],
    order := [2, 3, 4, 5, 6, 7], return_node := 0, next_unique := 15 }

/-- Two independent nodes 2 and 3 without inputs whose outputs, the values 4
and 5, are the inputs of the return node 0. -/
def twoGraph : Graph :=
  { name := "two",
    nodeTable :=
      [(0, mkNode Kind.kReturn [4, 5] []),
       (1, mkNode Kind.kParam [] []),
       (2, mkNode (Kind.other 0) [] [4]),
       (3, mkNode (Kind.other 0) [] [5])],
    valueTable :=
      [(4, mkValue 2 0 [1, 8, 4, 4] "x" [⟨0, 0⟩]),
       (5, mkValue 3 0 [1, 8, 4, 4] "y" [⟨0, 1⟩])],
    order := [2, 3], return_node := 0, next_unique := 6 }

/-- A Load, node 2, and an element-wise node `p`, node 3, that both feed the
node `z`, node 4, whose output goes to the return node 0: `z` takes the
output of `p`, value 6, and the output of the Load, value 5. -/
def forkGraph : Graph :=
  { name := "fork",
    nodeTable :=
      [(0, mkNode Kind.kReturn [7] []),
       (1, mkNode Kind.kParam [] []),
       (2, mkNode Kind.Load [] [5]),
       (3, mkNode (Kind.other 0) [] [6]),
       (4, mkNode (Kind.other 1) [6, 5] [7])],
    valueTable :=
      [(5, mkValue 2 0 [1, 8, 4, 4] "x" [⟨4, 1⟩]),
       (6, mkValue 3 0 [1, 8, 4, 4] "p" [⟨4, 0⟩]),
       (7, mkValue 4 0 [1, 8, 4, 4] "z" [⟨0, 0⟩])],
    order := [2, 3, 4], return_node := 0, next_unique := 8 }

/-- A hash order that lists the elements in the reverse of the insertion
order. -/
def reverseOrder : HashOrder :=
  { iter := List.reverse, perm := List.reverse_perm }

/-- The manager that `SplitGraphManager::SplitGraphManager` builds for
`loneConvGraph`. -/
def loneConvManager : SplitGraphManager :=
  { graphs := [loneConvGraph],
    m_SubGraphs :=
      [{ m_Graph := 0,
         m_SplitNodes :=
           [(1, { variant := SplitVariant.SplitConv, m_OutSizes := [10, 64, 224, 224],
                  m_NewOutSizes := [10, 64, 224, 224], m_SizeCalByOtherNode := false, m_Node := 1,
                  m_PadBegin := [1, 1], m_PadEnd := [1, 1], m_KShape := [3, 3],
                  m_Stride := [1, 1] })],
         m_Stores := [], m_CurSplitAxis := [], m_CurSplitFactor := [],
         m_AllocSuccess := false, m_AllocSize := 0 }] }

/-! ## Shrinking the tiles of a split graph -/

/-- Method `SplitGraph::getSplitNode`: the assertion fails for a node that has
no split node. -/
def SplitGraph.getSplitNode (sg : SplitGraph) (pN : NodeId) : Option SplitNode :=
  sg.m_SplitNodes.lookup pN

/-- Method `SplitGraph::splitNodeBySize`; `g` is the graph object that
`m_Graph` refers to.  The recursion of the code follows the producers of the
inputs; `fuel` bounds its depth. -/
def SplitGraph.splitNodeBySize (g : Graph) :
    Nat → SplitGraph → NodeId → LongInts → Bool → Option (SplitGraph × Bool)
  | 0, _, _, _, _ => none
  | fuel + 1, sg, pN, pNewOutSize, pUpdateUpper => do
    let ns ← sg.getSplitNode pN
    let r := ns.useNewOutSize pNewOutSize
    let sg1 := { sg with m_SplitNodes := tableSet sg.m_SplitNodes pN r.1 }
    if !r.2 then pure (sg1, false)
    else if !pUpdateUpper then pure (sg1, true)
    else do
      let nd ← g.node? ns.m_Node
      (List.range (nd.inputs.length % UNSIGNED)).foldlM
        (fun (st : SplitGraph × Bool) i => do
          let v ← nd.inputs[i]?
          let val ← g.value? v
          match val.node with
          | none => pure st
          | some child => do
            let cnd ← g.node? child
            if cnd.kind = Kind.kParam then pure st
            else do
              let ns1 ← st.1.getSplitNode pN
              let newInS ← ns1.calNewInputSize g i
              let r1 ← SplitGraph.splitNodeBySize g fuel st.1 child newInS true
              pure (r1.1, st.2 && r1.2)) (sg1, true)

/-- The expression `(d + pFactor - 1) / pFactor` of
`SplitGraph::splitNodeByFactor` in `int64_t` arithmetic, operator by operator;
the `unsigned` factor is converted to `int64_t`. -/
def factorQuotient (d : Int) (pFactor : Nat) : Option Int := do
  let d ← int64 d
  let f ← int64 (pFactor : Int)
  let a ← int64 (d + f)
  let b ← int64 (a - 1)
  if f = 0 then none else int64 (b.tdiv f)

/-- Method `SplitGraph::splitNodeByFactor`: `newS[pAxis]` is replaced by its
quotient by `pFactor`, rounded up, in 64-bit signed arithmetic. -/
def SplitGraph.splitNodeByFactor (g : Graph) (sg : SplitGraph) (pN : NodeId) (pAxis pFactor : Nat)
    (pUpdateUpper : Bool) : Option SplitGraph := do
  let ns ← sg.getSplitNode pN
  let newS := ns.getNewOutputSize 0
  let d ← newS[pAxis]?
  let q ← factorQuotient d pFactor
  let newS1 ← setAt newS pAxis q
  let r ← SplitGraph.splitNodeBySize g g.fuel sg pN newS1 pUpdateUpper
  pure r.1

/-- Body of the loop of `SplitGraph::shrinkSize` for the Store of index `i`.
The entry `origSizes[splitAxis]` is read before the test for exhausted
axes. -/
def SplitGraph.shrinkStep (g : Graph) (sg : SplitGraph) (i : Nat) : Option SplitGraph := do
  let n ← sg.m_Stores[i]?
  let nd ← g.node? n
  let v ← nd.inputs[0]?
  let val ← g.value? v
  let origSizes := val.sizes
  let factor ← sg.m_CurSplitFactor[i]?
  let splitAxis ← sg.m_CurSplitAxis[i]?
  let factor1 := (factor + 1) % UNSIGNED
  let d ← origSizes[splitAxis]?
  let splitAxis2 := if d < (factor1 : Int) then (splitAxis + 1) % UNSIGNED else splitAxis
  let factor2 := if d < (factor1 : Int) then 1 else factor1
  let sg1 := { sg with m_CurSplitFactor := sg.m_CurSplitFactor.set i factor2,
                       m_CurSplitAxis := sg.m_CurSplitAxis.set i splitAxis2 }
  if origSizes.length = splitAxis2 then pure sg1
  else sg1.splitNodeByFactor g n splitAxis2 factor2 true

/-- Method `SplitGraph::shrinkSize`; `g` is the graph object that `m_Graph`
refers to. -/
def SplitGraph.shrinkSize (g : Graph) (sg : SplitGraph) : Option SplitGraph :=
  (List.range (sg.m_Stores.length % UNSIGNED)).foldlM (SplitGraph.shrinkStep g) sg

/-- The parent graph after an extraction at the node `a` whose output is a
vector of two elements: Load, `a`, the Store 10 and the SubGraph node 12. -/
def tinyParent : Graph :=
  { name := "tiny",
    nodeTable :=
      [(0, mkNode Kind.kReturn [13] []),
       (1, mkNode Kind.kParam [] []),
       (2, mkNode Kind.Load [] [5]),
       (3, mkNode (Kind.other 0) [5] [6]),
       (10, mkNode Kind.Store [6] [11]),
       (12, { kind := Kind.SubGraph, inputs := [11], outputs := [13],
              attrs := { Attributes.empty with g := some 1 } })],
    valueTable :=
      [(5, mkValue 2 0 [2] "x" [⟨3, 0⟩]),
       (6, mkValue 3 0 [2] "a" [⟨10, 0⟩]),
       (11, mkValue 10 0 [2] "a.store" [⟨12, 0⟩]),
       (13, { node := some 12, offset := 0, sizes := [], unique_name := none, elemType := 0,
              uses := [⟨0, 0⟩] })],
    order := [2, 3, 10, 12], return_node := 0, next_unique := 14 }

/-- The split graph of `tinyParent` when the Store 10 has the tile `tile`,
the split axis `axis` and the split factor `factor`. -/
def tinySplit (tile : LongInts) (axis factor : Nat) : SplitGraph :=
  { m_Graph := 0,
    m_SplitNodes :=
      [(2, { plainSplitNode 2 true [2] with m_NewOutSizes := tile }),
       (3, { plainSplitNode 3 false [2] with m_NewOutSizes := tile }),
       (10, { plainSplitNode 10 true [2] with m_NewOutSizes := tile }),
       (12, plainSplitNode 12 false [])],
    m_Stores := [10], m_CurSplitAxis := [axis], m_CurSplitFactor := [factor],
    m_AllocSuccess := false, m_AllocSize := 0 }

/-! ## The steps of the extraction -/

/-- Body of the first loop of `SplitSubGraph`: a split point that is a Load
is paired with the null pointer, any other split point gets a Load and a
Store for each of its outputs. -/
def pairStep (st : Graph × List LoadStorePair) (spNode : NodeId) :
    Option (Graph × List LoadStorePair) := do
  let nd ← st.1.node? spNode
  if IsType Kind.Load nd then pure (st.1, st.2 ++ [(spNode, none)])
  else createLoadStoreAtNode st.1 spNode st.2

/-- The first loop of `SplitSubGraph`: the parent graph with its new Loads
and Stores, and the list `newLoadStores`. -/
def createPairs (pGraph : Graph) (pSplitPts : List NodeId) :
    Option (Graph × List LoadStorePair) :=
  pSplitPts.foldlM pairStep (pGraph, ([] : List LoadStorePair))

/-- The second loop of `SplitSubGraph`: the Loads and their successors are
cloned into the new graph. -/
def cloneAll (g1 newGraph : Graph) (newLoadStores : List LoadStorePair) :
    Option (Graph × NodeNodeMap × List NodeId) :=
  newLoadStores.foldlM (fun st ldst => cloneNodeAndSuccessors g1 ldst.1 st)
    (newGraph, ([] : NodeNodeMap), ([] : List NodeId))

/-- Body of the last loop of `SplitSubGraph`: the Load and its successors
leave the parent graph and the output of the Store, if there is one, becomes
an input of the SubGraph node. -/
def connectStep (subgN : NodeId) (st : Graph × List NodeId) (ldst : LoadStorePair) :
    Option (Graph × List NodeId) := do
  let r ← removeNodeAndSuccessors st.1 ldst.1 st.2
  match ldst.2 with
  | some storeN => do
    let so ← r.1.output storeN
    let g ← r.1.addInput subgN so
    pure (g, r.2)
  | none => pure (r.1, r.2)

/-- The inner loops of `removeNodeAndSuccessors` for the outputs `outs` of
the node that is removed: the inputs of every user are removed and the user
joins the worklist. -/
def detachUsers (outs : List ValueId) (st : Graph × List NodeId) :
    Option (Graph × List NodeId) :=
  outs.foldlM (fun st outv => detachUses outv st) st

/-! ## Well-formed arenas -/

/-- The unique numbers in use are below `next_unique`: those of the node
objects, of the node list and of the return node. -/
structure Graph.WF (g : Graph) : Prop where
  nodes : ∀ k, g.next_unique ≤ k → g.node? k = none
  order : ∀ k ∈ g.order, k < g.next_unique
  ret : g.return_node < g.next_unique

/-- A decidable test for `Graph.WF`. -/
def Graph.wfCheck (g : Graph) : Bool :=
  g.nodeTable.all (fun p => p.1 < g.next_unique) && g.order.all (fun k => k < g.next_unique)
    && decide (g.return_node < g.next_unique)

/-- Two node objects with the same kind, outputs and attributes: they differ
in their inputs at most. -/
def Node.sameShape (a b : Node) : Prop :=
  a.kind = b.kind ∧ a.outputs = b.outputs ∧ a.attrs = b.attrs

/-- The graph `g'` comes from `g` without new nodes: the node objects of `g'`
are node objects of `g` up to their inputs and the node list of `g'` is taken
from that of `g`. -/
structure Graph.Shrinks (g g' : Graph) : Prop where
  next : g'.next_unique = g.next_unique
  ret : g'.return_node = g.return_node
  order : ∀ k ∈ g'.order, k ∈ g.order
  nodes : ∀ k nd', g'.node? k = some nd' → ∃ nd, g.node? k = some nd ∧ nd.sameShape nd'

/-- The node objects of `g'` are node objects of `g` up to their inputs or
new nodes of a kind in `P`; the arena stays well-formed. -/
structure Graph.Grows (P : Kind → Prop) (g g' : Graph) : Prop where
  mono : g.next_unique ≤ g'.next_unique
  ret : g'.return_node = g.return_node
  wf : g'.WF
  nodes : ∀ k nd', g'.node? k = some nd' →
    (∃ nd, g.node? k = some nd ∧ nd.sameShape nd') ∨ (g.next_unique ≤ k ∧ P nd'.kind)

/-- The kinds of the nodes that the first loop of `SplitSubGraph` creates. -/
def LoadOrStore (k : Kind) : Prop := k = Kind.Load ∨ k = Kind.Store

/-! ## Views of a graph -/

/-- The parts of a graph that are not its two tables. -/
structure Graph.SameFrame (g g' : Graph) : Prop where
  order : g'.order = g.order
  ret : g'.return_node = g.return_node
  next : g'.next_unique = g.next_unique
  name : g'.name = g.name


/-- The unique numbers from `next_unique` on are not in use. -/
structure Graph.Fresh (g : Graph) : Prop where
  nodes : ∀ k : Nat, g.next_unique ≤ k → g.node? k = none
  values : ∀ k : Nat, g.next_unique ≤ k → g.value? k = none
  order : ∀ k : Nat, k ∈ g.order → k < g.next_unique
  ret : Nat.succ g.return_node ≤ g.next_unique


/-- The graph `g` with the node list `o`. -/
def Graph.withOrder (g : Graph) (o : List NodeId) : Graph :=
  { g with order := o }

/-! ## Closed chains -/

/-- A linear chain that ends in the return node: `IsChainFrom` with, in
addition, the return node taking the output of the last node as its only
input, at offset 0. -/
def IsClosedFrom (g : Graph) : List ValueId → List NodeId → Prop
  | _, [] => True
  | ins, n :: rest =>
    ∃ nd v val, g.node? n = some nd ∧ nd.kind ≠ Kind.kUndefined ∧ nd.kind ≠ Kind.kReturn ∧
      nd.inputs = ins ∧ nd.outputs = [v] ∧ g.value? v = some val ∧ val.node = some n ∧
      (match rest with
       | [] => val.uses = [⟨g.return_node, 0⟩] ∧
                ∃ rn, g.node? g.return_node = some rn ∧ rn.kind = Kind.kReturn ∧
                  rn.inputs = [v] ∧ rn.outputs = []
       | n' :: _ => val.uses = [⟨n', 0⟩]) ∧
      IsClosedFrom g [v] rest

/-- The node list `ns` of `g` is a linear chain that ends in the return node,
in an arena whose next unique numbers are free. -/
structure IsClosedChain (g : Graph) (ns : List NodeId) : Prop where
  order : g.order = ns
  nodup : ns.Nodup
  fresh : g.Fresh
  links : ∃ ins, (∀ v ∈ ins, ∃ val, g.value? v = some val ∧ val.node = none) ∧
    IsClosedFrom g ins ns

/-- The node `c` of `ng` is a clone of the node `n` of `g`: same kind, same
attributes, one output with the metadata of the output of `n`. -/
def CloneOf (g ng : Graph) (n c : NodeId) : Prop :=
  ∃ nd ndc v vc val valc, g.node? n = some nd ∧ ng.node? c = some ndc ∧
    ndc.kind = nd.kind ∧ ndc.attrs = nd.attrs ∧ nd.outputs = [v] ∧ ndc.outputs = [vc] ∧
    g.value? v = some val ∧ ng.value? vc = some valc ∧ valc.sizes = val.sizes ∧
    valc.elemType = val.elemType ∧ valc.unique_name = val.unique_name

/-- The state of the new graph `ng` and of the map from old to new nodes
after `cloneNodeAndSuccessors` on a chain `ns` of the graph `old`: the clone
of each node has the number `u`, `u + 2`, ... and no input yet, its output
has the next number and no use yet; the clone of the return node comes
last. -/
def Cloned (old ng : Graph) (map : NodeNodeMap) : List NodeId → Nat → Prop
  | [], u =>
    ∃ rn, old.node? old.return_node = some rn ∧ map.lookup old.return_node = some u ∧
      ng.node? u = some { kind := Kind.kReturn, inputs := [], outputs := [], attrs := rn.attrs }
  | n :: rest, u =>
    (∃ nd v val, old.node? n = some nd ∧ nd.outputs = [v] ∧ old.value? v = some val ∧
      map.lookup n = some u ∧
      ng.node? u = some { kind := nd.kind, inputs := [], outputs := [u + 1],
                          attrs := nd.attrs } ∧
      ng.value? (u + 1) = some { node := some u, offset := 0, sizes := val.sizes,
                                 unique_name := val.unique_name, elemType := val.elemType,
                                 uses := [] }) ∧
    Cloned old ng map rest (u + 2)

/-- The numbers `u`, `u + 2`, ... of `k` clones. -/
def cloneIds (u : Nat) : Nat → List NodeId
  | 0 => []
  | k + 1 => u :: cloneIds (u + 2) k

/-! ## The steps of `rebuildInputs` -/

/-- Body of the inner loop of `rebuildInputs` for the input `oldv` of the old
node `oldN` with the clone `newN`. -/
def rebuildInput (old : Graph) (pOldNewMap : NodeNodeMap) (oldN newN : NodeId)
    (st : Graph × Option NodeId) (oldv : ValueId) : Option (Graph × Option NodeId) := do
  let oval ← old.value? oldv
  match oval.node.bind (fun p => pOldNewMap.lookup p) with
  | none => pure st
  | some newParent => do
    let nnd ← st.1.node? newN
    let pnd ← st.1.node? newParent
    let out0 ← pnd.outputs[0]?
    let g ← st.1.addInput newN out0
    pure (g, if nnd.kind = Kind.kReturn then some oldN else st.2)

/-- Body of the outer loop of `rebuildInputs` for the old node `oldN`. -/
def rebuildStep (old : Graph) (pOldNewMap : NodeNodeMap) (st : Graph × Option NodeId)
    (oldN : NodeId) : Option (Graph × Option NodeId) := do
  let newN ← pOldNewMap.lookup oldN
  let ond ← old.node? oldN
  ond.inputs.foldlM (rebuildInput old pOldNewMap oldN newN) st

/-- The end of `rebuildInputs`: the inputs of the clone `oldRetN` of the
return node go to the return node of the new graph and the clone is
destroyed. -/
def foldReturn (g1 : Graph) (pOldNewMap : NodeNodeMap) (oldRetN : Option NodeId) :
    Option (Graph × NodeNodeMap) :=
  match oldRetN with
  | none => pure (g1, pOldNewMap)
  | some r => do
    let newRetN ← pOldNewMap.lookup r
    let nnd ← g1.node? newRetN
    let g2 ← nnd.inputs.foldlM (fun g input => g.addInput g.return_node input) g1
    let g3 ← g2.destroy newRetN
    pure (g3, tableErase pOldNewMap r)

/-- The old node `o`, which is not the head of the chain, can be linked: its
clone `cp + 2` has no input yet, its only input is the output of an old node
whose clone `cp` has the output `cp + 1`, still without a use. -/
def Linkable (old ng1 : Graph) (map : NodeNodeMap) (o : NodeId) : Prop :=
  ∃ (cp : Nat) (ond : Node) (w : ValueId) (oval : Value) (prev : NodeId) (cnd pnd : Node)
    (cval : Value),
    map.lookup o = some (cp + 2) ∧ old.node? o = some ond ∧ ond.inputs = [w] ∧
    old.value? w = some oval ∧ oval.node = some prev ∧ map.lookup prev = some cp ∧
    ng1.node? (cp + 2) = some cnd ∧ cnd.inputs = [] ∧
    (cnd.kind = Kind.kReturn ↔ o = old.return_node) ∧
    ng1.node? cp = some pnd ∧ pnd.outputs = [cp + 1] ∧
    ng1.value? (cp + 1) = some cval ∧ cval.uses = []

/-- The state of the outer loop of `rebuildInputs` on the clones of a chain
with the head `n`, after the old nodes `D`: the clone of each of them other
than the head has its input, the output of the clone before it, and this
output has its use. -/
structure RebuildInv (ng1 : Graph) (map : NodeNodeMap) (n ret : NodeId) (D : List NodeId)
    (st : Graph × Option NodeId) : Prop where
  frame : ng1.SameFrame st.1
  nodeD : ∀ (o : NodeId) (c : Nat), o ∈ D → o ≠ n → map.lookup o = some (c + 2) →
    st.1.node? (c + 2) = (ng1.node? (c + 2)).map (fun nd => { nd with inputs := [c + 1] })
  nodeN : ∀ k : Nat, (∀ (o : NodeId) (c : Nat), o ∈ D → o ≠ n → map.lookup o = some (c + 2) →
    k ≠ c + 2) → st.1.node? k = ng1.node? k
  valD : ∀ (o : NodeId) (c : Nat), o ∈ D → o ≠ n → map.lookup o = some (c + 2) →
    st.1.value? (c + 1) =
      (ng1.value? (c + 1)).map (fun val => { val with uses := [⟨c + 2, 0⟩] })
  valN : ∀ k : Nat, (∀ (o : NodeId) (c : Nat), o ∈ D → o ≠ n → map.lookup o = some (c + 2) →
    k ≠ c + 1) → st.1.value? k = ng1.value? k
  flag : st.2 = if ret ∈ D then some ret else none

/-! ## Examples of the extraction -/

/-- A decidable test for `Graph.Fresh`. -/
def Graph.freshCheck (g : Graph) : Bool :=
  g.nodeTable.all (fun p => p.1 < g.next_unique) &&
    g.valueTable.all (fun p => p.1 < g.next_unique) &&
    g.order.all (fun k => k < g.next_unique) && decide (g.return_node < g.next_unique)

/-- A node 2 with the two outputs 4 and 5, both inputs of the node 3, whose
output 8 is the input of the return node 0. -/
def twoOutGraph : Graph :=
  { name := "twoOut",
    nodeTable :=
      [(0, mkNode Kind.kReturn [8] []),
       (1, mkNode Kind.kParam [] []),
       (2, mkNode (Kind.other 2) [] [4, 5]),
       (3, mkNode (Kind.other 1) [4, 5] [8])],
    valueTable :=
      [(4, mkValue 2 0 [1, 8, 4, 4] "u" [⟨3, 0⟩]),
       (5, mkValue 2 1 [1, 8, 4, 4] "w" [⟨3, 1⟩]),
       (8, mkValue 3 0 [1, 8, 4, 4] "z" [⟨0, 0⟩])],
    order := [2, 3], return_node := 0, next_unique := 9 }

/-! ## Kahn's algorithm on an arena -/

/-- The producers of the inputs of the node `x`: one entry for each input
whose value has a producer. -/
def Graph.preds (g : Graph) (x : NodeId) : List NodeId :=
  match g.node? x with
  | none => []
  | some nd => nd.inputs.filterMap (fun w => (g.value? w).bind (fun val => val.node))

/-- The users of a value, one entry for each use. -/
def Graph.valueUsers (g : Graph) (v : ValueId) : List NodeId :=
  match g.value? v with
  | none => []
  | some val => val.uses.map Use.user

/-- The node `x` counts as a user in `TopologicalSort`: it is not a return
node. -/
def Graph.counted (g : Graph) (x : NodeId) : Bool :=
  match g.node? x with
  | none => false
  | some un => decide (un.kind ≠ Kind.kReturn)

/-- The users of the outputs of the node `n` that are not return nodes, one
entry for each use, in the order of the loops of `TopologicalSort`. -/
def Graph.users (g : Graph) (n : NodeId) : List NodeId :=
  match g.node? n with
  | none => []
  | some nd => (nd.outputs.flatMap g.valueUsers).filter g.counted

/-- The degree update of one user: its degree goes down by one and the user
joins the worklist at degree zero. -/
def lowerDegree (st : DegreeMap × List NodeId) (x : NodeId) :
    Option (DegreeMap × List NodeId) := do
  let d ← st.1.lookup x
  let d1 := (d + UNSIGNED - 1) % UNSIGNED
  pure (tableSet st.1 x d1, if d1 = 0 then x :: st.2 else st.2)

/-- A graph on which Kahn's algorithm, as `TopologicalSort` runs it, sorts the
whole node list.  The nodes of the list are distinct, defined, not undefined
and no return nodes with inputs; the return node is defined and not in the
list; every input is a value whose producer, if it has one, is in the list;
every output is a value and its users are defined, those that are no return
nodes being in the list; the uses of the outputs of a node by a node are as
many as the inputs of the latter that the former produces, as the IR
maintains them; and the graph is acyclic: the producers come before their
users in some ranking. -/
structure Graph.Kahnable (g : Graph) : Prop where
  nodup : g.order.Nodup
  ret : g.return_node ∉ g.order
  retNode : ∃ rn, g.node? g.return_node = some rn
  node : ∀ x ∈ g.order, ∃ nd, g.node? x = some nd ∧ nd.kind ≠ Kind.kUndefined ∧
    nd.inputs.length < UNSIGNED ∧ (nd.kind = Kind.kReturn → nd.inputs = [])
  input : ∀ x ∈ g.order, ∀ nd, g.node? x = some nd → ∀ w ∈ nd.inputs,
    ∃ val, g.value? w = some val ∧ ∀ m, val.node = some m → m ∈ g.order
  uses : ∀ n ∈ g.order, ∀ nd, g.node? n = some nd → ∀ v ∈ nd.outputs,
    ∃ val, g.value? v = some val ∧ ∀ u ∈ val.uses, ∃ un, g.node? u.user = some un
  users : ∀ n ∈ g.order, ∀ x ∈ g.users n, x ∈ g.order
  count : ∀ n ∈ g.order, ∀ x ∈ g.order, (g.users n).count x = (g.preds x).count n
  acyclic : ∃ r : NodeId → Nat, ∀ x ∈ g.order, ∀ m ∈ g.preds x, r m < r x

/-- The state of Kahn's loop: the degree of a node is the number of its
inputs whose producer is not yet in the output list `out`; the worklist `wl`
holds the nodes of degree zero that are not yet in `out`; in `out` the
producers come first. -/
structure KahnInv (g : Graph) (st : DegreeMap × List NodeId × List NodeId) : Prop where
  nodup : (st.2.2 ++ st.2.1).Nodup
  mem : ∀ x ∈ st.2.2 ++ st.2.1, x ∈ g.order
  degree : ∀ x ∈ g.order,
    st.1.lookup x = some ((g.preds x).countP (fun m => !st.2.2.contains m))
  keys : ∀ x d, st.1.lookup x = some d → x ∈ g.order
  ready : ∀ x ∈ g.order, x ∉ st.2.2 →
    ((g.preds x).countP (fun m => !st.2.2.contains m) = 0 ↔ x ∈ st.2.1)
  sorted : ∀ l1 x l2, st.2.2 = l1 ++ x :: l2 → ∀ m ∈ g.preds x, m ∈ l1

/-! ## The methods of a split graph -/

/-- Assignment `xs[i] = v` into a vector; an index outside the vector yields
no value. -/
def assignAt {α : Type} (xs : List α) (i : Nat) (v : α) : Option (List α) :=
  if i < xs.length then some (xs.set i v) else none

/-- Body of the second loop of `SplitGraph::resetToOrigSize`. -/
def SplitGraph.resetStep (sg : SplitGraph) (i : Nat) : Option SplitGraph := do
  let axis ← assignAt sg.m_CurSplitAxis i 0
  let factor ← assignAt sg.m_CurSplitFactor i 1
  pure { sg with m_CurSplitAxis := axis, m_CurSplitFactor := factor }

/-- The first loop of `SplitGraph::resetToOrigSize`: every split node of the
map is reset. -/
def SplitGraph.resetNodes (sg : SplitGraph) : SplitGraph :=
  { sg with m_SplitNodes := sg.m_SplitNodes.map (fun p => (p.1, p.2.resetSize)) }

/-- Method `SplitGraph::resetToOrigSize`: after the split nodes are reset, a
counter of type `unsigned` walks the Store list; with `2^32` Stores or more
the counter wraps and the loop does not end. -/
def SplitGraph.resetToOrigSize (sg : SplitGraph) : Option SplitGraph :=
  if sg.m_Stores.length < UNSIGNED then
    (List.range sg.m_Stores.length).foldlM SplitGraph.resetStep sg.resetNodes
  else none

/-- Method `SplitGraph::setAllocStatus`; `size` is a `uint64_t`. -/
def SplitGraph.setAllocStatus (sg : SplitGraph) (success : Bool) (size : Nat) : SplitGraph :=
  { sg with m_AllocSuccess := success, m_AllocSize := size % UINT64 }

/-- The states that a split graph over the graph `g` reaches from the state
`sg0` by calls of `shrinkSize`, `splitNodeBySize`, `splitNodeByFactor` and
`setAllocStatus` that return. -/
inductive SplitGraph.Reaches (g : Graph) (sg0 : SplitGraph) : SplitGraph → Prop
  | start : SplitGraph.Reaches g sg0 sg0
  | shrinkSize {sg sg' : SplitGraph} : SplitGraph.Reaches g sg0 sg →
      sg.shrinkSize g = some sg' → SplitGraph.Reaches g sg0 sg'
  | splitNodeBySize {sg : SplitGraph} {r : SplitGraph × Bool} (fuel : Nat) (pN : NodeId)
      (pNewOutSize : LongInts) (pUpdateUpper : Bool) : SplitGraph.Reaches g sg0 sg →
      SplitGraph.splitNodeBySize g fuel sg pN pNewOutSize pUpdateUpper = some r →
      SplitGraph.Reaches g sg0 r.1
  | splitNodeByFactor {sg sg' : SplitGraph} (pN : NodeId) (pAxis pFactor : Nat)
      (pUpdateUpper : Bool) : SplitGraph.Reaches g sg0 sg →
      sg.splitNodeByFactor g pN pAxis pFactor pUpdateUpper = some sg' →
      SplitGraph.Reaches g sg0 sg'
  | setAllocStatus {sg : SplitGraph} (success : Bool) (size : Nat) :
      SplitGraph.Reaches g sg0 sg → SplitGraph.Reaches g sg0 (sg.setAllocStatus success size)

/-- The state of a split graph as `rebuildSplitNodes` leaves it: the keys of
the map are distinct, every split node proposes its original size, and every
Store has the split axis 0 and the split factor 1. -/
structure SplitGraph.Built (sg : SplitGraph) : Prop where
  keys : (sg.m_SplitNodes.map Prod.fst).Nodup
  sizes : ∀ p ∈ sg.m_SplitNodes, p.2.m_NewOutSizes = p.2.m_OutSizes
  axis : sg.m_CurSplitAxis = List.replicate sg.m_Stores.length 0
  factor : sg.m_CurSplitFactor = List.replicate sg.m_Stores.length 1

/-- The split graph `sg` is `sg0` up to the proposed sizes, the entries of
the axis and factor vectors and the allocation status. -/
structure SplitGraph.Retiled (sg0 sg : SplitGraph) : Prop where
  graph : sg.m_Graph = sg0.m_Graph
  nodes : sg.resetNodes.m_SplitNodes = sg0.resetNodes.m_SplitNodes
  stores : sg.m_Stores = sg0.m_Stores
  axis : sg.m_CurSplitAxis.length = sg0.m_CurSplitAxis.length
  factor : sg.m_CurSplitFactor.length = sg0.m_CurSplitFactor.length

/-! ## Memory usage of a split graph -/

/-- The type `MemSize`: an alignment and a size, both `uint64_t`. -/
structure MemSize where
  align : Nat
  size : Nat
  deriving DecidableEq

/-- Collaborators that are not part of the sources at hand: the methods
`getOperatorInputMemUsage(node, index, sizes)` and
`getOperatorOutputMemUsage(node, index, sizes)` of `TargetTransformInfo`. -/
structure MemInfo where
  getOperatorInputMemUsage : Graph → NodeId → Nat → LongInts → MemSize
  getOperatorOutputMemUsage : Graph → NodeId → Nat → LongInts → MemSize

/-- The type `ValMemSizeMap` is a hash map from values to memory sizes. -/
abbrev ValMemSizeMap := List (ValueId × MemSize)

/-- The indices that a counter of type `unsigned` takes in a loop
`for (unsigned i = 0; i < size; ++i)`; with a size of `2^32` or more the
counter wraps and the loop does not end. -/
def counterRange (size : Nat) : Option (List Nat) :=
  if size < UNSIGNED then some (List.range size) else none

/-- Body of the loop of `SplitGraph::getMemUsage` for the entry of the node
`n`: the sizes of the outputs are computed by `calNewInputSize`, as those of
the inputs are. -/
def SplitGraph.memUsageStep (M : MemInfo) (g : Graph) (sg : SplitGraph) (pVMSMap : ValMemSizeMap)
    (n : NodeId) : Option ValMemSizeMap := do
  let sn ← sg.m_SplitNodes.lookup n
  if sn.skipWhenCalMemSize then pure pVMSMap
  else do
    let nd ← g.node? n
    let ins ← counterRange nd.inputs.length
    let vms ← ins.foldlM (fun vms i => do
        let v ← nd.inputs[i]?
        let s ← sn.calNewInputSize g i
        pure (mapInsert vms v (M.getOperatorInputMemUsage g n i s))) pVMSMap
    let outs ← counterRange nd.outputs.length
    outs.foldlM (fun vms i => do
        let v ← nd.outputs[i]?
        let s ← sn.calNewInputSize g i
        pure (mapInsert vms v (M.getOperatorOutputMemUsage g n i s))) vms

/-- Method `SplitGraph::getMemUsage`; `g` is the graph object that `m_Graph`
refers to, and the map of split nodes is walked in the order of the hash
map. -/
def SplitGraph.getMemUsage (M : MemInfo) (H : HashOrder) (g : Graph) (sg : SplitGraph)
    (pVMSMap : ValMemSizeMap) : Option ValMemSizeMap :=
  (H.iter (sg.m_SplitNodes.map Prod.fst)).foldlM (sg.memUsageStep M g) pVMSMap

/-- A memory model in which a tensor uses as many bytes as it has
elements. -/
def volumeInfo : MemInfo :=
  { getOperatorInputMemUsage := fun _ _ _ s => { align := 1, size := s.prod.toNat },
    getOperatorOutputMemUsage := fun _ _ _ s => { align := 1, size := s.prod.toNat } }

/-- The split graph that `SplitGraph::SplitGraph` builds for `loneConvGraph`
and `plainTarget`. -/
def loneConvSplit : SplitGraph :=
  { m_Graph := 0,
    m_SplitNodes :=
      [(1, { variant := SplitVariant.SplitConv, m_OutSizes := [10, 64, 224, 224],
             m_NewOutSizes := [10, 64, 224, 224], m_SizeCalByOtherNode := false, m_Node := 1,
             m_PadBegin := [1, 1], m_PadEnd := [1, 1], m_KShape := [3, 3],
             m_Stride := [1, 1] })],
    m_Stores := [], m_CurSplitAxis := [], m_CurSplitFactor := [],
    m_AllocSuccess := false, m_AllocSize := 0 }

/-! ## Example graphs of the search for split points -/

/-- A node `a`, node 2, whose output, value 8, is used by the nodes `b1`,
node 3, and `b2`, node 4; the outputs of `b1` and `b2`, values 9 and 10, are
the inputs of the return node 0. -/
def fanGraph : Graph :=
  { name := "fan",
    nodeTable :=
      [(0, mkNode Kind.kReturn [9, 10] []),
       (1, mkNode Kind.kParam [] []),
       (2, mkNode (Kind.other 1) [] [8]),
       (3, mkNode (Kind.other 1) [8] [9]),
       (4, mkNode (Kind.other 1) [8] [10])],
    valueTable :=
      [(8, mkValue 2 0 [1, 8, 4, 4] "a" [⟨3, 0⟩, ⟨4, 0⟩]),
       (9, mkValue 3 0 [1, 8, 4, 4] "b1" [⟨0, 0⟩]),
       (10, mkValue 4 0 [1, 8, 4, 4] "b2" [⟨0, 1⟩])],
    order := [2, 3, 4], return_node := 0, next_unique := 11 }

/-- A target that reports the usage 300 for node 2 and 100 for every other
node. -/
def heavyHeadTarget : Target :=
  { OutputSizeIsInputSize := fun _ _ => false,
    getOperatorMemUsage := fun _ n => if n = 2 then 300 else 100 }

/-! ## A test for sortable graphs -/

/-- The part of `Graph.kahnCheck` for the node `x` with the node object
`nd`. -/
def Graph.kahnCheckNode (g : Graph) (r : NodeId → Nat) (x : NodeId) (nd : Node) : Bool :=
  decide (nd.kind ≠ Kind.kUndefined) && decide (nd.inputs.length < UNSIGNED) &&
    (decide (nd.kind ≠ Kind.kReturn) || nd.inputs.isEmpty) &&
    nd.inputs.all (fun w =>
      match g.value? w with
      | none => false
      | some val =>
        match val.node with
        | none => true
        | some m => g.order.contains m) &&
    nd.outputs.all (fun v =>
      match g.value? v with
      | none => false
      | some val => val.uses.all (fun u => (g.node? u.user).isSome)) &&
    (g.users x).all (fun y => g.order.contains y) &&
    g.order.all (fun y => (g.users x).count y == (g.preds y).count x) &&
    (g.preds x).all (fun m => decide (r m < r x))

/-- A decidable test for `Graph.Kahnable` with the ranking `r`. -/
def Graph.kahnCheck (g : Graph) (r : NodeId → Nat) : Bool :=
  decide g.order.Nodup && !g.order.contains g.return_node && (g.node? g.return_node).isSome &&
    g.order.all (fun x =>
      match g.node? x with
      | none => false
      | some nd => g.kahnCheckNode r x nd)

/-! ## The upstream cone of a node -/

/-- The node on which `splitNodeBySize` with propagation calls itself for the
input `i` of the node `m`: the producer of the input, unless the input has no
producer or the producer is a parameter node. -/
def Graph.producerAt (g : Graph) (m : NodeId) (i : Nat) : Option NodeId := do
  let nd ← g.node? m
  let v ← nd.inputs[i]?
  let val ← g.value? v
  let p ← val.node
  let cnd ← g.node? p
  if cnd.kind = Kind.kParam then none else some p

/-- The producers of the inputs of the node `m` that are no parameter
nodes. -/
def Graph.producers (g : Graph) (m : NodeId) : List NodeId :=
  match g.node? m with
  | none => []
  | some nd => (List.range nd.inputs.length).filterMap (g.producerAt m)

/-- `g.Upstream n m`: the node `m` is in the upstream cone of the node `n`;
it is `n` or it is in the upstream cone of a producer of an input of `n`
that is no parameter node. -/
inductive Graph.Upstream (g : Graph) : NodeId → NodeId → Prop
  | self (n : NodeId) : Graph.Upstream g n n
  | step {n p m : NodeId} (i : Nat) : g.producerAt n i = some p → Graph.Upstream g p m →
      Graph.Upstream g n m

/-- A test on the node `m` for the tiles `tile`: `m` has a node object with
less than `2^32` inputs and a split node that refers to `m`; every input is a
value; a producer of an input is a node and, unless it is a parameter node,
its tile is the size that `calNewInputSize` of `m` gives for the input under
the tile of `m`. -/
def SplitGraph.propagatesAt (g : Graph) (sg : SplitGraph) (tile : NodeId → LongInts)
    (m : NodeId) : Bool :=
  match g.node? m, sg.getSplitNode m with
  | some nd, some sn =>
    decide (sn.m_Node = m) && decide (nd.inputs.length < UNSIGNED) &&
    (List.range nd.inputs.length).all (fun i =>
      match (nd.inputs[i]?).bind g.value? with
      | none => false
      | some val =>
        match val.node with
        | none => true
        | some p =>
          match g.node? p with
          | none => false
          | some cnd =>
            decide (cnd.kind = Kind.kParam) ||
              decide ((sn.useNewOutSize (tile m)).1.calNewInputSize g i = some (tile p)))
  | _, _ => false

/-- The split graph `sg'` is `sg` with the proposed size `tile m` for every
node `m` in `V` that has a split node; nothing else differs. -/
structure SplitGraph.TiledOn (tile : NodeId → LongInts) (V : NodeId → Prop)
    (sg sg' : SplitGraph) : Prop where
  inside : ∀ m, V m →
    sg'.getSplitNode m = (sg.getSplitNode m).map (fun sn => (sn.useNewOutSize (tile m)).1)
  outside : ∀ m, ¬ V m → sg'.getSplitNode m = sg.getSplitNode m
  graph : sg'.m_Graph = sg.m_Graph
  stores : sg'.m_Stores = sg.m_Stores
  axis : sg'.m_CurSplitAxis = sg.m_CurSplitAxis
  factor : sg'.m_CurSplitFactor = sg.m_CurSplitFactor
  allocSuccess : sg'.m_AllocSuccess = sg.m_AllocSuccess
  allocSize : sg'.m_AllocSize = sg.m_AllocSize

/-- The uses of the node `p` that the propagation follows: the pairs of a
node `m` of the node table and an input index `i` of `m` for which
`splitNodeBySize` on `m` calls itself on `p`. -/
def Graph.consumersOf (g : Graph) (p : NodeId) : List (NodeId × Nat) :=
  g.nodeTable.flatMap (fun e =>
    (List.range e.2.inputs.length).filterMap (fun i =>
      if g.producerAt e.1 i = some p then some (e.1, i) else none))

/-- A test on the node `m`: it has a node object with less than `2^32`
inputs and a split node that refers to `m`. -/
def SplitGraph.tracksAt (g : Graph) (sg : SplitGraph) (m : NodeId) : Bool :=
  match g.node? m, sg.getSplitNode m with
  | some nd, some sn => decide (sn.m_Node = m) && decide (nd.inputs.length < UNSIGNED)
  | _, _ => false

/-- The split graph `sg'` is `sg` up to the proposed sizes of the split nodes
of the nodes in `V`. -/
structure SplitGraph.RetiledOn (V : NodeId → Prop) (sg sg' : SplitGraph) : Prop where
  outside : ∀ m, ¬ V m → sg'.getSplitNode m = sg.getSplitNode m
  nodes : ∀ m, (sg'.getSplitNode m).map SplitNode.resetSize =
    (sg.getSplitNode m).map SplitNode.resetSize
  graph : sg'.m_Graph = sg.m_Graph
  stores : sg'.m_Stores = sg.m_Stores
  axis : sg'.m_CurSplitAxis = sg.m_CurSplitAxis
  factor : sg'.m_CurSplitFactor = sg.m_CurSplitFactor
  allocSuccess : sg'.m_AllocSuccess = sg.m_AllocSuccess
  allocSize : sg'.m_AllocSize = sg.m_AllocSize

/-- The tiles of the split graph `sg` satisfy the recurrence at the node `m`:
for every input index `i` of `m` on which the propagation follows the
producer `p`, the proposed size of `p` is the size that `calNewInputSize(i)`
of `m` gives under the proposed size of `m`. -/
def SplitGraph.InputTiled (g : Graph) (sg : SplitGraph) (m : NodeId) : Prop :=
  ∀ i p, g.producerAt m i = some p →
    ∃ snm snp, sg.getSplitNode m = some snm ∧ sg.getSplitNode p = some snp ∧
      snm.calNewInputSize g i = some snp.m_NewOutSizes

/-- A test on the node `m`: a Load has no inputs.  The only Loads of a graph
are those that `createLoadStoreAtNode` creates with `pGraph.create(Load)`,
and no input is ever added to them. -/
def Graph.loadIsSource (g : Graph) (m : NodeId) : Bool :=
  match g.node? m with
  | some nd => decide (nd.kind ≠ Kind.Load) || nd.inputs.isEmpty
  | none => true

/-! ## Example graphs fed by graph inputs -/

/-- The chain Conv, Relu, return on graph inputs: node 0 is the parameter
node, whose outputs `x`, `w` and `b` are the inputs of the convolution, node
1; node 3 is the element-wise node, node 2 the return node. -/
def paramPairGraph : Graph :=
  { name := "param pair",
    nodeTable :=
      [(0, { kind := Kind.kParam, inputs := [], outputs := [0, 1, 2], attrs := Attributes.empty }),
       (1, { kind := Kind.kConv, inputs := [0, 1, 2], outputs := [3], attrs := windowAttrs 3 1 1 }),
       (2, { kind := Kind.kReturn, inputs := [4], outputs := [], attrs := Attributes.empty }),
       (3, mkNode (Kind.other 0) [3] [4])],
    valueTable :=
      [(0, mkValue 0 0 [10, 3, 224, 224] "x" [⟨1, 0⟩]),
       (1, mkValue 0 1 [64, 3, 3, 3] "w" [⟨1, 1⟩]),
       (2, mkValue 0 2 [64] "b" [⟨1, 2⟩]),
       (3, mkValue 1 0 [10, 64, 224, 224] "y" [⟨3, 0⟩]),
       (4, mkValue 3 0 [10, 64, 224, 224] "z" [⟨2, 0⟩])],
    order := [1, 3], return_node := 2, next_unique := 10 }

/-- A chain of six element-wise nodes 2, 3, 4, 5, 6 and 7 on a graph input:
the input of node 2, value 14, is the output of the parameter node 1; the
outputs of the chain are the values 8 to 13; node 0 is the return node. -/
def paramSixGraph : Graph :=
  { name := "param six",
    nodeTable :=
      [(0, mkNode Kind.kReturn [13] []),
       (1, mkNode Kind.kParam [] [14]),
       (2, mkNode (Kind.other 0) [14] [8]),
       (3, mkNode (Kind.other 0) [8] [9]),
       (4, mkNode (Kind.other 0) [9] [10]),
       (5, mkNode (Kind.other 0) [10] [11]),
       (6, mkNode (Kind.other 0) [11] [12]),
       (7, mkNode (Kind.other 0) [12] [13])],
    valueTable :=
      [(8, mkValue 2 0 [1, 8, 4, 4] "a" [⟨3, 0⟩]),
       (9, mkValue 3 0 [1, 8, 4, 4] "b" [⟨4, 0⟩]),
       (10, mkValue 4 0 [1, 8, 4, 4] "c" [⟨5, 0⟩]),
       (11, mkValue 5 0 [1, 8, 4, 4] "d" [⟨6, 0⟩]),
       (12, mkValue 6 0 [1, 8, 4, 4] "e" [⟨7, 0⟩]),
       (13, mkValue 7 0 [1, 8, 4, 4] "f" [⟨0, 0⟩]),
       (14, mkValue 1 0 [1, 8, 4, 4] "x" [⟨2, 0⟩])],
    order := [2, 3, 4, 5, 6, 7], return_node := 0, next_unique := 15 }

/-! ## Example graphs of the extraction -/

/-- A node `a`, node 2, whose output, value 8, is used by the three nodes 3,
4 and 5; their outputs, the values 9, 10 and 11, are the inputs of the return
node 0. -/
def fanThreeGraph : Graph :=
  { name := "fan3",
    nodeTable :=
      [(0, mkNode Kind.kReturn [9, 10, 11] []),
       (1, mkNode Kind.kParam [] []),
       (2, mkNode (Kind.other 1) [] [8]),
       (3, mkNode (Kind.other 1) [8] [9]),
       (4, mkNode (Kind.other 1) [8] [10]),
       (5, mkNode (Kind.other 1) [8] [11])],
    valueTable :=
      [(8, mkValue 2 0 [1, 8, 4, 4] "a" [⟨3, 0⟩, ⟨4, 0⟩, ⟨5, 0⟩]),
       (9, mkValue 3 0 [1, 8, 4, 4] "b1" [⟨0, 0⟩]),
       (10, mkValue 4 0 [1, 8, 4, 4] "b2" [⟨0, 1⟩]),
       (11, mkValue 5 0 [1, 8, 4, 4] "b3" [⟨0, 2⟩])],
    order := [2, 3, 4, 5], return_node := 0, next_unique := 12 }

/-- A target for `fanGraph`: nodes of kind `other 1` and SubGraph nodes keep
the size of their input; node 2 uses 300 bytes and every other node 100. -/
def fanTarget : Target :=
  { OutputSizeIsInputSize := fun g n =>
      match g.node? n with
      | some nd => nd.kind == Kind.other 1 || nd.kind == Kind.SubGraph
      | none => false,
    getOperatorMemUsage := fun _ n => if n = 2 then 300 else 100 }

/-- A target whose predicate `OutputSizeIsInputSize` holds of the nodes of
kind `other 0` only, not of SubGraph nodes; every node uses 100 bytes. -/
def strictTarget : Target :=
  { OutputSizeIsInputSize := fun g n =>
      match g.node? n with
      | some nd => nd.kind == Kind.other 0
      | none => false,
    getOperatorMemUsage := fun _ _ => 100 }

/-! ## Ready nodes -/

/-- The node `y` is ready when the nodes `done` have left the worklist of
`TopologicalSort`: `y` has not left it, and the producer of each of its inputs
has. -/
def Graph.readyAfter (g : Graph) (done : List NodeId) (y : NodeId) : Bool :=
  !done.contains y && (g.preds y).all (fun m => done.contains m)

/-- No two nodes of the node list are ready at once: whatever number of nodes
has left the worklist in the order of the node list, two nodes of the list
that are both ready are the same node. -/
def Graph.oneReady (g : Graph) : Bool :=
  (List.range (g.order.length + 1)).all (fun i =>
    g.order.all (fun y => g.order.all (fun z =>
      !(g.readyAfter (g.order.take i) y && g.readyAfter (g.order.take i) z) || decide (y = z))))

/-- Three nodes in a row, each on the output of the node before it; the
output of the first node, value 5, is also an input of the third: node 2
feeds the nodes 3 and 4, node 3 feeds node 4, and node 4 the return node 0. -/
def ladderGraph : Graph :=
  { name := "ladder",
    nodeTable :=
      [(0, mkNode Kind.kReturn [7] []),
       (1, mkNode Kind.kParam [] []),
       (2, mkNode (Kind.other 0) [] [5]),
       (3, mkNode (Kind.other 0) [5] [6]),
       (4, mkNode (Kind.other 1) [6, 5] [7])],
    valueTable :=
      [(5, mkValue 2 0 [1, 8, 4, 4] "x" [⟨3, 0⟩, ⟨4, 1⟩]),
       (6, mkValue 3 0 [1, 8, 4, 4] "p" [⟨4, 0⟩]),
       (7, mkValue 4 0 [1, 8, 4, 4] "z" [⟨0, 0⟩])],
    order := [2, 3, 4], return_node := 0, next_unique := 8 }

/-! ## Properties of the shape calculus -/

theorem setAt_append_cons (pre suf : LongInts) (x v : Int) :
    setAt (pre ++ x :: suf) pre.length v = some (pre ++ v :: suf) := by
  simp [setAt]

/-- The copy loop of `SplitConv::calNewInputSize`, case 1, fills the part of
the vector it has not yet visited with the matching entries of `wDim`. -/
theorem copyLoop_eq (wsuf : LongInts) :
    ∀ (wpre pre : LongInts), pre.length = wpre.length →
      (List.range' wpre.length wsuf.length).foldlM
        (fun newIS i => do
          let w ← (wpre ++ wsuf)[i]?
          setAt newIS i w) (pre ++ List.replicate wsuf.length 0)
        = some (pre ++ wsuf) := by
  induction wsuf with
  | nil => intro wpre pre _; simp
  | cons x xs ih =>
    intro wpre pre hlen
    have hget : (wpre ++ x :: xs)[wpre.length]? = some x := by
      rw [List.getElem?_append_right (Nat.le_refl _)]; simp
    have hset : setAt (pre ++ 0 :: List.replicate xs.length 0) wpre.length x
        = some (pre ++ x :: List.replicate xs.length 0) := by
      rw [← hlen]; exact setAt_append_cons pre _ 0 x
    have h := ih (wpre ++ [x]) (pre ++ [x]) (by simp [hlen])
    simp only [List.length_append, List.length_singleton, List.append_assoc,
      List.singleton_append] at h
    simp only [List.length_cons, List.range', List.foldlM, List.replicate_succ, hget, hset,
      Option.bind_eq_bind, Option.some_bind]
    exact h

/-- A split node built by `SplitConv` has the convolution class, the node it
was built for and the window of that node. -/
theorem SplitConv_fields {g : Graph} {pN : NodeId} {nd : Node} {sn : SplitNode}
    (hnd : g.node? pN = some nd) (hsn : SplitConv g pN = some sn) :
    sn.variant = SplitVariant.SplitConv ∧ sn.m_Node = pN ∧
    sn.m_KShape = nd.attrs.kernel_shape ∧ sn.m_Stride = nd.attrs.strides ∧
    sn.m_PadBegin = nd.attrs.padBegin ∧ sn.m_PadEnd = nd.attrs.padEnd := by
  unfold SplitConv SplitNode.new at hsn
  simp only [hnd, Option.bind_eq_bind, Option.some_bind, Option.pure_def] at hsn
  cases hout : GetOutputValueSizes g nd with
  | none => simp [hout] at hsn
  | some out =>
    simp only [hout, Option.some_bind] at hsn
    split at hsn
    · cases hsn; simp
    · cases hsn

theorem int64_of_fits {x : Int} (h : inInt64 x = true) : int64 x = some x := by
  unfold int64
  rw [if_pos h]

theorem int64_of_not_fits {x : Int} (h : inInt64 x = false) : int64 x = none := by
  unfold int64
  rw [h]
  rfl

/-- Without signed overflow the expression of the convolution has its value
in the integers. -/
theorem conv_extent_eq {y s pb pe k : Int} (h : SplitConv.fits y s pb pe k = true) :
    SplitConv.extent y s pb pe k = some ((y - 1) * s - pb - pe + k) := by
  unfold SplitConv.fits at h
  simp only [Bool.and_eq_true] at h
  obtain ⟨⟨⟨⟨⟨⟨⟨⟨⟨h1, h2⟩, h3⟩, h4⟩, h5⟩, h6⟩, h7⟩, h8⟩, h9⟩, h10⟩ := h
  unfold SplitConv.extent
  simp only [Option.bind_eq_bind, int64_of_fits h1, int64_of_fits h2, int64_of_fits h3,
    int64_of_fits h4, int64_of_fits h5, int64_of_fits h6, int64_of_fits h7, int64_of_fits h8,
    int64_of_fits h9, int64_of_fits h10, Option.some_bind]

/-- Without signed overflow the expression of the pooling has its value in
the integers. -/
theorem pool_extent_eq {y s pb pe k : Int} (h : SplitPool.fits y s pb pe k = true) :
    SplitPool.extent y s pb pe k = some (y * s - pb - pe + 2 * (k.tdiv 2)) := by
  unfold SplitPool.fits at h
  simp only [Bool.and_eq_true] at h
  obtain ⟨⟨⟨⟨⟨⟨⟨⟨⟨⟨h1, h2⟩, h3⟩, h4⟩, h5⟩, h6⟩, h7⟩, h8⟩, h9⟩, h10⟩, h11⟩ := h
  unfold SplitPool.extent
  simp only [Option.bind_eq_bind, int64_of_fits h1, int64_of_fits h2, int64_of_fits h3,
    int64_of_fits h4, int64_of_fits h5, int64_of_fits h6, int64_of_fits h7, int64_of_fits h8,
    int64_of_fits h9, int64_of_fits h10, int64_of_fits h11, Option.some_bind]

/-- The convolution loop over the two spatial axes of a vector of four, when
no signed overflow occurs. -/
theorem conv_axisLoop (sn : SplitNode) (a b c d N' M' Y1 Y2 k1 k2 s1 s2 pb1 pb2 pe1 pe2 : Int)
    (hT : sn.m_NewOutSizes = [N', M', Y1, Y2])
    (hk : sn.m_KShape = [k1, k2]) (hs : sn.m_Stride = [s1, s2])
    (hpb : sn.m_PadBegin = [pb1, pb2]) (hpe : sn.m_PadEnd = [pe1, pe2])
    (hf1 : SplitConv.fits Y1 s1 pb1 pe1 k1 = true)
    (hf2 : SplitConv.fits Y2 s2 pb2 pe2 k2 = true) :
    (List.range 2).foldlM (SplitConv.axisStep sn) [a, b, c, d]
      = some [a, b, (Y1 - 1) * s1 - pb1 - pe1 + k1, (Y2 - 1) * s2 - pb2 - pe2 + k2] := by
  have hr : List.range 2 = [0, 1] := rfl
  simp [hr, SplitConv.axisStep, hT, hk, hs, hpb, hpe, setAt, conv_extent_eq hf1, conv_extent_eq hf2]

/-- C1. For a Conv node with a four-dimensional input `(N, C, X1, X2)`, a
weight `W`, kernel `k`, strides `s`, pads `pb`/`pe` and an output tile
`(N', M', Y1', Y2')`: `calNewInputSize(0)` is
`(N', C, (Y1'-1)*s1 - pb1 - pe1 + k1, (Y2'-1)*s2 - pb2 - pe2 + k2)` when the
evaluation of the two expressions in `int64_t` meets no signed overflow,
`calNewInputSize(1)` is `W` with axis 0 replaced by `M'`, and
`calNewInputSize(2)` is `(M')`. -/
theorem conv_calNewInputSize (g : Graph) (pN : NodeId) (nd : Node) (sn : SplitNode)
    (N C X1 X2 w0 N' M' Y1' Y2' k1 k2 s1 s2 pb1 pb2 pe1 pe2 : Int) (wrest : LongInts)
    (hnd : g.node? pN = some nd) (hsn : SplitConv g pN = some sn)
    (hk : nd.attrs.kernel_shape = [k1, k2]) (hs : nd.attrs.strides = [s1, s2])
    (hpb : nd.attrs.padBegin = [pb1, pb2]) (hpe : nd.attrs.padEnd = [pe1, pe2])
    (hX : g.inputSizes pN 0 = some [N, C, X1, X2])
    (hW : g.inputSizes pN 1 = some (w0 :: wrest))
    (hf1 : SplitConv.fits Y1' s1 pb1 pe1 k1 = true)
    (hf2 : SplitConv.fits Y2' s2 pb2 pe2 k2 = true) :
    (sn.useNewOutSize [N', M', Y1', Y2']).1.calNewInputSize g 0
        = some [N', C, (Y1' - 1) * s1 - pb1 - pe1 + k1, (Y2' - 1) * s2 - pb2 - pe2 + k2] ∧
    (sn.useNewOutSize [N', M', Y1', Y2']).1.calNewInputSize g 1 = some (M' :: wrest) ∧
    (sn.useNewOutSize [N', M', Y1', Y2']).1.calNewInputSize g 2 = some [M'] := by
  obtain ⟨hv, hm, hK, hS, hPB, hPE⟩ := SplitConv_fields hnd hsn
  have hloop := conv_axisLoop (sn.useNewOutSize [N', M', Y1', Y2']).1 N' C 0 0 N' M' Y1' Y2'
    k1 k2 s1 s2 pb1 pb2 pe1 pe2 rfl (by simp [SplitNode.useNewOutSize, hK, hk])
    (by simp [SplitNode.useNewOutSize, hS, hs]) (by simp [SplitNode.useNewOutSize, hPB, hpb])
    (by simp [SplitNode.useNewOutSize, hPE, hpe]) hf1 hf2
  have hcopy := copyLoop_eq wrest [w0] [M'] rfl
  refine ⟨?_, ?_, ?_⟩
  · simp only [SplitNode.calNewInputSize, SplitNode.useNewOutSize, hv,
      SplitConv.calNewInputSize, hm, hX]
    simpa [setAt, SplitNode.useNewOutSize] using hloop
  · simp only [SplitNode.calNewInputSize, SplitNode.useNewOutSize, hv,
      SplitConv.calNewInputSize, hm, hW]
    simpa [setAt, List.replicate_succ] using hcopy
  · simp [SplitNode.calNewInputSize, SplitNode.useNewOutSize, hv, SplitConv.calNewInputSize]

/-- Witness of C1: Conv(N=10, C=3, H=W=224, K=3, S=1, P=1) with the tile
`(10, 32, 112, 224)` needs the input tile `(10, 3, 112, 224)`. -/
theorem conv_calNewInputSize_witness :
    SplitConv convGraph 1 = some convSplitNode ∧
      (convSplitNode.useNewOutSize [10, 32, 112, 224]).1.calNewInputSize convGraph 0
        = some [10, 3, 112, 224] ∧
      (convSplitNode.useNewOutSize [10, 32, 112, 224]).1.calNewInputSize convGraph 1
        = some [32, 3, 3, 3] ∧
      (convSplitNode.useNewOutSize [10, 32, 112, 224]).1.calNewInputSize convGraph 2
        = some [32] :=
  ⟨rfl, by
    simpa using conv_calNewInputSize convGraph 1 _ convSplitNode 10 3 224 224 64 10 32 112 224
      3 3 1 1 1 1 1 1 [3, 3, 3] rfl rfl rfl rfl rfl rfl rfl rfl (by decide) (by decide)⟩

/-- A split node built by `SplitGemm` has the Gemm class and the node it was
built for. -/
theorem SplitGemm_fields {g : Graph} {pN : NodeId} {sn : SplitNode}
    (hsn : SplitGemm g pN = some sn) :
    sn.variant = SplitVariant.SplitGemm ∧ sn.m_Node = pN := by
  unfold SplitGemm SplitNode.new at hsn
  cases hnd : g.node? pN with
  | none => simp [hnd] at hsn
  | some nd =>
    cases hout : GetOutputValueSizes g nd with
    | none => simp [hnd, hout] at hsn
    | some out =>
      simp only [hnd, hout, Option.bind_eq_bind, Option.some_bind, Option.pure_def,
        Option.some.injEq] at hsn
      subst hsn; simp

/-- C2. For a Gemm node whose input `A` has sizes `(a0, a1)`, with `K = a0` if
`transA` and `K = a1` otherwise, and an output tile `(M', N')`:
`calNewInputSize(0)` is `(K, M')` if `transA` else `(M', K)`,
`calNewInputSize(1)` is `(N', K)` if `transB` else `(K, N')`, and
`calNewInputSize(2)` is the original sizes of `C`, whatever the tile. -/
theorem gemm_calNewInputSize (g : Graph) (pN : NodeId) (nd : Node) (sn : SplitNode)
    (a0 a1 M' N' : Int) (cs : LongInts)
    (hnd : g.node? pN = some nd) (hsn : SplitGemm g pN = some sn)
    (hA : g.inputSizes pN 0 = some [a0, a1]) (hC : g.inputSizes pN 2 = some cs) :
    (sn.useNewOutSize [M', N']).1.calNewInputSize g 0
        = some (if nd.attrs.transA then [if nd.attrs.transA then a0 else a1, M']
                else [M', if nd.attrs.transA then a0 else a1]) ∧
    (sn.useNewOutSize [M', N']).1.calNewInputSize g 1
        = some (if nd.attrs.transB then [N', if nd.attrs.transA then a0 else a1]
                else [if nd.attrs.transA then a0 else a1, N']) ∧
    (sn.useNewOutSize [M', N']).1.calNewInputSize g 2 = some cs := by
  obtain ⟨hv, hm⟩ := SplitGemm_fields hsn
  refine ⟨?_, ?_, ?_⟩
  · cases hta : nd.attrs.transA <;>
      simp [SplitNode.calNewInputSize, SplitNode.useNewOutSize, hv, SplitGemm.calNewInputSize,
        hm, hnd, hA, hta]
  · cases hta : nd.attrs.transA <;> cases htb : nd.attrs.transB <;>
      simp [SplitNode.calNewInputSize, SplitNode.useNewOutSize, hv, SplitGemm.calNewInputSize,
        hm, hnd, hA, hta, htb]
  · cases hta : nd.attrs.transA <;>
      simp [SplitNode.calNewInputSize, SplitNode.useNewOutSize, hv, SplitGemm.calNewInputSize,
        hm, hnd, hA, hC, hta]

/-- Witness of C2: Gemm(transA=0, transB=1, M=10, K=9216, N=4096) with the
tile `(10, 1024)` needs `(10, 9216)`, `(1024, 9216)` and the unchanged `C`. -/
theorem gemm_calNewInputSize_witness :
    SplitGemm gemmGraph 1 = some gemmSplitNode ∧
      (gemmSplitNode.useNewOutSize [10, 1024]).1.calNewInputSize gemmGraph 0
        = some [10, 9216] ∧
      (gemmSplitNode.useNewOutSize [10, 1024]).1.calNewInputSize gemmGraph 1
        = some [1024, 9216] ∧
      (gemmSplitNode.useNewOutSize [10, 1024]).1.calNewInputSize gemmGraph 2
        = some [4096] :=
  ⟨rfl, gemm_calNewInputSize gemmGraph 1 _ gemmSplitNode 10 9216 10 1024 [4096]
    rfl rfl rfl rfl⟩

/-- A split node built by `SplitPool` has the pool class, the node it was
built for and the window of that node. -/
theorem SplitPool_fields {g : Graph} {pN : NodeId} {nd : Node} {sn : SplitNode}
    (hnd : g.node? pN = some nd) (hsn : SplitPool g pN = some sn) :
    sn.variant = SplitVariant.SplitPool ∧ sn.m_Node = pN ∧
    sn.m_KShape = nd.attrs.kernel_shape ∧ sn.m_Stride = nd.attrs.strides ∧
    sn.m_PadBegin = nd.attrs.padBegin ∧ sn.m_PadEnd = nd.attrs.padEnd := by
  unfold SplitPool SplitNode.new at hsn
  simp only [hnd, Option.bind_eq_bind, Option.some_bind, Option.pure_def] at hsn
  cases hout : GetOutputValueSizes g nd with
  | none => simp [hout] at hsn
  | some out =>
    simp only [hout, Option.some_bind] at hsn
    split at hsn
    · cases hsn; simp
    · cases hsn

/-- The pooling loop over the two spatial axes of a vector of four, when no
signed overflow occurs. -/
theorem pool_axisLoop (sn : SplitNode) (a b c d N' C' Y1 Y2 k1 k2 s1 s2 pb1 pb2 pe1 pe2 : Int)
    (hT : sn.m_NewOutSizes = [N', C', Y1, Y2])
    (hk : sn.m_KShape = [k1, k2]) (hs : sn.m_Stride = [s1, s2])
    (hpb : sn.m_PadBegin = [pb1, pb2]) (hpe : sn.m_PadEnd = [pe1, pe2])
    (hf1 : SplitPool.fits Y1 s1 pb1 pe1 k1 = true)
    (hf2 : SplitPool.fits Y2 s2 pb2 pe2 k2 = true) :
    (List.range 2).foldlM (SplitPool.axisStep sn) [a, b, c, d]
      = some [a, b, Y1 * s1 - pb1 - pe1 + 2 * (k1.tdiv 2),
              Y2 * s2 - pb2 - pe2 + 2 * (k2.tdiv 2)] := by
  have hr : List.range 2 = [0, 1] := rfl
  simp [hr, SplitPool.axisStep, hT, hk, hs, hpb, hpe, setAt, pool_extent_eq hf1, pool_extent_eq hf2]

/-- C3. For a MaxPool node with a four-dimensional input, kernel `k`, strides
`s`, pads `pb`/`pe` and an output tile `(N', C', Y1', Y2')`:
`calNewInputSize(0)` is `(N', C', X1', X2')` with
`Xi' = Yi'*si - pbi - pei + 2*(ki/2)` when the evaluation of the two
expressions in `int64_t` meets no signed overflow, the division being the
integer division of C++; the first two axes are those of the tile.  For
`k = 3`, `s = 2`, `p = 1` the spatial extents are `2*Y1'` and `2*Y2'`. -/
theorem pool_calNewInputSize (g : Graph) (pN : NodeId) (nd : Node) (sn : SplitNode)
    (N C X1 X2 N' C' Y1' Y2' k1 k2 s1 s2 pb1 pb2 pe1 pe2 : Int)
    (hnd : g.node? pN = some nd) (hsn : SplitPool g pN = some sn)
    (hk : nd.attrs.kernel_shape = [k1, k2]) (hs : nd.attrs.strides = [s1, s2])
    (hpb : nd.attrs.padBegin = [pb1, pb2]) (hpe : nd.attrs.padEnd = [pe1, pe2])
    (hX : g.inputSizes pN 0 = some [N, C, X1, X2])
    (hf1 : SplitPool.fits Y1' s1 pb1 pe1 k1 = true)
    (hf2 : SplitPool.fits Y2' s2 pb2 pe2 k2 = true) :
    (sn.useNewOutSize [N', C', Y1', Y2']).1.calNewInputSize g 0
        = some [N', C', Y1' * s1 - pb1 - pe1 + 2 * (k1.tdiv 2),
                Y2' * s2 - pb2 - pe2 + 2 * (k2.tdiv 2)] ∧
    (nd.attrs = windowAttrs 3 2 1 →
      (sn.useNewOutSize [N', C', Y1', Y2']).1.calNewInputSize g 0
        = some [N', C', 2 * Y1', 2 * Y2']) := by
  obtain ⟨hv, hm, hK, hS, hPB, hPE⟩ := SplitPool_fields hnd hsn
  have hloop := pool_axisLoop (sn.useNewOutSize [N', C', Y1', Y2']).1 N' C' 0 0 N' C' Y1' Y2'
    k1 k2 s1 s2 pb1 pb2 pe1 pe2 rfl (by simp [SplitNode.useNewOutSize, hK, hk])
    (by simp [SplitNode.useNewOutSize, hS, hs]) (by simp [SplitNode.useNewOutSize, hPB, hpb])
    (by simp [SplitNode.useNewOutSize, hPE, hpe]) hf1 hf2
  have main : (sn.useNewOutSize [N', C', Y1', Y2']).1.calNewInputSize g 0
        = some [N', C', Y1' * s1 - pb1 - pe1 + 2 * (k1.tdiv 2),
                Y2' * s2 - pb2 - pe2 + 2 * (k2.tdiv 2)] := by
    simp only [SplitNode.calNewInputSize, SplitNode.useNewOutSize, hv,
      SplitPool.calNewInputSize, hm, hX]
    simpa [setAt, SplitNode.useNewOutSize] using hloop
  refine ⟨main, ?_⟩
  intro hw
  rw [hw] at hk hs hpb hpe
  simp only [windowAttrs, Attributes.empty, List.cons.injEq, and_true] at hk hs hpb hpe
  obtain ⟨rfl, rfl⟩ := hk
  obtain ⟨rfl, rfl⟩ := hs
  obtain ⟨rfl, rfl⟩ := hpb
  obtain ⟨rfl, rfl⟩ := hpe
  rw [main]
  have h3 : (3 : Int).tdiv 2 = 1 := by decide
  simp only [h3, Option.some.injEq, List.cons.injEq, and_true, true_and]
  constructor <;> ring

/-- Witness of C3: MaxPool(k=3, s=2, p=1) with the output tile
`(10, 96, 14, 14)` needs the input tile `(10, 96, 28, 28)`. -/
theorem pool_calNewInputSize_witness :
    SplitPool (poolGraph 3 2 1 56 28) 1 = some (poolSplitNode 3 2 1 28) ∧
      ((poolSplitNode 3 2 1 28).useNewOutSize [10, 96, 14, 14]).1.calNewInputSize
        (poolGraph 3 2 1 56 28) 0 = some [10, 96, 2 * 14, 2 * 14] :=
  ⟨rfl, (pool_calNewInputSize (poolGraph 3 2 1 56 28) 1 _ (poolSplitNode 3 2 1 28)
    10 96 56 56 10 96 14 14 3 3 2 2 1 1 1 1 rfl rfl rfl rfl rfl rfl rfl (by decide)
    (by decide)).2 rfl⟩

/-- A split node built by `SplitReshape` has the reshape class, the node it was
built for, and its original and proposed output sizes are those of the node's
first output. -/
theorem SplitReshape_fields {g : Graph} {pN : NodeId} {sn : SplitNode}
    (hsn : SplitReshape g pN = some sn) :
    sn.variant = SplitVariant.SplitReshape ∧ sn.m_Node = pN ∧
    sn.m_NewOutSizes = sn.m_OutSizes := by
  unfold SplitReshape SplitNode.new at hsn
  cases hnd : g.node? pN with
  | none => simp [hnd] at hsn
  | some nd =>
    cases hout : GetOutputValueSizes g nd with
    | none => simp [hnd, hout] at hsn
    | some out =>
      simp only [hnd, hout, Option.bind_eq_bind, Option.some_bind, Option.pure_def,
        Option.some.injEq] at hsn
      subst hsn; simp

/-- For a Reshape node with original output `(N, L)`
and an output tile `(N', L')` with `L' < L`, `calNewInputSize(0)` yields no
shape: the loop accumulates the tile into `origCHWSize` and the original
output into `newCHWSize`, and the assertion `origCHWSize >= newCHWSize`
fails. -/
theorem reshape_calNewInputSize_smaller_tile (g : Graph) (sn : SplitNode) (N L N' L' : Int)
    (hv : sn.variant = SplitVariant.SplitReshape) (hO : sn.m_OutSizes = [N, L])
    (hlt : L' < L) :
    (sn.useNewOutSize [N', L']).1.calNewInputSize g 0 = none := by
  simp only [SplitNode.calNewInputSize, SplitNode.useNewOutSize, hv,
    SplitReshape.calNewInputSize, hO]
  cases hin : g.inputSizes sn.m_Node 0 with
  | none => simp
  | some origSizes =>
    cases hset : setAt (List.replicate origSizes.length 0) 0 N' with
    | none => simp [hset]
    | some newIS =>
      have hr : List.range' 1 1 = [1] := rfl
      cases h1 : inInt64 L' with
      | false => simp [hset, hr, SplitReshape.sizeStep, hO, int64_of_not_fits h1]
      | true =>
        cases h2 : inInt64 L with
        | false =>
          simp [hset, hr, SplitReshape.sizeStep, hO, int64_of_fits h1, int64_of_not_fits h2]
        | true =>
          simp [hset, hr, SplitReshape.sizeStep, hO, int64_of_fits h1, int64_of_fits h2, hlt]

/-- C4 at the failing input: the Reshape `(10, 256, 6, 6)` to `(10, 9216)`
with the tile `(10, 4608)`, for which the claim gives `(10, 128, 6, 6)`. -/
theorem reshape_calNewInputSize_half_tile :
    SplitReshape reshapeGraph 1 = some reshapeSplitNode ∧
      (reshapeSplitNode.useNewOutSize [10, 4608]).1.calNewInputSize reshapeGraph 0 = none ∧
      (reshapeSplitNode.useNewOutSize [10, 9216]).1.calNewInputSize reshapeGraph 0
        = some [10, 256, 6, 6] :=
  ⟨rfl, reshape_calNewInputSize_smaller_tile reshapeGraph _ 10 9216 10 4608 rfl rfl
    (by decide), by decide⟩

/-- The input extent that the convolution recurrence yields for the whole
output extent of an input `X` is `X` less the remainder of the division of
`X - k + pb + pe` by the stride. -/
theorem conv_extent_of_output (X k pb pe s : Int) :
    (outputExtent X k pb pe s - 1) * s - pb - pe + k = X - (X - k + pb + pe).tmod s := by
  have h := Int.tdiv_add_tmod' (X - k + pb + pe) s
  unfold outputExtent
  linarith

/-- The input extent that the pooling recurrence yields for the whole output
extent of an input `X`. -/
theorem pool_extent_of_output (X k pb pe s : Int) :
    outputExtent X k pb pe s * s - pb - pe + 2 * (k.tdiv 2)
      = X + s - (X - k + pb + pe).tmod s - k.tmod 2 := by
  have h := Int.tdiv_add_tmod' (X - k + pb + pe) s
  have hk := Int.tdiv_add_tmod k 2
  unfold outputExtent
  linarith

/-- The convolution recurrence is monotone in the output extent and stays
within the input when the kernel fits in the padded input. -/
theorem conv_extent_le (X k pb pe s Y' : Int) (hs : 1 ≤ s) (hfit : k ≤ X + pb + pe)
    (hY : Y' ≤ outputExtent X k pb pe s) :
    (Y' - 1) * s - pb - pe + k ≤ X := by
  have h1 : (Y' - 1) * s ≤ (outputExtent X k pb pe s - 1) * s :=
    mul_le_mul_of_nonneg_right (by linarith) (by linarith)
  have h2 := conv_extent_of_output X k pb pe s
  have h3 : 0 ≤ (X - k + pb + pe).tmod s := Int.tmod_nonneg s (by linarith)
  linarith

/-- C5 (amended). For a Conv node with strides `si >= 1` whose kernel fits in
the padded input (`ki <= Xi + pbi + pei`) and whose original output extents
are those of the convolution of its input, and for a tile with `Yi' <= Yi` on
each spatial axis for which the evaluation of the recurrence in `int64_t`
meets no signed overflow: each spatial extent of `calNewInputSize(0)` is at
most the original extent `Xi` of input 0. -/
theorem conv_tile_within_input (g : Graph) (pN : NodeId) (nd : Node) (sn : SplitNode)
    (N C X1 X2 No M Y1 Y2 N' M' Y1' Y2' k1 k2 s1 s2 pb1 pb2 pe1 pe2 : Int)
    (hnd : g.node? pN = some nd) (hsn : SplitConv g pN = some sn)
    (hk : nd.attrs.kernel_shape = [k1, k2]) (hs : nd.attrs.strides = [s1, s2])
    (hpb : nd.attrs.padBegin = [pb1, pb2]) (hpe : nd.attrs.padEnd = [pe1, pe2])
    (hX : g.inputSizes pN 0 = some [N, C, X1, X2])
    (_hO : sn.m_OutSizes = [No, M, Y1, Y2])
    (hY1 : Y1 = outputExtent X1 k1 pb1 pe1 s1) (hY2 : Y2 = outputExtent X2 k2 pb2 pe2 s2)
    (hs1 : 1 ≤ s1) (hs2 : 1 ≤ s2)
    (hfit1 : k1 ≤ X1 + pb1 + pe1) (hfit2 : k2 ≤ X2 + pb2 + pe2)
    (_h1 : 1 ≤ Y1') (h1' : Y1' ≤ Y1) (_h2 : 1 ≤ Y2') (h2' : Y2' ≤ Y2)
    (hf1 : SplitConv.fits Y1' s1 pb1 pe1 k1 = true)
    (hf2 : SplitConv.fits Y2' s2 pb2 pe2 k2 = true) :
    (sn.useNewOutSize [N', M', Y1', Y2']).1.calNewInputSize g 0
        = some [N', C, (Y1' - 1) * s1 - pb1 - pe1 + k1, (Y2' - 1) * s2 - pb2 - pe2 + k2] ∧
    (Y1' - 1) * s1 - pb1 - pe1 + k1 ≤ X1 ∧ (Y2' - 1) * s2 - pb2 - pe2 + k2 ≤ X2 := by
  obtain ⟨hv, hm, hK, hS, hPB, hPE⟩ := SplitConv_fields hnd hsn
  have hloop := conv_axisLoop (sn.useNewOutSize [N', M', Y1', Y2']).1 N' C 0 0 N' M' Y1' Y2'
    k1 k2 s1 s2 pb1 pb2 pe1 pe2 rfl (by simp [SplitNode.useNewOutSize, hK, hk])
    (by simp [SplitNode.useNewOutSize, hS, hs]) (by simp [SplitNode.useNewOutSize, hPB, hpb])
    (by simp [SplitNode.useNewOutSize, hPE, hpe]) hf1 hf2
  refine ⟨?_, conv_extent_le X1 k1 pb1 pe1 s1 Y1' hs1 hfit1 (hY1 ▸ h1'),
    conv_extent_le X2 k2 pb2 pe2 s2 Y2' hs2 hfit2 (hY2 ▸ h2')⟩
  simp only [SplitNode.calNewInputSize, SplitNode.useNewOutSize, hv,
    SplitConv.calNewInputSize, hm, hX]
  simpa [setAt, SplitNode.useNewOutSize] using hloop

/-- Witness of C5 (amended): Conv(k=3, s=2, p=1) on a 224 by 224 input with
output 112 by 112 and the tile `(1, 8, 56, 56)`. -/
theorem conv_tile_within_input_witness :
    SplitConv (convGraphOf 3 2 1 224 112) 1 = some (convSplitNodeOf 3 2 1 112) ∧
      ((convSplitNodeOf 3 2 1 112).useNewOutSize [1, 8, 56, 56]).1.calNewInputSize
        (convGraphOf 3 2 1 224 112) 0
        = some [1, 3, (56 - 1) * 2 - 1 - 1 + 3, (56 - 1) * 2 - 1 - 1 + 3] ∧
      ((56 : Int) - 1) * 2 - 1 - 1 + 3 ≤ 224 ∧ ((56 : Int) - 1) * 2 - 1 - 1 + 3 ≤ 224 :=
  ⟨rfl, conv_tile_within_input (convGraphOf 3 2 1 224 112) 1 _ (convSplitNodeOf 3 2 1 112)
    1 3 224 224 1 8 112 112 1 8 56 56 3 3 2 2 1 1 1 1 rfl rfl rfl rfl rfl rfl rfl rfl
    (by decide) (by decide) (by decide) (by decide) (by decide) (by decide)
    (by decide) (by decide) (by decide) (by decide) (by decide) (by decide)⟩

/-- Counterexample to C5 as stated: Conv(k=4, s=2, p=0) on a 3 by 3 input.
Its output extent is `(3 - 4)/2 + 1 = 1`; for the tile equal to that output,
`1 <= 1 <= 1`, `calNewInputSize(0)` has spatial extent `4`, more than `3`. -/
theorem conv_tile_exceeds_input :
    SplitConv (convGraphOf 4 2 0 3 1) 1 = some (convSplitNodeOf 4 2 0 1) ∧
      outputExtent 3 4 0 0 2 = 1 ∧
      ((convSplitNodeOf 4 2 0 1).useNewOutSize [1, 8, 1, 1]).1.calNewInputSize
        (convGraphOf 4 2 0 3 1) 0 = some [1, 3, 4, 4] ∧
      ¬ ((4 : Int) ≤ 3) := by
  refine ⟨rfl, by decide, by decide, by decide⟩

/-- C6 (amended). For a Conv node whose original output extents are those of
the convolution of its input, if the tile equals the original output shape
then `calNewInputSize(0)` is `(N, C, X1 - r1, X2 - r2)` where `ri` is the
remainder of the division of `Xi - ki + pbi + pei` by the stride `si`, when
the evaluation of the recurrence in `int64_t` meets no signed overflow; it
equals the original sizes of input 0 when each stride divides without
remainder. -/
theorem conv_identity_tile (g : Graph) (pN : NodeId) (nd : Node) (sn : SplitNode)
    (N C X1 X2 M Y1 Y2 k1 k2 s1 s2 pb1 pb2 pe1 pe2 : Int)
    (hnd : g.node? pN = some nd) (hsn : SplitConv g pN = some sn)
    (hk : nd.attrs.kernel_shape = [k1, k2]) (hs : nd.attrs.strides = [s1, s2])
    (hpb : nd.attrs.padBegin = [pb1, pb2]) (hpe : nd.attrs.padEnd = [pe1, pe2])
    (hX : g.inputSizes pN 0 = some [N, C, X1, X2])
    (hO : sn.m_OutSizes = [N, M, Y1, Y2])
    (hY1 : Y1 = outputExtent X1 k1 pb1 pe1 s1) (hY2 : Y2 = outputExtent X2 k2 pb2 pe2 s2)
    (hf1 : SplitConv.fits Y1 s1 pb1 pe1 k1 = true)
    (hf2 : SplitConv.fits Y2 s2 pb2 pe2 k2 = true) :
    (sn.useNewOutSize sn.m_OutSizes).1.calNewInputSize g 0
        = some [N, C, X1 - (X1 - k1 + pb1 + pe1).tmod s1, X2 - (X2 - k2 + pb2 + pe2).tmod s2] ∧
    ((X1 - k1 + pb1 + pe1).tmod s1 = 0 → (X2 - k2 + pb2 + pe2).tmod s2 = 0 →
      (sn.useNewOutSize sn.m_OutSizes).1.calNewInputSize g 0 = g.inputSizes pN 0) := by
  obtain ⟨hv, hm, hK, hS, hPB, hPE⟩ := SplitConv_fields hnd hsn
  have hloop := conv_axisLoop (sn.useNewOutSize [N, M, Y1, Y2]).1 N C 0 0 N M Y1 Y2
    k1 k2 s1 s2 pb1 pb2 pe1 pe2 rfl (by simp [SplitNode.useNewOutSize, hK, hk])
    (by simp [SplitNode.useNewOutSize, hS, hs]) (by simp [SplitNode.useNewOutSize, hPB, hpb])
    (by simp [SplitNode.useNewOutSize, hPE, hpe]) hf1 hf2
  have h0 : (sn.useNewOutSize sn.m_OutSizes).1.calNewInputSize g 0
      = some [N, C, X1 - (X1 - k1 + pb1 + pe1).tmod s1,
              X2 - (X2 - k2 + pb2 + pe2).tmod s2] := by
    rw [hO, ← conv_extent_of_output X1 k1 pb1 pe1 s1, ← conv_extent_of_output X2 k2 pb2 pe2 s2,
      ← hY1, ← hY2]
    simp only [SplitNode.calNewInputSize, SplitNode.useNewOutSize, hv,
      SplitConv.calNewInputSize, hm, hX]
    simpa [setAt, SplitNode.useNewOutSize] using hloop
  refine ⟨h0, ?_⟩
  intro hr1 hr2
  rw [h0, hX, hr1, hr2]
  simp

/-- Witness of C6 (amended): Conv(k=3, s=1, p=1) on a 224 by 224 input, whose
output is 224 by 224; the identity tile needs the whole input. -/
theorem conv_identity_tile_witness :
    SplitConv (convGraphOf 3 1 1 224 224) 1 = some (convSplitNodeOf 3 1 1 224) ∧
      ((convSplitNodeOf 3 1 1 224).useNewOutSize
          (convSplitNodeOf 3 1 1 224).m_OutSizes).1.calNewInputSize
        (convGraphOf 3 1 1 224 224) 0 = (convGraphOf 3 1 1 224 224).inputSizes 1 0 :=
  ⟨rfl, (conv_identity_tile (convGraphOf 3 1 1 224 224) 1 _ (convSplitNodeOf 3 1 1 224)
    1 3 224 224 8 224 224 3 3 1 1 1 1 1 1 rfl rfl rfl rfl rfl rfl rfl rfl
    (by decide) (by decide) (by decide) (by decide)).2 (by decide) (by decide)⟩

/-- Counterexample to C6 as stated: Conv(k=3, s=2, p=1) on a 224 by 224 input.
Its output extent is `(224 - 3 + 1 + 1)/2 + 1 = 112`; for the tile equal to
the original output, `calNewInputSize(0)` is `(1, 3, 223, 223)`, not the
original `(1, 3, 224, 224)`. -/
theorem conv_identity_tile_differs :
    SplitConv (convGraphOf 3 2 1 224 112) 1 = some (convSplitNodeOf 3 2 1 112) ∧
      outputExtent 224 3 1 1 2 = 112 ∧
      (convSplitNodeOf 3 2 1 112).m_OutSizes = [1, 8, 112, 112] ∧
      (convGraphOf 3 2 1 224 112).inputSizes 1 0 = some [1, 3, 224, 224] ∧
      ((convSplitNodeOf 3 2 1 112).useNewOutSize [1, 8, 112, 112]).1.calNewInputSize
        (convGraphOf 3 2 1 224 112) 0 = some [1, 3, 223, 223] ∧
      ((convSplitNodeOf 3 2 1 112).useNewOutSize [1, 8, 112, 112]).1.calNewInputSize
        (convGraphOf 3 2 1 224 112) 0 ≠ (convGraphOf 3 2 1 224 112).inputSizes 1 0 := by
  refine ⟨rfl, by decide, rfl, rfl, by decide, by decide⟩

/-- C7 (amended). For a MaxPool node whose original output extents are those
of the pooling of its input, if the tile equals the original output shape
then `calNewInputSize(0)` is `(N, C, X1 + d1, X2 + d2)` where
`di = si - ri - (ki mod 2)` and `ri` is the remainder of the division of
`Xi - ki + pbi + pei` by the stride `si`, when the evaluation of the
recurrence in `int64_t` meets no signed overflow; it equals the original sizes
of the input when `ri + (ki mod 2) = si` on each axis. -/
theorem pool_identity_tile (g : Graph) (pN : NodeId) (nd : Node) (sn : SplitNode)
    (N C X1 X2 Y1 Y2 k1 k2 s1 s2 pb1 pb2 pe1 pe2 : Int)
    (hnd : g.node? pN = some nd) (hsn : SplitPool g pN = some sn)
    (hk : nd.attrs.kernel_shape = [k1, k2]) (hs : nd.attrs.strides = [s1, s2])
    (hpb : nd.attrs.padBegin = [pb1, pb2]) (hpe : nd.attrs.padEnd = [pe1, pe2])
    (hX : g.inputSizes pN 0 = some [N, C, X1, X2])
    (hO : sn.m_OutSizes = [N, C, Y1, Y2])
    (hY1 : Y1 = outputExtent X1 k1 pb1 pe1 s1) (hY2 : Y2 = outputExtent X2 k2 pb2 pe2 s2)
    (hf1 : SplitPool.fits Y1 s1 pb1 pe1 k1 = true)
    (hf2 : SplitPool.fits Y2 s2 pb2 pe2 k2 = true) :
    (sn.useNewOutSize sn.m_OutSizes).1.calNewInputSize g 0
        = some [N, C, X1 + (s1 - (X1 - k1 + pb1 + pe1).tmod s1 - k1.tmod 2),
                X2 + (s2 - (X2 - k2 + pb2 + pe2).tmod s2 - k2.tmod 2)] ∧
    ((X1 - k1 + pb1 + pe1).tmod s1 + k1.tmod 2 = s1 →
      (X2 - k2 + pb2 + pe2).tmod s2 + k2.tmod 2 = s2 →
      (sn.useNewOutSize sn.m_OutSizes).1.calNewInputSize g 0 = g.inputSizes pN 0) := by
  obtain ⟨hv, hm, hK, hS, hPB, hPE⟩ := SplitPool_fields hnd hsn
  have hloop := pool_axisLoop (sn.useNewOutSize [N, C, Y1, Y2]).1 N C 0 0 N C Y1 Y2
    k1 k2 s1 s2 pb1 pb2 pe1 pe2 rfl (by simp [SplitNode.useNewOutSize, hK, hk])
    (by simp [SplitNode.useNewOutSize, hS, hs]) (by simp [SplitNode.useNewOutSize, hPB, hpb])
    (by simp [SplitNode.useNewOutSize, hPE, hpe]) hf1 hf2
  have e1 : X1 + (s1 - (X1 - k1 + pb1 + pe1).tmod s1 - k1.tmod 2)
      = Y1 * s1 - pb1 - pe1 + 2 * (k1.tdiv 2) := by
    rw [hY1, pool_extent_of_output]; ring
  have e2 : X2 + (s2 - (X2 - k2 + pb2 + pe2).tmod s2 - k2.tmod 2)
      = Y2 * s2 - pb2 - pe2 + 2 * (k2.tdiv 2) := by
    rw [hY2, pool_extent_of_output]; ring
  have h0 : (sn.useNewOutSize sn.m_OutSizes).1.calNewInputSize g 0
      = some [N, C, X1 + (s1 - (X1 - k1 + pb1 + pe1).tmod s1 - k1.tmod 2),
              X2 + (s2 - (X2 - k2 + pb2 + pe2).tmod s2 - k2.tmod 2)] := by
    rw [hO, e1, e2]
    simp only [SplitNode.calNewInputSize, SplitNode.useNewOutSize, hv,
      SplitPool.calNewInputSize, hm, hX]
    simpa [setAt, SplitNode.useNewOutSize] using hloop
  refine ⟨h0, ?_⟩
  intro hr1 hr2
  have z1 : s1 - (X1 - k1 + pb1 + pe1).tmod s1 - k1.tmod 2 = 0 := by linarith
  have z2 : s2 - (X2 - k2 + pb2 + pe2).tmod s2 - k2.tmod 2 = 0 := by linarith
  rw [h0, hX, z1, z2]
  simp

/-- Witness of C7 (amended): MaxPool(k=3, s=2, p=1) on a 224 by 224 input,
whose output is 112 by 112; the identity tile needs the whole input. -/
theorem pool_identity_tile_witness :
    SplitPool (poolGraph 3 2 1 224 112) 1 = some (poolSplitNode 3 2 1 112) ∧
      ((poolSplitNode 3 2 1 112).useNewOutSize
          (poolSplitNode 3 2 1 112).m_OutSizes).1.calNewInputSize
        (poolGraph 3 2 1 224 112) 0 = (poolGraph 3 2 1 224 112).inputSizes 1 0 :=
  ⟨rfl, (pool_identity_tile (poolGraph 3 2 1 224 112) 1 _ (poolSplitNode 3 2 1 112)
    10 96 224 224 112 112 3 3 2 2 1 1 1 1 rfl rfl rfl rfl rfl rfl rfl rfl
    (by decide) (by decide) (by decide) (by decide)).2 (by decide) (by decide)⟩

/-- Counterexample to C7 as stated: MaxPool(k=3, s=2, p=0) on a 55 by 55
input.  Its output extent is `(55 - 3)/2 + 1 = 27`; for the tile equal to the
original output, `calNewInputSize(0)` is `(10, 96, 56, 56)`, not the original
`(10, 96, 55, 55)`. -/
theorem pool_identity_tile_differs :
    SplitPool (poolGraph 3 2 0 55 27) 1 = some (poolSplitNode 3 2 0 27) ∧
      outputExtent 55 3 0 0 2 = 27 ∧
      (poolSplitNode 3 2 0 27).m_OutSizes = [10, 96, 27, 27] ∧
      (poolGraph 3 2 0 55 27).inputSizes 1 0 = some [10, 96, 55, 55] ∧
      ((poolSplitNode 3 2 0 27).useNewOutSize [10, 96, 27, 27]).1.calNewInputSize
        (poolGraph 3 2 0 55 27) 0 = some [10, 96, 56, 56] ∧
      ((poolSplitNode 3 2 0 27).useNewOutSize [10, 96, 27, 27]).1.calNewInputSize
        (poolGraph 3 2 0 55 27) 0 ≠ (poolGraph 3 2 0 55 27).inputSizes 1 0 := by
  refine ⟨rfl, by decide, rfl, rfl, by decide, by decide⟩

/-! ## Properties of the factory -/

/-- C8. The factory is a decision function of the node, tested in this order:
if `OutputSizeIsInputSize` holds it yields the default class with
`skipWhenCalMemSize() = false`; else for Load and Store the default class
with `skipWhenCalMemSize() = true`; else Conv yields `SplitConv`, MaxPool
`SplitPool`, Gemm `SplitGemm`, Reshape `SplitReshape`; for every other kind
no split node is produced. -/
theorem SplitNodeCreator_decision (T : Target) (g : Graph) (pN : NodeId) (nd : Node)
    (out : LongInts) (hnd : g.node? pN = some nd)
    (hout : GetOutputValueSizes g nd = some out) :
    (T.OutputSizeIsInputSize g pN = true →
      ∃ sn, SplitNodeCreator T g pN = some sn ∧ sn.variant = SplitVariant.SplitNode ∧
        sn.skipWhenCalMemSize = false ∧ sn.m_Node = pN ∧
        sn.m_OutSizes = out ∧ sn.m_NewOutSizes = out) ∧
    (T.OutputSizeIsInputSize g pN = false →
      (nd.kind = Kind.Load ∨ nd.kind = Kind.Store →
        ∃ sn, SplitNodeCreator T g pN = some sn ∧ sn.variant = SplitVariant.SplitNode ∧
          sn.skipWhenCalMemSize = true ∧ sn.m_Node = pN ∧
          sn.m_OutSizes = out ∧ sn.m_NewOutSizes = out) ∧
      (nd.kind = Kind.kConv →
        ∃ sn, SplitNodeCreator T g pN = some sn ∧ sn.variant = SplitVariant.SplitConv ∧
          sn.skipWhenCalMemSize = false ∧ sn.m_Node = pN ∧
          sn.m_OutSizes = out ∧ sn.m_NewOutSizes = out) ∧
      (nd.kind = Kind.MaxPool →
        ∃ sn, SplitNodeCreator T g pN = some sn ∧ sn.variant = SplitVariant.SplitPool ∧
          sn.skipWhenCalMemSize = false ∧ sn.m_Node = pN ∧
          sn.m_OutSizes = out ∧ sn.m_NewOutSizes = out) ∧
      (nd.kind = Kind.kGemm →
        ∃ sn, SplitNodeCreator T g pN = some sn ∧ sn.variant = SplitVariant.SplitGemm ∧
          sn.skipWhenCalMemSize = false ∧ sn.m_Node = pN ∧
          sn.m_OutSizes = out ∧ sn.m_NewOutSizes = out) ∧
      (nd.kind = Kind.kReshape →
        ∃ sn, SplitNodeCreator T g pN = some sn ∧ sn.variant = SplitVariant.SplitReshape ∧
          sn.skipWhenCalMemSize = false ∧ sn.m_Node = pN ∧
          sn.m_OutSizes = out ∧ sn.m_NewOutSizes = out) ∧
      (nd.kind ≠ Kind.Load → nd.kind ≠ Kind.Store → nd.kind ≠ Kind.kConv →
        nd.kind ≠ Kind.MaxPool → nd.kind ≠ Kind.kGemm → nd.kind ≠ Kind.kReshape →
        SplitNodeCreator T g pN = none)) := by
  refine ⟨fun hP => ?_, fun hP => ⟨?_, ?_, ?_, ?_, ?_, ?_⟩⟩
  · simp [SplitNodeCreator, hnd, hP, SplitNode.new, hout, SplitNode.skipWhenCalMemSize]
  · rintro (h | h) <;>
      simp [SplitNodeCreator, hnd, hP, SplitNode.new, hout, SplitNode.skipWhenCalMemSize,
        IsType, h]
  · intro h
    simp [SplitNodeCreator, hnd, hP, SplitNode.new, hout, SplitNode.skipWhenCalMemSize,
      IsType, h, SplitConv]
  · intro h
    simp [SplitNodeCreator, hnd, hP, SplitNode.new, hout, SplitNode.skipWhenCalMemSize,
      IsType, h, SplitPool]
  · intro h
    simp [SplitNodeCreator, hnd, hP, SplitNode.new, hout, SplitNode.skipWhenCalMemSize,
      IsType, h, SplitGemm]
  · intro h
    simp [SplitNodeCreator, hnd, hP, SplitNode.new, hout, SplitNode.skipWhenCalMemSize,
      IsType, h, SplitReshape]
  · intro h1 h2 h3 h4 h5 h6
    simp [SplitNodeCreator, hnd, hP, IsType, h1, h2, h3, h4, h5, h6]

/-- Witness of C8: for a target whose predicate holds of no node, the factory
yields a `SplitConv` for the Conv node of `convGraph` and nothing for its
return node. -/
theorem SplitNodeCreator_decision_witness :
    (SplitNodeCreator plainTarget convGraph 1).map SplitNode.variant
        = some SplitVariant.SplitConv ∧
      SplitNodeCreator plainTarget convGraph 2 = none := by
  refine ⟨?_, ?_⟩
  · obtain ⟨sn, h, hv, -⟩ :=
      ((SplitNodeCreator_decision plainTarget convGraph 1 _ [10, 64, 224, 224] rfl rfl).2
        rfl).2.1 rfl
    rw [h]; simp [hv]
  · exact ((SplitNodeCreator_decision plainTarget convGraph 2 _ [] rfl rfl).2
      rfl).2.2.2.2.2 (by decide) (by decide) (by decide) (by decide) (by decide) (by decide)

/-! ## Properties of the split-graph manager -/

/-- One step of `rebuildSplitNodes` keeps the graph handle and the allocation
status. -/
theorem rebuildStep_frame {T : Target} {g : Graph} {sg sg' : SplitGraph} {n : NodeId}
    (h : SplitGraph.rebuildStep T g sg n = some sg') :
    sg'.m_Graph = sg.m_Graph ∧ sg'.m_AllocSuccess = sg.m_AllocSuccess ∧
    sg'.m_AllocSize = sg.m_AllocSize := by
  unfold SplitGraph.rebuildStep at h
  cases hnd : g.node? n with
  | none => simp [hnd] at h
  | some nd =>
    simp only [hnd, Option.bind_eq_bind, Option.some_bind, Option.pure_def] at h
    split at h
    · cases h; exact ⟨rfl, rfl, rfl⟩
    · cases hsn : SplitNodeCreator T g n with
      | none => simp [hsn] at h
      | some sn =>
        simp only [hsn, Option.some_bind] at h
        split at h <;> (cases h; exact ⟨rfl, rfl, rfl⟩)

/-- The loop of `rebuildSplitNodes` keeps the graph handle and the allocation
status. -/
theorem rebuildLoop_frame {T : Target} {g : Graph} (l : List NodeId) :
    ∀ {sg sg' : SplitGraph}, l.foldlM (SplitGraph.rebuildStep T g) sg = some sg' →
      sg'.m_Graph = sg.m_Graph ∧ sg'.m_AllocSuccess = sg.m_AllocSuccess ∧
      sg'.m_AllocSize = sg.m_AllocSize := by
  induction l with
  | nil => intro sg sg' h; simp at h; subst h; exact ⟨rfl, rfl, rfl⟩
  | cons n l ih =>
    intro sg sg' h
    rw [List.foldlM_cons] at h
    cases hstep : SplitGraph.rebuildStep T g sg n with
    | none => simp [hstep] at h
    | some sg1 =>
      simp only [hstep, Option.bind_eq_bind, Option.some_bind] at h
      obtain ⟨h1, h2, h3⟩ := ih h
      obtain ⟨k1, k2, k3⟩ := rebuildStep_frame hstep
      exact ⟨h1.trans k1, h2.trans k2, h3.trans k3⟩

/-- Method `rebuildSplitNodes` keeps the graph handle of the split graph. -/
theorem rebuildSplitNodes_m_Graph {T : Target} {g : Graph} {sg sg' : SplitGraph}
    (h : sg.rebuildSplitNodes T g = some sg') : sg'.m_Graph = sg.m_Graph :=
  (rebuildLoop_frame g.order h).1

/-- The state after a successful `splitNewSubGraph`, read off the model. -/
theorem splitNewSubGraph_eq (T : Target) (H : HashOrder) (m : SplitGraphManager)
    (pSpGraph : Nat) (sg : SplitGraph) (g : Graph) (splitPts : List NodeId)
    (hsg : m.m_SubGraphs[pSpGraph]? = some sg) (hg : m.graphs[sg.m_Graph]? = some g)
    (hpts : findHalfSizeSplitPoints T H g = some splitPts) :
    m.splitNewSubGraph T H pSpGraph =
      if splitPts.isEmpty then some (none, m)
      else (SplitSubGraph H g m.graphs.length splitPts).bind fun r =>
        (sg.rebuildSplitNodes T r.1).bind fun sg1 =>
          (SplitGraph.new T r.2 m.graphs.length).bind fun nsg =>
            some (some m.m_SubGraphs.length,
              { graphs := m.graphs.set sg.m_Graph r.1 ++ [r.2],
                m_SubGraphs := m.m_SubGraphs.set pSpGraph sg1 ++ [nsg] }) := by
  unfold SplitGraphManager.splitNewSubGraph
  simp only [hsg, hg, hpts, Option.bind_eq_bind, Option.some_bind, Option.pure_def]

/-- C10. If the finder finds no split point for the graph of a split graph,
`splitNewSubGraph` returns null and leaves the whole state as it was: the
graph object (node list and order, the inputs, outputs and attributes of
every node, the uses and names of every value) and the parent's split nodes,
Store list and split axis and factor arrays. -/
theorem splitNewSubGraph_no_split_point (T : Target) (H : HashOrder) (m : SplitGraphManager)
    (pSpGraph : Nat) (sg : SplitGraph) (g : Graph)
    (hsg : m.m_SubGraphs[pSpGraph]? = some sg) (hg : m.graphs[sg.m_Graph]? = some g)
    (hpts : findHalfSizeSplitPoints T H g = some []) :
    m.splitNewSubGraph T H pSpGraph = some (none, m) ∧
    ∀ r m', m.splitNewSubGraph T H pSpGraph = some (r, m') →
      r = none ∧ m'.graphs = m.graphs ∧ m'.graphs[sg.m_Graph]? = some g ∧
      m'.m_SubGraphs = m.m_SubGraphs ∧ m'.m_SubGraphs[pSpGraph]? = some sg := by
  have heq : m.splitNewSubGraph T H pSpGraph = some (none, m) := by
    rw [splitNewSubGraph_eq T H m pSpGraph sg g [] hsg hg hpts]; rfl
  refine ⟨heq, ?_⟩
  intro r m' h
  rw [heq] at h
  simp only [Option.some.injEq, Prod.mk.injEq] at h
  obtain ⟨hr, hm⟩ := h
  subst hm
  exact ⟨hr.symm, rfl, hg, rfl, hsg⟩

/-- Witness of C10: on the graph Load, `a` of one counted node the finder
finds no split point, and the call returns null and leaves the manager as it
was. -/
theorem splitNewSubGraph_no_split_point_witness :
    findHalfSizeSplitPoints exampleTarget insertionOrder singleGraph = some [] ∧
      singleManager.splitNewSubGraph exampleTarget insertionOrder 0
        = some (none, singleManager) :=
  ⟨by decide,
    (splitNewSubGraph_no_split_point exampleTarget insertionOrder singleManager 0 _ singleGraph
      rfl rfl (by decide)).1⟩

/-! ## Properties of the partition finder: the groups -/

theorem findHalfSizeSplitPoints_eq_groups (T : Target) (H : HashOrder) (g : Graph) :
    findHalfSizeSplitPoints T H g =
      (halfSizeGroups T g).bind (fun r =>
        match r with
        | none => some []
        | some grp => collectSplitPts H g grp.1 grp.2) := by
  unfold findHalfSizeSplitPoints halfSizeGroups traverse totalSize
  cases h1 : (g.order.foldlM (fun total n => do
      let nd ← g.node? n
      if nd.kind = Kind.kUndefined || SkipWhenCalMemSize nd then pure total
      else pure ((total + T.getOperatorMemUsage g n) % UINT64)) 0 : Option Nat) with
  | none => simp [h1]
  | some total =>
    cases h2 : BuildDegreeMap g with
    | none => simp [h1, h2]
    | some dmap =>
      cases h3 : initWorklist g dmap with
      | none => simp [h1, h2, h3]
      | some wl =>
        simp only [h1, h2, h3, Option.bind_eq_bind, Option.some_bind, Option.pure_def]
        cases h4 : findLoop T g total g.fuel
          { dmap := dmap, worklist := wl, grpA := [], grpB := [], accumulateSize := 0,
            size_a := 0, lastNode := none } with
        | none => simp
        | some st =>
          simp only [Option.some_bind]
          by_cases hE : (st.grpB.isEmpty && st.grpA.length == 1) = true
          · simp [hE]
          · simp only [hE, if_false]
            by_cases hB : st.grpB.isEmpty = true
            · simp only [hB, if_true]
              cases hl : st.lastNode with
              | none => simp
              | some lastNode =>
                simp only [Option.some_bind]
                cases h6 : groupLoadStore g (st.grpA.erase lastNode) [lastNode] with
                | none => simp
                | some grp2 => simp
            · simp only [hB, if_false, Option.some_bind]
              cases h6 : groupLoadStore g st.grpA st.grpB with
              | none => simp
              | some grp2 => simp

/-- A successful monadic fold over a non-empty list splits into its first step
and the fold over the rest. -/
theorem foldlM_cons_some {α β : Type} {f : β → α → Option β} {a : α} {l : List α}
    {b b' : β} :
    (a :: l).foldlM f b = some b' ↔ ∃ c, f b a = some c ∧ l.foldlM f c = some b' := by
  rw [List.foldlM_cons]
  cases h : f b a with
  | none => simp
  | some c => simp

/-- A successful bind in `Option`. -/
theorem bind_some_iff {α β : Type} {x : Option α} {f : α → Option β} {b : β} :
    x.bind f = some b ↔ ∃ a, x = some a ∧ f a = some b := by
  cases x with
  | none => simp
  | some a => simp

/-- The innermost loop of the search for split points appends the node once
for each use outside group A. -/
theorem collectUses_eq (grpA grpB : List NodeId) (n : NodeId) (uses : List Use) :
    ∀ (pts pts' : List NodeId),
      uses.foldlM (fun pts u =>
          if grpA.contains u.user then some pts
          else if grpB.contains u.user then some (pts ++ [n])
          else none) pts = some pts' →
      pts' = pts ++ List.replicate (uses.countP (fun u => !grpA.contains u.user)) n := by
  induction uses with
  | nil => intro pts pts' h; simp at h; simp [h]
  | cons u us ih =>
    intro pts pts' h
    obtain ⟨c, hc, hrest⟩ := foldlM_cons_some.mp h
    by_cases hA : grpA.contains u.user = true
    · rw [if_pos hA] at hc
      cases hc
      rw [ih pts pts' hrest, List.countP_cons_of_neg _ _ (by
        show ¬ ((!grpA.contains u.user) = true)
        rw [hA]; decide)]
    · rw [if_neg hA] at hc
      by_cases hB : grpB.contains u.user = true
      · rw [if_pos hB] at hc
        cases hc
        have hA' : grpA.contains u.user = false := by simpa using hA
        rw [ih _ pts' hrest, List.countP_cons_of_pos _ _ (by
          show (!grpA.contains u.user) = true
          rw [hA']; rfl),
          List.replicate_succ, List.append_assoc]
        rfl
      · rw [if_neg hB] at hc
        cases hc

/-- The loop over the outputs of a node of group A. -/
theorem collectOutputs_eq (g : Graph) (grpA grpB : List NodeId) (n : NodeId)
    (outs : List ValueId) :
    ∀ (pts pts' : List NodeId),
      outs.foldlM (fun pts outv => do
          let val ← g.value? outv
          val.uses.foldlM (fun pts u =>
            if grpA.contains u.user then some pts
            else if grpB.contains u.user then some (pts ++ [n])
            else none) pts) pts = some pts' →
      pts' = pts ++ List.replicate
        ((outs.flatMap (valueUses g)).countP (fun u => !grpA.contains u.user)) n := by
  induction outs with
  | nil => intro pts pts' h; simp at h; simp [h]
  | cons v vs ih =>
    intro pts pts' h
    obtain ⟨c, hc, hrest⟩ := foldlM_cons_some.mp h
    obtain ⟨val, hv, hf⟩ := bind_some_iff.mp hc
    rw [ih c pts' hrest, collectUses_eq grpA grpB n val.uses pts c hf, List.flatMap_cons,
      List.countP_append, List.replicate_add, List.append_assoc]
    simp only [valueUses, hv]

/-- The loop over group A appends, for each node in the order of the walk,
one entry per use outside group A. -/
theorem collectGroupA_eq (g : Graph) (grpA grpB : List NodeId) (l : List NodeId) :
    ∀ (pts pts' : List NodeId),
      l.foldlM (fun pts n => do
          let nd ← g.node? n
          nd.outputs.foldlM (fun pts outv => do
            let val ← g.value? outv
            val.uses.foldlM (fun pts u =>
              if grpA.contains u.user then some pts
              else if grpB.contains u.user then some (pts ++ [n])
              else none) pts) pts) pts = some pts' →
      pts' = pts ++ l.flatMap (fun n => List.replicate (crossingCount g grpA n) n) := by
  induction l with
  | nil => intro pts pts' h; simp at h; simp [h]
  | cons n ns ih =>
    intro pts pts' h
    obtain ⟨c, hc, hrest⟩ := foldlM_cons_some.mp h
    obtain ⟨nd, hn, hf⟩ := bind_some_iff.mp hc
    rw [ih c pts' hrest, collectOutputs_eq g grpA grpB n nd.outputs pts c hf, List.flatMap_cons,
      List.append_assoc]
    have e : crossingCount g grpA n =
        (nd.outputs.flatMap (valueUses g)).countP (fun u => !grpA.contains u.user) := by
      simp only [crossingCount, usesOf, hn]
    rw [e]

/-- The loop over group B appends its Loads in the order of the walk. -/
theorem collectGroupB_eq (g : Graph) (l : List NodeId) :
    ∀ (pts pts' : List NodeId),
      l.foldlM (fun pts n => do
          let nd ← g.node? n
          if IsType Kind.Load nd then pure (pts ++ [n]) else pure pts) pts = some pts' →
      pts' = pts ++ l.filter (isLoad g) := by
  induction l with
  | nil => intro pts pts' h; simp at h; simp [h]
  | cons n ns ih =>
    intro pts pts' h
    obtain ⟨c, hc, hrest⟩ := foldlM_cons_some.mp h
    obtain ⟨nd, hn, hf⟩ := bind_some_iff.mp hc
    rw [ih c pts' hrest]
    by_cases hL : IsType Kind.Load nd = true
    · rw [if_pos hL] at hf
      cases hf
      simp [List.filter_cons, isLoad, hn, hL]
    · rw [if_neg hL] at hf
      cases hf
      simp [List.filter_cons, isLoad, hn, hL]

/-- The split points are the entries of group A followed by the Loads of
group B, each part in the order of its hash set. -/
theorem collectSplitPts_eq {H : HashOrder} {g : Graph} {grpA grpB pts : List NodeId}
    (h : collectSplitPts H g grpA grpB = some pts) :
    pts = (H.iter grpA).flatMap (fun n => List.replicate (crossingCount g grpA n) n)
          ++ (H.iter grpB).filter (isLoad g) := by
  unfold collectSplitPts at h
  obtain ⟨p1, h1, h2⟩ := bind_some_iff.mp h
  have e1 := collectGroupA_eq g grpA grpB (H.iter grpA) [] p1 h1
  have e2 := collectGroupB_eq g (H.iter grpB) p1 pts h2
  rw [e2, e1]; simp

/-! ### Tables -/

theorem lookup_tableSet_ne {α : Type} (t : List (Nat × α)) (k k' : Nat) (a : α)
    (h : k' ≠ k) : (tableSet t k a).lookup k' = t.lookup k' := by
  induction t with
  | nil => rfl
  | cons p t ih =>
    obtain ⟨pk, pv⟩ := p
    by_cases hk : pk = k
    · subst hk
      have h1 : (k' == pk) = false := by simpa using h
      simp only [tableSet, List.map_cons, if_true, List.lookup_cons, h1]
      exact ih
    · by_cases hk' : k' = pk
      · subst hk'
        simp [tableSet, List.lookup_cons, hk]
      · have h1 : (k' == pk) = false := by simpa using hk'
        simp only [tableSet, List.map_cons, hk, if_false, List.lookup_cons, h1]
        exact ih

theorem lookup_tableSet_self {α : Type} (t : List (Nat × α)) (k : Nat) (a b : α)
    (h : t.lookup k = some b) : (tableSet t k a).lookup k = some a := by
  induction t with
  | nil => simp at h
  | cons p t ih =>
    obtain ⟨pk, pv⟩ := p
    by_cases hk : pk = k
    · subst hk
      simp [tableSet, List.lookup_cons]
    · have h1 : (k == pk) = false := by
        simpa using (fun e : k = pk => hk e.symm)
      simp only [List.lookup_cons, h1] at h
      simp only [tableSet, List.map_cons, hk, if_false, List.lookup_cons, h1]
      exact ih h

theorem lookup_append_of_none {α : Type} (t s : List (Nat × α)) (k : Nat)
    (h : t.lookup k = none) : (t ++ s).lookup k = s.lookup k := by
  induction t with
  | nil => rfl
  | cons p t ih =>
    obtain ⟨pk, pv⟩ := p
    by_cases hk : (k == pk) = true
    · simp [List.lookup_cons, hk] at h
    · have h1 : (k == pk) = false := by simpa using hk
      simp only [List.lookup_cons, h1] at h
      simp only [List.cons_append, List.lookup_cons, h1]
      exact ih h

theorem lookup_append_of_some {α : Type} (t s : List (Nat × α)) (k : Nat) (a : α)
    (h : t.lookup k = some a) : (t ++ s).lookup k = some a := by
  induction t with
  | nil => simp at h
  | cons p t ih =>
    obtain ⟨pk, pv⟩ := p
    by_cases hk : (k == pk) = true
    · simp only [List.lookup_cons, hk] at h
      simp only [List.cons_append, List.lookup_cons, hk]
      exact h
    · have h1 : (k == pk) = false := by simpa using hk
      simp only [List.lookup_cons, h1] at h
      simp only [List.cons_append, List.lookup_cons, h1]
      exact ih h

theorem lookup_map_const_of_not_mem {α : Type} (l : List Nat) (f : Nat → α) (k : Nat)
    (h : k ∉ l) : (l.map (fun n => (n, f n))).lookup k = none := by
  induction l with
  | nil => rfl
  | cons x l ih =>
    have hx : (k == x) = false := by
      simpa using (fun e : k = x => h (e ▸ List.mem_cons_self _ _))
    simp only [List.map_cons, List.lookup_cons, hx]
    exact ih (fun hm => h (List.mem_cons_of_mem _ hm))

theorem lookup_map_const_of_mem {α : Type} (l : List Nat) (f : Nat → α) (k : Nat)
    (h : k ∈ l) : (l.map (fun n => (n, f n))).lookup k = some (f k) := by
  induction l with
  | nil => simp at h
  | cons x l ih =>
    by_cases hx : k = x
    · subst hx; simp [List.lookup_cons]
    · have hx' : (k == x) = false := by simpa using hx
      simp only [List.map_cons, List.lookup_cons, hx']
      exact ih (by simpa [hx] using h)

/-! ### Loops of the partition finder by their bodies -/

theorem totalSize_eq (T : Target) (g : Graph) :
    totalSize T g = g.order.foldlM (totalStep T g) 0 := rfl

theorem BuildDegreeMap_eq (g : Graph) :
    BuildDegreeMap g = g.order.foldlM (degreeStep g) [] := rfl

theorem initWorklist_eq (g : Graph) (dmap : DegreeMap) :
    initWorklist g dmap = g.order.foldlM (worklistStep g dmap) [] := rfl

theorem updateDegrees_eq (g : Graph) (n : NodeId) (dmap : DegreeMap) (worklist : List NodeId) :
    updateDegrees g n dmap worklist =
      (g.node? n).bind (fun nd => nd.outputs.foldlM (updateValue g) (dmap, worklist)) := rfl

theorem groupLoadStore_eq (g : Graph) (grpA grpB : List NodeId) :
    groupLoadStore g grpA grpB = g.order.foldlM (groupStep g) (grpA, grpB) := rfl

theorem UNSIGNED_eq : UNSIGNED = 4294967296 := by
  unfold UNSIGNED; norm_num

theorem UINT64_eq : UINT64 = 18446744073709551616 := by
  unfold UINT64; norm_num

/-! ### The degree map of a chain -/

/-- Inputs without producer are all taken off the degree count. -/
theorem degree_noProducer (g : Graph) (ins : List ValueId)
    (h : ∀ v ∈ ins, ∃ val, g.value? v = some val ∧ val.node = none) :
    ∀ d, d < UNSIGNED → ins.foldlM (fun degcnt v => do
          let val ← g.value? v
          pure (if val.node = none then (degcnt + UNSIGNED - 1) % UNSIGNED else degcnt)) d
        = some ((d + ins.length * (UNSIGNED - 1)) % UNSIGNED) := by
  induction ins with
  | nil =>
    intro d hd
    simp [Nat.mod_eq_of_lt hd]
  | cons v vs ih =>
    intro d hd
    obtain ⟨val, hv, hn⟩ := h v (List.mem_cons_self _ _)
    have hpos : 0 < UNSIGNED := by rw [UNSIGNED_eq]; norm_num
    have hlt : (d + UNSIGNED - 1) % UNSIGNED < UNSIGNED := Nat.mod_lt _ hpos
    apply foldlM_cons_some.mpr
    refine ⟨(d + UNSIGNED - 1) % UNSIGNED, ?_, ?_⟩
    · show (g.value? v).bind (fun val =>
          some (if val.node = none then (d + UNSIGNED - 1) % UNSIGNED else d)) = _
      rw [hv, Option.some_bind, if_pos hn]
    · rw [ih (fun w hw => h w (List.mem_cons_of_mem _ hw)) _ hlt]
      apply congrArg
      rw [UNSIGNED_eq] at *
      simp only [List.length_cons]
      omega

/-- The degree count of a node whose inputs have no producer is zero. -/
theorem degreeCount_first (g : Graph) (nd : Node)
    (h : ∀ v ∈ nd.inputs, ∃ val, g.value? v = some val ∧ val.node = none) :
    degreeCount g nd = some 0 := by
  have hpos : 0 < UNSIGNED := by rw [UNSIGNED_eq]; norm_num
  unfold degreeCount
  rw [degree_noProducer g nd.inputs h _ (Nat.mod_lt _ hpos)]
  apply congrArg
  rw [UNSIGNED_eq]
  omega

/-- The degree count of a node with one input that has a producer is one. -/
theorem degreeCount_inner (g : Graph) (nd : Node) (v : ValueId) (val : Value) (p : NodeId)
    (hin : nd.inputs = [v]) (hv : g.value? v = some val) (hp : val.node = some p) :
    degreeCount g nd = some 1 := by
  unfold degreeCount
  rw [hin]
  simp only [List.foldlM_cons, List.foldlM_nil, hv, hp, Option.bind_eq_bind, Option.some_bind,
    Option.pure_def, List.length_singleton]
  rw [UNSIGNED_eq]
  rfl

/-- The loop of `BuildDegreeMap` over the nodes of a chain after the first. -/
theorem buildDegree_rest (g : Graph) :
    ∀ (rest : List NodeId) (v : ValueId) (dmap0 : DegreeMap),
      IsChainFrom g [v] rest → (∃ val p, g.value? v = some val ∧ val.node = some p) →
      rest.Nodup → (∀ x ∈ rest, dmap0.lookup x = none) →
      rest.foldlM (degreeStep g) dmap0 = some (dmap0 ++ rest.map (fun n => (n, 1))) := by
  intro rest
  induction rest with
  | nil => intro v dmap0 _ _ _ _; simp
  | cons n rest ih =>
    intro v dmap0 hch hv hnd hd0
    obtain ⟨nd, w, wval, hn, hk, _, hin, hout, hw, hwn, _, hrest⟩ := hch
    obtain ⟨val, p, hval, hp⟩ := hv
    have hdeg := degreeCount_inner g nd v val p hin hval hp
    apply foldlM_cons_some.mpr
    refine ⟨dmap0 ++ [(n, 1)], ?_, ?_⟩
    · have hl : dmap0.lookup n = none := hd0 n (List.mem_cons_self _ _)
      simp only [degreeStep, hn, Option.bind_eq_bind, Option.some_bind, hk, if_false, hdeg,
        Option.pure_def, mapInsert, hl, Option.isSome_none, Bool.false_eq_true]
    · have h2 := ih w (dmap0 ++ [(n, 1)]) hrest ⟨wval, n, hw, hwn⟩ (List.nodup_cons.mp hnd).2
        (by
          intro x hx
          have hxn : (x == n) = false := by
            simpa using (fun e : x = n => (List.nodup_cons.mp hnd).1 (e ▸ hx))
          rw [lookup_append_of_none _ _ _ (hd0 x (List.mem_cons_of_mem _ hx))]
          simp [List.lookup_cons, hxn])
      rw [h2]
      simp

/-- The degree map of a chain: zero for the first node, one for the others. -/
theorem buildDegree_chain {g : Graph} {n : NodeId} {rest : List NodeId}
    (hc : IsChain g (n :: rest)) :
    BuildDegreeMap g = some ((n, 0) :: rest.map (fun x => (x, 1))) := by
  obtain ⟨hord, hnd, ins, hins, hch⟩ := hc
  obtain ⟨nd, w, wval, hn, hk, _, hin, hout, hw, hwn, _, hrest⟩ := hch
  rw [BuildDegreeMap_eq, hord]
  apply foldlM_cons_some.mpr
  refine ⟨[(n, 0)], ?_, ?_⟩
  · have hdeg := degreeCount_first g nd (hin ▸ hins)
    simp only [degreeStep, hn, Option.bind_eq_bind, Option.some_bind, hk, if_false, hdeg,
      Option.pure_def, mapInsert, List.lookup_nil, Option.isSome_none, Bool.false_eq_true,
      List.nil_append]
  · have h2 := buildDegree_rest g rest w [(n, 0)] hrest ⟨wval, n, hw, hwn⟩
      (List.nodup_cons.mp hnd).2
      (by
        intro x hx
        have hxn : (x == n) = false := by
          simpa using (fun e : x = n => (List.nodup_cons.mp hnd).1 (e ▸ hx))
        simp [List.lookup_cons, hxn])
    rw [h2]
    simp

/-- Every node of a chain is a node of the graph that is not undefined. -/
theorem chainFrom_node {g : Graph} :
    ∀ {ns : List NodeId} {ins : List ValueId}, IsChainFrom g ins ns →
      ∀ x ∈ ns, ∃ nd, g.node? x = some nd ∧ nd.kind ≠ Kind.kUndefined ∧
        nd.kind ≠ Kind.kReturn := by
  intro ns
  induction ns with
  | nil => intro _ _ x hx; simp at hx
  | cons n rest ih =>
    intro ins hch x hx
    obtain ⟨nd, w, wval, hn, hk, hr, _, _, _, _, _, hrest⟩ := hch
    rcases List.mem_cons.mp hx with rfl | hx'
    · exact ⟨nd, hn, hk, hr⟩
    · exact ih hrest x hx'

/-- The worklist of a chain holds its first node. -/
theorem worklist_rest (g : Graph) (dmap : DegreeMap) :
    ∀ (rest : List NodeId) (wl : List NodeId),
      (∀ x ∈ rest, ∃ nd, g.node? x = some nd ∧ nd.kind ≠ Kind.kUndefined ∧
        nd.kind ≠ Kind.kReturn) →
      (∀ x ∈ rest, dmap.lookup x = some 1) →
      rest.foldlM (worklistStep g dmap) wl = some wl := by
  intro rest
  induction rest with
  | nil => intro wl _ _; simp
  | cons n rest ih =>
    intro wl hnode hd
    obtain ⟨nd, hn, hk, _⟩ := hnode n (List.mem_cons_self _ _)
    apply foldlM_cons_some.mpr
    refine ⟨wl, ?_, ih wl (fun x hx => hnode x (List.mem_cons_of_mem _ hx))
      (fun x hx => hd x (List.mem_cons_of_mem _ hx))⟩
    simp [worklistStep, hn, hk, hd n (List.mem_cons_self _ _)]

theorem initWorklist_chain {g : Graph} {n : NodeId} {rest : List NodeId}
    (hc : IsChain g (n :: rest)) :
    initWorklist g ((n, 0) :: rest.map (fun x => (x, 1))) = some [n] := by
  obtain ⟨hord, hnd, ins, hins, hch⟩ := hc
  have hnodes := chainFrom_node hch
  obtain ⟨nd, hn, hk, _⟩ := hnodes n (List.mem_cons_self _ _)
  rw [initWorklist_eq, hord]
  apply foldlM_cons_some.mpr
  refine ⟨[n], ?_, ?_⟩
  · simp [worklistStep, hn, hk, List.lookup_cons]
  · apply worklist_rest g _ rest [n] (fun x hx => hnodes x (List.mem_cons_of_mem _ hx))
    intro x hx
    have hxn : (x == n) = false := by
      simpa using (fun e : x = n => (List.nodup_cons.mp hnd).1 (e ▸ hx))
    simp only [List.lookup_cons, hxn]
    exact lookup_map_const_of_mem rest (fun _ => 1) x hx

/-! ### The traversal of a chain -/

/-- The total size of a list of counted nodes. -/
theorem totalSize_counted (T : Target) (g : Graph) :
    ∀ (ns : List NodeId) (acc : Nat),
      (∀ x ∈ ns, ∃ nd, g.node? x = some nd ∧ nd.kind ≠ Kind.kUndefined ∧
        nd.kind ≠ Kind.kReturn) →
      AllCounted g ns →
      ns.foldlM (totalStep T g) acc = some (sumUsage T g ns acc) := by
  intro ns
  induction ns with
  | nil => intro acc _ _; simp [sumUsage]
  | cons n rest ih =>
    intro acc hnode hcnt
    obtain ⟨nd, hn, hk, _⟩ := hnode n (List.mem_cons_self _ _)
    have hs : SkipWhenCalMemSize nd = false := hcnt n (List.mem_cons_self _ _) nd hn
    apply foldlM_cons_some.mpr
    refine ⟨(acc + T.getOperatorMemUsage g n) % UINT64, ?_, ?_⟩
    · simp [totalStep, hn, hk, hs]
    · rw [ih _ (fun x hx => hnode x (List.mem_cons_of_mem _ hx))
        (fun x hx => hcnt x (List.mem_cons_of_mem _ hx))]
      simp [sumUsage]

theorem assignGroups_cons_lt (T : Target) (g : Graph) (total : Nat) (n : NodeId)
    (ns : List NodeId) (acc : Nat) (grpA grpB : List NodeId) (h : acc < total / 2) :
    assignGroups T g total (n :: ns) (acc, grpA, grpB) =
      assignGroups T g total ns
        ((acc + T.getOperatorMemUsage g n) % UINT64, setInsert grpA n, grpB) := by
  rw [assignGroups, if_pos h]

theorem assignGroups_cons_ge (T : Target) (g : Graph) (total : Nat) (n : NodeId)
    (ns : List NodeId) (acc : Nat) (grpA grpB : List NodeId) (h : ¬ acc < total / 2) :
    assignGroups T g total (n :: ns) (acc, grpA, grpB) =
      assignGroups T g total ns
        ((acc + T.getOperatorMemUsage g n) % UINT64, grpA, setInsert grpB n) := by
  rw [assignGroups, if_neg h]

/-- With an empty worklist the traversal loop ends. -/
theorem findLoop_empty (T : Target) (g : Graph) (total fuel : Nat) (st : FinderState)
    (h : st.worklist = []) : findLoop T g total fuel st = some st := by
  cases fuel with
  | zero => simp [findLoop, h]
  | succ f => rw [findLoop]; simp [h]

/-- The degree update for an inner node of a chain: the next node reaches
degree zero and enters the worklist. -/
theorem updateDegrees_inner {g : Graph} {n n' : NodeId} {nd nd' : Node} {v : ValueId}
    {val : Value} {dmap : DegreeMap} (wl : List NodeId)
    (hn : g.node? n = some nd) (hout : nd.outputs = [v]) (hv : g.value? v = some val)
    (hu : val.uses = [⟨n', 0⟩]) (hn' : g.node? n' = some nd') (hk : nd'.kind ≠ Kind.kReturn)
    (hd : dmap.lookup n' = some 1) :
    updateDegrees g n dmap wl = some (tableSet dmap n' 0, n' :: wl) := by
  rw [updateDegrees_eq, hn, Option.some_bind, hout]
  have h1 : (1 + UNSIGNED - 1) % UNSIGNED = 0 := by rw [UNSIGNED_eq]
  simp [updateValue, hv, hu, updateUse, hn', hk, hd, h1]

/-- The degree update for the last node of a chain: its only user is the
return node and nothing changes. -/
theorem updateDegrees_last {g : Graph} {n r : NodeId} {nd rn : Node} {v : ValueId}
    {val : Value} {k : Nat} (dmap : DegreeMap) (wl : List NodeId)
    (hn : g.node? n = some nd) (hout : nd.outputs = [v]) (hv : g.value? v = some val)
    (hu : val.uses = [⟨r, k⟩]) (hr : g.node? r = some rn) (hk : rn.kind = Kind.kReturn) :
    updateDegrees g n dmap wl = some (dmap, wl) := by
  rw [updateDegrees_eq, hn, Option.some_bind, hout]
  simp [updateValue, hv, hu, updateUse, hr, hk]

/-- The traversal loop over a chain dequeues its nodes in order and assigns
them to the groups by the running size. -/
theorem findLoop_chain (T : Target) (g : Graph) (total : Nat) :
    ∀ (rest : List NodeId) (n : NodeId) (ins : List ValueId) (fuel : Nat) (st : FinderState),
      IsChainFrom g ins (n :: rest) → (n :: rest).Nodup → AllCounted g (n :: rest) →
      st.worklist = [n] → (∀ x ∈ rest, st.dmap.lookup x = some 1) → rest.length + 1 ≤ fuel →
      ∃ st', findLoop T g total fuel st = some st' ∧
        (st'.accumulateSize, st'.grpA, st'.grpB)
          = assignGroups T g total (n :: rest) (st.accumulateSize, st.grpA, st.grpB) ∧
        st'.lastNode = (n :: rest).getLast? ∧ st'.worklist = [] := by
  intro rest
  induction rest with
  | nil =>
    intro n ins fuel st hch _ hcnt hwl _ hfuel
    obtain ⟨nd, v, val, hn, hk, hr, _, hout, hv, _, hlast, _⟩ := hch
    obtain ⟨k, rn, hu, hrn, hrk⟩ := hlast
    have hs : SkipWhenCalMemSize nd = false := hcnt n (List.mem_cons_self _ _) nd hn
    obtain ⟨f, rfl⟩ : ∃ f, fuel = f + 1 := ⟨fuel - 1, by omega⟩
    rw [findLoop]
    simp only [hwl, updateDegrees_last st.dmap [] hn hout hv hu hrn hrk, Option.bind_eq_bind,
      Option.some_bind, hn, hs, Bool.false_eq_true, if_false]
    rw [findLoop_empty _ _ _ _ _ rfl]
    refine ⟨_, rfl, ?_, rfl, rfl⟩
    by_cases hlt : st.accumulateSize < total / 2
    · rw [assignGroups_cons_lt _ _ _ _ _ _ _ _ hlt]; simp [assignGroups, hlt]
    · rw [assignGroups_cons_ge _ _ _ _ _ _ _ _ hlt]; simp [assignGroups, hlt]
  | cons n' rest ih =>
    intro n ins fuel st hch hnd hcnt hwl hd hfuel
    obtain ⟨nd, v, val, hn, hk, hr, _, hout, hv, _, hu, hrest⟩ := hch
    have hrest' := hrest
    obtain ⟨nd', v', val', hn', hk', hr', _, _, _, _, _, _⟩ := hrest'
    have hs : SkipWhenCalMemSize nd = false := hcnt n (List.mem_cons_self _ _) nd hn
    obtain ⟨f, rfl⟩ : ∃ f, fuel = f + 1 := ⟨fuel - 1, by omega⟩
    obtain ⟨dmap, wl, grpA, grpB, acc, sa, ln⟩ := st
    simp only at hwl hd
    subst hwl
    have hd' : dmap.lookup n' = some 1 := hd n' (List.mem_cons_self _ _)
    have hnd' : (n' :: rest).Nodup := (List.nodup_cons.mp hnd).2
    have hdm : ∀ x ∈ rest, (tableSet dmap n' 0).lookup x = some 1 := by
      intro x hx
      have hxn : x ≠ n' := fun e => (List.nodup_cons.mp hnd').1 (e ▸ hx)
      rw [lookup_tableSet_ne _ _ _ _ hxn]
      exact hd x (List.mem_cons_of_mem _ hx)
    have hf : rest.length + 1 ≤ f := by simp only [List.length_cons] at hfuel; omega
    have hcnt' : AllCounted g (n' :: rest) := fun x hx => hcnt x (List.mem_cons_of_mem _ hx)
    rw [findLoop]
    simp only [updateDegrees_inner [] hn hout hv hu hn' hr' hd', Option.bind_eq_bind,
      Option.some_bind, hn, hs, Bool.false_eq_true, if_false]
    by_cases hlt : acc < total / 2
    · simp only [hlt, if_true]
      obtain ⟨st', h1, h2, h3, h4⟩ := ih n' [v] f
        ⟨tableSet dmap n' 0, [n'], setInsert grpA n, grpB,
          (acc + T.getOperatorMemUsage g n) % UINT64, acc, some n⟩
        hrest hnd' hcnt' rfl hdm hf
      refine ⟨st', h1, ?_, ?_, h4⟩
      · rw [h2, assignGroups_cons_lt _ _ _ n _ _ _ _ hlt]
      · rw [h3]; simp [List.getLast?_cons_cons]
    · simp only [hlt, if_false]
      obtain ⟨st', h1, h2, h3, h4⟩ := ih n' [v] f
        ⟨tableSet dmap n' 0, [n'], grpA, setInsert grpB n,
          (acc + T.getOperatorMemUsage g n) % UINT64, sa, some n⟩
        hrest hnd' hcnt' rfl hdm hf
      refine ⟨st', h1, ?_, ?_, h4⟩
      · rw [h2, assignGroups_cons_ge _ _ _ n _ _ _ _ hlt]
      · rw [h3]; simp [List.getLast?_cons_cons]

/-! ### Fuel, groups and split points of a chain -/

theorem mem_keys_of_lookup {α : Type} (t : List (Nat × α)) (k : Nat) (a : α)
    (h : t.lookup k = some a) : k ∈ t.map Prod.fst := by
  induction t with
  | nil => simp at h
  | cons p t ih =>
    obtain ⟨pk, pv⟩ := p
    by_cases hk : k = pk
    · subst hk; simp
    · have h1 : (k == pk) = false := by simpa using hk
      simp only [List.lookup_cons, h1] at h
      simp only [List.map_cons, List.mem_cons]
      exact Or.inr (ih h)

/-- The fuel of a graph covers the rounds of a traversal of distinct nodes. -/
theorem length_lt_fuel {g : Graph} {ns : List NodeId} (hnd : ns.Nodup)
    (hnode : ∀ x ∈ ns, ∃ nd, g.node? x = some nd) : ns.length + 1 ≤ g.fuel := by
  have hsub : ns ⊆ g.nodeTable.map Prod.fst := by
    intro x hx
    obtain ⟨nd, hn⟩ := hnode x hx
    exact mem_keys_of_lookup _ _ _ hn
  have hle := (List.subperm_of_subset hnd hsub).length_le
  simp only [List.length_map] at hle
  unfold Graph.fuel
  omega

/-- The traversal of a chain of counted nodes. -/
theorem traverse_chain {T : Target} {g : Graph} {n : NodeId} {rest : List NodeId}
    (hc : IsChain g (n :: rest)) (hcnt : AllCounted g (n :: rest)) :
    ∃ st, traverse T g = some st ∧
      (st.accumulateSize, st.grpA, st.grpB)
        = assignGroups T g (sumUsage T g (n :: rest) 0) (n :: rest) (0, [], []) ∧
      st.lastNode = (n :: rest).getLast? := by
  have hdm := buildDegree_chain hc
  have hwl := initWorklist_chain hc
  obtain ⟨hord, hnd, ins, hins, hch⟩ := hc
  have hnodes := chainFrom_node hch
  have htot : totalSize T g = some (sumUsage T g (n :: rest) 0) := by
    rw [totalSize_eq, hord]
    exact totalSize_counted T g _ 0 hnodes hcnt
  have hfuel : rest.length + 1 ≤ g.fuel := by
    have := length_lt_fuel hnd (fun x hx => (hnodes x hx).imp (fun _ h => h.1))
    simp only [List.length_cons] at this
    omega
  obtain ⟨st, h1, h2, h3, _⟩ := findLoop_chain T g (sumUsage T g (n :: rest) 0) rest n ins g.fuel
    { dmap := (n, 0) :: rest.map (fun x => (x, 1)), worklist := [n], grpA := [], grpB := [],
      accumulateSize := 0, size_a := 0, lastNode := none }
    hch hnd hcnt rfl
    (by
      intro x hx
      have hxn : (x == n) = false := by
        simpa using (fun e : x = n => (List.nodup_cons.mp hnd).1 (e ▸ hx))
      show List.lookup x ((n, 0) :: rest.map (fun x => (x, 1))) = some 1
      simp only [List.lookup_cons, hxn]
      exact lookup_map_const_of_mem rest (fun _ => 1) x hx)
    hfuel
  refine ⟨st, ?_, h2, h3⟩
  unfold traverse
  simp only [htot, hdm, hwl, Option.bind_eq_bind, Option.some_bind]
  exact h1

/-- The loop that groups Loads, Stores and SubGraphs leaves the groups of a
graph without such nodes as they are. -/
theorem groupLoadStore_counted (g : Graph) :
    ∀ (ns : List NodeId) (grp : List NodeId × List NodeId),
      (∀ x ∈ ns, ∃ nd, g.node? x = some nd) → AllCounted g ns →
      ns.foldlM (groupStep g) grp = some grp := by
  intro ns
  induction ns with
  | nil => intro grp _ _; simp
  | cons n rest ih =>
    intro grp hnode hcnt
    obtain ⟨nd, hn⟩ := hnode n (List.mem_cons_self _ _)
    have hs : SkipWhenCalMemSize nd = false := hcnt n (List.mem_cons_self _ _) nd hn
    simp only [SkipWhenCalMemSize, Bool.or_eq_false_iff] at hs
    apply foldlM_cons_some.mpr
    refine ⟨grp, ?_, ih grp (fun x hx => hnode x (List.mem_cons_of_mem _ hx))
      (fun x hx => hcnt x (List.mem_cons_of_mem _ hx))⟩
    simp [groupStep, hn, hs.1.1, hs.1.2, hs.2]

/-- The search for split points yields a list when every node of the groups is
a node of the graph and every use of a node of group A is by a node of one of
the groups. -/
theorem collectSplitPts_some (H : HashOrder) (g : Graph) (grpA grpB : List NodeId)
    (hA : ∀ n ∈ grpA, ∃ nd, g.node? n = some nd ∧ ∀ v ∈ nd.outputs, ∃ val,
      g.value? v = some val ∧ ∀ u ∈ val.uses, u.user ∈ grpA ∨ u.user ∈ grpB)
    (hB : ∀ n ∈ grpB, ∃ nd, g.node? n = some nd) :
    ∃ pts, collectSplitPts H g grpA grpB = some pts := by
  have usesOk : ∀ (n : NodeId) (uses : List Use) (pts : List NodeId),
      (∀ u ∈ uses, u.user ∈ grpA ∨ u.user ∈ grpB) →
      ∃ pts', uses.foldlM (fun pts u =>
          if grpA.contains u.user then some pts
          else if grpB.contains u.user then some (pts ++ [n])
          else none) pts = some pts' := by
    intro n uses
    induction uses with
    | nil => intro pts _; exact ⟨pts, rfl⟩
    | cons u us ih =>
      intro pts hu
      have hrest := fun w hw => hu w (List.mem_cons_of_mem _ hw)
      by_cases h1 : grpA.contains u.user = true
      · obtain ⟨p, hp⟩ := ih pts hrest
        exact ⟨p, foldlM_cons_some.mpr ⟨pts, by rw [if_pos h1], hp⟩⟩
      · have h2 : grpB.contains u.user = true := by
          rcases hu u (List.mem_cons_self _ _) with h | h
          · exact absurd (by simpa using h) h1
          · simpa using h
        obtain ⟨p, hp⟩ := ih (pts ++ [n]) hrest
        exact ⟨p, foldlM_cons_some.mpr ⟨pts ++ [n], by rw [if_neg h1, if_pos h2], hp⟩⟩
  have outsOk : ∀ (n : NodeId) (outs : List ValueId) (pts : List NodeId),
      (∀ v ∈ outs, ∃ val, g.value? v = some val ∧
        ∀ u ∈ val.uses, u.user ∈ grpA ∨ u.user ∈ grpB) →
      ∃ pts', outs.foldlM (fun pts outv => do
          let val ← g.value? outv
          val.uses.foldlM (fun pts u =>
            if grpA.contains u.user then some pts
            else if grpB.contains u.user then some (pts ++ [n])
            else none) pts) pts = some pts' := by
    intro n outs
    induction outs with
    | nil => intro pts _; exact ⟨pts, rfl⟩
    | cons v vs ih =>
      intro pts hv
      obtain ⟨val, hval, hu⟩ := hv v (List.mem_cons_self _ _)
      obtain ⟨p1, hp1⟩ := usesOk n val.uses pts hu
      obtain ⟨p, hp⟩ := ih p1 (fun w hw => hv w (List.mem_cons_of_mem _ hw))
      exact ⟨p, foldlM_cons_some.mpr ⟨p1, bind_some_iff.mpr ⟨val, hval, hp1⟩, hp⟩⟩
  have loopA : ∀ (l : List NodeId) (pts : List NodeId), (∀ n ∈ l, n ∈ grpA) →
      ∃ pts', l.foldlM (fun pts n => do
          let nd ← g.node? n
          nd.outputs.foldlM (fun pts outv => do
            let val ← g.value? outv
            val.uses.foldlM (fun pts u =>
              if grpA.contains u.user then some pts
              else if grpB.contains u.user then some (pts ++ [n])
              else none) pts) pts) pts = some pts' := by
    intro l
    induction l with
    | nil => intro pts _; exact ⟨pts, rfl⟩
    | cons n ns ih =>
      intro pts hl
      obtain ⟨nd, hn, hv⟩ := hA n (hl n (List.mem_cons_self _ _))
      obtain ⟨p1, hp1⟩ := outsOk n nd.outputs pts hv
      obtain ⟨p, hp⟩ := ih p1 (fun w hw => hl w (List.mem_cons_of_mem _ hw))
      exact ⟨p, foldlM_cons_some.mpr ⟨p1, bind_some_iff.mpr ⟨nd, hn, hp1⟩, hp⟩⟩
  have loopB : ∀ (l : List NodeId) (pts : List NodeId), (∀ n ∈ l, n ∈ grpB) →
      ∃ pts', l.foldlM (fun pts n => do
          let nd ← g.node? n
          if IsType Kind.Load nd then pure (pts ++ [n]) else pure pts) pts = some pts' := by
    intro l
    induction l with
    | nil => intro pts _; exact ⟨pts, rfl⟩
    | cons n ns ih =>
      intro pts hl
      obtain ⟨nd, hn⟩ := hB n (hl n (List.mem_cons_self _ _))
      by_cases hL : IsType Kind.Load nd = true
      · obtain ⟨p, hp⟩ := ih (pts ++ [n]) (fun w hw => hl w (List.mem_cons_of_mem _ hw))
        exact ⟨p, foldlM_cons_some.mpr ⟨pts ++ [n],
          bind_some_iff.mpr ⟨nd, hn, by rw [if_pos hL]; rfl⟩, hp⟩⟩
      · obtain ⟨p, hp⟩ := ih pts (fun w hw => hl w (List.mem_cons_of_mem _ hw))
        exact ⟨p, foldlM_cons_some.mpr ⟨pts,
          bind_some_iff.mpr ⟨nd, hn, by rw [if_neg hL]; rfl⟩, hp⟩⟩
  obtain ⟨p1, hp1⟩ := loopA (H.iter grpA) [] (fun n hn => (H.perm grpA).mem_iff.mp hn)
  obtain ⟨p, hp⟩ := loopB (H.iter grpB) p1 (fun n hn => (H.perm grpB).mem_iff.mp hn)
  exact ⟨p, bind_some_iff.mpr ⟨p1, hp1, hp⟩⟩

/-! ### Split points of a chain -/

/-- A chain is a chain from each of its nodes on. -/
theorem chainFrom_suffix {g : Graph} :
    ∀ (pre : List NodeId) {ins : List ValueId} {ns : List NodeId},
      IsChainFrom g ins (pre ++ ns) → ∃ ins', IsChainFrom g ins' ns := by
  intro pre
  induction pre with
  | nil => intro ins ns h; exact ⟨ins, h⟩
  | cons p pre ih =>
    intro ins ns h
    obtain ⟨_, v, _, _, _, _, _, _, _, _, _, hrest⟩ := h
    exact ih hrest

/-- In a chain the only use of the output of a node is by the next node. -/
theorem chainFrom_link {g : Graph} {pre post : List NodeId} {ins : List ValueId}
    {n m : NodeId} (h : IsChainFrom g ins (pre ++ n :: m :: post)) :
    ∃ nd v val, g.node? n = some nd ∧ nd.outputs = [v] ∧ g.value? v = some val ∧
      val.uses = [⟨m, 0⟩] := by
  obtain ⟨ins', h'⟩ := chainFrom_suffix pre h
  obtain ⟨nd, v, val, hn, _, _, _, hout, hv, _, hu, _⟩ := h'
  exact ⟨nd, v, val, hn, hout, hv, hu⟩

theorem usesOf_link {g : Graph} {n m : NodeId} {nd : Node} {v : ValueId} {val : Value}
    (hn : g.node? n = some nd) (hout : nd.outputs = [v]) (hv : g.value? v = some val)
    (hu : val.uses = [⟨m, 0⟩]) : usesOf g n = [⟨m, 0⟩] := by
  simp [usesOf, hn, hout, valueUses, hv, hu]

/-- Entries that are kept once or dropped amount to a filter. -/
theorem flatMap_replicate_eq_filter (c : NodeId → Nat) (x : NodeId) :
    ∀ (l : List NodeId), (∀ n ∈ l, c n = if n = x then 1 else 0) →
      l.flatMap (fun n => List.replicate (c n) n) = l.filter (· == x) := by
  intro l
  induction l with
  | nil => intro _; rfl
  | cons a l ih =>
    intro h
    rw [List.flatMap_cons, ih (fun n hn => h n (List.mem_cons_of_mem _ hn)),
      h a (List.mem_cons_self _ _)]
    by_cases hx : a = x
    · subst hx; simp [List.filter_cons]
    · have : (a == x) = false := by simpa using hx
      simp [List.filter_cons, hx, this]

/-- The split points of a chain cut into a group A ending in `x` and a
non-empty group B: the node `x`, whatever the order of the hash sets. -/
theorem chain_splitPts (H : HashOrder) {g : Graph} {A' B' : List NodeId} {x b : NodeId}
    (hc : IsChain g (A' ++ x :: b :: B')) (hcnt : AllCounted g (A' ++ x :: b :: B')) :
    collectSplitPts H g (A' ++ [x]) (b :: B') = some [x] := by
  obtain ⟨hord, hnd, ins, hins, hch⟩ := hc
  have hnodes := chainFrom_node hch
  have hndA : (A' ++ [x]).Nodup := by
    have : (A' ++ [x] ++ b :: B').Nodup := by simpa using hnd
    exact (List.nodup_append.mp this).1
  have hdisj : ∀ n ∈ A' ++ [x], n ∉ b :: B' := by
    have : (A' ++ [x] ++ b :: B').Nodup := by simpa using hnd
    intro n hn hb
    exact (List.nodup_append.mp this).2.2 hn hb
  have hbA : b ∉ A' ++ [x] := fun hb => hdisj b hb (List.mem_cons_self _ _)
  have hlinkx := @chainFrom_link g A' B' ins x b hch
  obtain ⟨ndx, vx, valx, hnx, houtx, hvx, hux⟩ := hlinkx
  -- the successor of a node of A' is in group A
  have hlinkA : ∀ n ∈ A', ∃ m nd v val, m ∈ A' ++ [x] ∧ n ≠ x ∧ g.node? n = some nd ∧
      nd.outputs = [v] ∧ g.value? v = some val ∧ val.uses = [⟨m, 0⟩] := by
    intro n hn
    obtain ⟨pre, post, rfl⟩ := List.append_of_mem hn
    have hnx' : n ≠ x := by
      intro e
      have hx : x ∈ pre ++ n :: post := e ▸ hn
      have hnd' : ((pre ++ n :: post) ++ [x]).Nodup := hndA
      exact (List.nodup_append.mp hnd').2.2 hx (List.mem_singleton_self x)
    cases post with
    | nil =>
      have hch' : IsChainFrom g ins (pre ++ n :: x :: b :: B') := by simpa using hch
      obtain ⟨nd, v, val, h1, h2, h3, h4⟩ := chainFrom_link hch'
      exact ⟨x, nd, v, val, by simp, hnx', h1, h2, h3, h4⟩
    | cons m post' =>
      have hch' : IsChainFrom g ins (pre ++ n :: m :: (post' ++ x :: b :: B')) := by
        simpa using hch
      obtain ⟨nd, v, val, h1, h2, h3, h4⟩ := chainFrom_link hch'
      exact ⟨m, nd, v, val, by simp, hnx', h1, h2, h3, h4⟩
  -- the search yields a list
  obtain ⟨pts, hpts⟩ := collectSplitPts_some H g (A' ++ [x]) (b :: B')
    (by
      intro n hn
      rcases List.mem_append.mp hn with hA | hx
      · obtain ⟨m, nd, v, val, hm, _, h1, h2, h3, h4⟩ := hlinkA n hA
        refine ⟨nd, h1, ?_⟩
        intro w hw
        rw [h2] at hw
        obtain rfl := List.mem_singleton.mp hw
        refine ⟨val, h3, ?_⟩
        intro u hu
        rw [h4] at hu
        obtain rfl := List.mem_singleton.mp hu
        exact Or.inl hm
      · obtain rfl := List.mem_singleton.mp hx
        refine ⟨ndx, hnx, ?_⟩
        intro w hw
        rw [houtx] at hw
        obtain rfl := List.mem_singleton.mp hw
        refine ⟨valx, hvx, ?_⟩
        intro u hu
        rw [hux] at hu
        obtain rfl := List.mem_singleton.mp hu
        exact Or.inr (List.mem_cons_self _ _))
    (by
      intro n hn
      obtain ⟨nd, h, _⟩ := hnodes n (by simp; rcases List.mem_cons.mp hn with h | h <;> simp [h])
      exact ⟨nd, h⟩)
  rw [hpts]
  apply congrArg
  rw [collectSplitPts_eq hpts]
  -- the entries of group A
  have hcross : ∀ n ∈ H.iter (A' ++ [x]),
      crossingCount g (A' ++ [x]) n = if n = x then 1 else 0 := by
    intro n hn
    have hn' : n ∈ A' ++ [x] := (H.perm _).mem_iff.mp hn
    rcases List.mem_append.mp hn' with hA | hx
    · obtain ⟨m, nd, v, val, hm, hne, h1, h2, h3, h4⟩ := hlinkA n hA
      have hc : (A' ++ [x]).contains m = true := by simpa using hm
      rw [if_neg hne]
      simp only [crossingCount, usesOf_link h1 h2 h3 h4]
      simp only [List.countP_cons, hc, Bool.not_true, List.countP_nil]
      rfl
    · obtain rfl := List.mem_singleton.mp hx
      have hc : (A' ++ [n]).contains b = false := by
        simpa using hbA
      rw [if_pos rfl]
      simp only [crossingCount, usesOf_link hnx houtx hvx hux]
      simp only [List.countP_cons, hc, Bool.not_false, if_true, List.countP_nil]
  rw [flatMap_replicate_eq_filter _ x _ hcross]
  -- the Loads of group B
  have hloadB : (H.iter (b :: B')).filter (isLoad g) = [] := by
    apply List.filter_eq_nil_iff.mpr
    intro n hn
    have hn' : n ∈ b :: B' := (H.perm _).mem_iff.mp hn
    have hmem : n ∈ A' ++ x :: b :: B' := by
      simp only [List.mem_append, List.mem_cons]
      rcases List.mem_cons.mp hn' with h | h
      · exact Or.inr (Or.inr (Or.inl h))
      · exact Or.inr (Or.inr (Or.inr h))
    obtain ⟨nd, h, _⟩ := hnodes n hmem
    have hs := hcnt n hmem nd h
    simp only [SkipWhenCalMemSize, Bool.or_eq_false_iff] at hs
    simp [isLoad, h, hs.1.1]
  rw [hloadB, List.append_nil]
  have hperm : ((H.iter (A' ++ [x])).filter (· == x)).Perm ((A' ++ [x]).filter (· == x)) :=
    (H.perm _).filter _
  have hfil : (A' ++ [x]).filter (· == x) = [x] := by
    rw [List.filter_beq, List.count_eq_one_of_mem hndA (by simp)]
    rfl
  rw [hfil] at hperm
  exact List.perm_singleton.mp hperm

/-! ### The finder on a chain of counted nodes -/

/-- The groups of a chain of counted nodes, from the assignment of the
traversal. -/
theorem halfSizeGroups_chain {T : Target} {g : Graph} {n : NodeId} {rest : List NodeId}
    (hc : IsChain g (n :: rest)) (hcnt : AllCounted g (n :: rest))
    {acc : Nat} {A B : List NodeId} {last : NodeId}
    (hgrp : assignGroups T g (sumUsage T g (n :: rest) 0) (n :: rest) (0, [], []) = (acc, A, B))
    (hlast : (n :: rest).getLast? = some last) :
    halfSizeGroups T g =
      some (if B.isEmpty && A.length == 1 then none
            else some (if B.isEmpty then (A.erase last, [last]) else (A, B))) := by
  obtain ⟨st, hst, hg, hl⟩ := traverse_chain (T := T) hc hcnt
  rw [hgrp] at hg
  have hA : st.grpA = A := by
    have := congrArg (fun p => p.2.1) hg
    exact this
  have hB : st.grpB = B := by
    have := congrArg (fun p => p.2.2) hg
    exact this
  rw [hlast] at hl
  obtain ⟨hord, hnd, ins, hins, hch⟩ := hc
  have hnodes := chainFrom_node hch
  have hgl : ∀ grp : List NodeId × List NodeId, groupLoadStore g grp.1 grp.2 = some grp := by
    intro grp
    rw [groupLoadStore_eq, hord]
    exact groupLoadStore_counted g _ grp (fun x hx => (hnodes x hx).imp (fun _ h => h.1)) hcnt
  unfold halfSizeGroups
  simp only [hst, Option.bind_eq_bind, Option.some_bind, hA, hB, hl, Option.pure_def]
  by_cases hE : (B.isEmpty && A.length == 1) = true
  · simp only [hE, if_true]
  · simp only [hE, if_false]
    by_cases hBe : B.isEmpty = true
    · simp only [hBe, if_true, Option.some_bind]
      rw [hgl (A.erase last, [last])]
      rfl
    · simp only [hBe, if_false, Option.some_bind]
      rw [hgl (A, B)]
      rfl

/-! ### Chains of nodes of equal usage -/

theorem sumUsage_uniform (T : Target) (g : Graph) (s : Nat) :
    ∀ (ns : List NodeId) (acc : Nat), (∀ n ∈ ns, T.getOperatorMemUsage g n = s) →
      acc + ns.length * s < UINT64 → sumUsage T g ns acc = acc + ns.length * s := by
  intro ns
  induction ns with
  | nil => intro acc _ _; simp [sumUsage]
  | cons n ns ih =>
    intro acc hu hb
    have hn := hu n (List.mem_cons_self _ _)
    have hlen : (n :: ns).length * s = s + ns.length * s := by
      rw [List.length_cons, Nat.add_mul, Nat.one_mul, Nat.add_comm]
    rw [hlen] at hb ⊢
    have hstep : sumUsage T g (n :: ns) acc = sumUsage T g ns ((acc + s) % UINT64) := by
      simp [sumUsage, hn]
    rw [hstep, Nat.mod_eq_of_lt (by omega), ih (acc + s) (fun m hm => hu m (List.mem_cons_of_mem _ hm))
      (by omega)]
    omega

theorem setInsert_of_not_mem {s : List NodeId} {n : NodeId} (h : n ∉ s) :
    setInsert s n = s ++ [n] := by
  have : s.contains n = false := by simpa using h
  rw [setInsert, this]
  rfl

/-- The assignment of a chain of nodes of usage `s` when half of the total
is `k * s`: the nodes up to position `k` go to group A, the others to
group B. -/
theorem assignGroups_uniform (T : Target) (g : Graph) (total s k : Nat) (hs : 1 ≤ s)
    (htot : total / 2 = k * s) :
    ∀ (ns : List NodeId) (i : Nat) (A B : List NodeId),
      (∀ n ∈ ns, T.getOperatorMemUsage g n = s) → (i + ns.length) * s < UINT64 → ns.Nodup →
      (∀ n ∈ ns, n ∉ A ∧ n ∉ B) →
      assignGroups T g total ns (i * s, A, B)
        = ((i + ns.length) * s, A ++ ns.take (k - i), B ++ ns.drop (k - i)) := by
  intro ns
  induction ns with
  | nil => intro i A B _ _ _ _; simp [assignGroups]
  | cons n ns ih =>
    intro i A B hu hb hnd hdisj
    have hn := hu n (List.mem_cons_self _ _)
    have hnA := (hdisj n (List.mem_cons_self _ _)).1
    have hnB := (hdisj n (List.mem_cons_self _ _)).2
    have hnd' := List.nodup_cons.mp hnd
    have hlen : (i + (n :: ns).length) * s = (i + 1 + ns.length) * s := by
      rw [List.length_cons]; congr 1; omega
    have hacc : (i * s + T.getOperatorMemUsage g n) % UINT64 = (i + 1) * s := by
      rw [hn, Nat.mod_eq_of_lt]
      · rw [Nat.add_mul, Nat.one_mul]
      · rw [hlen] at hb
        have : i * s + s = (i + 1) * s := by rw [Nat.add_mul, Nat.one_mul]
        rw [this]
        exact lt_of_le_of_lt (Nat.mul_le_mul_right s (by omega)) hb
    rw [hlen] at hb ⊢
    by_cases hik : i < k
    · have hlt : i * s < total / 2 := by
        rw [htot]; exact Nat.mul_lt_mul_of_pos_right hik (by omega)
      rw [assignGroups_cons_lt _ _ _ _ _ _ _ _ hlt, hacc, setInsert_of_not_mem hnA,
        ih (i + 1) (A ++ [n]) B (fun m hm => hu m (List.mem_cons_of_mem _ hm)) hb hnd'.2
          (by
            intro m hm
            refine ⟨?_, (hdisj m (List.mem_cons_of_mem _ hm)).2⟩
            intro h
            rcases List.mem_append.mp h with h | h
            · exact (hdisj m (List.mem_cons_of_mem _ hm)).1 h
            · obtain rfl := List.mem_singleton.mp h
              exact hnd'.1 hm)]
      have hk : k - i = (k - (i + 1)) + 1 := by omega
      rw [hk, List.take_succ_cons, List.drop_succ_cons]
      simp
    · have hge : ¬ i * s < total / 2 := by
        rw [htot]
        exact Nat.not_lt.mpr (Nat.mul_le_mul_right s (by omega))
      rw [assignGroups_cons_ge _ _ _ _ _ _ _ _ hge, hacc, setInsert_of_not_mem hnB,
        ih (i + 1) A (B ++ [n]) (fun m hm => hu m (List.mem_cons_of_mem _ hm)) hb hnd'.2
          (by
            intro m hm
            refine ⟨(hdisj m (List.mem_cons_of_mem _ hm)).1, ?_⟩
            intro h
            rcases List.mem_append.mp h with h | h
            · exact (hdisj m (List.mem_cons_of_mem _ hm)).2 h
            · obtain rfl := List.mem_singleton.mp h
              exact hnd'.1 hm)]
      have hk : k - i = 0 := by omega
      have hk' : k - (i + 1) = 0 := by omega
      rw [hk, hk']
      simp

/-! ### The example graphs are chains -/

theorem allCounted_of_nodes {g : Graph} {ns : List NodeId}
    (h : ∀ n ∈ ns, ∃ nd, g.node? n = some nd ∧ SkipWhenCalMemSize nd = false) :
    AllCounted g ns := by
  intro n hn nd hnd
  obtain ⟨nd', h1, h2⟩ := h n hn
  rw [h1] at hnd
  cases hnd
  exact h2

theorem loneConvGraph_chain : IsChain loneConvGraph [1] :=
  { order := rfl
    nodup := by decide
    links := ⟨[0, 1, 2], by decide,
      ⟨_, _, _, rfl, by decide, by decide, rfl, rfl, rfl, rfl, ⟨_, _, rfl, rfl, rfl⟩, trivial⟩⟩ }

theorem pairGraph_chain : IsChain pairGraph [1, 3] :=
  { order := rfl
    nodup := by decide
    links := ⟨[0, 1, 2], by decide,
      ⟨_, _, _, rfl, by decide, by decide, rfl, rfl, rfl, rfl, rfl,
        ⟨_, _, _, rfl, by decide, by decide, rfl, rfl, rfl, rfl, ⟨_, _, rfl, rfl, rfl⟩,
          trivial⟩⟩⟩ }

theorem pairGraph_counted : AllCounted pairGraph [1, 3] :=
  allCounted_of_nodes (by decide)

theorem sixGraph_chain : IsChain sixGraph [2, 3, 4, 5, 6, 7] :=
  { order := rfl
    nodup := by decide
    links := ⟨[14], by decide,
      ⟨_, _, _, rfl, by decide, by decide, rfl, rfl, rfl, rfl, rfl,
      ⟨_, _, _, rfl, by decide, by decide, rfl, rfl, rfl, rfl, rfl,
      ⟨_, _, _, rfl, by decide, by decide, rfl, rfl, rfl, rfl, rfl,
      ⟨_, _, _, rfl, by decide, by decide, rfl, rfl, rfl, rfl, rfl,
      ⟨_, _, _, rfl, by decide, by decide, rfl, rfl, rfl, rfl, rfl,
      ⟨_, _, _, rfl, by decide, by decide, rfl, rfl, rfl, rfl, ⟨_, _, rfl, rfl, rfl⟩,
        trivial⟩⟩⟩⟩⟩⟩⟩ }

theorem sixGraph_counted : AllCounted sixGraph [2, 3, 4, 5, 6, 7] :=
  allCounted_of_nodes (by decide)

/-! ### Topological sort of a chain -/

/-- Kahn's loop over a chain dequeues its nodes in order. -/
theorem topoLoop_chain (g : Graph) :
    ∀ (rest : List NodeId) (n : NodeId) (ins : List ValueId) (fuel : Nat) (dmap : DegreeMap)
      (done : List NodeId),
      IsChainFrom g ins (n :: rest) → (n :: rest).Nodup →
      (∀ x ∈ rest, dmap.lookup x = some 1) → rest.length + 1 ≤ fuel →
      topoLoop g fuel (dmap, [n], done) = some (done ++ n :: rest) := by
  intro rest
  induction rest with
  | nil =>
    intro n ins fuel dmap done hch _ _ hfuel
    obtain ⟨nd, v, val, hn, hk, hr, _, hout, hv, _, hlast, _⟩ := hch
    obtain ⟨k, rn, hu, hrn, hrk⟩ := hlast
    obtain ⟨f, rfl⟩ : ∃ f, fuel = f + 1 := ⟨fuel - 1, by omega⟩
    rw [topoLoop]
    simp only [updateDegrees_last dmap [] hn hout hv hu hrn hrk, Option.bind_eq_bind,
      Option.some_bind]
    cases f with
    | zero => simp [topoLoop]
    | succ f => simp [topoLoop]
  | cons n' rest ih =>
    intro n ins fuel dmap done hch hnd hd hfuel
    obtain ⟨nd, v, val, hn, hk, hr, _, hout, hv, _, hu, hrest⟩ := hch
    have hrest' := hrest
    obtain ⟨nd', v', val', hn', hk', hr', _, _, _, _, _, _⟩ := hrest'
    obtain ⟨f, rfl⟩ : ∃ f, fuel = f + 1 := ⟨fuel - 1, by omega⟩
    have hd' : dmap.lookup n' = some 1 := hd n' (List.mem_cons_self _ _)
    have hnd' : (n' :: rest).Nodup := (List.nodup_cons.mp hnd).2
    have hdm : ∀ x ∈ rest, (tableSet dmap n' 0).lookup x = some 1 := by
      intro x hx
      have hxn : x ≠ n' := fun e => (List.nodup_cons.mp hnd').1 (e ▸ hx)
      rw [lookup_tableSet_ne _ _ _ _ hxn]
      exact hd x (List.mem_cons_of_mem _ hx)
    have hf : rest.length + 1 ≤ f := by simp only [List.length_cons] at hfuel; omega
    rw [topoLoop]
    simp only [updateDegrees_inner [] hn hout hv hu hn' hr' hd', Option.bind_eq_bind,
      Option.some_bind]
    rw [ih n' [v] f (tableSet dmap n' 0) (done ++ [n]) hrest hnd' hdm hf]
    simp

theorem TopologicalSort_eq (pGraph : Graph) :
    TopologicalSort pGraph = (do
      let dmap ← BuildDegreeMap pGraph
      let worklist ← initWorklist pGraph dmap
      let orderedList ← topoLoop pGraph pGraph.fuel (dmap, worklist, [])
      let begin := pGraph.order.head?.getD pGraph.return_node
      let bnd ← pGraph.node? begin
      let it ← if bnd.kind = Kind.kUndefined then pGraph.next begin else some begin
      let r ← orderedList.foldlM reorderStep (pGraph, it)
      pure r.1) := rfl

/-- The successor of a node of the node list. -/
theorem next_of_order {g : Graph} {pre post : List NodeId} {n : NodeId}
    (hord : g.order = pre ++ n :: post) (hnd : g.order.Nodup) (hret : n ≠ g.return_node) :
    g.next n = some (post.head?.getD g.return_node) := by
  have hpre : n ∉ pre := by
    rw [hord] at hnd
    have := (List.nodup_append.mp hnd).2.2
    intro h
    exact this h (List.mem_cons_self _ _)
  have hdw : (pre ++ n :: post).dropWhile (fun x => !(x == n)) = n :: post := by
    clear hord
    induction pre with
    | nil => simp [List.dropWhile_cons]
    | cons p pre ih =>
      have hp : p ≠ n := fun e => hpre (e ▸ List.mem_cons_self _ _)
      have hpb : (p == n) = false := by simpa using hp
      rw [List.cons_append, List.dropWhile_cons, hpb]
      exact ih (fun h => hpre (List.mem_cons_of_mem _ h))
  have hmem : g.order.contains n = true := by
    rw [hord]; simp
  rw [Graph.next, if_neg hret, if_pos hmem, hord, hdw]
  rfl

/-- The reordering loop of `TopologicalSort` over a list that is a suffix of
the node list, with the cursor at its head: nothing moves. -/
theorem reorder_suffix (g : Graph) (hnd : g.order.Nodup) (hret : g.return_node ∉ g.order) :
    ∀ (post pre : List NodeId) (it : NodeId), g.order = pre ++ post →
      it = post.head?.getD g.return_node →
      ∃ it', post.foldlM reorderStep (g, it) = some (g, it') := by
  intro post
  induction post with
  | nil => intro pre it _ _; exact ⟨it, rfl⟩
  | cons n post ih =>
    intro pre it hord hit
    have hit' : it = n := by simpa using hit
    subst hit'
    have hne : it ≠ g.return_node := by
      intro e
      apply hret
      rw [← e, hord]
      simp
    have hnext := next_of_order hord hnd hne
    rw [List.foldlM_cons]
    simp only [reorderStep, ne_eq, not_true_eq_false, if_false, hnext, Option.bind_eq_bind,
      Option.some_bind, Option.pure_def]
    exact ih (pre ++ [it]) _ (by rw [hord]; simp) rfl

/-- The return node is not in a chain. -/
theorem chain_return_not_mem {g : Graph} {ins : List ValueId} {ns : List NodeId}
    (hch : IsChainFrom g ins ns) (hne : ns ≠ []) : g.return_node ∉ ns := by
  have hnodes := chainFrom_node hch
  -- the return node is a node of kind Return
  have hret : ∃ rn, g.node? g.return_node = some rn ∧ rn.kind = Kind.kReturn := by
    clear hnodes
    induction ns generalizing ins with
    | nil => exact absurd rfl hne
    | cons n rest ih =>
      obtain ⟨nd, v, val, hn, hk, hr, _, hout, hv, _, hlast, hrest⟩ := hch
      cases rest with
      | nil =>
        obtain ⟨k, rn, _, h1, h2⟩ := hlast
        exact ⟨rn, h1, h2⟩
      | cons n' rest' => exact ih hrest (by simp)
  obtain ⟨rn, h1, h2⟩ := hret
  intro hmem
  obtain ⟨nd, h3, _, h4⟩ := hnodes _ hmem
  rw [h1] at h3
  cases h3
  exact h4 h2

/-- The topological sort of a non-empty chain returns the graph as it is. -/
theorem topoSort_chain {g : Graph} {ns : List NodeId} (hc : IsChain g ns)
    (hne : ns ≠ []) : TopologicalSort g = some g := by
  obtain ⟨n, rest, rfl⟩ : ∃ n rest, ns = n :: rest := by
    cases ns with
    | nil => exact absurd rfl hne
    | cons n rest => exact ⟨n, rest, rfl⟩
  have hdm := buildDegree_chain hc
  have hwl := initWorklist_chain hc
  obtain ⟨hord, hnd, ins, hins, hch⟩ := hc
  have hnodes := chainFrom_node hch
  have hfuel : rest.length + 1 ≤ g.fuel := by
    have := length_lt_fuel hnd (fun x hx => (hnodes x hx).imp (fun _ h => h.1))
    simp only [List.length_cons] at this
    omega
  have hloop := topoLoop_chain g rest n ins g.fuel ((n, 0) :: rest.map (fun x => (x, 1))) []
    hch hnd
    (by
      intro x hx
      have hxn : (x == n) = false := by
        simpa using (fun e : x = n => (List.nodup_cons.mp hnd).1 (e ▸ hx))
      show List.lookup x ((n, 0) :: rest.map (fun x => (x, 1))) = some 1
      simp only [List.lookup_cons, hxn]
      exact lookup_map_const_of_mem rest (fun _ => 1) x hx)
    hfuel
  obtain ⟨nd, hn, hk, _⟩ := hnodes n (List.mem_cons_self _ _)
  have hret : g.return_node ∉ g.order := by
    rw [hord]; exact chain_return_not_mem hch (by simp)
  obtain ⟨it', hre⟩ := reorder_suffix g (hord ▸ hnd) hret (n :: rest) [] n
    (by rw [hord]; rfl) rfl
  rw [TopologicalSort_eq]
  simp only [hdm, hwl, hloop, Option.bind_eq_bind, Option.some_bind, hord, List.head?_cons,
    Option.getD_some, hn, hk, if_false, List.nil_append, hre, Option.pure_def]



/-- Counterexample to C18 as stated: the node list of `twoGraph`, two
independent nodes 2 and 3, is in topological order, and `TopologicalSort`
turns it into 3, 2: the worklist is a stack, and of two nodes that are ready
the later one of the node list is taken first. -/
theorem TopologicalSort_not_stable :
    twoGraph.inTopologicalOrder = true ∧ twoGraph.order = [2, 3] ∧
      (TopologicalSort twoGraph).map (fun g => g.order) = some [3, 2] := by
  refine ⟨by decide, rfl, by decide⟩

/-! ## Properties of the shrinking of tiles -/

/-- In `shrinkSize` a Store whose split axis equals the rank of its input is
not skipped: the entry of `origSizes` at that axis, which does not exist, is
read first. -/
theorem shrinkStep_exhausted (g : Graph) (sg : SplitGraph) (i : Nat) (n : NodeId) (nd : Node)
    (v : ValueId) (val : Value) (hs : sg.m_Stores[i]? = some n) (hn : g.node? n = some nd)
    (hv : nd.inputs[0]? = some v) (hval : g.value? v = some val)
    (ha : sg.m_CurSplitAxis[i]? = some val.sizes.length) :
    sg.shrinkStep g i = none := by
  unfold SplitGraph.shrinkStep
  simp only [hs, hn, hv, hval, ha, Option.bind_eq_bind, Option.some_bind]
  cases sg.m_CurSplitFactor[i]? with
  | none => rfl
  | some f =>
    have : val.sizes[val.sizes.length]? = none := List.getElem?_eq_none (Nat.le_refl _)
    simp only [Option.some_bind, this, Option.none_bind]

/-- C20. Evaluation of `shrinkSize` on the split graph of `tinyParent`, whose
Store 10 has an input of sizes `(2)`.  The first call raises the factor to 2
and halves the tile of the Store and of its producers; the second call finds
`2 < 3`, advances to axis 1, which is the rank, and skips the Store, leaving
every tile as it was; the third call, on the Store whose axes are exhausted,
reads `origSizes[1]` out of bounds before the test for exhausted axes and
yields no value. -/
theorem shrinkSize_exhausted_store :
    SplitGraph.new exampleTarget tinyParent 0 = some (tinySplit [2] 0 1) ∧
      (tinySplit [2] 0 1).shrinkSize tinyParent = some (tinySplit [1] 0 2) ∧
      (tinySplit [1] 0 2).shrinkSize tinyParent = some (tinySplit [1] 1 1) ∧
      (tinySplit [1] 1 1).shrinkSize tinyParent = none := by
  refine ⟨by decide, by decide, by decide, by decide⟩

/-! ## Properties of the extraction

### The extraction by its steps -/

theorem SplitSubGraph_eq (H : HashOrder) (pGraph : Graph) (newId : GraphId)
    (pSplitPts : List NodeId) :
    SplitSubGraph H pGraph newId pSplitPts = (do
      let p ← createPairs pGraph pSplitPts
      let c ← cloneAll p.1 { Graph.new with name := pGraph.name ++ ".sub" } p.2
      let r ← rebuildInputs H p.1 c.1 c.2.1
      let s ← p.1.create Kind.SubGraph 1
      let snd ← s.1.node? s.2
      let g3 := s.1.setNode s.2 { snd with attrs := { snd.attrs with g := some newId } }
      let g4 ← p.2.foldlM (connectStep s.2) (g3, ([] : List NodeId))
      let g5 ← g4.1.insertBefore s.2 g4.1.return_node
      let so ← g5.output s.2
      let g6 ← g5.addInput g5.return_node so
      let ng3 ← TopologicalSort r.1
      pure (g6, ng3)) := rfl

theorem removeLoop_succ (fuel : Nat) (oldN : NodeId) (worklist : List NodeId) (g : Graph)
    (pHasRemoved : List NodeId) :
    removeLoop (fuel + 1) (oldN :: worklist) (g, pHasRemoved) =
      (g.node? oldN).bind (fun nd =>
        if nd.kind = Kind.kReturn then removeLoop fuel worklist (g, pHasRemoved)
        else if pHasRemoved.contains oldN then removeLoop fuel worklist (g, pHasRemoved)
        else (detachUsers nd.outputs (g, worklist)).bind (fun r =>
          (r.1.destroy oldN).bind (fun g2 =>
            removeLoop fuel r.2 (g2, setInsert pHasRemoved oldN)))) := rfl

/-! ### Tables and graphs -/

theorem lookup_tableSet_none {α : Type} (t : List (Nat × α)) (k k' : Nat) (a : α)
    (h : t.lookup k' = none) : (tableSet t k a).lookup k' = none := by
  induction t with
  | nil => rfl
  | cons p t ih =>
    obtain ⟨pk, pv⟩ := p
    by_cases hk' : (k' == pk) = true
    · simp [List.lookup_cons, hk'] at h
    · have h1 : (k' == pk) = false := by simpa using hk'
      simp only [List.lookup_cons, h1] at h
      by_cases hk : pk = k
      · subst hk
        simp only [tableSet, List.map_cons, if_true, List.lookup_cons, h1]
        exact ih h
      · simp only [tableSet, List.map_cons, hk, if_false, List.lookup_cons, h1]
        exact ih h

theorem lookup_tableErase_ne {α : Type} (t : List (Nat × α)) (k k' : Nat) (h : k' ≠ k) :
    (tableErase t k).lookup k' = t.lookup k' := by
  induction t with
  | nil => rfl
  | cons p t ih =>
    obtain ⟨pk, pv⟩ := p
    by_cases hk : pk = k
    · subst hk
      have h1 : (k' == pk) = false := by simpa using h
      simp only [tableErase, List.filter_cons, beq_self_eq_true, Bool.not_true,
        Bool.false_eq_true, if_false, List.lookup_cons, h1]
      exact ih
    · have h2 : (pk == k) = false := by simpa using hk
      simp only [tableErase, List.filter_cons, h2, Bool.not_false, if_true, List.lookup_cons]
      cases (k' == pk) with
      | true => rfl
      | false => exact ih

theorem lookup_tableErase_self {α : Type} (t : List (Nat × α)) (k : Nat) :
    (tableErase t k).lookup k = none := by
  induction t with
  | nil => rfl
  | cons p t ih =>
    obtain ⟨pk, pv⟩ := p
    by_cases hk : pk = k
    · subst hk
      simp only [tableErase, List.filter_cons, beq_self_eq_true, Bool.not_true,
        Bool.false_eq_true, if_false]
      exact ih
    · have h2 : (pk == k) = false := by simpa using hk
      have h1 : (k == pk) = false := by simpa using (fun e : k = pk => hk e.symm)
      simp only [tableErase, List.filter_cons, h2, Bool.not_false, if_true, List.lookup_cons, h1]
      exact ih

theorem node?_setNode_ne (g : Graph) (n k : NodeId) (nd : Node) (h : k ≠ n) :
    (g.setNode n nd).node? k = g.node? k :=
  lookup_tableSet_ne _ _ _ _ h

theorem node?_setNode_self (g : Graph) (n : NodeId) (nd nd0 : Node) (h : g.node? n = some nd0) :
    (g.setNode n nd).node? n = some nd :=
  lookup_tableSet_self _ _ _ _ h

theorem node?_setNode_none (g : Graph) (n k : NodeId) (nd : Node) (h : g.node? k = none) :
    (g.setNode n nd).node? k = none :=
  lookup_tableSet_none _ _ _ _ h

theorem node?_setValue (g : Graph) (v : ValueId) (val : Value) (k : NodeId) :
    (g.setValue v val).node? k = g.node? k := rfl

theorem value?_setNode (g : Graph) (n : NodeId) (nd : Node) (v : ValueId) :
    (g.setNode n nd).value? v = g.value? v := rfl

theorem value?_setValue_ne (g : Graph) (v w : ValueId) (val : Value) (h : w ≠ v) :
    (g.setValue v val).value? w = g.value? w :=
  lookup_tableSet_ne _ _ _ _ h

theorem value?_setValue_self (g : Graph) (v : ValueId) (val val0 : Value)
    (h : g.value? v = some val0) : (g.setValue v val).value? v = some val :=
  lookup_tableSet_self _ _ _ _ h

/-- A fold in `Option` that preserves a relation to its start at each step
preserves it overall. -/
theorem foldlM_invariant {α β : Type} (f : β → α → Option β) (R : β → Prop) :
    ∀ (l : List α) (b b' : β), R b → (∀ x y a, a ∈ l → R x → f x a = some y → R y) →
      l.foldlM f b = some b' → R b' := by
  intro l
  induction l with
  | nil =>
    intro b b' hb _ h
    simp only [List.foldlM_nil, Option.pure_def, Option.some.injEq] at h
    exact h ▸ hb
  | cons a l ih =>
    intro b b' hb hstep h
    obtain ⟨c, hc, hrest⟩ := foldlM_cons_some.mp h
    exact ih c b' (hstep b c a (List.mem_cons_self _ _) hb hc)
      (fun x y a' ha => hstep x y a' (List.mem_cons_of_mem _ ha)) hrest

/-! ### Graphs that shrink and graphs that grow -/

theorem Node.sameShape_refl (a : Node) : a.sameShape a := ⟨rfl, rfl, rfl⟩

theorem Node.sameShape_trans {a b c : Node} (h1 : a.sameShape b) (h2 : b.sameShape c) :
    a.sameShape c :=
  ⟨h1.1.trans h2.1, h1.2.1.trans h2.2.1, h1.2.2.trans h2.2.2⟩

theorem Graph.Shrinks.self (g : Graph) : g.Shrinks g :=
  ⟨rfl, rfl, fun _ h => h, fun _ nd' h => ⟨nd', h, Node.sameShape_refl _⟩⟩

theorem Graph.Shrinks.andThen {g g' g'' : Graph} (h1 : g.Shrinks g') (h2 : g'.Shrinks g'') :
    g.Shrinks g'' where
  next := h2.next.trans h1.next
  ret := h2.ret.trans h1.ret
  order := fun k hk => h1.order k (h2.order k hk)
  nodes := fun k nd'' h => by
    obtain ⟨nd', h', s'⟩ := h2.nodes k nd'' h
    obtain ⟨nd, h0, s⟩ := h1.nodes k nd' h'
    exact ⟨nd, h0, Node.sameShape_trans s s'⟩

theorem Graph.WF.lt_of_node {g : Graph} (hwf : g.WF) {k : NodeId} {nd : Node}
    (h : g.node? k = some nd) : k < g.next_unique := by
  by_contra hlt
  have := hwf.nodes k (Nat.le_of_not_lt hlt)
  rw [this] at h
  cases h

theorem Graph.Shrinks.wf {g g' : Graph} (h : g.Shrinks g') (hwf : g.WF) : g'.WF where
  nodes := fun k hk => by
    cases hn : g'.node? k with
    | none => rfl
    | some nd' =>
      obtain ⟨nd, h0, _⟩ := h.nodes k nd' hn
      have hlt : k < g.next_unique := hwf.lt_of_node h0
      have hnext := h.next
      rw [hnext] at hk
      exact absurd hlt (Nat.not_lt.mpr hk)
  order := fun k hk => by rw [h.next]; exact hwf.order k (h.order k hk)
  ret := by rw [h.next, h.ret]; exact hwf.ret

theorem Graph.Shrinks.grows {g g' : Graph} (h : g.Shrinks g') (hwf : g.WF) (P : Kind → Prop) :
    g.Grows P g' where
  mono := by rw [h.next]
  ret := h.ret
  wf := h.wf hwf
  nodes := fun k nd' hn => Or.inl (h.nodes k nd' hn)

theorem Graph.Grows.ofWF {g : Graph} (hwf : g.WF) (P : Kind → Prop) : g.Grows P g :=
  (Graph.Shrinks.self g).grows hwf P

theorem Graph.Grows.followedBy {P : Kind → Prop} {g g' g'' : Graph} (h1 : g.Grows P g')
    (h2 : g'.Grows P g'') : g.Grows P g'' where
  mono := Nat.le_trans h1.mono h2.mono
  ret := h2.ret.trans h1.ret
  wf := h2.wf
  nodes := fun k nd'' h => by
    rcases h2.nodes k nd'' h with ⟨nd', h', s'⟩ | ⟨hk, hp⟩
    · rcases h1.nodes k nd' h' with ⟨nd, h0, s⟩ | ⟨hk, hp⟩
      · exact Or.inl ⟨nd, h0, Node.sameShape_trans s s'⟩
      · exact Or.inr ⟨hk, s'.1 ▸ hp⟩
    · exact Or.inr ⟨Nat.le_trans h1.mono hk, hp⟩

/-! ### The operations that create no node -/

theorem setValue_shrinks (g : Graph) (v : ValueId) (val : Value) : g.Shrinks (g.setValue v val) :=
  ⟨rfl, rfl, fun _ h => h, fun _ nd' h => ⟨nd', h, Node.sameShape_refl _⟩⟩

theorem setNode_shrinks {g : Graph} {n : NodeId} {nd nd1 : Node} (hn : g.node? n = some nd)
    (hs : nd.sameShape nd1) : g.Shrinks (g.setNode n nd1) where
  next := rfl
  ret := rfl
  order := fun _ h => h
  nodes := fun k nd' h => by
    by_cases hk : k = n
    · subst hk
      rw [node?_setNode_self g k nd1 nd hn] at h
      cases h
      exact ⟨nd, hn, hs⟩
    · rw [node?_setNode_ne g n k nd1 hk] at h
      exact ⟨nd', h, Node.sameShape_refl _⟩

theorem addInput_shrinks {g g' : Graph} {n : NodeId} {v : ValueId}
    (h : g.addInput n v = some g') : g.Shrinks g' := by
  unfold Graph.addInput at h
  simp only [Option.bind_eq_bind, Option.pure_def] at h
  obtain ⟨nd, hn, h⟩ := bind_some_iff.mp h
  obtain ⟨val, hv, h⟩ := bind_some_iff.mp h
  cases h
  exact (setValue_shrinks g v _).andThen
    (setNode_shrinks (show (g.setValue v _).node? n = some nd from hn)
      (show nd.sameShape { nd with inputs := nd.inputs ++ [v] } from ⟨rfl, rfl, rfl⟩))

/-- The node object of `n` after `addInput`, and the other node objects. -/
theorem addInput_node {g g' : Graph} {n : NodeId} {v : ValueId} {nd : Node}
    (h : g.addInput n v = some g') (hn : g.node? n = some nd) :
    g'.node? n = some { nd with inputs := nd.inputs ++ [v] } ∧
      (∀ k, k ≠ n → g'.node? k = g.node? k) ∧ g'.order = g.order := by
  unfold Graph.addInput at h
  simp only [Option.bind_eq_bind, Option.pure_def, hn, Option.some_bind] at h
  obtain ⟨val, hv, h⟩ := bind_some_iff.mp h
  cases h
  refine ⟨node?_setNode_self _ _ _ nd hn, fun k hk => node?_setNode_ne _ _ _ _ hk, rfl⟩

theorem copyMetadata_shrinks {g g' : Graph} {v : ValueId} {src : Value}
    (h : g.copyMetadata v src = some g') : g.Shrinks g' := by
  unfold Graph.copyMetadata at h
  simp only [Option.bind_eq_bind, Option.pure_def] at h
  obtain ⟨val, hv, h⟩ := bind_some_iff.mp h
  cases h
  exact setValue_shrinks g v _

theorem setUniqueName_shrinks {g g' : Graph} {v : ValueId} {name : String}
    (h : g.setUniqueName v name = some g') : g.Shrinks g' := by
  unfold Graph.setUniqueName at h
  simp only [Option.bind_eq_bind, Option.pure_def] at h
  obtain ⟨val, hv, h⟩ := bind_some_iff.mp h
  cases h
  exact setValue_shrinks g v _

theorem replaceAllUsesWith_shrinks {g g' : Graph} {v w : ValueId}
    (h : g.replaceAllUsesWith v w = some g') : g.Shrinks g' := by
  unfold Graph.replaceAllUsesWith at h
  simp only [Option.bind_eq_bind, Option.pure_def] at h
  obtain ⟨val, hv, h⟩ := bind_some_iff.mp h
  obtain ⟨g1, hg1, h⟩ := bind_some_iff.mp h
  obtain ⟨val1, hv1, h⟩ := bind_some_iff.mp h
  cases h
  refine Graph.Shrinks.andThen ?_ (setValue_shrinks g1 v _)
  refine foldlM_invariant _ (fun x => g.Shrinks x) val.uses g g1 (Graph.Shrinks.self g) ?_ hg1
  intro x y u _ hx hstep
  obtain ⟨nd, hn, hstep⟩ := bind_some_iff.mp hstep
  obtain ⟨nv, hnv, hstep⟩ := bind_some_iff.mp hstep
  by_cases hlt : u.offset < nd.inputs.length
  · rw [if_pos hlt] at hstep
    cases hstep
    exact hx.andThen ((setNode_shrinks hn
      (show nd.sameShape { nd with inputs := nd.inputs.set u.offset w } from ⟨rfl, rfl, rfl⟩)).andThen
      (setValue_shrinks _ w _))
  · rw [if_neg hlt] at hstep
    cases hstep

/-- What `removeAllInputs` does to the node objects. -/
theorem removeAllInputs_frame {g g' : Graph} {n : NodeId}
    (h : g.removeAllInputs n = some g') :
    g.Shrinks g' ∧ g'.order = g.order ∧ (∀ k, k ≠ n → g'.node? k = g.node? k) ∧
      ∃ nd, g.node? n = some nd ∧ g'.node? n = some { nd with inputs := [] } := by
  unfold Graph.removeAllInputs at h
  simp only [Option.bind_eq_bind, Option.pure_def] at h
  obtain ⟨nd, hn, h⟩ := bind_some_iff.mp h
  obtain ⟨g1, hg1, h⟩ := bind_some_iff.mp h
  obtain ⟨nd1, hn1, h⟩ := bind_some_iff.mp h
  cases h
  have hinv : g1.nodeTable = g.nodeTable ∧ g1.order = g.order ∧
      g1.next_unique = g.next_unique ∧ g1.return_node = g.return_node := by
    refine foldlM_invariant _
      (fun x => x.nodeTable = g.nodeTable ∧ x.order = g.order ∧
        x.next_unique = g.next_unique ∧ x.return_node = g.return_node)
      _ g g1 ⟨rfl, rfl, rfl, rfl⟩ ?_ hg1
    intro x y i _ hx hstep
    obtain ⟨v, _, hstep⟩ := bind_some_iff.mp hstep
    obtain ⟨val, _, hstep⟩ := bind_some_iff.mp hstep
    by_cases hc : val.uses.contains ⟨n, i⟩ = true
    · rw [if_pos hc] at hstep
      cases hstep
      exact hx
    · rw [if_neg hc] at hstep
      cases hstep
  have hnode : ∀ k, g1.node? k = g.node? k := fun k => by
    unfold Graph.node?; rw [hinv.1]
  have hn1' : nd1 = nd := by
    rw [hnode, hn] at hn1
    cases hn1
    rfl
  subst hn1'
  have hs1 : g.Shrinks g1 :=
    ⟨hinv.2.2.1, hinv.2.2.2, fun k hk => hinv.2.1 ▸ hk,
      fun k nd' hk => ⟨nd', (hnode k) ▸ hk, Node.sameShape_refl _⟩⟩
  refine ⟨hs1.andThen (setNode_shrinks hn1
    (show nd1.sameShape { nd1 with inputs := [] } from ⟨rfl, rfl, rfl⟩)), hinv.2.1, ?_, nd1, hn, ?_⟩
  · intro k hk
    rw [node?_setNode_ne _ _ _ _ hk, hnode]
  · exact node?_setNode_self _ _ _ nd1 hn1

/-! ### Creation and destruction of nodes -/

/-- What `xGraph::create` does to a well-formed graph: the new node has the
number `next_unique`, the other node objects and the node list stay. -/
theorem create_spec {g g' : Graph} {kind : Kind} {num : Nat} {n : NodeId} (hwf : g.WF)
    (h : g.create kind num = some (g', n)) :
    n = g.next_unique ∧ g'.order = g.order ∧ g'.return_node = g.return_node ∧
      g.next_unique < g'.next_unique ∧ (∀ k, k ≠ n → g'.node? k = g.node? k) ∧
      (∃ nd, g'.node? n = some nd ∧ nd.kind = kind ∧ nd.inputs = [] ∧
        nd.attrs = Attributes.empty) ∧
      (∀ k, g'.next_unique ≤ k → g'.node? k = none) := by
  unfold Graph.create at h
  simp only [Option.bind_eq_bind, Option.pure_def] at h
  obtain ⟨g2, hg2, h⟩ := bind_some_iff.mp h
  simp only [Option.some.injEq, Prod.mk.injEq] at h
  obtain ⟨rfl, rfl⟩ := h
  have hfresh : g.node? g.next_unique = none := hwf.nodes _ (Nat.le_refl _)
  refine ⟨rfl, ?_⟩
  refine foldlM_invariant _
    (fun x => x.order = g.order ∧ x.return_node = g.return_node ∧
      g.next_unique < x.next_unique ∧ (∀ k, k ≠ g.next_unique → x.node? k = g.node? k) ∧
      (∃ nd, x.node? g.next_unique = some nd ∧ nd.kind = kind ∧ nd.inputs = [] ∧
        nd.attrs = Attributes.empty) ∧
      (∀ k, x.next_unique ≤ k → x.node? k = none))
    _ _ g2 ?_ ?_ hg2
  · refine ⟨rfl, rfl, Nat.lt_succ_self _, ?_, ?_, ?_⟩
    · intro k hk
      show List.lookup k (g.nodeTable ++ [_]) = g.node? k
      cases hn : g.node? k with
      | none =>
        rw [lookup_append_of_none _ _ _ hn]
        have : (k == g.next_unique) = false := by simpa using hk
        simp [List.lookup_cons, this]
      | some nd => exact lookup_append_of_some _ _ _ _ hn
    · refine ⟨{ kind := kind, inputs := [], outputs := [], attrs := Attributes.empty },
        ?_, rfl, rfl, rfl⟩
      show List.lookup g.next_unique (g.nodeTable ++ [_]) = _
      rw [lookup_append_of_none _ _ _ hfresh]
      simp [List.lookup_cons]
    · intro k hk
      show List.lookup k (g.nodeTable ++ [_]) = none
      have hk' : g.next_unique + 1 ≤ k := hk
      rw [lookup_append_of_none _ _ _ (hwf.nodes k (by omega))]
      have : (k == g.next_unique) = false := by
        simpa using (fun e : k = g.next_unique => by omega)
      simp [List.lookup_cons, this]
  · intro x y _ _ hx hstep
    obtain ⟨hord, hret, hlt, hother, ⟨nd, hnd, hk1, hk2, hk3⟩, hfr⟩ := hx
    simp only [Graph.addOutput, Option.bind_eq_bind, Option.pure_def, hnd, Option.some_bind,
      Option.map_some', Option.some.injEq] at hstep
    subst hstep
    refine ⟨hord, hret, Nat.lt_succ_of_lt hlt, ?_, ?_, ?_⟩
    · intro k hk
      rw [node?_setNode_ne _ _ _ _ hk]
      exact hother k hk
    · exact ⟨_, node?_setNode_self _ _ _ nd hnd, hk1, hk2, hk3⟩
    · intro k hk
      have hk' : x.next_unique + 1 ≤ k := hk
      exact node?_setNode_none _ _ _ _ (hfr k (by omega))

theorem create_grows {g g' : Graph} {kind : Kind} {num : Nat} {n : NodeId} (hwf : g.WF)
    (P : Kind → Prop) (hP : P kind) (h : g.create kind num = some (g', n)) : g.Grows P g' := by
  obtain ⟨rfl, hord, hret, hlt, hother, ⟨nd, hnd, hk, _, _⟩, hfr⟩ := create_spec hwf h
  refine ⟨Nat.le_of_lt hlt, hret, ⟨hfr, ?_, ?_⟩, ?_⟩
  · intro k hk
    rw [hord] at hk
    exact Nat.lt_trans (hwf.order k hk) hlt
  · rw [hret]; exact Nat.lt_trans hwf.ret hlt
  · intro k nd' hk'
    by_cases hkn : k = g.next_unique
    · subst hkn
      rw [hnd] at hk'
      cases hk'
      exact Or.inr ⟨Nat.le_refl _, hk ▸ hP⟩
    · rw [hother k hkn] at hk'
      exact Or.inl ⟨nd', hk', Node.sameShape_refl _⟩

/-- Insertion of an existing node into the node list. -/
theorem order_grows {g g' : Graph} (hwf : g.WF) (P : Kind → Prop) {n : NodeId} {nd : Node}
    (hn : g.node? n = some nd) (hnt : g'.nodeTable = g.nodeTable)
    (hnext : g'.next_unique = g.next_unique) (hret : g'.return_node = g.return_node)
    (hord : ∀ k ∈ g'.order, k ∈ g.order ∨ k = n) : g.Grows P g' := by
  have hnode : ∀ k, g'.node? k = g.node? k := fun k => by unfold Graph.node?; rw [hnt]
  refine ⟨by rw [hnext], hret, ⟨?_, ?_, ?_⟩, ?_⟩
  · intro k hk
    rw [hnode]
    exact hwf.nodes k (hnext ▸ hk)
  · intro k hk
    rw [hnext]
    rcases hord k hk with h | h
    · exact hwf.order k h
    · exact h ▸ hwf.lt_of_node hn
  · rw [hnext, hret]; exact hwf.ret
  · intro k nd' hk
    exact Or.inl ⟨nd', (hnode k) ▸ hk, Node.sameShape_refl _⟩

theorem insertBefore_grows {g g' : Graph} (hwf : g.WF) (P : Kind → Prop) {n target : NodeId}
    {nd : Node} (hn : g.node? n = some nd) (h : g.insertBefore n target = some g') :
    g.Grows P g' := by
  unfold Graph.insertBefore at h
  split at h
  · cases h
  · split at h
    · cases h
      exact order_grows hwf P hn rfl rfl rfl (by
        intro k hk
        rcases List.mem_append.mp hk with h | h
        · exact Or.inl h
        · exact Or.inr (List.mem_singleton.mp h))
    · split at h
      · cases h
        exact order_grows hwf P hn rfl rfl rfl (by
          intro k hk
          rcases List.mem_append.mp hk with h | h
          · exact Or.inl (List.takeWhile_subset _ h)
          · rcases List.mem_cons.mp h with h | h
            · exact Or.inr h
            · exact Or.inl (List.dropWhile_subset _ h))
      · cases h

theorem insertAfter_grows {g g' : Graph} (hwf : g.WF) (P : Kind → Prop) {n target : NodeId}
    {nd : Node} (hn : g.node? n = some nd) (h : g.insertAfter n target = some g') :
    g.Grows P g' := by
  unfold Graph.insertAfter at h
  split at h
  · cases h
  · split at h
    · cases h
      exact order_grows hwf P hn rfl rfl rfl (by
        intro k hk
        rcases List.mem_cons.mp hk with h | h
        · exact Or.inr h
        · exact Or.inl h)
    · split at h
      · rename_i hc
        cases h
        exact order_grows hwf P hn rfl rfl rfl (by
          intro k hk
          rcases List.mem_append.mp hk with h | h
          · exact Or.inl (List.takeWhile_subset _ h)
          · rcases List.mem_cons.mp h with h | h
            · left
              rw [h]
              simpa using hc
            · rcases List.mem_cons.mp h with h | h
              · exact Or.inr h
              · exact Or.inl (List.dropWhile_subset _ (List.mem_of_mem_tail h)))
      · cases h

/-! ### The Loads and Stores of the split points -/

/-- The kinds of the nodes that the first loop of `SplitSubGraph` creates. -/
theorem createLoadAtValue_grows {g g' : Graph} {outv : ValueId} {l : NodeId} (hwf : g.WF)
    (P : Kind → Prop) (hP : P Kind.Load) (h : createLoadAtValue g outv = some (g', l)) :
    g.Grows P g' := by
  unfold createLoadAtValue at h
  simp only [Option.bind_eq_bind, Option.pure_def] at h
  obtain ⟨val, _, h⟩ := bind_some_iff.mp h
  obtain ⟨firstOpt, _, h⟩ := bind_some_iff.mp h
  obtain ⟨first, _, h⟩ := bind_some_iff.mp h
  obtain ⟨r, hr, h⟩ := bind_some_iff.mp h
  obtain ⟨g2, hg2, h⟩ := bind_some_iff.mp h
  obtain ⟨lo, _, h⟩ := bind_some_iff.mp h
  obtain ⟨g3, hg3, h⟩ := bind_some_iff.mp h
  obtain ⟨g4, hg4, h⟩ := bind_some_iff.mp h
  simp only [Option.some.injEq, Prod.mk.injEq] at h
  obtain ⟨rfl, rfl⟩ := h
  obtain ⟨r1, r2⟩ := r
  have h1 := create_grows hwf P hP hr
  obtain ⟨_, _, _, _, _, ⟨nd, hnd, _⟩, _⟩ := create_spec hwf hr
  have h2 := insertBefore_grows h1.wf P hnd hg2
  have h3 := (copyMetadata_shrinks hg3).grows h2.wf P
  have h4 := (replaceAllUsesWith_shrinks hg4).grows h3.wf P
  exact h1.followedBy (h2.followedBy (h3.followedBy h4))

theorem createWith_grows {g g' : Graph} {kind : Kind} {inputs : List ValueId} {num : Nat}
    {n : NodeId} (hwf : g.WF) (P : Kind → Prop) (hP : P kind)
    (h : g.createWith kind inputs num = some (g', n)) :
    g.Grows P g' ∧ n = g.next_unique ∧ ∃ nd, g'.node? n = some nd := by
  unfold Graph.createWith at h
  simp only [Option.bind_eq_bind, Option.pure_def] at h
  obtain ⟨r, hr, h⟩ := bind_some_iff.mp h
  obtain ⟨r1, r2⟩ := r
  obtain ⟨g2, hg2, h⟩ := bind_some_iff.mp h
  simp only [Option.some.injEq, Prod.mk.injEq] at h
  obtain ⟨rfl, rfl⟩ := h
  have h1 := create_grows hwf P hP hr
  obtain ⟨hn, _, _, _, _, ⟨nd, hnd, _⟩, _⟩ := create_spec hwf hr
  have hinv : r1.Shrinks g2 ∧ ∃ nd, g2.node? r2 = some nd := by
    refine foldlM_invariant _ (fun x => r1.Shrinks x ∧ ∃ nd, x.node? r2 = some nd) inputs r1 g2
      ⟨Graph.Shrinks.self r1, nd, hnd⟩ ?_ hg2
    intro x y v _ hx hstep
    obtain ⟨ndx, hndx⟩ := hx.2
    exact ⟨hx.1.andThen (addInput_shrinks hstep), _, (addInput_node hstep hndx).1⟩
  exact ⟨h1.followedBy (hinv.1.grows h1.wf P), hn, hinv.2⟩

theorem createStoreAtValue_grows {g g' : Graph} {pN : NodeId} {outv : ValueId} {s : NodeId}
    (hwf : g.WF) (P : Kind → Prop) (hP : P Kind.Store)
    (h : createStoreAtValue g pN outv = some (g', s)) :
    g.Grows P g' ∧ s < g'.next_unique := by
  unfold createStoreAtValue at h
  simp only [Option.bind_eq_bind, Option.pure_def] at h
  obtain ⟨r, hr, h⟩ := bind_some_iff.mp h
  obtain ⟨r1, r2⟩ := r
  obtain ⟨so, _, h⟩ := bind_some_iff.mp h
  obtain ⟨val, _, h⟩ := bind_some_iff.mp h
  obtain ⟨g6, hg6, h⟩ := bind_some_iff.mp h
  obtain ⟨name, _, h⟩ := bind_some_iff.mp h
  obtain ⟨g7, hg7, h⟩ := bind_some_iff.mp h
  obtain ⟨g8, hg8, h⟩ := bind_some_iff.mp h
  simp only [Option.some.injEq, Prod.mk.injEq] at h
  obtain ⟨rfl, rfl⟩ := h
  obtain ⟨h1, hn, nd, hnd⟩ := createWith_grows hwf P hP hr
  have h6 := copyMetadata_shrinks hg6
  have h7 := setUniqueName_shrinks hg7
  have hs := h6.andThen h7
  have hwf7 := hs.wf h1.wf
  have hnd7 : ∃ nd7, g7.node? r2 = some nd7 := by
    unfold Graph.copyMetadata at hg6
    unfold Graph.setUniqueName at hg7
    simp only [Option.bind_eq_bind, Option.pure_def] at hg6 hg7
    obtain ⟨_, _, hg6⟩ := bind_some_iff.mp hg6
    obtain ⟨_, _, hg7⟩ := bind_some_iff.mp hg7
    cases hg6
    cases hg7
    exact ⟨nd, hnd⟩
  obtain ⟨nd7, hnd7⟩ := hnd7
  have h8 := insertAfter_grows hwf7 P hnd7 hg8
  have hall := h1.followedBy ((hs.grows h1.wf P).followedBy h8)
  refine ⟨hall, ?_⟩
  have := hwf7.lt_of_node hnd7
  exact Nat.lt_of_lt_of_le this h8.mono

theorem createLoadStoreAtNode_grows {g g' : Graph} {pN : NodeId}
    {pairs pairs' : List LoadStorePair} (hwf : g.WF)
    (hp : ∀ p ∈ pairs, ∀ s, p.2 = some s → s < g.next_unique)
    (h : createLoadStoreAtNode g pN pairs = some (g', pairs')) :
    g.Grows LoadOrStore g' ∧ ∀ p ∈ pairs', ∀ s, p.2 = some s → s < g'.next_unique := by
  unfold createLoadStoreAtNode at h
  simp only [Option.bind_eq_bind] at h
  obtain ⟨nd, _, h⟩ := bind_some_iff.mp h
  refine foldlM_invariant _
    (fun (x : Graph × List LoadStorePair) => g.Grows LoadOrStore x.1 ∧
      ∀ p ∈ x.2, ∀ s, p.2 = some s → s < x.1.next_unique)
    nd.outputs (g, pairs) (g', pairs') ⟨Graph.Grows.ofWF hwf _, hp⟩ ?_ h
  intro x y outv _ hx hstep
  unfold createLoadStoreAtValue at hstep
  simp only [Option.bind_eq_bind, Option.pure_def] at hstep
  obtain ⟨l, hl, hstep⟩ := bind_some_iff.mp hstep
  obtain ⟨s, hs, hstep⟩ := bind_some_iff.mp hstep
  cases hstep
  obtain ⟨l1, l2⟩ := l
  obtain ⟨s1, s2⟩ := s
  have h1 := createLoadAtValue_grows hx.1.wf LoadOrStore (Or.inl rfl) hl
  obtain ⟨h2, hlt⟩ := createStoreAtValue_grows h1.wf LoadOrStore (Or.inr rfl) hs
  refine ⟨hx.1.followedBy (h1.followedBy h2), ?_⟩
  intro p hp s hps
  rcases List.mem_append.mp hp with hp | hp
  · exact Nat.lt_of_lt_of_le (hx.2 p hp s hps) (Nat.le_trans h1.mono h2.mono)
  · obtain rfl := List.mem_singleton.mp hp
    cases hps
    exact hlt

theorem createPairs_grows {g g1 : Graph} {pts : List NodeId} {pairs : List LoadStorePair}
    (hwf : g.WF) (h : createPairs g pts = some (g1, pairs)) :
    g.Grows LoadOrStore g1 ∧ ∀ p ∈ pairs, ∀ s, p.2 = some s → s < g1.next_unique := by
  unfold createPairs at h
  refine foldlM_invariant _
    (fun (x : Graph × List LoadStorePair) => g.Grows LoadOrStore x.1 ∧
      ∀ p ∈ x.2, ∀ s, p.2 = some s → s < x.1.next_unique)
    pts (g, []) (g1, pairs) ⟨Graph.Grows.ofWF hwf _, by intro p hp; cases hp⟩ ?_ h
  intro x y sp _ hx hstep
  unfold pairStep at hstep
  simp only [Option.bind_eq_bind, Option.pure_def] at hstep
  obtain ⟨nd, _, hstep⟩ := bind_some_iff.mp hstep
  by_cases hl : IsType Kind.Load nd = true
  · rw [if_pos hl] at hstep
    cases hstep
    refine ⟨hx.1, ?_⟩
    intro p hp s hps
    rcases List.mem_append.mp hp with hp | hp
    · exact hx.2 p hp s hps
    · obtain rfl := List.mem_singleton.mp hp
      cases hps
  · rw [if_neg hl] at hstep
    obtain ⟨y1, y2⟩ := y
    obtain ⟨h1, h2⟩ := createLoadStoreAtNode_grows hx.1.wf hx.2 hstep
    exact ⟨hx.1.followedBy h1, h2⟩

/-! ### Removal of a node and its successors -/

/-- What `destroy` does to the node objects and the node list. -/
theorem destroy_frame {g g' : Graph} {n : NodeId} (h : g.destroy n = some g') :
    g.Shrinks g' ∧ g.inGraphList n = true ∧ (∀ k, k ≠ n → g'.node? k = g.node? k) ∧
      g'.node? n = none := by
  unfold Graph.destroy at h
  simp only [Option.bind_eq_bind, Option.pure_def] at h
  obtain ⟨nd, hn, h⟩ := bind_some_iff.mp h
  by_cases hl : g.inGraphList n = true
  · simp only [hl, Bool.not_true, Bool.false_eq_true, if_false] at h
    obtain ⟨g1, hg1, h⟩ := bind_some_iff.mp h
    obtain ⟨g2, hg2, h⟩ := bind_some_iff.mp h
    have hinv : g1.nodeTable = g.nodeTable ∧ g1.order = g.order ∧
        g1.next_unique = g.next_unique ∧ g1.return_node = g.return_node := by
      refine foldlM_invariant _
        (fun x => x.nodeTable = g.nodeTable ∧ x.order = g.order ∧
          x.next_unique = g.next_unique ∧ x.return_node = g.return_node)
        _ g g1 ⟨rfl, rfl, rfl, rfl⟩ ?_ hg1
      intro x y v _ hx hstep
      obtain ⟨val, _, hstep⟩ := bind_some_iff.mp hstep
      by_cases hc : val.uses.isEmpty = true
      · rw [if_pos hc] at hstep
        cases hstep
        exact hx
      · rw [if_neg hc] at hstep
        cases hstep
    have hnode1 : ∀ k, g1.node? k = g.node? k := fun k => by
      unfold Graph.node?; rw [hinv.1]
    have hs1 : g.Shrinks g1 :=
      ⟨hinv.2.2.1, hinv.2.2.2, fun k hk => hinv.2.1 ▸ hk,
        fun k nd' hk => ⟨nd', (hnode1 k) ▸ hk, Node.sameShape_refl _⟩⟩
    obtain ⟨hs2, hord2, hother2, _⟩ := removeAllInputs_frame hg2
    by_cases hr : n = g2.return_node
    · rw [if_pos hr] at h
      cases h
    · rw [if_neg hr] at h
      obtain ⟨g3, hg3, h⟩ := bind_some_iff.mp h
      cases h
      unfold Graph.removeFromList at hg3
      by_cases hc : g2.order.contains n = true
      · rw [if_pos hc] at hg3
        cases hg3
        have hs3 : g2.Shrinks
            { g2 with order := g2.order.filter (fun x => !(x == n)) } :=
          ⟨rfl, rfl, fun k hk => List.mem_of_mem_filter hk,
            fun k nd' hk => ⟨nd', hk, Node.sameShape_refl _⟩⟩
        have hs4 : g.Shrinks
            { g2 with order := g2.order.filter (fun x => !(x == n)),
                      nodeTable := tableErase g2.nodeTable n } := by
          refine ⟨by rw [← hs1.next, ← hs2.next], by rw [← hs1.ret, ← hs2.ret], ?_, ?_⟩
          · intro k hk
            exact hs1.order k (hs2.order k (List.mem_of_mem_filter hk))
          · intro k nd' hk
            by_cases hkn : k = n
            · subst hkn
              have : (tableErase g2.nodeTable k).lookup k = some nd' := hk
              rw [lookup_tableErase_self] at this
              cases this
            · have : g2.node? k = some nd' := by
                have h' : (tableErase g2.nodeTable n).lookup k = some nd' := hk
                rwa [lookup_tableErase_ne _ _ _ hkn] at h'
              exact (hs1.andThen hs2).nodes k nd' this
        refine ⟨hs4, hl, ?_, ?_⟩
        · intro k hk
          show (tableErase g2.nodeTable n).lookup k = g.node? k
          rw [lookup_tableErase_ne _ _ _ hk]
          exact (hother2 k hk).trans (hnode1 k)
        · exact lookup_tableErase_self _ _
      · rw [if_neg hc] at hg3
        cases hg3
  · simp only [hl, Bool.not_false, if_true] at h
    cases h

/-- The inner loops of `removeNodeAndSuccessors` push the users onto the
worklist; a node that is not on the worklist afterwards has kept its node
object. -/
theorem detachUsers_frame {g g' : Graph} {outs : List ValueId} {wl wl' : List NodeId}
    (h : detachUsers outs (g, wl) = some (g', wl')) :
    g.Shrinks g' ∧ g'.order = g.order ∧ (∀ k ∈ wl, k ∈ wl') ∧
      ∀ k, k ∉ wl' → g'.node? k = g.node? k := by
  unfold detachUsers at h
  refine foldlM_invariant _
    (fun (x : Graph × List NodeId) => g.Shrinks x.1 ∧ x.1.order = g.order ∧
      (∀ k ∈ wl, k ∈ x.2) ∧ ∀ k, k ∉ x.2 → x.1.node? k = g.node? k)
    outs (g, wl) (g', wl') ⟨Graph.Shrinks.self g, rfl, fun _ hk => hk, fun _ _ => rfl⟩ ?_ h
  intro x y outv _ hx hstep
  unfold detachUses at hstep
  simp only [Option.bind_eq_bind, Option.pure_def] at hstep
  obtain ⟨val, _, hstep⟩ := bind_some_iff.mp hstep
  obtain ⟨r, hr, hstep⟩ := bind_some_iff.mp hstep
  cases hstep
  refine foldlM_invariant _
    (fun (x : Graph × List NodeId × List Use) => g.Shrinks x.1 ∧ x.1.order = g.order ∧
      (∀ k ∈ wl, k ∈ x.2.1) ∧ ∀ k, k ∉ x.2.1 → x.1.node? k = g.node? k)
    (List.range val.uses.length) (x.1, x.2, []) r hx ?_ hr
  intro a b i _ ha hu
  unfold detachStep at hu
  simp only [Option.bind_eq_bind, Option.pure_def] at hu
  obtain ⟨cur, _, hu⟩ := bind_some_iff.mp hu
  obtain ⟨u, _, hu⟩ := bind_some_iff.mp hu
  obtain ⟨und, _, hu⟩ := bind_some_iff.mp hu
  obtain ⟨g1, hg1, hu⟩ := bind_some_iff.mp hu
  cases hu
  obtain ⟨hs, hord, hother, _⟩ := removeAllInputs_frame hg1
  refine ⟨ha.1.andThen hs, hord.trans ha.2.1, fun k hk => List.mem_cons_of_mem _ (ha.2.2.1 k hk), ?_⟩
  intro k hk
  have hk1 : k ≠ u.user := fun e => hk (e ▸ List.mem_cons_self _ _)
  have hk2 : k ∉ a.2.1 := fun e => hk (List.mem_cons_of_mem _ e)
  rw [hother k hk1]
  exact ha.2.2.2 k hk2

theorem inGraphList_eq {g g' : Graph} (hord : g'.order = g.order)
    (hret : g'.return_node = g.return_node) (t : NodeId) :
    g'.inGraphList t = g.inGraphList t := by
  unfold Graph.inGraphList
  rw [hord, hret]

theorem inGraphList_shrinks {g g' : Graph} (h : g.Shrinks g') {t : NodeId}
    (ht : g.inGraphList t = false) : g'.inGraphList t = false := by
  unfold Graph.inGraphList at ht ⊢
  simp only [Bool.or_eq_false_iff, beq_eq_false_iff_ne, ne_eq] at ht ⊢
  refine ⟨by rw [h.ret]; exact ht.1, ?_⟩
  have h2 : t ∉ g.order := by simpa using ht.2
  have : t ∉ g'.order := fun hm => h2 (h.order t hm)
  simpa using this

theorem mem_setInsert {s : List NodeId} {n k : NodeId} (h : k ∈ setInsert s n) :
    k ∈ s ∨ k = n := by
  unfold setInsert at h
  split at h
  · exact Or.inl h
  · rcases List.mem_append.mp h with h | h
    · exact Or.inl h
    · exact Or.inr (List.mem_singleton.mp h)

/-- A node that is not in the node list cannot be removed: once it is on the
worklist of `removeNodeAndSuccessors`, the call does not return. -/
theorem removeLoop_none_of_mem (t : NodeId) :
    ∀ (fuel : Nat) (wl : List NodeId) (g : Graph) (rem : List NodeId), t ∈ wl →
      g.inGraphList t = false → t ∉ rem → (∀ nd, g.node? t = some nd → nd.kind ≠ Kind.kReturn) →
      removeLoop fuel wl (g, rem) = none := by
  intro fuel
  induction fuel with
  | zero =>
    intro wl g rem hmem _ _ _
    cases wl with
    | nil => cases hmem
    | cons a rest => rfl
  | succ fuel ih =>
    intro wl g rem hmem hlist hrem hkind
    cases wl with
    | nil => cases hmem
    | cons oldN rest =>
      rw [removeLoop_succ]
      cases hn : g.node? oldN with
      | none => rfl
      | some nd =>
        simp only [Option.some_bind]
        have hrest : oldN ≠ t → t ∈ rest := by
          intro hne
          rcases List.mem_cons.mp hmem with h | h
          · exact absurd h.symm hne
          · exact h
        by_cases hk : nd.kind = Kind.kReturn
        · rw [if_pos hk]
          have hne : oldN ≠ t := fun e => hkind nd (e ▸ hn) hk
          exact ih rest g rem (hrest hne) hlist hrem hkind
        · rw [if_neg hk]
          by_cases hc : rem.contains oldN = true
          · rw [if_pos hc]
            have hne : oldN ≠ t := fun e => hrem (e ▸ (by simpa using hc))
            exact ih rest g rem (hrest hne) hlist hrem hkind
          · rw [if_neg hc]
            cases hd : detachUsers nd.outputs (g, rest) with
            | none => rfl
            | some r =>
              obtain ⟨r1, r2⟩ := r
              simp only [Option.some_bind]
              obtain ⟨hs, hord, hsub, _⟩ := detachUsers_frame hd
              cases hdes : r1.destroy oldN with
              | none => rfl
              | some g2 =>
                simp only [Option.some_bind]
                obtain ⟨hs2, hin, _, _⟩ := destroy_frame hdes
                have hne : oldN ≠ t := by
                  intro e
                  rw [e, inGraphList_shrinks hs hlist] at hin
                  cases hin
                refine ih r2 g2 _ (hsub t (hrest hne)) (inGraphList_shrinks (hs.andThen hs2) hlist)
                  ?_ ?_
                · intro hm
                  rcases mem_setInsert hm with h | h
                  · exact hrem h
                  · exact hne h.symm
                · intro nd' hnd'
                  obtain ⟨nd0, h0, hsame⟩ := (hs.andThen hs2).nodes t nd' hnd'
                  rw [← hsame.1]
                  exact hkind nd0 h0

/-- A returning call of `removeNodeAndSuccessors` leaves the node object of a
node that is not in the node list as it is. -/
theorem removeLoop_node (t : NodeId) :
    ∀ (fuel : Nat) (wl : List NodeId) (g : Graph) (rem : List NodeId) (g' : Graph)
      (rem' : List NodeId), removeLoop fuel wl (g, rem) = some (g', rem') → t ∉ wl →
      g.inGraphList t = false → t ∉ rem → (∀ nd, g.node? t = some nd → nd.kind ≠ Kind.kReturn) →
      g'.node? t = g.node? t ∧ g.Shrinks g' ∧ t ∉ rem' := by
  intro fuel
  induction fuel with
  | zero =>
    intro wl g rem g' rem' h _ _ hrem _
    cases wl with
    | nil =>
      simp only [removeLoop, List.isEmpty_nil, if_true, Option.some.injEq, Prod.mk.injEq] at h
      obtain ⟨rfl, rfl⟩ := h
      exact ⟨rfl, Graph.Shrinks.self _, hrem⟩
    | cons a rest => simp [removeLoop] at h
  | succ fuel ih =>
    intro wl g rem g' rem' h hmem hlist hrem hkind
    cases wl with
    | nil =>
      simp only [removeLoop, Option.some.injEq, Prod.mk.injEq] at h
      obtain ⟨rfl, rfl⟩ := h
      exact ⟨rfl, Graph.Shrinks.self _, hrem⟩
    | cons oldN rest =>
      rw [removeLoop_succ] at h
      obtain ⟨nd, hn, h⟩ := bind_some_iff.mp h
      have hne : t ≠ oldN := fun e => hmem (e ▸ List.mem_cons_self _ _)
      have hrest : t ∉ rest := fun e => hmem (List.mem_cons_of_mem _ e)
      by_cases hk : nd.kind = Kind.kReturn
      · rw [if_pos hk] at h
        exact ih rest g rem g' rem' h hrest hlist hrem hkind
      · rw [if_neg hk] at h
        by_cases hc : rem.contains oldN = true
        · rw [if_pos hc] at h
          exact ih rest g rem g' rem' h hrest hlist hrem hkind
        · rw [if_neg hc] at h
          obtain ⟨r, hd, h⟩ := bind_some_iff.mp h
          obtain ⟨r1, r2⟩ := r
          obtain ⟨g2, hdes, h⟩ := bind_some_iff.mp h
          obtain ⟨hs, hord, hsub, hother⟩ := detachUsers_frame hd
          obtain ⟨hs2, hin, hother2, _⟩ := destroy_frame hdes
          have hlist2 := inGraphList_shrinks (hs.andThen hs2) hlist
          have hrem2 : t ∉ setInsert rem oldN := by
            intro hm
            rcases mem_setInsert hm with h | h
            · exact hrem h
            · exact hne h
          have hkind2 : ∀ nd', g2.node? t = some nd' → nd'.kind ≠ Kind.kReturn := by
            intro nd' hnd'
            obtain ⟨nd0, h0, hsame⟩ := (hs.andThen hs2).nodes t nd' hnd'
            rw [← hsame.1]
            exact hkind nd0 h0
          have ht2 : t ∉ r2 := by
            intro hm
            rw [removeLoop_none_of_mem t fuel r2 g2 _ hm hlist2 hrem2 hkind2] at h
            cases h
          obtain ⟨h1, h2, h3⟩ := ih r2 g2 _ g' rem' h ht2 hlist2 hrem2 hkind2
          refine ⟨?_, (hs.andThen hs2).andThen h2, h3⟩
          rw [h1, hother2 t hne, hother t ht2]

/-! ### The SubGraph node of the parent -/

theorem Graph.WF.of_check {g : Graph} (h : g.wfCheck = true) : g.WF := by
  unfold Graph.wfCheck at h
  simp only [Bool.and_eq_true, List.all_eq_true, decide_eq_true_eq] at h
  obtain ⟨⟨h1, h2⟩, h3⟩ := h
  refine ⟨?_, h2, h3⟩
  intro k hk
  cases hn : g.node? k with
  | none => rfl
  | some nd =>
    have hmem := mem_keys_of_lookup _ _ _ hn
    obtain ⟨p, hp, hpk⟩ := List.mem_map.mp hmem
    have hlt := h1 p hp
    rw [hpk] at hlt
    exact absurd hlt (Nat.not_lt.mpr hk)

theorem output_of_sameShape {g g' : Graph} {n : NodeId} {nd nd' : Node}
    (h : g.node? n = some nd) (h' : g'.node? n = some nd') (hs : nd.sameShape nd') :
    g'.output n = g.output n := by
  unfold Graph.output
  simp only [h, h', Option.bind_eq_bind, Option.some_bind, hs.2.1]

/-- The last loop of `SplitSubGraph`: a returning run appends the outputs of
the Stores, in the order of the pairs, to the inputs of the SubGraph node,
which is not in the node list. -/
theorem connect_fold (t : NodeId) (g3 : Graph) :
    ∀ (pairs : List LoadStorePair) (g : Graph) (rem : List NodeId) (snd : Node) (g' : Graph)
      (rem' : List NodeId),
      pairs.foldlM (connectStep t) (g, rem) = some (g', rem') →
      g.node? t = some snd → snd.kind ≠ Kind.kReturn → g.inGraphList t = false → t ∉ rem →
      g3.Shrinks g → (∀ p ∈ pairs, ∀ s, p.2 = some s → s ≠ t) →
      g'.node? t
          = some { snd with inputs := (snd.inputs ++ pairs.filterMap (fun p => p.2.bind g3.output)) } ∧
        g'.inGraphList t = false ∧ g3.Shrinks g' ∧
        ∀ p ∈ pairs, ∀ s, p.2 = some s → (g3.output s).isSome := by
  intro pairs
  induction pairs with
  | nil =>
    intro g rem snd g' rem' h hn _ hl _ hs _
    simp only [List.foldlM_nil, Option.pure_def, Option.some.injEq, Prod.mk.injEq] at h
    obtain ⟨rfl, rfl⟩ := h
    refine ⟨by simpa using hn, hl, hs, ?_⟩
    intro p hp
    cases hp
  | cons p pairs ih =>
    intro g rem snd g' rem' h hn hk hl hrem hs hne
    obtain ⟨c, hc, hrest⟩ := foldlM_cons_some.mp h
    obtain ⟨c1, c2⟩ := c
    unfold connectStep at hc
    simp only [Option.bind_eq_bind] at hc
    obtain ⟨r, hr, hc⟩ := bind_some_iff.mp hc
    obtain ⟨r1, r2⟩ := r
    unfold removeNodeAndSuccessors at hr
    have hkind : ∀ nd, g.node? t = some nd → nd.kind ≠ Kind.kReturn := by
      intro nd hnd
      rw [hn] at hnd
      cases hnd
      exact hk
    have htwl : t ∉ [p.1] := by
      intro hm
      rw [removeLoop_none_of_mem t _ _ g rem hm hl hrem hkind] at hr
      cases hr
    obtain ⟨hnode, hsr, hrem2⟩ := removeLoop_node t _ _ g rem r1 r2 hr htwl hl hrem hkind
    have hl2 := inGraphList_shrinks hsr hl
    have hn2 : r1.node? t = some snd := hnode.trans hn
    have hne' : ∀ q ∈ pairs, ∀ s, q.2 = some s → s ≠ t :=
      fun q hq => hne q (List.mem_cons_of_mem _ hq)
    cases hp2 : p.2 with
    | none =>
      simp only [hp2, Option.pure_def, Option.some.injEq, Prod.mk.injEq] at hc
      obtain ⟨rfl, rfl⟩ := hc
      obtain ⟨h1, h2, h3, h4⟩ := ih r1 r2 snd g' rem' hrest hn2 hk hl2 hrem2 (hs.andThen hsr) hne'
      refine ⟨?_, h2, h3, ?_⟩
      · rw [h1]
        simp [List.filterMap_cons, hp2]
      · intro q hq s hqs
        rcases List.mem_cons.mp hq with rfl | hq
        · rw [hp2] at hqs
          cases hqs
        · exact h4 q hq s hqs
    | some storeN =>
      simp only [hp2, Option.bind_eq_bind, Option.pure_def] at hc
      obtain ⟨so, hso, hc⟩ := bind_some_iff.mp hc
      obtain ⟨ga, hga, hc⟩ := bind_some_iff.mp hc
      simp only [Option.some.injEq, Prod.mk.injEq] at hc
      obtain ⟨rfl, rfl⟩ := hc
      obtain ⟨hna, _, horda⟩ := addInput_node hga hn2
      have hsa := addInput_shrinks hga
      have hla : ga.inGraphList t = false := inGraphList_shrinks hsa hl2
      -- the output of the Store is its output in `g3`
      have hso3 : g3.output storeN = some so := by
        have hex : ∃ nd, r1.node? storeN = some nd := by
          unfold Graph.output at hso
          simp only [Option.bind_eq_bind] at hso
          obtain ⟨nd, hnd, _⟩ := bind_some_iff.mp hso
          exact ⟨nd, hnd⟩
        obtain ⟨nd, hnd⟩ := hex
        obtain ⟨nd0, h0, hsame⟩ := (hs.andThen hsr).nodes storeN nd hnd
        rw [← output_of_sameShape h0 hnd hsame]
        exact hso
      obtain ⟨h1, h2, h3, h4⟩ := ih ga r2 _ g' rem' hrest hna hk hla hrem2
        ((hs.andThen hsr).andThen hsa) hne'
      refine ⟨?_, h2, h3, ?_⟩
      · rw [h1]
        simp [List.filterMap_cons, hp2, hso3]
      · intro q hq s hqs
        rcases List.mem_cons.mp hq with rfl | hq
        · rw [hp2] at hqs
          cases hqs
          rw [hso3]
          rfl
        · exact h4 q hq s hqs



/-! ## The extraction from a chain

### The operations of the IR on the lookup functions -/

theorem lookup_tableSet_update {α : Type} (t : List (Nat × α)) (k : Nat) (a b : α)
    (h : t.lookup k = some b) :
    (fun x => (tableSet t k a).lookup x) = Function.update (fun x => t.lookup x) k (some a) := by
  funext x
  by_cases hx : x = k
  · subst hx
    rw [Function.update_same]
    exact lookup_tableSet_self t x a b h
  · rw [Function.update_noteq hx]
    exact lookup_tableSet_ne t k x a hx

theorem lookup_tableErase_update {α : Type} (t : List (Nat × α)) (k : Nat) :
    (fun x => (tableErase t k).lookup x) = Function.update (fun x => t.lookup x) k none := by
  funext x
  by_cases hx : x = k
  · subst hx
    rw [Function.update_same]
    exact lookup_tableErase_self t x
  · rw [Function.update_noteq hx]
    exact lookup_tableErase_ne t k x hx

theorem lookup_append_update {α : Type} (t : List (Nat × α)) (k : Nat) (a : α)
    (h : t.lookup k = none) :
    (fun x => (t ++ [(k, a)]).lookup x) = Function.update (fun x => t.lookup x) k (some a) := by
  funext x
  by_cases hx : x = k
  · subst hx
    rw [Function.update_same, lookup_append_of_none t _ x h]
    simp [List.lookup_cons]
  · rw [Function.update_noteq hx]
    cases hl : t.lookup x with
    | none =>
      rw [lookup_append_of_none t _ x hl]
      have : (x == k) = false := by simpa using hx
      simp [List.lookup_cons, this]
    | some b => exact lookup_append_of_some t _ x b hl

theorem Graph.SameFrame.same (g : Graph) : g.SameFrame g := ⟨rfl, rfl, rfl, rfl⟩

theorem Graph.SameFrame.comp {g g' g'' : Graph} (h1 : g.SameFrame g') (h2 : g'.SameFrame g'') :
    g.SameFrame g'' :=
  ⟨h2.order.trans h1.order, h2.ret.trans h1.ret, h2.next.trans h1.next, h2.name.trans h1.name⟩

theorem setNode_view (g : Graph) (n : NodeId) (nd nd0 : Node) (h : g.node? n = some nd0) :
    (g.setNode n nd).node? = Function.update g.node? n (some nd) ∧
      (g.setNode n nd).value? = g.value? ∧ g.SameFrame (g.setNode n nd) :=
  ⟨lookup_tableSet_update g.nodeTable n nd nd0 h, rfl, ⟨rfl, rfl, rfl, rfl⟩⟩

theorem setValue_view (g : Graph) (v : ValueId) (val val0 : Value) (h : g.value? v = some val0) :
    (g.setValue v val).value? = Function.update g.value? v (some val) ∧
      (g.setValue v val).node? = g.node? ∧ g.SameFrame (g.setValue v val) :=
  ⟨lookup_tableSet_update g.valueTable v val val0 h, rfl, ⟨rfl, rfl, rfl, rfl⟩⟩

/-- The effect of `addInput`. -/
theorem addInput_view {g : Graph} {n : NodeId} {v : ValueId} {nd : Node} {val : Value}
    (hn : g.node? n = some nd) (hv : g.value? v = some val) :
    ∃ g', g.addInput n v = some g' ∧
      g'.node? = Function.update g.node? n (some { nd with inputs := nd.inputs ++ [v] }) ∧
      g'.value? = Function.update g.value? v
        (some { val with uses := val.uses ++ [⟨n, nd.inputs.length⟩] }) ∧
      g.SameFrame g' := by
  refine ⟨(g.setValue v { val with uses := val.uses ++ [⟨n, nd.inputs.length⟩] }).setNode n
      { nd with inputs := nd.inputs ++ [v] },
    by simp only [Graph.addInput, hn, hv, Option.bind_eq_bind, Option.some_bind,
      Option.pure_def], ?_, ?_, ⟨rfl, rfl, rfl, rfl⟩⟩
  · exact (setNode_view (g.setValue v _) n _ nd hn).1
  · exact (setValue_view g v _ val hv).1

/-- The effect of `copyMetadata`. -/
theorem copyMetadata_view {g : Graph} {v : ValueId} {val : Value} (src : Value)
    (hv : g.value? v = some val) :
    ∃ g' val', g.copyMetadata v src = some g' ∧ g'.node? = g.node? ∧
      g'.value? = Function.update g.value? v (some val') ∧
      val'.node = val.node ∧ val'.offset = val.offset ∧ val'.uses = val.uses ∧
      val'.elemType = src.elemType ∧ val'.sizes = src.sizes ∧
      val'.unique_name = (if src.unique_name.isSome then src.unique_name else val.unique_name) ∧
      g.SameFrame g' := by
  unfold Graph.copyMetadata
  simp only [hv, Option.bind_eq_bind, Option.some_bind, Option.pure_def]
  refine ⟨_, _, rfl, rfl, (setValue_view g v _ val hv).1, rfl, rfl, rfl, rfl, rfl, ?_,
    ⟨rfl, rfl, rfl, rfl⟩⟩
  cases src.unique_name <;> rfl

/-- The effect of `setUniqueName`. -/
theorem setUniqueName_view {g : Graph} {v : ValueId} {val : Value} (name : String)
    (hv : g.value? v = some val) :
    ∃ g', g.setUniqueName v name = some g' ∧ g'.node? = g.node? ∧
      g'.value? = Function.update g.value? v (some { val with unique_name := some name }) ∧
      g.SameFrame g' := by
  refine ⟨g.setValue v { val with unique_name := some name },
    by simp only [Graph.setUniqueName, hv, Option.bind_eq_bind, Option.some_bind,
      Option.pure_def], rfl, ?_, ⟨rfl, rfl, rfl, rfl⟩⟩
  exact (setValue_view g v _ val hv).1

/-- The effect of `copyAttributes`. -/
theorem copyAttributes_view {g : Graph} {n : NodeId} {nd : Node} (src : Node)
    (hn : g.node? n = some nd) :
    ∃ g', g.copyAttributes n src = some g' ∧
      g'.node? = Function.update g.node? n (some { nd with attrs := src.attrs }) ∧
      g'.value? = g.value? ∧ g.SameFrame g' := by
  refine ⟨g.setNode n { nd with attrs := src.attrs },
    by simp only [Graph.copyAttributes, hn, Option.bind_eq_bind, Option.some_bind,
      Option.pure_def], ?_, rfl, ⟨rfl, rfl, rfl, rfl⟩⟩
  exact (setNode_view g n _ nd hn).1

theorem lookup_append_self {α : Type} (t : List (Nat × α)) (k : Nat) (a : α)
    (h : t.lookup k = none) : (t ++ [(k, a)]).lookup k = some a := by
  rw [lookup_append_of_none t _ k h]
  simp [List.lookup_cons]

/-- The effect of `create` with one output on a graph whose next unique
numbers are free. -/
theorem create1_view {g : Graph} (hf : g.Fresh) (kind : Kind) :
    ∃ g', g.create kind 1 = some (g', g.next_unique) ∧
      g'.node? = Function.update g.node? g.next_unique
        (some { kind := kind, inputs := [], outputs := [g.next_unique + 1],
                attrs := Attributes.empty }) ∧
      g'.value? = Function.update g.value? (g.next_unique + 1)
        (some { node := some g.next_unique, offset := 0, sizes := [], unique_name := none,
                elemType := 0, uses := [] }) ∧
      g'.order = g.order ∧ g'.return_node = g.return_node ∧
      g'.next_unique = g.next_unique + 2 ∧ g'.name = g.name := by
  have hn : g.nodeTable.lookup g.next_unique = none := hf.nodes _ (Nat.le_refl _)
  have hv : g.valueTable.lookup (g.next_unique + 1) = none := hf.values _ (Nat.le_succ _)
  unfold Graph.create
  simp only [List.range_succ, List.range_zero, List.nil_append, List.foldlM_cons,
    List.foldlM_nil, Graph.addOutput, Graph.node?, lookup_append_self _ _ _ hn,
    Option.bind_eq_bind, Option.some_bind, Option.map_some', Option.pure_def, List.length_nil]
  refine ⟨_, rfl, ?_, ?_, ?_⟩
  · show (fun x => (tableSet (g.nodeTable ++ [_]) g.next_unique _).lookup x) = _
    rw [lookup_tableSet_update _ _ _ _ (lookup_append_self _ _ _ hn),
      lookup_append_update _ _ _ hn]
    exact Function.update_idem _ _ _
  · exact lookup_append_update g.valueTable (g.next_unique + 1) _ hv
  · exact ⟨rfl, rfl, rfl, rfl⟩

/-- The effect of `create` without output. -/
theorem create0_view {g : Graph} (hf : g.Fresh) (kind : Kind) :
    ∃ g', g.create kind 0 = some (g', g.next_unique) ∧
      g'.node? = Function.update g.node? g.next_unique
        (some { kind := kind, inputs := [], outputs := [], attrs := Attributes.empty }) ∧
      g'.value? = g.value? ∧
      g'.order = g.order ∧ g'.return_node = g.return_node ∧
      g'.next_unique = g.next_unique + 1 ∧ g'.name = g.name := by
  have hn : g.nodeTable.lookup g.next_unique = none := hf.nodes _ (Nat.le_refl _)
  unfold Graph.create
  simp only [List.range_zero, List.foldlM_nil, Option.bind_eq_bind, Option.pure_def,
    Option.some_bind]
  refine ⟨_, rfl, ?_, ?_⟩
  · exact lookup_append_update g.nodeTable g.next_unique _ hn
  · exact ⟨rfl, rfl, rfl, rfl, rfl⟩

/-! ### The node list -/

theorem takeWhile_ne_append {pre post : List NodeId} {t : NodeId} (h : t ∉ pre) :
    (pre ++ t :: post).takeWhile (fun x => !(x == t)) = pre := by
  induction pre with
  | nil => simp [List.takeWhile_cons]
  | cons p pre ih =>
    have hp : p ≠ t := fun e => h (e ▸ List.mem_cons_self _ _)
    have hpb : (p == t) = false := by simpa using hp
    rw [List.cons_append, List.takeWhile_cons, hpb]
    simp only [Bool.not_false, if_true]
    rw [ih (fun hm => h (List.mem_cons_of_mem _ hm))]

theorem dropWhile_ne_append {pre post : List NodeId} {t : NodeId} (h : t ∉ pre) :
    (pre ++ t :: post).dropWhile (fun x => !(x == t)) = t :: post := by
  induction pre with
  | nil => simp [List.dropWhile_cons]
  | cons p pre ih =>
    have hp : p ≠ t := fun e => h (e ▸ List.mem_cons_self _ _)
    have hpb : (p == t) = false := by simpa using hp
    rw [List.cons_append, List.dropWhile_cons, hpb]
    exact ih (fun hm => h (List.mem_cons_of_mem _ hm))

theorem filter_ne_append {pre post : List NodeId} {t : NodeId} (h1 : t ∉ pre) (h2 : t ∉ post) :
    (pre ++ t :: post).filter (fun x => !(x == t)) = pre ++ post := by
  rw [List.filter_append, List.filter_cons]
  simp only [beq_self_eq_true, Bool.not_true, Bool.false_eq_true, if_false]
  congr 1
  · apply List.filter_eq_self.mpr
    intro a ha
    have : a ≠ t := fun e => h1 (e ▸ ha)
    simpa using this
  · apply List.filter_eq_self.mpr
    intro a ha
    have : a ≠ t := fun e => h2 (e ▸ ha)
    simpa using this

theorem inGraphList_false {g : Graph} {n : NodeId} (h1 : n ≠ g.return_node) (h2 : n ∉ g.order) :
    g.inGraphList n = false := by
  unfold Graph.inGraphList
  simp [h1, h2]

theorem inGraphList_of_mem {g : Graph} {n : NodeId} (h : n ∈ g.order) :
    g.inGraphList n = true := by
  unfold Graph.inGraphList
  simp [h]

/-- Insertion before the return node appends to the node list. -/
theorem insertBefore_ret_view {g : Graph} {n : NodeId} (h : g.inGraphList n = false) :
    g.insertBefore n g.return_node = some (g.withOrder (g.order ++ [n])) := by
  unfold Graph.insertBefore
  simp only [h, Bool.false_eq_true, if_false, if_true]
  rfl

/-- Insertion before a node of the node list. -/
theorem insertBefore_mid_view {g : Graph} {n t : NodeId} {pre post : List NodeId}
    (h : g.inGraphList n = false) (ht : t ≠ g.return_node) (hord : g.order = pre ++ t :: post)
    (hpre : t ∉ pre) :
    g.insertBefore n t = some (g.withOrder (pre ++ n :: t :: post)) := by
  unfold Graph.insertBefore
  have hc : g.order.contains t = true := by rw [hord]; simp
  simp only [h, Bool.false_eq_true, if_false, ht, hc, if_true]
  rw [hord, takeWhile_ne_append hpre, dropWhile_ne_append hpre]
  rfl

/-- Insertion after a node of the node list. -/
theorem insertAfter_mid_view {g : Graph} {n t : NodeId} {pre post : List NodeId}
    (h : g.inGraphList n = false) (ht : t ≠ g.return_node) (hord : g.order = pre ++ t :: post)
    (hpre : t ∉ pre) :
    g.insertAfter n t = some (g.withOrder (pre ++ t :: n :: post)) := by
  unfold Graph.insertAfter
  have hc : g.order.contains t = true := by rw [hord]; simp
  simp only [h, Bool.false_eq_true, if_false, ht, hc, if_true]
  rw [hord, takeWhile_ne_append hpre, dropWhile_ne_append hpre]
  rfl

/-! ### Uses -/

/-- The effect of `replaceAllUsesWith` on a value with one use, by the first
input of its user. -/
theorem replaceAllUsesWith_view {g : Graph} {v w : ValueId} {val wval : Value} {q : NodeId}
    {ndq : Node} (hv : g.value? v = some val) (hu : val.uses = [⟨q, 0⟩])
    (hq : g.node? q = some ndq) (hin : ndq.inputs = [v]) (hw : g.value? w = some wval)
    (hvw : v ≠ w) :
    ∃ g', g.replaceAllUsesWith v w = some g' ∧
      g'.node? = Function.update g.node? q (some { ndq with inputs := [w] }) ∧
      g'.value? = Function.update
        (Function.update g.value? w (some { wval with uses := wval.uses ++ [⟨q, 0⟩] }))
        v (some { val with uses := [] }) ∧
      g.SameFrame g' := by
  have h1 : ∀ (nd1 : Node) (w1 : Value),
      ((g.setNode q nd1).setValue w w1).value? v = some val := by
    intro nd1 w1
    exact (value?_setValue_ne _ w v w1 hvw).trans hv
  unfold Graph.replaceAllUsesWith
  simp only [hv, hu, Option.bind_eq_bind, Option.some_bind, List.foldlM_cons, List.foldlM_nil,
    hq, hw, hin, List.length_singleton, Nat.lt_one_iff, if_true, Option.pure_def, h1]
  refine ⟨_, rfl, ?_, ?_, ⟨rfl, rfl, rfl, rfl⟩⟩
  · exact (setNode_view g q _ ndq hq).1
  · funext k
    by_cases hk : k = v
    · subst hk
      rw [Function.update_same]
      exact value?_setValue_self _ _ _ val (h1 _ _)
    · rw [Function.update_noteq hk, value?_setValue_ne _ _ _ _ hk]
      by_cases hkw : k = w
      · subst hkw
        rw [Function.update_same]
        exact value?_setValue_self _ _ _ wval hw
      · rw [Function.update_noteq hkw]
        exact value?_setValue_ne _ _ _ _ hkw

/-- The effect of `removeAllInputs` on a node without inputs. -/
theorem removeAllInputs_nil_view {g : Graph} {n : NodeId} {nd : Node}
    (hn : g.node? n = some nd) (hin : nd.inputs = []) :
    ∃ g', g.removeAllInputs n = some g' ∧ g'.node? = g.node? ∧ g'.value? = g.value? ∧
      g.SameFrame g' := by
  unfold Graph.removeAllInputs
  simp only [hn, hin, Option.bind_eq_bind, Option.some_bind, List.length_nil, List.range_zero,
    List.foldlM_nil, Option.pure_def]
  refine ⟨_, rfl, ?_, rfl, ⟨rfl, rfl, rfl, rfl⟩⟩
  rw [(setNode_view g n _ nd hn).1]
  funext k
  by_cases hk : k = n
  · subst hk
    rw [Function.update_same, hn]
    cases nd
    simp only at hin
    subst hin
    rfl
  · rw [Function.update_noteq hk]

/-- The effect of `removeAllInputs` on a node with one input. -/
theorem removeAllInputs_one_view {g : Graph} {n : NodeId} {nd : Node} {v : ValueId}
    {val : Value} (hn : g.node? n = some nd) (hin : nd.inputs = [v])
    (hv : g.value? v = some val) (hc : (⟨n, 0⟩ : Use) ∈ val.uses) :
    ∃ g', g.removeAllInputs n = some g' ∧
      g'.node? = Function.update g.node? n (some { nd with inputs := [] }) ∧
      g'.value? = Function.update g.value? v
        (some { val with uses := val.uses.erase ⟨n, 0⟩ }) ∧
      g.SameFrame g' := by
  have hc' : val.uses.contains (⟨n, 0⟩ : Use) = true := by simpa using hc
  unfold Graph.removeAllInputs
  simp only [hn, hin, Option.bind_eq_bind, Option.some_bind, List.length_singleton,
    List.range_succ, List.range_zero, List.nil_append, List.foldlM_cons, List.foldlM_nil,
    List.getElem?_cons_zero, hv, hc', if_true, Option.pure_def]
  have h1 : (g.setValue v { val with uses := val.uses.erase ⟨n, 0⟩ }).node? n = some nd := hn
  simp only [h1, Option.some_bind]
  refine ⟨_, rfl, ?_, ?_, ⟨rfl, rfl, rfl, rfl⟩⟩
  · exact (setNode_view _ n _ nd h1).1
  · exact (setValue_view g v _ val hv).1

/-! ### Destruction of a node -/

/-- The effect of `destroy` on a node of the node list without inputs whose
only output is unused. -/
theorem destroy_leaf_view {g : Graph} {n : NodeId} {nd : Node} {o : ValueId} {oval : Value}
    {pre post : List NodeId} (hn : g.node? n = some nd) (hout : nd.outputs = [o])
    (hin : nd.inputs = []) (ho : g.value? o = some oval) (hou : oval.uses = [])
    (hord : g.order = pre ++ n :: post) (hpre : n ∉ pre) (hpost : n ∉ post)
    (hret : n ≠ g.return_node) :
    ∃ g', g.destroy n = some g' ∧ g'.node? = Function.update g.node? n none ∧
      g'.value? = Function.update g.value? o none ∧ g'.order = pre ++ post ∧
      g'.return_node = g.return_node ∧ g'.next_unique = g.next_unique ∧ g'.name = g.name := by
  have hl : g.inGraphList n = true := inGraphList_of_mem (by rw [hord]; simp)
  have hn1 : Graph.node? { g with valueTable := tableErase g.valueTable o } n = some nd := hn
  obtain ⟨g2, hg2, hnode2, hval2, hf2⟩ := removeAllInputs_nil_view hn1 hin
  have hc : g2.order.contains n = true := by
    rw [hf2.order]
    show g.order.contains n = true
    rw [hord]; simp
  have hret2 : n ≠ g2.return_node := by rw [hf2.ret]; exact hret
  unfold Graph.destroy
  simp only [hn, hl, hout, Option.bind_eq_bind, Option.some_bind, Bool.not_true,
    Bool.false_eq_true, if_false, List.reverse_singleton, List.foldlM_cons, List.foldlM_nil, ho,
    hou, List.isEmpty_nil, if_true, Option.pure_def, hg2, hret2, Graph.removeFromList, hc]
  refine ⟨_, rfl, ?_, ?_, ?_, hf2.ret, hf2.next, hf2.name⟩
  · show (fun k => (tableErase g2.nodeTable n).lookup k) = _
    rw [lookup_tableErase_update]
    show Function.update g2.node? n none = _
    rw [hnode2]
    rfl
  · show g2.value? = _
    rw [hval2]
    exact lookup_tableErase_update g.valueTable o
  · show g2.order.filter (fun x => !(x == n)) = _
    rw [hf2.order]
    show g.order.filter (fun x => !(x == n)) = _
    rw [hord, filter_ne_append hpre hpost]

/-- The effect of `destroy` on a node of the node list without outputs whose
only input is a value that records the use. -/
theorem destroy_sink_view {g : Graph} {n : NodeId} {nd : Node} {v : ValueId} {val : Value}
    {pre post : List NodeId} (hn : g.node? n = some nd) (hout : nd.outputs = [])
    (hin : nd.inputs = [v]) (hv : g.value? v = some val) (hc : (⟨n, 0⟩ : Use) ∈ val.uses)
    (hord : g.order = pre ++ n :: post) (hpre : n ∉ pre) (hpost : n ∉ post)
    (hret : n ≠ g.return_node) :
    ∃ g', g.destroy n = some g' ∧ g'.node? = Function.update g.node? n none ∧
      g'.value? = Function.update g.value? v
        (some { val with uses := val.uses.erase ⟨n, 0⟩ }) ∧
      g'.order = pre ++ post ∧
      g'.return_node = g.return_node ∧ g'.next_unique = g.next_unique ∧ g'.name = g.name := by
  have hl : g.inGraphList n = true := inGraphList_of_mem (by rw [hord]; simp)
  obtain ⟨g2, hg2, hnode2, hval2, hf2⟩ := removeAllInputs_one_view hn hin hv hc
  have hco : g2.order.contains n = true := by
    rw [hf2.order, hord]; simp
  have hret2 : n ≠ g2.return_node := by rw [hf2.ret]; exact hret
  unfold Graph.destroy
  simp only [hn, hl, hout, Option.bind_eq_bind, Option.some_bind, Bool.not_true,
    Bool.false_eq_true, if_false, List.reverse_nil, List.foldlM_nil, if_true, Option.pure_def,
    hg2, hret2, Graph.removeFromList, hco]
  refine ⟨_, rfl, ?_, hval2, ?_, hf2.ret, hf2.next, hf2.name⟩
  · show (fun k => (tableErase g2.nodeTable n).lookup k) = _
    rw [lookup_tableErase_update]
    show Function.update g2.node? n none = _
    rw [hnode2]
    exact Function.update_idem _ _ _
  · show g2.order.filter (fun x => !(x == n)) = _
    rw [hf2.order, hord, filter_ne_append hpre hpost]

/-! ### Cloning a chain -/

theorem mapInsert_of_none {m : NodeNodeMap} {k a : Nat} (h : m.lookup k = none) :
    mapInsert m k a = m ++ [(k, a)] := by
  unfold mapInsert
  simp [h]

theorem Graph.Fresh.not_inGraphList {g : Graph} (hf : g.Fresh) :
    g.inGraphList g.next_unique = false :=
  inGraphList_false (fun e => Nat.lt_irrefl _ (show g.return_node < g.return_node from
      e ▸ hf.ret))
    (fun hm => Nat.lt_irrefl _ (hf.order _ hm))

/-- One round of `cloneNodeAndSuccessors` for a node with one output that was
not cloned yet: the new graph gets the clone, with the next unique number,
and its output, and the users of the output join the worklist. -/
theorem cloneLoop_step {old ng : Graph} {n : NodeId} {nd : Node} {v : ValueId} {val : Value}
    (fuel : Nat) (wl : List NodeId) (map : NodeNodeMap) (cloned : List NodeId)
    (hn : old.node? n = some nd) (hout : nd.outputs = [v]) (hv : old.value? v = some val)
    (hf : ng.Fresh) (hc : n ∉ cloned) (hm : map.lookup n = none) :
    ∃ ng2, cloneLoop old (fuel + 1) (n :: wl) (ng, map, cloned)
        = cloneLoop old fuel ((val.uses.map Use.user).reverse ++ wl)
            (ng2, map ++ [(n, ng.next_unique)], cloned ++ [n]) ∧
      ng2.node? = Function.update ng.node? ng.next_unique
        (some { kind := nd.kind, inputs := [], outputs := [ng.next_unique + 1],
                attrs := nd.attrs }) ∧
      ng2.value? = Function.update ng.value? (ng.next_unique + 1)
        (some { node := some ng.next_unique, offset := 0, sizes := val.sizes,
                unique_name := val.unique_name, elemType := val.elemType, uses := [] }) ∧
      ng2.order = ng.order ++ [ng.next_unique] ∧ ng2.return_node = ng.return_node ∧
      ng2.next_unique = ng.next_unique + 2 ∧ ng2.name = ng.name := by
  obtain ⟨g1, hg1, hn1, hv1, ho1, hr1, hx1, hm1⟩ := create1_view hf nd.kind
  have hg1n : g1.node? ng.next_unique
      = some (Node.mk nd.kind [] [ng.next_unique + 1] Attributes.empty) := by
    rw [hn1, Function.update_same]
  obtain ⟨g2, hg2, hn2, hv2, hf2⟩ := copyAttributes_view nd hg1n
  have hl2 : g2.inGraphList ng.next_unique = false := by
    have := hf.not_inGraphList
    unfold Graph.inGraphList at this ⊢
    rw [hf2.order, hf2.ret, ho1, hr1]
    exact this
  have hg3 : g2.appendNode ng.next_unique
      = some (g2.withOrder (g2.order ++ [ng.next_unique])) := insertBefore_ret_view hl2
  have hn3 : (g2.withOrder (g2.order ++ [ng.next_unique])).node? ng.next_unique
      = some (Node.mk nd.kind [] [ng.next_unique + 1] nd.attrs) := by
    show g2.node? ng.next_unique = _
    rw [hn2, Function.update_same]
  have hv3 : (g2.withOrder (g2.order ++ [ng.next_unique])).value? (ng.next_unique + 1)
      = some (Value.mk (some ng.next_unique) 0 [] none 0 []) := by
    show g2.value? (ng.next_unique + 1) = _
    rw [hv2, hv1, Function.update_same]
  obtain ⟨g4, val4, hg4, hn4, hv4, e1, e2, e3, e4, e5, e6, hf4⟩ := copyMetadata_view val hv3
  have hcc : cloned.contains n = false := by simpa using hc
  refine ⟨g4, ?_, ?_, ?_, ?_, ?_, ?_, ?_⟩
  · rw [cloneLoop]
    simp only [hcc, Bool.false_eq_true, if_false, hn, hout, List.length_singleton, hg1,
      Option.bind_eq_bind, Option.some_bind, hg2, hg3, hn3, List.range_succ, List.range_zero,
      List.nil_append, List.foldlM_cons, List.foldlM_nil, List.getElem?_cons_zero, hv, hg4,
      Option.pure_def, mapInsert_of_none hm, setInsert_of_not_mem hc]
  · rw [hn4]
    show g2.node? = _
    rw [hn2, hn1]
    exact Function.update_idem _ _ _
  · rw [hv4]
    show Function.update g2.value? _ _ = _
    rw [hv2, hv1, Function.update_idem]
    congr 1
    cases val4
    simp only at e1 e2 e3 e4 e5 e6
    subst e1 e2 e3 e4 e5
    rw [e6]
    cases val.unique_name <;> rfl
  · rw [hf4.order]
    show g2.order ++ _ = _
    rw [hf2.order, ho1]
  · rw [hf4.ret]
    show g2.return_node = _
    rw [hf2.ret, hr1]
  · rw [hf4.next]
    show g2.next_unique = _
    rw [hf2.next, hx1]
  · rw [hf4.name]
    show g2.name = _
    rw [hf2.name, hm1]

/-- One round of `cloneNodeAndSuccessors` for a node without outputs that was
not cloned yet. -/
theorem cloneLoop_step_sink {old ng : Graph} {n : NodeId} {nd : Node}
    (fuel : Nat) (wl : List NodeId) (map : NodeNodeMap) (cloned : List NodeId)
    (hn : old.node? n = some nd) (hout : nd.outputs = [])
    (hf : ng.Fresh) (hc : n ∉ cloned) (hm : map.lookup n = none) :
    ∃ ng2, cloneLoop old (fuel + 1) (n :: wl) (ng, map, cloned)
        = cloneLoop old fuel wl (ng2, map ++ [(n, ng.next_unique)], cloned ++ [n]) ∧
      ng2.node? = Function.update ng.node? ng.next_unique
        (some { kind := nd.kind, inputs := [], outputs := [], attrs := nd.attrs }) ∧
      ng2.value? = ng.value? ∧
      ng2.order = ng.order ++ [ng.next_unique] ∧ ng2.return_node = ng.return_node ∧
      ng2.next_unique = ng.next_unique + 1 ∧ ng2.name = ng.name := by
  obtain ⟨g1, hg1, hn1, hv1, ho1, hr1, hx1, hm1⟩ := create0_view hf nd.kind
  have hg1n : g1.node? ng.next_unique = some (Node.mk nd.kind [] [] Attributes.empty) := by
    rw [hn1, Function.update_same]
  obtain ⟨g2, hg2, hn2, hv2, hf2⟩ := copyAttributes_view nd hg1n
  have hl2 : g2.inGraphList ng.next_unique = false := by
    have := hf.not_inGraphList
    unfold Graph.inGraphList at this ⊢
    rw [hf2.order, hf2.ret, ho1, hr1]
    exact this
  have hg3 : g2.appendNode ng.next_unique
      = some (g2.withOrder (g2.order ++ [ng.next_unique])) := insertBefore_ret_view hl2
  have hn3 : (g2.withOrder (g2.order ++ [ng.next_unique])).node? ng.next_unique
      = some (Node.mk nd.kind [] [] nd.attrs) := by
    show g2.node? ng.next_unique = _
    rw [hn2, Function.update_same]
  have hcc : cloned.contains n = false := by simpa using hc
  refine ⟨g2.withOrder (g2.order ++ [ng.next_unique]), ?_, ?_, ?_, ?_, ?_, ?_, ?_⟩
  · rw [cloneLoop]
    simp only [hcc, Bool.false_eq_true, if_false, hn, hout, List.length_nil, hg1,
      Option.bind_eq_bind, Option.some_bind, hg2, hg3, hn3, List.range_zero,
      List.foldlM_nil, Option.pure_def, mapInsert_of_none hm, setInsert_of_not_mem hc]
  · show g2.node? = _
    rw [hn2, hn1]
    exact Function.update_idem _ _ _
  · show g2.value? = _
    rw [hv2, hv1]
  · show g2.order ++ _ = _
    rw [hf2.order, ho1]
  · show g2.return_node = _
    rw [hf2.ret, hr1]
  · show g2.next_unique = _
    rw [hf2.next, hx1]
  · show g2.name = _
    rw [hf2.name, hm1]

theorem lookup_append_keep {α : Type} (t s : List (Nat × α)) (k : Nat) (a : α)
    (h : t.lookup k = some a) : (t ++ s).lookup k = some a :=
  lookup_append_of_some t s k a h

theorem cloneLoop_nil (old : Graph) (fuel : Nat) (st : Graph × NodeNodeMap × List NodeId) :
    cloneLoop old fuel [] st = some st := by
  cases fuel with
  | zero => simp [cloneLoop]
  | succ f => rw [cloneLoop]

theorem lookup_snoc_ne {α : Type} (t : List (Nat × α)) (k x : Nat) (a : α) (h : x ≠ k) :
    (t ++ [(k, a)]).lookup x = t.lookup x := by
  cases hl : t.lookup x with
  | none =>
    rw [lookup_append_of_none t _ x hl]
    have : (x == k) = false := by simpa using h
    simp [List.lookup_cons, this]
  | some b => exact lookup_append_of_some t _ x b hl

theorem mem_cloneIds {u k : Nat} : ∀ {c : Nat}, c ∈ cloneIds u k → u ≤ c := by
  induction k generalizing u with
  | zero => intro c h; cases h
  | succ k ih =>
    intro c h
    rcases List.mem_cons.mp h with h | h
    · exact Nat.le_of_eq h.symm
    · exact Nat.le_trans (Nat.le_add_right u 2) (ih h)

/-- The state after one cloning round is fresh again. -/
theorem fresh_after_clone {ng ng2 : Graph} {nd : Node} {val : Value} {d : Nat} (hf : ng.Fresh)
    (hd : 1 ≤ d)
    (hn : ng2.node? = Function.update ng.node? ng.next_unique (some nd))
    (hv : ng2.value? = ng.value? ∨
      ng2.value? = Function.update ng.value? (ng.next_unique + 1) (some val) ∧ 2 ≤ d)
    (ho : ng2.order = ng.order ++ [ng.next_unique]) (hr : ng2.return_node = ng.return_node)
    (hx : ng2.next_unique = ng.next_unique + d) : ng2.Fresh := by
  refine ⟨?_, ?_, ?_, ?_⟩
  · intro k hk
    rw [hx] at hk
    have hne : k ≠ ng.next_unique := Nat.ne_of_gt (Nat.lt_of_lt_of_le (by omega) hk)
    rw [hn, Function.update_noteq hne]
    exact hf.nodes k (by omega)
  · intro k hk
    rw [hx] at hk
    rcases hv with hv | ⟨hv, hd2⟩
    · rw [hv]
      exact hf.values k (by omega)
    · have hne : k ≠ ng.next_unique + 1 := Nat.ne_of_gt (Nat.lt_of_lt_of_le (by omega) hk)
      rw [hv, Function.update_noteq hne]
      exact hf.values k (by omega)
  · intro k hk
    rw [ho] at hk
    rw [hx]
    rcases List.mem_append.mp hk with h | h
    · have := hf.order k h
      omega
    · have h' : k = ng.next_unique := List.mem_singleton.mp h
      omega
  · rw [hr, hx]
    have := hf.ret
    omega

/-- Cloning a chain that ends in the return node: the clones are made in the
order of the chain, the clone of the return node last. -/
theorem clone_chain (old : Graph) :
    ∀ (rest : List NodeId) (n : NodeId) (ins : List ValueId) (fuel : Nat) (ng : Graph)
      (map : NodeNodeMap) (cloned : List NodeId),
      IsClosedFrom old ins (n :: rest) → ng.Fresh →
      (∀ x ∈ n :: rest, x ∉ cloned ∧ map.lookup x = none) →
      old.return_node ∉ cloned → map.lookup old.return_node = none →
      (n :: rest).Nodup → old.return_node ∉ n :: rest → rest.length + 2 ≤ fuel →
      ∃ ng' map' cloned',
        cloneLoop old fuel [n] (ng, map, cloned) = some (ng', map', cloned') ∧
        Cloned old ng' map' (n :: rest) ng.next_unique ∧
        (∀ k, k < ng.next_unique → ng'.node? k = ng.node? k) ∧
        (∀ k, k < ng.next_unique → ng'.value? k = ng.value? k) ∧
        (∀ k, ng.next_unique ≤ k → k ∉ cloneIds ng.next_unique (rest.length + 2) →
          ng'.node? k = none) ∧
        (∀ k, ng.next_unique ≤ k → (∀ c ∈ cloneIds ng.next_unique (rest.length + 1), k ≠ c + 1) →
          ng'.value? k = none) ∧
        ng'.order = ng.order ++ cloneIds ng.next_unique (rest.length + 2) ∧
        ng'.return_node = ng.return_node ∧ ng'.name = ng.name ∧
        map'.map Prod.fst = map.map Prod.fst ++ (n :: rest) ++ [old.return_node] ∧
        (∀ k c, map.lookup k = some c → map'.lookup k = some c) := by
  intro rest
  induction rest with
  | nil =>
    intro n ins fuel ng map cloned hch hf hnew hretc hretm hnd hretn hfuel
    obtain ⟨nd, v, val, hn, hk1, hk2, _, hout, hv, _, hlast, _⟩ := hch
    obtain ⟨hu, rn, hrn, hrk, hrin, hrout⟩ := hlast
    obtain ⟨f, rfl⟩ : ∃ f, fuel = f + 2 := ⟨fuel - 2, by simp at hfuel; omega⟩
    have hnc := hnew n (List.mem_cons_self _ _)
    obtain ⟨ng2, h2, hn2, hv2, ho2, hr2, hx2, hm2⟩ :=
      cloneLoop_step (f + 1) [] map cloned hn hout hv hf hnc.1 hnc.2
    have hf2 : ng2.Fresh := fresh_after_clone hf (by decide) hn2 (Or.inr ⟨hv2, by decide⟩) ho2
      hr2 hx2
    have hne : old.return_node ≠ n := fun e => hretn (e ▸ List.mem_cons_self _ _)
    have hretc2 : old.return_node ∉ cloned ++ [n] := by
      intro hm
      rcases List.mem_append.mp hm with h | h
      · exact hretc h
      · exact hne (List.mem_singleton.mp h)
    have hretm2 : (map ++ [(n, ng.next_unique)]).lookup old.return_node = none := by
      rw [lookup_snoc_ne _ _ _ _ hne]; exact hretm
    obtain ⟨ng3, h3, hn3, hv3, ho3, hr3, hx3, hm3⟩ :=
      cloneLoop_step_sink f [] (map ++ [(n, ng.next_unique)]) (cloned ++ [n]) hrn hrout hf2
        hretc2 hretm2
    rw [hu] at h2
    simp only [List.map_cons, List.map_nil, List.reverse_singleton, List.append_nil] at h2
    rw [cloneLoop_nil] at h3
    refine ⟨ng3, _, _, h2.trans h3, ?_, ?_, ?_, ?_, ?_, ?_, ?_, ?_, ?_, ?_⟩
    · refine ⟨⟨nd, v, val, hn, hout, hv, ?_, ?_, ?_⟩, rn, hrn, ?_, ?_⟩
      · rw [lookup_snoc_ne _ _ _ _ hne.symm]
        exact lookup_append_self _ _ _ hnc.2
      · rw [hn3, hx2, Function.update_noteq (Nat.ne_of_lt (by omega)), hn2,
          Function.update_same]
      · rw [hv3, hv2, Function.update_same]
      · rw [← hx2]
        exact lookup_append_self _ _ _ hretm2
      · rw [hn3, hx2, Function.update_same, hrk]
    · intro k hk
      rw [hn3, hx2, Function.update_noteq (Nat.ne_of_lt (by omega)), hn2,
        Function.update_noteq (Nat.ne_of_lt hk)]
    · intro k hk
      rw [hv3, hv2, Function.update_noteq (Nat.ne_of_lt (by omega))]
    · intro k hk hnot
      simp only [List.length_nil, cloneIds, List.mem_cons, List.mem_singleton, not_or,
        List.not_mem_nil, or_false] at hnot
      rw [hn3, hx2, Function.update_noteq hnot.2, hn2, Function.update_noteq hnot.1]
      exact hf.nodes k hk
    · intro k hk hnot
      have hne1 : k ≠ ng.next_unique + 1 := hnot _ (by simp [cloneIds])
      rw [hv3, hv2, Function.update_noteq hne1]
      exact hf.values k hk
    · rw [ho3, ho2, hx2]
      simp [cloneIds]
    · rw [hr3, hr2]
    · rw [hm3, hm2]
    · simp
    · intro k c hkc
      exact lookup_append_keep _ _ _ _ (lookup_append_keep _ _ _ _ hkc)
  | cons n' rest ih =>
    intro n ins fuel ng map cloned hch hf hnew hretc hretm hnd hretn hfuel
    obtain ⟨nd, v, val, hn, hk1, hk2, _, hout, hv, _, hu, hrest⟩ := hch
    obtain ⟨f, rfl⟩ : ∃ f, fuel = f + 1 := ⟨fuel - 1, by simp at hfuel; omega⟩
    have hnc := hnew n (List.mem_cons_self _ _)
    obtain ⟨ng2, h2, hn2, hv2, ho2, hr2, hx2, hm2⟩ :=
      cloneLoop_step f [] map cloned hn hout hv hf hnc.1 hnc.2
    have hf2 : ng2.Fresh := fresh_after_clone hf (by decide) hn2 (Or.inr ⟨hv2, by decide⟩) ho2
      hr2 hx2
    have hne : old.return_node ≠ n := fun e => hretn (e ▸ List.mem_cons_self _ _)
    have hnd' := List.nodup_cons.mp hnd
    have hnew2 : ∀ x ∈ n' :: rest, x ∉ cloned ++ [n] ∧
        (map ++ [(n, ng.next_unique)]).lookup x = none := by
      intro x hx
      have hxn : x ≠ n := fun e => hnd'.1 (e ▸ hx)
      have := hnew x (List.mem_cons_of_mem _ hx)
      refine ⟨?_, ?_⟩
      · intro hm
        rcases List.mem_append.mp hm with h | h
        · exact this.1 h
        · exact hxn (List.mem_singleton.mp h)
      · rw [lookup_snoc_ne _ _ _ _ hxn]; exact this.2
    have hretc2 : old.return_node ∉ cloned ++ [n] := by
      intro hm
      rcases List.mem_append.mp hm with h | h
      · exact hretc h
      · exact hne (List.mem_singleton.mp h)
    have hretm2 : (map ++ [(n, ng.next_unique)]).lookup old.return_node = none := by
      rw [lookup_snoc_ne _ _ _ _ hne]; exact hretm
    rw [hu] at h2
    simp only [List.map_cons, List.map_nil, List.reverse_singleton, List.append_nil] at h2
    obtain ⟨ng', map', cloned', h3, hcl, hfn, hfv, hnn, hnv, hord, hret', hname, hkeys, hkeep⟩ :=
      ih n' [v] f ng2 (map ++ [(n, ng.next_unique)]) (cloned ++ [n]) hrest hf2 hnew2 hretc2
        hretm2 hnd'.2 (fun hm => hretn (List.mem_cons_of_mem _ hm))
        (by simp only [List.length_cons] at hfuel ⊢; omega)
    rw [hx2] at hcl hfn hfv hnn hnv hord
    refine ⟨ng', map', cloned', h2.trans h3, ?_, ?_, ?_, ?_, ?_, ?_, ?_, ?_, ?_, ?_⟩
    · refine ⟨⟨nd, v, val, hn, hout, hv, ?_, ?_, ?_⟩, hcl⟩
      · exact hkeep _ _ (lookup_append_self _ _ _ hnc.2)
      · rw [hfn _ (by omega), hn2, Function.update_same]
      · rw [hfv _ (by omega), hv2, Function.update_same]
    · intro k hk
      rw [hfn k (by omega), hn2, Function.update_noteq (Nat.ne_of_lt hk)]
    · intro k hk
      rw [hfv k (by omega), hv2, Function.update_noteq (Nat.ne_of_lt (by omega))]
    · intro k hk hnot
      have hlen : (n' :: rest).length + 2 = (rest.length + 2) + 1 := by simp
      rw [hlen, cloneIds] at hnot
      simp only [List.mem_cons, not_or] at hnot
      by_cases hk2 : ng.next_unique + 2 ≤ k
      · exact hnn k hk2 hnot.2
      · rw [hfn k (by omega), hn2, Function.update_noteq hnot.1]
        exact hf.nodes k hk
    · intro k hk hnot
      have hlen : (n' :: rest).length + 1 = (rest.length + 1) + 1 := by simp
      rw [hlen, cloneIds] at hnot
      have hne1 : k ≠ ng.next_unique + 1 := hnot _ (List.mem_cons_self _ _)
      by_cases hk2 : ng.next_unique + 2 ≤ k
      · exact hnv k hk2 (fun c hc => hnot c (List.mem_cons_of_mem _ hc))
      · rw [hfv k (by omega), hv2, Function.update_noteq hne1]
        exact hf.values k hk
    · rw [hord, ho2]
      have hlen : (n' :: rest).length + 2 = (rest.length + 2) + 1 := by simp
      rw [hlen]
      simp [cloneIds]
    · rw [hret', hr2]
    · rw [hname, hm2]
    · rw [hkeys]
      simp
    · intro k c hkc
      exact hkeep k c (lookup_append_keep _ _ _ _ hkc)

/-! ### The inputs of the clones of a chain -/

theorem rebuildInputs_eq (H : HashOrder) (old ng : Graph) (map : NodeNodeMap) :
    rebuildInputs H old ng map =
      ((H.iter (map.map Prod.fst)).foldlM (rebuildStep old map)
        (ng, (none : Option NodeId))).bind (fun r => foldReturn r.1 map r.2) := rfl

/-- The head of the chain has no input: nothing is linked. -/
theorem rebuildStep_head {old : Graph} {map : NodeNodeMap} {o : NodeId} {c : NodeId}
    {ond : Node} (st : Graph × Option NodeId) (hl : map.lookup o = some c)
    (hn : old.node? o = some ond) (hin : ond.inputs = []) :
    rebuildStep old map st o = some st := by
  unfold rebuildStep
  rw [hl, hn]
  simp [hin]

theorem RebuildInv.start (ng1 : Graph) (map : NodeNodeMap) (n ret : NodeId) :
    RebuildInv ng1 map n ret [] (ng1, none) :=
  ⟨Graph.SameFrame.same _, fun _ _ h => absurd h (List.not_mem_nil _), fun _ _ => rfl,
    fun _ _ h => absurd h (List.not_mem_nil _), fun _ _ => rfl, by simp⟩

/-- The invariant does not depend on the head being among the nodes done. -/
theorem RebuildInv.head {ng1 : Graph} {map : NodeNodeMap} {n ret : NodeId} {D : List NodeId}
    {st : Graph × Option NodeId} (h : RebuildInv ng1 map n ret D st) (hne : ret ≠ n) :
    RebuildInv ng1 map n ret (n :: D) st := by
  refine ⟨h.frame, ?_, ?_, ?_, ?_, ?_⟩
  · intro o c ho hon hl
    rcases List.mem_cons.mp ho with e | ho'
    · exact absurd e hon
    · exact h.nodeD o c ho' hon hl
  · intro k hk
    exact h.nodeN k (fun o c ho hon hl => hk o c (List.mem_cons_of_mem _ ho) hon hl)
  · intro o c ho hon hl
    rcases List.mem_cons.mp ho with e | ho'
    · exact absurd e hon
    · exact h.valD o c ho' hon hl
  · intro k hk
    exact h.valN k (fun o c ho hon hl => hk o c (List.mem_cons_of_mem _ ho) hon hl)
  · rw [h.flag]
    simp [hne]

/-- A clone keeps its output whether it was linked or not. -/
theorem RebuildInv.outputs {ng1 : Graph} {map : NodeNodeMap} {n ret : NodeId}
    {D : List NodeId} {st : Graph × Option NodeId} (h : RebuildInv ng1 map n ret D st)
    (k : Nat) {nd : Node} (hk : ng1.node? k = some nd) :
    ∃ nd', st.1.node? k = some nd' ∧ nd'.outputs = nd.outputs ∧ nd'.kind = nd.kind ∧
      nd'.attrs = nd.attrs := by
  by_cases hex : ∃ (o : NodeId) (c : Nat), o ∈ D ∧ o ≠ n ∧ map.lookup o = some (c + 2) ∧
      k = c + 2
  · obtain ⟨o, c, ho, hon, hl, rfl⟩ := hex
    refine ⟨Node.mk nd.kind [c + 1] nd.outputs nd.attrs, ?_, rfl, rfl, rfl⟩
    rw [h.nodeD o c ho hon hl, hk]
    rfl
  · refine ⟨nd, ?_, rfl, rfl, rfl⟩
    rw [h.nodeN k (fun o c ho hon hl e => hex ⟨o, c, ho, hon, hl, e⟩)]
    exact hk

/-- One round of the outer loop of `rebuildInputs` on a node of the chain
other than its head. -/
theorem rebuildStep_link {old ng1 : Graph} {map : NodeNodeMap} {n ret o : NodeId}
    {D : List NodeId} {st : Graph × Option NodeId}
    (hinj : ∀ (a b : NodeId) (c : Nat), map.lookup a = some c → map.lookup b = some c → a = b)
    (hret : ret = old.return_node)
    (hlk : Linkable old ng1 map o) (hinv : RebuildInv ng1 map n ret D st) (hoD : o ∉ D)
    (hon : o ≠ n) :
    ∃ st', rebuildStep old map st o = some st' ∧ RebuildInv ng1 map n ret (o :: D) st' := by
  obtain ⟨cp, ond, w, oval, prev, cnd, pnd, cval, hl, hn, hin, hw, hprod, hlp, hc, hcin, hck,
    hp, hpout, hcv, hcu⟩ := hlk
  have hfreshN : ∀ (o' : NodeId) (c : Nat), o' ∈ D → o' ≠ n → map.lookup o' = some (c + 2) →
      cp ≠ c := by
    intro o' c ho' _ hl' e
    apply hoD
    have : o' = o := hinj o' o (cp + 2) (by rw [hl', e]) hl
    exact this ▸ ho'
  have hnode : st.1.node? (cp + 2) = some cnd := by
    rw [hinv.nodeN (cp + 2) (fun o' c ho' hne hl' e => hfreshN o' c ho' hne hl' (by omega))]
    exact hc
  have hval : st.1.value? (cp + 1) = some cval := by
    rw [hinv.valN (cp + 1) (fun o' c ho' hne hl' e => hfreshN o' c ho' hne hl' (by omega))]
    exact hcv
  obtain ⟨pnd', hp', hpout', _, _⟩ := hinv.outputs cp hp
  obtain ⟨g', hadd, hgn, hgv, hgf⟩ := addInput_view hnode hval
  refine ⟨(g', if cnd.kind = Kind.kReturn then some o else st.2), ?_, ?_⟩
  · unfold rebuildStep
    rw [hl, hn]
    simp only [Option.bind_eq_bind, Option.some_bind, hin, List.foldlM_cons, List.foldlM_nil]
    unfold rebuildInput
    rw [hw]
    simp only [Option.bind_eq_bind, Option.some_bind, hprod, hlp]
    rw [hnode, hp']
    simp only [Option.some_bind, hpout', hpout, List.getElem?_cons_zero]
    rw [hadd]
    rfl
  · have hcase : ∀ (o' : NodeId) (c : Nat), o' ∈ o :: D → o' ≠ n →
        map.lookup o' = some (c + 2) → (o' = o ∧ c = cp) ∨ (o' ∈ D ∧ cp ≠ c) := by
      intro o' c ho' hne hl'
      rcases List.mem_cons.mp ho' with e | hD
      · refine Or.inl ⟨e, ?_⟩
        rw [e, hl] at hl'
        have := Option.some.inj hl'
        omega
      · exact Or.inr ⟨hD, hfreshN o' c hD hne hl'⟩
    refine ⟨hinv.frame.comp hgf, ?_, ?_, ?_, ?_, ?_⟩
    · intro o' c ho' hne hl'
      show g'.node? (c + 2) = _
      rcases hcase o' c ho' hne hl' with ⟨_, hcc⟩ | ⟨hD, hcc⟩
      · rw [hcc, hgn, Function.update_same, hc, hcin]
        rfl
      · have hne2 : c + 2 ≠ cp + 2 := by omega
        rw [hgn, Function.update_noteq hne2]
        exact hinv.nodeD o' c hD hne hl'
    · intro k hk
      show g'.node? k = _
      have hne2 : k ≠ cp + 2 := hk o cp (List.mem_cons_self _ _) hon hl
      rw [hgn, Function.update_noteq hne2]
      exact hinv.nodeN k (fun o' c ho' hne hl' => hk o' c (List.mem_cons_of_mem _ ho') hne hl')
    · intro o' c ho' hne hl'
      show g'.value? (c + 1) = _
      rcases hcase o' c ho' hne hl' with ⟨_, hcc⟩ | ⟨hD, hcc⟩
      · rw [hcc, hgv, Function.update_same, hcv, hcu, hcin]
        rfl
      · have hne2 : c + 1 ≠ cp + 1 := by omega
        rw [hgv, Function.update_noteq hne2]
        exact hinv.valD o' c hD hne hl'
    · intro k hk
      show g'.value? k = _
      have hne2 : k ≠ cp + 1 := hk o cp (List.mem_cons_self _ _) hon hl
      rw [hgv, Function.update_noteq hne2]
      exact hinv.valN k (fun o' c ho' hne hl' => hk o' c (List.mem_cons_of_mem _ ho') hne hl')
    · show (if cnd.kind = Kind.kReturn then some o else st.2) = _
      by_cases hk : cnd.kind = Kind.kReturn
      · have ho : o = ret := by rw [hret]; exact hck.mp hk
        rw [if_pos hk, ho]
        simp
      · have ho : ret ≠ o := fun e => hk (hck.mpr (by rw [← e, hret]))
        rw [if_neg hk, hinv.flag]
        simp [ho]

/-- The outer loop of `rebuildInputs` over the nodes `l` of a chain, in any
order. -/
theorem rebuild_fold {old ng1 : Graph} {map : NodeNodeMap} {n ret : NodeId} {c0 : NodeId}
    {ond0 : Node}
    (hinj : ∀ (a b : NodeId) (c : Nat), map.lookup a = some c → map.lookup b = some c → a = b)
    (hret : ret = old.return_node) (hne : ret ≠ n)
    (hl0 : map.lookup n = some c0) (hn0 : old.node? n = some ond0) (hin0 : ond0.inputs = []) :
    ∀ (l D : List NodeId) (st : Graph × Option NodeId), l.Nodup →
      (∀ o ∈ l, o ∉ D ∧ (o ≠ n → Linkable old ng1 map o)) → RebuildInv ng1 map n ret D st →
      ∃ st', l.foldlM (rebuildStep old map) st = some st' ∧
        RebuildInv ng1 map n ret (l.reverse ++ D) st' := by
  intro l
  induction l with
  | nil =>
    intro D st _ _ hinv
    exact ⟨st, rfl, hinv⟩
  | cons o l ih =>
    intro D st hnd hl hinv
    have ho := hl o (List.mem_cons_self _ _)
    have hnd' := List.nodup_cons.mp hnd
    have hrest : ∀ x ∈ l, x ∉ o :: D ∧ (x ≠ n → Linkable old ng1 map x) := by
      intro x hx
      refine ⟨?_, (hl x (List.mem_cons_of_mem _ hx)).2⟩
      intro hm
      rcases List.mem_cons.mp hm with e | hD
      · exact hnd'.1 (e ▸ hx)
      · exact (hl x (List.mem_cons_of_mem _ hx)).1 hD
    by_cases hon : o = n
    · have hstep : rebuildStep old map st o = some st := by
        rw [hon]; exact rebuildStep_head st hl0 hn0 hin0
      obtain ⟨st', hf, hinv'⟩ := ih (o :: D) st hnd'.2 hrest (by rw [hon]; exact hinv.head hne)
      refine ⟨st', ?_, ?_⟩
      · rw [List.foldlM_cons, hstep]; exact hf
      · rw [List.reverse_cons, List.append_assoc]; exact hinv'
    · obtain ⟨st1, hstep, hinv1⟩ := rebuildStep_link hinj hret (ho.2 hon) hinv ho.1 hon
      obtain ⟨st', hf, hinv'⟩ := ih (o :: D) st1 hnd'.2 hrest hinv1
      refine ⟨st', ?_, ?_⟩
      · rw [List.foldlM_cons, hstep]; exact hf
      · rw [List.reverse_cons, List.append_assoc]; exact hinv'

/-! ### The map from the chain to its clones -/

theorem cloned_lookup {old ng : Graph} {map : NodeNodeMap} :
    ∀ (ns : List NodeId) (u : Nat), Cloned old ng map ns u →
      ∀ (i : Nat) (o : NodeId), (ns ++ [old.return_node])[i]? = some o →
        map.lookup o = some (u + 2 * i) := by
  intro ns
  induction ns with
  | nil =>
    intro u hc i o hi
    obtain ⟨rn, _, hl, _⟩ := hc
    cases i with
    | zero =>
      simp only [List.nil_append, List.getElem?_cons_zero, Option.some.injEq] at hi
      rw [← hi]
      exact hl
    | succ i => simp at hi
  | cons n rest ih =>
    intro u hc i o hi
    obtain ⟨⟨nd, v, val, _, _, _, hl, _, _⟩, hrest⟩ := hc
    cases i with
    | zero =>
      simp only [List.cons_append, List.getElem?_cons_zero, Option.some.injEq] at hi
      rw [← hi]
      exact hl
    | succ i =>
      simp only [List.cons_append, List.getElem?_cons_succ] at hi
      rw [ih (u + 2) hrest i o hi]
      congr 1
      omega

/-- The map from a chain to its clones is one to one and its values are new
numbers. -/
theorem cloned_map {old ng : Graph} {map : NodeNodeMap} {ns : List NodeId} {u : Nat}
    (hc : Cloned old ng map ns u) (hkeys : map.map Prod.fst = ns ++ [old.return_node]) :
    (∀ (a b : NodeId) (c : Nat), map.lookup a = some c → map.lookup b = some c → a = b) ∧
      (∀ (a : NodeId) (c : Nat), map.lookup a = some c → u ≤ c) ∧
      map.lookup old.return_node = some (u + 2 * ns.length) := by
  have hpos : ∀ (a : NodeId) (c : Nat), map.lookup a = some c →
      ∃ i, (ns ++ [old.return_node])[i]? = some a ∧ c = u + 2 * i := by
    intro a c ha
    have hm : a ∈ ns ++ [old.return_node] := hkeys ▸ mem_keys_of_lookup _ _ _ ha
    obtain ⟨i, hi⟩ := List.mem_iff_getElem?.mp hm
    refine ⟨i, hi, ?_⟩
    have := cloned_lookup ns u hc i a hi
    rw [ha] at this
    exact Option.some.inj this
  refine ⟨?_, ?_, ?_⟩
  · intro a b c ha hb
    obtain ⟨i, hi, hci⟩ := hpos a c ha
    obtain ⟨j, hj, hcj⟩ := hpos b c hb
    have hij : i = j := by omega
    rw [hij, hj] at hi
    exact (Option.some.inj hi).symm
  · intro a c ha
    obtain ⟨i, _, hci⟩ := hpos a c ha
    omega
  · apply cloned_lookup ns u hc
    simp

/-- Every node of a cloned chain after its head, and the return node, can be
linked to the clone of the node before it. -/
theorem cloned_linkable {old ng1 : Graph} {map : NodeNodeMap} :
    ∀ (rest : List NodeId) (n : NodeId) (ins : List ValueId) (u : Nat),
      IsClosedFrom old ins (n :: rest) → Cloned old ng1 map (n :: rest) u →
      old.return_node ∉ n :: rest →
      ∀ o ∈ rest ++ [old.return_node], Linkable old ng1 map o := by
  intro rest
  induction rest with
  | nil =>
    intro n ins u hch hcl hretn o ho
    obtain ⟨nd, v, val, hn, _, _, _, hout, hv, hprod, hlast, _⟩ := hch
    obtain ⟨hu, rn, hrn, hrk, hrin, hrout⟩ := hlast
    obtain ⟨⟨nd', v', val', hn', hout', hv', hl, hcn, hcv⟩, rn', hrn', hlr, hcr⟩ := hcl
    have ho' : o = old.return_node := by simpa using ho
    rw [ho']
    exact ⟨u, rn, v, val, n, _, _, _, hlr, hrn, hrin, hv, hprod, hl, hcr, rfl,
      ⟨fun _ => rfl, fun _ => rfl⟩, hcn, rfl, hcv, rfl⟩
  | cons n' rest ih =>
    intro n ins u hch hcl hretn o ho
    obtain ⟨nd, v, val, hn, _, _, _, hout, hv, hprod, _, hch'⟩ := hch
    obtain ⟨⟨nd', v', val', hn', hout', hv', hl, hcn, hcv⟩, hcl'⟩ := hcl
    rcases List.mem_cons.mp ho with e | ho'
    · obtain ⟨nd2, v2, val2, hn2, hk2, hk2', hin2, _⟩ := hch'
      obtain ⟨⟨nd3, v3, val3, hn3, hout3, hv3, hl3, hcn3, hcv3⟩, _⟩ := hcl'
      rw [hn2] at hn3
      cases hn3
      rw [e]
      refine ⟨u, nd2, v, val, n, _, _, _, hl3, hn2, hin2, hv, hprod, hl, hcn3, rfl,
        ⟨fun h => absurd h hk2', fun h => ?_⟩, hcn, rfl, hcv, rfl⟩
      exact absurd (h ▸ List.mem_cons_of_mem _ (List.mem_cons_self _ _)) hretn
    · exact ih n' [v] (u + 2) hch' hcl'
        (fun h => hretn (List.mem_cons_of_mem _ h)) o ho'

/-! ### The new graph of a chain -/

theorem cloneIds_succ (u k : Nat) : cloneIds u (k + 1) = cloneIds u k ++ [u + 2 * k] := by
  induction k generalizing u with
  | zero => rfl
  | succ k ih =>
    rw [cloneIds, ih (u + 2)]
    have : u + 2 + 2 * k = u + 2 * (k + 1) := by omega
    rw [this]
    rfl

theorem cloneIds_lt {u k : Nat} : ∀ {c : Nat}, c ∈ cloneIds u k → c < u + 2 * k := by
  induction k generalizing u with
  | zero => intro c h; cases h
  | succ k ih =>
    intro c h
    rcases List.mem_cons.mp h with h | h
    · have : c = u := h
      omega
    · have := ih h
      omega

theorem cloneIds_nodup (u k : Nat) : (cloneIds u k).Nodup := by
  induction k generalizing u with
  | zero => exact List.nodup_nil
  | succ k ih =>
    rw [cloneIds]
    refine List.nodup_cons.mpr ⟨fun h => ?_, ih (u + 2)⟩
    have := mem_cloneIds h
    omega

theorem cloneIds_length (u k : Nat) : (cloneIds u k).length = k := by
  induction k generalizing u with
  | zero => rfl
  | succ k ih => rw [cloneIds, List.length_cons, ih]

/-- The clones of a chain, once linked, are a chain of the new graph. -/
theorem closed_of_linked {old ng1 ng2 : Graph} {map : NodeNodeMap} {rn : Node} :
    ∀ (rest : List NodeId) (n : NodeId) (ins0 ins : List ValueId) (u : Nat),
      IsClosedFrom old ins0 (n :: rest) → Cloned old ng1 map (n :: rest) u →
      ng2.node? u = (ng1.node? u).map (fun nd => { nd with inputs := ins }) →
      (∀ (o : NodeId) (c : Nat), o ∈ rest → map.lookup o = some (c + 2) →
        ng2.node? (c + 2) = (ng1.node? (c + 2)).map (fun nd => { nd with inputs := [c + 1] }) ∧
        ng2.value? (c + 1) =
          (ng1.value? (c + 1)).map (fun val => { val with uses := [⟨c + 2, 0⟩] })) →
      (∀ c : Nat, map.lookup old.return_node = some (c + 2) →
        ng2.value? (c + 1) =
          (ng1.value? (c + 1)).map (fun val => { val with uses := [⟨ng2.return_node, 0⟩] }) ∧
        rn.inputs = [c + 1]) →
      ng2.node? ng2.return_node = some rn → rn.kind = Kind.kReturn → rn.outputs = [] →
      IsClosedFrom ng2 ins (cloneIds u (rest.length + 1)) ∧
        List.Forall₂ (CloneOf old ng2) (n :: rest) (cloneIds u (rest.length + 1)) := by
  intro rest
  induction rest with
  | nil =>
    intro n ins0 ins u hch hcl hH hN hL hrn hrk hrout
    obtain ⟨nd, v, val, hn, hk1, hk2, _, hout, hv, hprod, _, _⟩ := hch
    obtain ⟨⟨nd', v', val', hn', hout', hv', hl, hcn, hcv⟩, rn', hrn', hlr, hcr⟩ := hcl
    rw [hn] at hn'; cases hn'
    rw [hout] at hout'; cases hout'
    rw [hv] at hv'; cases hv'
    obtain ⟨hLv, hLi⟩ := hL u hlr
    rw [hcn] at hH
    rw [hcv] at hLv
    refine ⟨⟨_, _, _, hH, hk1, hk2, rfl, rfl, hLv, rfl, ⟨rfl, rn, hrn, hrk, hLi, hrout⟩,
      trivial⟩, ?_⟩
    exact List.Forall₂.cons ⟨_, _, _, _, _, _, hn, hH, rfl, rfl, hout, rfl, hv, hLv, rfl, rfl,
      rfl⟩ List.Forall₂.nil
  | cons n' rest ih =>
    intro n ins0 ins u hch hcl hH hN hL hrn hrk hrout
    obtain ⟨nd, v, val, hn, hk1, hk2, _, hout, hv, hprod, _, hch'⟩ := hch
    obtain ⟨⟨nd', v', val', hn', hout', hv', hl, hcn, hcv⟩, hcl'⟩ := hcl
    rw [hn] at hn'; cases hn'
    rw [hout] at hout'; cases hout'
    rw [hv] at hv'; cases hv'
    have hl' : map.lookup n' = some (u + 2) := by
      obtain ⟨⟨_, _, _, _, _, _, h, _, _⟩, _⟩ := hcl'
      exact h
    obtain ⟨hNn, hNv⟩ := hN n' u (List.mem_cons_self _ _) hl'
    obtain ⟨hc', hf'⟩ := ih n' [v] [u + 1] (u + 2) hch' hcl' hNn
      (fun o c ho hlo => hN o c (List.mem_cons_of_mem _ ho) hlo) hL hrn hrk hrout
    rw [hcn] at hH
    rw [hcv] at hNv
    refine ⟨⟨_, _, _, hH, hk1, hk2, rfl, rfl, hNv, rfl, rfl, hc'⟩, ?_⟩
    exact List.Forall₂.cons ⟨_, _, _, _, _, _, hn, hH, rfl, rfl, hout, rfl, hv, hNv, rfl, rfl,
      rfl⟩ hf'

theorem cloned_ret_node {old ng : Graph} {map : NodeNodeMap} :
    ∀ (ns : List NodeId) (u : Nat), Cloned old ng map ns u →
      ∃ rn, old.node? old.return_node = some rn ∧
        ng.node? (u + 2 * ns.length) = some (Node.mk Kind.kReturn [] [] rn.attrs) := by
  intro ns
  induction ns with
  | nil =>
    intro u hc
    obtain ⟨rn, hrn, _, hn⟩ := hc
    exact ⟨rn, hrn, hn⟩
  | cons n rest ih =>
    intro u hc
    obtain ⟨rn, hrn, hn⟩ := ih (u + 2) hc.2
    refine ⟨rn, hrn, ?_⟩
    have : u + 2 * (n :: rest).length = u + 2 + 2 * rest.length := by
      simp only [List.length_cons]; omega
    rw [this]
    exact hn

/-- A number that is no node of the new graph stays so in the loop of
`rebuildInputs`. -/
theorem RebuildInv.none {ng1 : Graph} {map : NodeNodeMap} {n ret : NodeId}
    {D : List NodeId} {st : Graph × Option NodeId} (h : RebuildInv ng1 map n ret D st)
    (k : Nat) (hk : ng1.node? k = none) : st.1.node? k = none := by
  by_cases hex : ∃ (o : NodeId) (c : Nat), o ∈ D ∧ o ≠ n ∧ map.lookup o = some (c + 2) ∧
      k = c + 2
  · obtain ⟨o, c, ho, hon, hl, rfl⟩ := hex
    rw [h.nodeD o c ho hon hl, hk]
    rfl
  · rw [h.nodeN k (fun o c ho hon hl e => hex ⟨o, c, ho, hon, hl, e⟩)]
    exact hk

/-- Function `rebuildInputs` on the clones of a chain that ends in the return
node: whatever the order of the map, the clones are linked into a chain of
the new graph that ends in its own return node, and the clone of the old
return node is destroyed. -/
theorem rebuild_chain (H : HashOrder) {old ng ng1 : Graph} {map : NodeNodeMap} {n : NodeId}
    {rest : List NodeId} {rn0 : Node}
    (hch : IsClosedFrom old [] (n :: rest)) (hnd : (n :: rest).Nodup)
    (hretn : old.return_node ∉ n :: rest) (hf : ng.Fresh)
    (hcl : Cloned old ng1 map (n :: rest) ng.next_unique)
    (hlow : ∀ k, k < ng.next_unique → ng1.node? k = ng.node? k)
    (hhi : ∀ k, ng.next_unique ≤ k → k ∉ cloneIds ng.next_unique (rest.length + 2) →
      ng1.node? k = none)
    (hord : ng1.order = ng.order ++ cloneIds ng.next_unique (rest.length + 2))
    (hret : ng1.return_node = ng.return_node) (hname : ng1.name = ng.name)
    (hkeys : map.map Prod.fst = (n :: rest) ++ [old.return_node])
    (hrn : ng.node? ng.return_node = some rn0) (hrk : rn0.kind = Kind.kReturn)
    (hrin : rn0.inputs = []) (hrout : rn0.outputs = []) :
    ∃ ng2 map2, rebuildInputs H old ng1 map = some (ng2, map2) ∧
      ng2.order = ng.order ++ cloneIds ng.next_unique (rest.length + 1) ∧
      ng2.return_node = ng.return_node ∧ ng2.name = ng.name ∧
      IsClosedFrom ng2 [] (cloneIds ng.next_unique (rest.length + 1)) ∧
      List.Forall₂ (CloneOf old ng2) (n :: rest) (cloneIds ng.next_unique (rest.length + 1)) ∧
      (∀ k, k < ng.next_unique → k ≠ ng.return_node → ng2.node? k = ng.node? k) ∧
      (∀ k, ng.next_unique ≤ k → k ∉ cloneIds ng.next_unique (rest.length + 1) →
        ng2.node? k = none) := by
  obtain ⟨hinj, hbound, hlr⟩ := cloned_map hcl hkeys
  have hlink := cloned_linkable rest n [] _ hch hcl hretn
  have hne : old.return_node ≠ n := fun e => hretn (e ▸ List.mem_cons_self _ _)
  obtain ⟨nd, v, val, hn, _, _, hin, hout, hv, _, _, _⟩ := id hch
  have hl0 : map.lookup n = some ng.next_unique := by
    obtain ⟨⟨_, _, _, _, _, _, h, _, _⟩, _⟩ := id hcl
    exact h
  have hcn0 : ∃ X : Node, ng1.node? ng.next_unique = some X ∧ X.inputs = [] := by
    obtain ⟨⟨_, _, _, _, _, _, _, h, _⟩, _⟩ := id hcl
    exact ⟨_, h, rfl⟩
  -- the loop over the map
  have hperm := H.perm (map.map Prod.fst)
  have hkn : ((n :: rest) ++ [old.return_node]).Nodup := by
    refine List.Nodup.append hnd (List.nodup_singleton _) ?_
    intro x hx hx'
    exact hretn (List.mem_singleton.mp hx' ▸ hx)
  have hln : (H.iter (map.map Prod.fst)).Nodup := by
    rw [hperm.nodup_iff, hkeys]; exact hkn
  have hmem : ∀ o, o ∈ H.iter (map.map Prod.fst) ↔ o ∈ (n :: rest) ++ [old.return_node] := by
    intro o
    rw [hperm.mem_iff, hkeys]
  obtain ⟨st, hfold, hinv⟩ := rebuild_fold hinj rfl hne hl0 hn hin (H.iter (map.map Prod.fst)) []
    (ng1, none) hln
    (fun o ho => ⟨List.not_mem_nil _, fun hon => hlink o (by
      rcases List.mem_cons.mp ((hmem o).mp ho) with e | h
      · exact absurd e hon
      · exact h)⟩)
    (RebuildInv.start _ _ _ _)
  have hD : ∀ o, o ∈ (H.iter (map.map Prod.fst)).reverse ++ [] ↔
      o ∈ (n :: rest) ++ [old.return_node] := by
    intro o
    rw [List.append_nil, List.mem_reverse]
    exact hmem o
  have hretD : old.return_node ∈ (H.iter (map.map Prod.fst)).reverse ++ [] :=
    (hD _).mpr (List.mem_append_right _ (List.mem_singleton_self _))
  have hflag : st.2 = some old.return_node := by
    rw [hinv.flag, if_pos hretD]
  -- the clone of the return node
  have hlen : (n :: rest).length = rest.length + 1 := rfl
  rw [hlen] at hlr
  have hlr' : map.lookup old.return_node = some (ng.next_unique + 2 * rest.length + 2) := by
    rw [hlr]; rfl
  obtain ⟨orn, horn, hcr⟩ := cloned_ret_node _ _ hcl
  rw [hlen] at hcr
  have hcr' : ng1.node? (ng.next_unique + 2 * rest.length + 2) =
      some (Node.mk Kind.kReturn [] [] orn.attrs) := by
    rw [← hcr]; congr 1
  obtain ⟨cp, ond, w, oval, prev, cnd, pnd, cval, hlc, _, _, _, _, _, _, _, _, _, _, hcv, hcu⟩ :=
    hlink old.return_node (List.mem_append_right _ (List.mem_singleton_self _))
  have hcp : cp = ng.next_unique + 2 * rest.length := by
    rw [hlr'] at hlc
    have := Option.some.inj hlc
    omega
  rw [hcp] at hcv
  have hsn : st.1.node? (ng.next_unique + 2 * rest.length + 2) =
      some (Node.mk Kind.kReturn [ng.next_unique + 2 * rest.length + 1] [] orn.attrs) := by
    rw [hinv.nodeD old.return_node _ hretD hne hlr', hcr']
    rfl
  have hsv : st.1.value? (ng.next_unique + 2 * rest.length + 1) =
      some { cval with uses := [⟨ng.next_unique + 2 * rest.length + 2, 0⟩] } := by
    rw [hinv.valD old.return_node _ hretD hne hlr', hcv]
    rfl
  have hRlt : Nat.succ ng.return_node ≤ ng.next_unique := hf.ret
  have hsr : st.1.node? ng.return_node = some rn0 := by
    rw [hinv.nodeN ng.return_node (fun o c _ _ hl e => by
      have := hbound o _ hl
      have e' : @Eq Nat ng.return_node (c + 2) := e
      omega), hlow _ hf.ret]
    exact hrn
  have hsret : st.1.return_node = ng.return_node := hinv.frame.ret.trans hret
  obtain ⟨g2, hadd, hg2n, hg2v, hg2f⟩ := addInput_view hsr hsv
  have hneR : ng.next_unique + 2 * rest.length + 2 ≠ ng.return_node := by omega
  have hg2c : g2.node? (ng.next_unique + 2 * rest.length + 2) =
      some (Node.mk Kind.kReturn [ng.next_unique + 2 * rest.length + 1] [] orn.attrs) := by
    rw [hg2n, Function.update_noteq hneR]
    exact hsn
  have hg2val : g2.value? (ng.next_unique + 2 * rest.length + 1) =
      some (Value.mk cval.node cval.offset cval.sizes cval.unique_name cval.elemType
        ([⟨ng.next_unique + 2 * rest.length + 2, 0⟩] ++
          [⟨ng.return_node, rn0.inputs.length⟩])) := by
    rw [hg2v, Function.update_same]
  have hg2ord : g2.order = (ng.order ++ cloneIds ng.next_unique (rest.length + 1)) ++
      (ng.next_unique + 2 * rest.length + 2) :: [] := by
    rw [hg2f.order, hinv.frame.order, hord, cloneIds_succ, List.append_assoc]
    congr 2
  have hpre : ng.next_unique + 2 * rest.length + 2 ∉
      ng.order ++ cloneIds ng.next_unique (rest.length + 1) := by
    intro hm
    rcases List.mem_append.mp hm with h | h
    · have := hf.order _ h
      omega
    · have := cloneIds_lt h
      omega
  obtain ⟨g3, hdes, hg3n, hg3v, hg3ord, hg3r, _, hg3name⟩ :=
    destroy_sink_view hg2c rfl rfl hg2val (by simp) hg2ord hpre (List.not_mem_nil _)
      (by rw [hg2f.ret, hsret]; exact hneR)
  refine ⟨g3, tableErase map old.return_node, ?_, ?_, ?_, ?_, ?_⟩
  · rw [rebuildInputs_eq, hfold]
    obtain ⟨sg, sf⟩ := st
    simp only at hflag hsn hadd hsret
    simp only [Option.some_bind, hflag]
    unfold foldReturn
    simp only [hlr', Option.bind_eq_bind, Option.some_bind, hsn, List.foldlM_cons,
      List.foldlM_nil, hsret, hadd]
    show (g2.destroy _).bind _ = _
    rw [hdes]
    rfl
  · rw [hg3ord, List.append_nil]
  · rw [hg3r, hg2f.ret, hsret]
  · rw [hg3name, hg2f.name, hinv.frame.name, hname]
  have hg3node : ∀ k : Nat, k ≠ ng.next_unique + 2 * rest.length + 2 →
      Nat.succ k ≠ Nat.succ ng.return_node → g3.node? k = st.1.node? k := by
    intro k h1 h2
    have h2' : k ≠ ng.return_node := fun e => h2 (congrArg Nat.succ e)
    rw [hg3n, Function.update_noteq h1, hg2n, Function.update_noteq h2']
  have hg3val : ∀ k : Nat, k ≠ ng.next_unique + 2 * rest.length + 1 →
      g3.value? k = st.1.value? k := by
    intro k h1
    rw [hg3v, Function.update_noteq h1, hg2v, Function.update_noteq h1]
  have hg3R : g3.return_node = ng.return_node := by rw [hg3r, hg2f.ret, hsret]
  have hcu0 : (ng.next_unique + 2 * rest.length + 1 : Nat) ≠ 0 := by omega
  have hclosed := @closed_of_linked old ng1 g3 map
    (Node.mk rn0.kind (rn0.inputs ++ [ng.next_unique + 2 * rest.length + 1]) rn0.outputs
      rn0.attrs) rest n [] [] ng.next_unique hch hcl
    (by
      obtain ⟨⟨_, _, _, _, _, _, _, hX, _⟩, _⟩ := id hcl
      rw [hg3node _ (by omega) (by omega), hinv.nodeN _ (fun o c _ hon hl e => hon
        (hinj o n _ hl (by rw [hl0]; exact congrArg some e))), hX]
      rfl)
    (by
      intro o c ho hl
      have hoD : o ∈ (H.iter (map.map Prod.fst)).reverse ++ [] :=
        (hD o).mpr (List.mem_append_left _ (List.mem_cons_of_mem _ ho))
      have hon : o ≠ n := fun e => (List.nodup_cons.mp hnd).1 (e ▸ ho)
      have hor : o ≠ old.return_node := fun e => hretn (e ▸ List.mem_cons_of_mem _ ho)
      have hb := hbound o _ hl
      have hcc : c ≠ ng.next_unique + 2 * rest.length := by
        intro e
        exact hor (hinj o old.return_node _ hl (by rw [hlr', e]))
      constructor
      · rw [hg3node _ (by omega) (by omega)]
        exact hinv.nodeD o c hoD hon hl
      · rw [hg3val _ (by omega)]
        exact hinv.valD o c hoD hon hl)
    (by
      intro c hl
      have hcc : c = ng.next_unique + 2 * rest.length := by
        rw [hlr'] at hl
        have := Option.some.inj hl
        omega
      rw [hcc]
      constructor
      · rw [hg3v, Function.update_same, hcv, hg3R, hrin]
        simp
      · rw [hrin]
        rfl)
    (by
      rw [hg3R, hg3n, Function.update_noteq hneR.symm, hg2n, Function.update_same])
    hrk hrout
  refine ⟨hclosed.1, hclosed.2, ?_, ?_⟩
  · intro k hk hkR
    have hk' : Nat.succ k ≤ ng.next_unique := hk
    rw [hg3node k (by omega) (fun e => hkR (Nat.succ.inj e)),
      hinv.nodeN k (fun o c _ _ hl e => by
        have := hbound o _ hl
        have e' : @Eq Nat k (c + 2) := e
        omega)]
    exact hlow k hk
  · intro k hk hnot
    by_cases hkc : k = ng.next_unique + 2 * rest.length + 2
    · rw [hkc, hg3n, Function.update_same]
    · have hk' : ng.next_unique ≤ (k : Nat) := hk
      rw [hg3node k hkc (by omega)]
      apply hinv.none
      apply hhi k hk
      rw [cloneIds_succ]
      intro hm
      rcases List.mem_append.mp hm with h | h
      · exact hnot h
      · exact hkc (by rw [List.mem_singleton.mp h]; rfl)

/-! ### The Load and the Store of a split point -/

/-- The arena stays fresh when objects are made with the next `d` unique
numbers. -/
theorem fresh_of_views {g g' : Graph} (hf : g.Fresh) (d : Nat)
    (hx : g'.next_unique = g.next_unique + d)
    (hn : ∀ k : Nat, g.next_unique + d ≤ k → g'.node? k = g.node? k)
    (hv : ∀ k : Nat, g.next_unique + d ≤ k → g'.value? k = g.value? k)
    (ho : ∀ k : Nat, k ∈ g'.order → k ∈ g.order ∨ k < g.next_unique + d)
    (hr : g'.return_node = g.return_node) : g'.Fresh := by
  refine ⟨?_, ?_, ?_, ?_⟩
  · intro k hk
    rw [hx] at hk
    rw [hn k hk]
    exact hf.nodes k (by omega)
  · intro k hk
    rw [hx] at hk
    rw [hv k hk]
    exact hf.values k (by omega)
  · intro k hk
    rw [hx]
    rcases ho k hk with h | h
    · have := hf.order k h
      omega
    · exact h
  · rw [hr, hx]
    have := hf.ret
    omega

theorem Graph.Fresh.value_lt {g : Graph} (hf : g.Fresh) {k : Nat} {val : Value}
    (h : g.value? k = some val) : k < g.next_unique := by
  by_contra hlt
  rw [hf.values k (by omega)] at h
  cases h

theorem Graph.Fresh.node_lt {g : Graph} (hf : g.Fresh) {k : Nat} {nd : Node}
    (h : g.node? k = some nd) : k < g.next_unique := by
  by_contra hlt
  rw [hf.nodes k (by omega)] at h
  cases h

/-- Function `createLoadAtValue` for a value `v` with one use, by the node
`q`: the new Load has the next unique number, stands before `q` and feeds
`q` in place of `v`. -/
theorem loadAt_view {g : Graph} {v : ValueId} {val : Value} {q : NodeId} {ndq : Node}
    {pre post : List NodeId} (hf : g.Fresh) (hv : g.value? v = some val)
    (hu : val.uses = [⟨q, 0⟩]) (hq : g.node? q = some ndq) (hin : ndq.inputs = [v])
    (hord : g.order = pre ++ q :: post) (hpre : q ∉ pre) (hqr : q ≠ g.return_node) :
    ∃ g', createLoadAtValue g v = some (g', g.next_unique) ∧
      g'.node? = Function.update (Function.update g.node? g.next_unique
        (some (Node.mk Kind.Load [] [g.next_unique + 1] Attributes.empty)))
        q (some { ndq with inputs := [g.next_unique + 1] }) ∧
      g'.value? = Function.update (Function.update g.value? (g.next_unique + 1)
        (some (Value.mk (some g.next_unique) 0 val.sizes val.unique_name val.elemType
          [⟨q, 0⟩])))
        v (some { val with uses := [] }) ∧
      g'.order = pre ++ g.next_unique :: q :: post ∧ g'.return_node = g.return_node ∧
      g'.next_unique = g.next_unique + 2 ∧ g'.name = g.name := by
  have hvlt := hf.value_lt hv
  have hqlt := hf.node_lt hq
  obtain ⟨g1, hg1, hn1, hv1, ho1, hr1, hx1, hm1⟩ := create1_view hf Kind.Load
  have hl1 : g1.inGraphList g.next_unique = false := by
    have := hf.not_inGraphList
    unfold Graph.inGraphList at this ⊢
    rw [ho1, hr1]
    exact this
  have hg2 := @insertBefore_mid_view g1 g.next_unique q pre post hl1 (by rw [hr1]; exact hqr)
    (by rw [ho1]; exact hord) hpre
  have hn2 : (g1.withOrder (pre ++ g.next_unique :: q :: post)).node? g.next_unique
      = some (Node.mk Kind.Load [] [g.next_unique + 1] Attributes.empty) := by
    show g1.node? g.next_unique = _
    rw [hn1, Function.update_same]
  have hout2 : (g1.withOrder (pre ++ g.next_unique :: q :: post)).output g.next_unique
      = some (g.next_unique + 1) := by
    unfold Graph.output
    rw [hn2]
    rfl
  have hv2 : (g1.withOrder (pre ++ g.next_unique :: q :: post)).value? (g.next_unique + 1)
      = some (Value.mk (some g.next_unique) 0 [] none 0 []) := by
    show g1.value? (g.next_unique + 1) = _
    rw [hv1, Function.update_same]
  obtain ⟨g3, val3, hg3, hn3, hv3, e1, e2, e3, e4, e5, e6, hf3⟩ := copyMetadata_view val hv2
  have hval3 : val3 = Value.mk (some g.next_unique) 0 val.sizes val.unique_name val.elemType
      [] := by
    cases val3
    simp only at e1 e2 e3 e4 e5 e6
    subst e1 e2 e3 e4 e5
    rw [e6]
    cases val.unique_name <;> rfl
  have hne : v ≠ g.next_unique + 1 := Nat.ne_of_lt (by omega)
  have hqne : q ≠ g.next_unique := Nat.ne_of_lt hqlt
  have hv3v : g3.value? v = some val := by
    rw [hv3, Function.update_noteq hne]
    show g1.value? v = _
    rw [hv1, Function.update_noteq hne]
    exact hv
  have hq3 : g3.node? q = some ndq := by
    rw [hn3]
    show g1.node? q = _
    rw [hn1, Function.update_noteq hqne]
    exact hq
  have hw3 : g3.value? (g.next_unique + 1) = some val3 := by
    rw [hv3, Function.update_same]
  obtain ⟨g4, hg4, hn4, hv4, hf4⟩ := replaceAllUsesWith_view hv3v hu hq3 hin hw3 hne
  refine ⟨g4, ?_, ?_, ?_, ?_, ?_, ?_, ?_⟩
  · unfold createLoadAtValue
    simp only [hv, hu, firstUser, List.foldlM_cons, List.foldlM_nil, Option.bind_eq_bind,
      Option.some_bind, hg1, hg2, hout2, hg3, hg4, Option.pure_def]
  · rw [hn4, hn3]
    show Function.update g1.node? _ _ = _
    rw [hn1]
  · rw [hv4, hv3]
    show Function.update (Function.update (Function.update g1.value? _ _) _ _) _ _ = _
    rw [hv1, Function.update_idem, Function.update_idem, hval3]
    rfl
  · rw [hf4.order, hf3.order]
    rfl
  · rw [hf4.ret, hf3.ret]
    exact hr1
  · rw [hf4.next, hf3.next]
    exact hx1
  · rw [hf4.name, hf3.name]
    exact hm1

/-- Function `createStoreAtValue`: the new Store has the next unique number,
takes `v` as its input and stands right after `p`; its output has the
metadata of `v` and the name of `v` followed by `.store`. -/
theorem storeAt_view {g : Graph} {v : ValueId} {val : Value} {p : NodeId}
    {pre post : List NodeId} (hf : g.Fresh) (hv : g.value? v = some val)
    (hord : g.order = pre ++ p :: post) (hpre : p ∉ pre) (hpr : p ≠ g.return_node) :
    ∃ g', createStoreAtValue g p v = some (g', g.next_unique) ∧
      g'.node? = Function.update g.node? g.next_unique
        (some (Node.mk Kind.Store [v] [g.next_unique + 1] Attributes.empty)) ∧
      g'.value? = Function.update (Function.update g.value? v
        (some { val with uses := val.uses ++ [⟨g.next_unique, 0⟩] }))
        (g.next_unique + 1)
        (some (Value.mk (some g.next_unique) 0 val.sizes
          (some (val.unique_name.getD (toString v) ++ ".store")) val.elemType [])) ∧
      g'.order = pre ++ p :: g.next_unique :: post ∧ g'.return_node = g.return_node ∧
      g'.next_unique = g.next_unique + 2 ∧ g'.name = g.name := by
  have hvlt := hf.value_lt hv
  have hne : v ≠ g.next_unique + 1 := Nat.ne_of_lt (by omega)
  obtain ⟨g1, hg1, hn1, hv1, ho1, hr1, hx1, hm1⟩ := create1_view hf Kind.Store
  have hn1u : g1.node? g.next_unique
      = some (Node.mk Kind.Store [] [g.next_unique + 1] Attributes.empty) := by
    rw [hn1, Function.update_same]
  have hv1v : g1.value? v = some val := by
    rw [hv1, Function.update_noteq hne]
    exact hv
  obtain ⟨g2, hg2, hn2, hv2, hf2⟩ := addInput_view hn1u hv1v
  have hn2u : g2.node? g.next_unique
      = some (Node.mk Kind.Store [v] [g.next_unique + 1] Attributes.empty) := by
    rw [hn2, Function.update_same]
    rfl
  have hout2 : g2.output g.next_unique = some (g.next_unique + 1) := by
    unfold Graph.output
    rw [hn2u]
    rfl
  have hv2v : g2.value? v = some { val with uses := val.uses ++ [⟨g.next_unique, 0⟩] } := by
    rw [hv2, Function.update_same]
    rfl
  have hv2o : g2.value? (g.next_unique + 1)
      = some (Value.mk (some g.next_unique) 0 [] none 0 []) := by
    rw [hv2, Function.update_noteq hne.symm, hv1, Function.update_same]
  obtain ⟨g3, val3, hg3, hn3, hv3, e1, e2, e3, e4, e5, e6, hf3⟩ :=
    copyMetadata_view { val with uses := val.uses ++ [⟨g.next_unique, 0⟩] } hv2o
  have hname3 : g3.uniqueName v = some (val.unique_name.getD (toString v)) := by
    unfold Graph.uniqueName
    rw [hv3, Function.update_noteq hne, hv2v]
    rfl
  have hv3o : g3.value? (g.next_unique + 1) = some val3 := by
    rw [hv3, Function.update_same]
  obtain ⟨g4, hg4, hn4, hv4, hf4⟩ :=
    setUniqueName_view (val.unique_name.getD (toString v) ++ ".store") hv3o
  have hl4 : g4.inGraphList g.next_unique = false := by
    have := hf.not_inGraphList
    unfold Graph.inGraphList at this ⊢
    rw [hf4.order, hf4.ret, hf3.order, hf3.ret, hf2.order, hf2.ret, ho1, hr1]
    exact this
  have hg5 := @insertAfter_mid_view g4 g.next_unique p pre post hl4
    (by rw [hf4.ret, hf3.ret, hf2.ret, hr1]; exact hpr)
    (by rw [hf4.order, hf3.order, hf2.order, ho1]; exact hord) hpre
  refine ⟨g4.withOrder (pre ++ p :: g.next_unique :: post), ?_, ?_, ?_, rfl, ?_, ?_, ?_⟩
  · unfold createStoreAtValue Graph.createWith
    simp only [hg1, Option.bind_eq_bind, Option.some_bind, List.foldlM_cons, List.foldlM_nil,
      hg2, Option.pure_def, hout2, hv2v, hg3, hname3, hg4, hg5]
  · show g4.node? = _
    rw [hn4, hn3, hn2, hn1, Function.update_idem]
    rfl
  · show g4.value? = _
    rw [hv4, hv3, hv2, hv1]
    funext k
    by_cases hk1 : k = g.next_unique + 1
    · rw [hk1]
      simp only [Function.update_same]
      congr 1
      cases val3
      simp only at e1 e2 e3 e4 e5 e6
      subst e1 e2 e3 e4 e5
      rfl
    · simp only [Function.update_noteq hk1]
      by_cases hk2 : k = v
      · rw [hk2]
        simp only [Function.update_same]
        rfl
      · simp only [Function.update_noteq hk2, Function.update_noteq hk1]
  · show g4.return_node = _
    rw [hf4.ret, hf3.ret, hf2.ret]
    exact hr1
  · show g4.next_unique = _
    rw [hf4.next, hf3.next, hf2.next]
    exact hx1
  · show g4.name = _
    rw [hf4.name, hf3.name, hf2.name]
    exact hm1

/-- The first loop of `SplitSubGraph` for one split point `p` that is no Load
and whose output `v` has one use, by the node `q` that follows `p`: the Store
`u + 2` and the Load `u` are put between `p` and `q`. -/
theorem pairs_view {g : Graph} {p q : NodeId} {ndp ndq : Node} {v : ValueId} {val : Value}
    {pre post : List NodeId} (hf : g.Fresh) (hord : g.order = pre ++ p :: q :: post)
    (hnd : g.order.Nodup) (hpr : p ≠ g.return_node) (hqr : q ≠ g.return_node)
    (hp : g.node? p = some ndp) (hk : ndp.kind ≠ Kind.Load) (hout : ndp.outputs = [v])
    (hv : g.value? v = some val) (hu : val.uses = [⟨q, 0⟩]) (hq : g.node? q = some ndq)
    (hin : ndq.inputs = [v]) :
    ∃ g1, createPairs g [p] = some (g1, [(g.next_unique, some (g.next_unique + 2))]) ∧
      g1.node? = Function.update (Function.update (Function.update g.node? g.next_unique
        (some (Node.mk Kind.Load [] [g.next_unique + 1] Attributes.empty)))
        q (some { ndq with inputs := [g.next_unique + 1] }))
        (g.next_unique + 2)
        (some (Node.mk Kind.Store [v] [g.next_unique + 3] Attributes.empty)) ∧
      g1.value? = Function.update (Function.update (Function.update g.value?
        (g.next_unique + 1)
        (some (Value.mk (some g.next_unique) 0 val.sizes val.unique_name val.elemType
          [⟨q, 0⟩])))
        v (some { val with uses := [⟨g.next_unique + 2, 0⟩] }))
        (g.next_unique + 3)
        (some (Value.mk (some (g.next_unique + 2)) 0 val.sizes
          (some (val.unique_name.getD (toString v) ++ ".store")) val.elemType [])) ∧
      g1.order = pre ++ p :: (g.next_unique + 2) :: g.next_unique :: q :: post ∧
      g1.return_node = g.return_node ∧ g1.next_unique = g.next_unique + 4 ∧
      g1.name = g.name ∧ g1.Fresh := by
  rw [hord] at hnd
  have hnd2 : ((pre ++ [p]) ++ q :: post).Nodup := by
    rw [List.append_assoc]; exact hnd
  have hqpre : q ∉ pre ++ [p] := fun h =>
    (List.nodup_append.mp hnd2).2.2 h (List.mem_cons_self _ _)
  have hppre : p ∉ pre := fun h =>
    (List.nodup_append.mp hnd).2.2 h (List.mem_cons_self _ _)
  obtain ⟨g1, hg1, hn1, hv1, ho1, hr1, hx1, hm1⟩ := loadAt_view hf hv hu hq hin
    (by rw [hord, List.append_assoc]; rfl) hqpre hqr
  have hvlt := hf.value_lt hv
  have hf1 : g1.Fresh := by
    refine fresh_of_views hf 2 hx1 ?_ ?_ ?_ hr1
    · intro k hk
      have hqlt := hf.node_lt hq
      rw [hn1, Function.update_noteq (Nat.ne_of_gt (by omega)),
        Function.update_noteq (Nat.ne_of_gt (by omega))]
    · intro k hk
      rw [hv1, Function.update_noteq (Nat.ne_of_gt (by omega)),
        Function.update_noteq (Nat.ne_of_gt (by omega))]
    · intro k hk
      rw [ho1] at hk
      rw [hord]
      simp only [List.mem_append, List.mem_cons, List.mem_singleton] at hk ⊢
      by_cases hku : k = g.next_unique
      · right; omega
      · left; tauto
  have hv1v : g1.value? v = some { val with uses := [] } := by
    rw [hv1, Function.update_same]
  obtain ⟨g2, hg2, hn2, hv2, ho2, hr2, hx2, hm2⟩ :=
    @storeAt_view g1 v _ p pre (g.next_unique :: q :: post) hf1 hv1v
      (by rw [ho1, List.append_assoc]; rfl) hppre (by rw [hr1]; exact hpr)
  have hty : IsType Kind.Load ndp = false := by
    unfold IsType
    simpa using hk
  refine ⟨g2, ?_, ?_, ?_, ?_, ?_, ?_, ?_, ?_⟩
  · unfold createPairs
    simp only [List.foldlM_cons, List.foldlM_nil, pairStep, hp, hty, Option.bind_eq_bind,
      Option.some_bind, Bool.false_eq_true, if_false, createLoadStoreAtNode, hout,
      createLoadStoreAtValue, hg1, hg2, hx1, Option.pure_def, List.nil_append]
  · rw [hn2, hn1, hx1]
  · rw [hv2, hv1, hx1, Function.update_idem]
    rfl
  · rw [ho2, hx1]
  · rw [hr2, hr1]
  · rw [hx2, hx1]
  · rw [hm2, hm1]
  · refine fresh_of_views hf1 2 hx2 ?_ ?_ ?_ hr2
    · intro k hk
      rw [hn2, Function.update_noteq (Nat.ne_of_gt (by omega))]
    · intro k hk
      rw [hv2, Function.update_noteq (Nat.ne_of_gt (by omega)),
        Function.update_noteq (Nat.ne_of_gt (by omega))]
    · intro k hk
      rw [ho2] at hk
      rw [ho1]
      simp only [List.mem_append, List.mem_cons, List.mem_singleton] at hk ⊢
      by_cases hku : k = g1.next_unique
      · right; omega
      · left; tauto

/-! ### Chains in two graphs -/

/-- A chain of `g` is a chain of `g'` when the two graphs agree on its nodes,
on their outputs and on the return node. -/
theorem closedFrom_congr {g g' : Graph} (hr : g'.return_node = g.return_node)
    (hrn : g'.node? g.return_node = g.node? g.return_node) :
    ∀ (ns : List NodeId) (ins : List ValueId), IsClosedFrom g ins ns →
      (∀ x ∈ ns, g'.node? x = g.node? x) →
      (∀ x ∈ ns, ∀ nd, g.node? x = some nd → ∀ w ∈ nd.outputs, g'.value? w = g.value? w) →
      IsClosedFrom g' ins ns := by
  intro ns
  induction ns with
  | nil => intro _ _ _ _; trivial
  | cons n rest ih =>
    intro ins hch hnode hval
    obtain ⟨nd, v, val, hn, hk1, hk2, hin, hout, hv, hprod, hlast, hrest⟩ := hch
    have hn' : g'.node? n = some nd := by rw [hnode n (List.mem_cons_self _ _)]; exact hn
    have hv' : g'.value? v = some val := by
      rw [hval n (List.mem_cons_self _ _) nd hn v (by rw [hout]; exact List.mem_singleton_self _)]
      exact hv
    refine ⟨nd, v, val, hn', hk1, hk2, hin, hout, hv', hprod, ?_,
      ih [v] hrest (fun x hx => hnode x (List.mem_cons_of_mem _ hx))
        (fun x hx => hval x (List.mem_cons_of_mem _ hx))⟩
    cases rest with
    | nil =>
      obtain ⟨hu, rn, hrn0, hrest0⟩ := hlast
      exact ⟨by rw [hr]; exact hu, rn, by rw [hr, hrn]; exact hrn0, hrest0⟩
    | cons n' rest' => exact hlast

/-- A chain of `g` whose head gets other inputs in `g'`. -/
theorem closedFrom_head {g g' : Graph} {n : NodeId} {rest : List NodeId}
    {ins ins' : List ValueId} (hch : IsClosedFrom g ins (n :: rest))
    (hr : g'.return_node = g.return_node)
    (hrn : g'.node? g.return_node = g.node? g.return_node)
    (hn : ∀ nd, g.node? n = some nd → g'.node? n = some { nd with inputs := ins' })
    (hnode : ∀ x ∈ rest, g'.node? x = g.node? x)
    (hval : ∀ x ∈ n :: rest, ∀ nd, g.node? x = some nd → ∀ w ∈ nd.outputs,
      g'.value? w = g.value? w) :
    IsClosedFrom g' ins' (n :: rest) := by
  obtain ⟨nd, v, val, hn0, hk1, hk2, hin, hout, hv, hprod, hlast, hrest⟩ := hch
  have hv' : g'.value? v = some val := by
    rw [hval n (List.mem_cons_self _ _) nd hn0 v (by rw [hout]; exact List.mem_singleton_self _)]
    exact hv
  refine ⟨_, v, val, hn nd hn0, hk1, hk2, rfl, hout, hv', hprod, ?_,
    closedFrom_congr hr hrn rest [v] hrest hnode
      (fun x hx => hval x (List.mem_cons_of_mem _ hx))⟩
  cases rest with
  | nil =>
    obtain ⟨hu, rn, hrn0, hrest0⟩ := hlast
    exact ⟨by rw [hr]; exact hu, rn, by rw [hr, hrn]; exact hrn0, hrest0⟩
  | cons n' rest' => exact hlast

/-- The nodes of a chain, their outputs and the producers of these. -/
theorem closedFrom_node {g : Graph} :
    ∀ (ns : List NodeId) (ins : List ValueId), IsClosedFrom g ins ns → ∀ x ∈ ns,
      ∃ nd v val, g.node? x = some nd ∧ nd.kind ≠ Kind.kUndefined ∧ nd.kind ≠ Kind.kReturn ∧
        nd.outputs = [v] ∧ g.value? v = some val ∧ val.node = some x := by
  intro ns
  induction ns with
  | nil => intro _ _ x hx; cases hx
  | cons n rest ih =>
    intro ins hch x hx
    obtain ⟨nd, v, val, hn, hk1, hk2, _, hout, hv, hprod, _, hrest⟩ := hch
    rcases List.mem_cons.mp hx with e | h
    · rw [e]
      exact ⟨nd, v, val, hn, hk1, hk2, hout, hv, hprod⟩
    · exact ih [v] hrest x h

/-! ### The removal of a chain -/

theorem removeLoop_nil (fuel : Nat) (st : Graph × List NodeId) :
    removeLoop fuel [] st = some st := by
  cases fuel with
  | zero => simp [removeLoop]
  | succ f => rw [removeLoop]

/-- The walk over a use vector that holds one use. -/
theorem detachUses_one {g ga : Graph} {v : ValueId} {val : Value} {t : NodeId} {ndt : Node}
    {k : Nat} (wl : List NodeId) (hv : g.value? v = some val) (hu : val.uses = [⟨t, k⟩])
    (ht : g.node? t = some ndt) (hga : g.removeAllInputs t = some ga) :
    detachUses v (g, wl) = some (ga, t :: wl) := by
  have hr : List.range 1 = [0] := rfl
  simp only [detachUses, detachStep, hv, hu, List.length_singleton, hr, List.foldlM_cons,
    List.foldlM_nil, Option.bind_eq_bind, Option.some_bind, List.append_nil,
    List.getElem?_cons_zero, ht, hga, Option.pure_def]

/-- One round of the loop of `removeNodeAndSuccessors` for a node `n` without
inputs whose output `v` has one use, by the node `t`: `t` loses its input and
joins the worklist, `n` and `v` are freed. -/
theorem remove_round {g : Graph} {n t : NodeId} {nd ndt : Node} {v : ValueId} {val : Value}
    (fuel : Nat) (wl removed : List NodeId)
    (hn : g.node? n = some nd) (hk : nd.kind ≠ Kind.kReturn) (hin : nd.inputs = [])
    (hout : nd.outputs = [v]) (hv : g.value? v = some val) (hu : val.uses = [⟨t, 0⟩])
    (ht : g.node? t = some ndt) (htin : ndt.inputs = [v]) (hnt : n ≠ t) (hrem : n ∉ removed)
    (hmem : n ∈ g.order) (hnd : g.order.Nodup) (hret : n ≠ g.return_node) :
    ∃ gb, removeLoop (fuel + 1) (n :: wl) (g, removed)
        = removeLoop fuel (t :: wl) (gb, removed ++ [n]) ∧
      gb.node? = Function.update (Function.update g.node? t (some { ndt with inputs := [] }))
        n none ∧
      gb.value? = Function.update g.value? v none ∧
      gb.order = g.order.filter (fun x => !(x == n)) ∧ gb.return_node = g.return_node ∧
      gb.next_unique = g.next_unique ∧ gb.name = g.name := by
  obtain ⟨ga, hga, hna, hva, hfa⟩ := removeAllInputs_one_view ht htin hv
    (by rw [hu]; exact List.mem_singleton_self _)
  obtain ⟨pre, post, hord⟩ := List.append_of_mem hmem
  rw [hord] at hnd
  have hpre : n ∉ pre := fun h =>
    (List.nodup_append.mp hnd).2.2 h (List.mem_cons_self _ _)
  have hpost : n ∉ post := (List.nodup_cons.mp (List.nodup_append.mp hnd).2.1).1
  have hna_n : ga.node? n = some nd := by
    rw [hna, Function.update_noteq hnt]
    exact hn
  have hva_v : ga.value? v = some { val with uses := val.uses.erase ⟨t, 0⟩ } := by
    rw [hva, Function.update_same]
  obtain ⟨gb, hgb, hnb, hvb, hob, hrb, hxb, hmb⟩ := destroy_leaf_view hna_n hout hin hva_v
    (by rw [hu]; simp) (by rw [hfa.order]; exact hord) hpre hpost
    (by rw [hfa.ret]; exact hret)
  have hcc : removed.contains n = false := by simpa using hrem
  refine ⟨gb, ?_, ?_, ?_, ?_, ?_, ?_, ?_⟩
  · rw [removeLoop_succ, hn]
    simp only [Option.some_bind, if_neg hk, hcc, Bool.false_eq_true, if_false, detachUsers,
      hout, List.foldlM_cons, List.foldlM_nil, detachUses_one wl hv hu ht hga,
      Option.bind_eq_bind, hgb, Option.pure_def, setInsert_of_not_mem hrem]
  · rw [hnb, hna]
  · rw [hvb, hva, Function.update_idem]
  · rw [hob, hord, filter_ne_append hpre hpost]
  · rw [hrb, hfa.ret]
  · rw [hxb, hfa.next]
  · rw [hmb, hfa.name]

theorem filter_contains_cons (l : List NodeId) (n : NodeId) (rest : List NodeId) :
    (l.filter (fun x => !(x == n))).filter (fun k => !rest.contains k)
      = l.filter (fun k => !(n :: rest).contains k) := by
  rw [List.filter_filter]
  congr 1
  funext k
  by_cases h : k = n <;> simp [h]

/-- Function `removeNodeAndSuccessors` from the head of a chain without
inputs that ends in the return node: the nodes of the chain and their
outputs are freed and the return node loses its input. -/
theorem remove_chain :
    ∀ (rest : List NodeId) (n : NodeId) (fuel : Nat) (g : Graph) (removed : List NodeId),
      IsClosedFrom g [] (n :: rest) → (n :: rest).Nodup → g.return_node ∉ n :: rest →
      (∀ x ∈ n :: rest, x ∉ removed) → (∀ x ∈ n :: rest, x ∈ g.order) → g.order.Nodup →
      rest.length + 2 ≤ fuel →
      ∃ g' removed', removeLoop fuel [n] (g, removed) = some (g', removed') ∧
        (∀ k, k ∉ n :: rest → k ≠ g.return_node → g'.node? k = g.node? k) ∧
        (∃ rn, g.node? g.return_node = some rn ∧
          g'.node? g.return_node = some { rn with inputs := [] }) ∧
        (∀ w, (∀ x ∈ n :: rest, ∀ nd, g.node? x = some nd → w ∉ nd.outputs) →
          g'.value? w = g.value? w) ∧
        g'.order = g.order.filter (fun k => !(n :: rest).contains k) ∧
        g'.return_node = g.return_node ∧ g'.next_unique = g.next_unique ∧
        g'.name = g.name := by
  intro rest
  induction rest with
  | nil =>
    intro n fuel g removed hch hnd hretn hrem hmem hond hfuel
    obtain ⟨nd, v, val, hn, _, hk2, hin, hout, hv, _, hlast, _⟩ := hch
    obtain ⟨hu, rn, hrn, hrk, hrin, _⟩ := hlast
    have hne : n ≠ g.return_node := fun e => hretn (e ▸ List.mem_cons_self _ _)
    obtain ⟨f, rfl⟩ : ∃ f, fuel = f + 2 := ⟨fuel - 2, by simp at hfuel; omega⟩
    obtain ⟨gb, hgb, hnb, hvb, hob, hrb, hxb, hmb⟩ := remove_round (f + 1) [] removed hn hk2 hin
      hout hv hu hrn hrin hne (hrem n (List.mem_cons_self _ _)) (hmem n (List.mem_cons_self _ _))
      hond hne
    have hbr : gb.node? g.return_node = some { rn with inputs := [] } := by
      rw [hnb, Function.update_noteq hne.symm, Function.update_same]
    refine ⟨gb, removed ++ [n], ?_, ?_, ⟨rn, hrn, hbr⟩, ?_, ?_, hrb, hxb, hmb⟩
    · rw [hgb, removeLoop_succ, hbr]
      simp only [Option.some_bind, hrk, if_true]
      exact removeLoop_nil _ _
    · intro k hk hkr
      have hkn : k ≠ n := fun e => hk (e ▸ List.mem_cons_self _ _)
      rw [hnb, Function.update_noteq hkn, Function.update_noteq hkr]
    · intro w hw
      have hwv : w ≠ v := fun e => hw n (List.mem_cons_self _ _) nd hn
        (by rw [hout, e]; exact List.mem_singleton_self _)
      rw [hvb, Function.update_noteq hwv]
    · rw [hob]
      congr 1
      funext k
      by_cases h : k = n <;> simp [h]
  | cons n' rest ih =>
    intro n fuel g removed hch hnd hretn hrem hmem hond hfuel
    obtain ⟨nd, v, val, hn, _, hk2, hin, hout, hv, hprod, hu, hch'⟩ := hch
    have hu' : val.uses = [⟨n', 0⟩] := hu
    obtain ⟨ndt, vt, valt, hnt, hkt1, hkt2, htin, htout, hvt, hprodt, hlastt, hrestt⟩ := id hch'
    have hnd' := List.nodup_cons.mp hnd
    have hne : n ≠ g.return_node := fun e => hretn (e ▸ List.mem_cons_self _ _)
    have hne' : n' ≠ g.return_node := fun e =>
      hretn (e ▸ List.mem_cons_of_mem _ (List.mem_cons_self _ _))
    have hnn' : n ≠ n' := fun e => hnd'.1 (e ▸ List.mem_cons_self _ _)
    obtain ⟨f, rfl⟩ : ∃ f, fuel = f + 1 := ⟨fuel - 1, by simp at hfuel; omega⟩
    obtain ⟨gb, hgb, hnb, hvb, hob, hrb, hxb, hmb⟩ := remove_round f [] removed hn hk2 hin
      hout hv hu' hnt htin hnn' (hrem n (List.mem_cons_self _ _))
      (hmem n (List.mem_cons_self _ _)) hond hne
    have hbnode : ∀ x, x ≠ n → x ≠ n' → gb.node? x = g.node? x := by
      intro x h1 h2
      rw [hnb, Function.update_noteq h1, Function.update_noteq h2]
    have hbval : ∀ w, w ≠ v → gb.value? w = g.value? w := by
      intro w h
      rw [hvb, Function.update_noteq h]
    have hvals : ∀ x ∈ n' :: rest, ∀ ndx, g.node? x = some ndx → ∀ w ∈ ndx.outputs, w ≠ v := by
      intro x hx ndx hndx w hw e
      obtain ⟨nd2, v2, val2, h1, _, _, h2, h3, h4⟩ := closedFrom_node _ _ hch' x hx
      rw [hndx] at h1
      cases h1
      rw [h2] at hw
      rw [List.mem_singleton.mp hw] at e
      rw [e, hv] at h3
      cases h3
      rw [hprod] at h4
      exact hnd'.1 (Option.some.inj h4 ▸ hx)
    have hchb : IsClosedFrom gb [] (n' :: rest) := by
      refine closedFrom_head hch' hrb ?_ ?_ ?_ ?_
      · exact hbnode _ hne.symm hne'.symm
      · intro nd' hnd0
        rw [hnt] at hnd0
        cases hnd0
        rw [hnb, Function.update_noteq hnn'.symm, Function.update_same]
      · intro x hx
        exact hbnode x (fun e => hnd'.1 (e ▸ List.mem_cons_of_mem _ hx))
          (fun e => (List.nodup_cons.mp hnd'.2).1 (e ▸ hx))
      · intro x hx ndx hndx w hw
        exact hbval w (hvals x hx ndx hndx w hw)
    have hmemb : ∀ x ∈ n' :: rest, x ∈ gb.order := by
      intro x hx
      rw [hob]
      refine List.mem_filter.mpr ⟨hmem x (List.mem_cons_of_mem _ hx), ?_⟩
      have : x ≠ n := fun e => hnd'.1 (e ▸ hx)
      simpa using this
    obtain ⟨g', removed', hloop, hnode, ⟨rn, hrn, hrn'⟩, hval, hord, hret, hnext, hname⟩ :=
      ih n' f gb (removed ++ [n]) hchb hnd'.2
        (by rw [hrb]; exact fun h => hretn (List.mem_cons_of_mem _ h))
        (by
          intro x hx hm
          rcases List.mem_append.mp hm with h | h
          · exact hrem x (List.mem_cons_of_mem _ hx) h
          · exact hnd'.1 (List.mem_singleton.mp h ▸ hx))
        hmemb (by rw [hob]; exact hond.filter _) (by simp at hfuel ⊢; omega)
    refine ⟨g', removed', hgb.trans hloop, ?_, ⟨rn, ?_, ?_⟩, ?_, ?_, hret.trans hrb,
      hnext.trans hxb, hname.trans hmb⟩
    · intro k hk hkr
      have h1 : k ≠ n := fun e => hk (e ▸ List.mem_cons_self _ _)
      have h2 : k ≠ n' := fun e =>
        hk (e ▸ List.mem_cons_of_mem _ (List.mem_cons_self _ _))
      rw [hnode k (fun h => hk (List.mem_cons_of_mem _ h)) (by rw [hrb]; exact hkr)]
      exact hbnode k h1 h2
    · rw [← hbnode _ hne.symm hne'.symm, ← hrb]
      exact hrn
    · rw [← hrb]
      exact hrn'
    · intro w hw
      have hwv : w ≠ v := fun e => hw n (List.mem_cons_self _ _) nd hn
        (by rw [hout, e]; exact List.mem_singleton_self _)
      rw [hval w ?_]
      · exact hbval w hwv
      · intro x hx ndx hndx
        rcases List.mem_cons.mp hx with e | hx'
        · rw [e, hnb, Function.update_noteq hnn'.symm, Function.update_same] at hndx
          cases hndx
          exact hw n' (List.mem_cons_of_mem _ (List.mem_cons_self _ _)) ndt hnt
        · rw [hbnode x (fun e => hnd'.1 (e ▸ hx))
            (fun e => (List.nodup_cons.mp hnd'.2).1 (e ▸ hx'))] at hndx
          exact hw x (List.mem_cons_of_mem _ hx) ndx hndx
    · rw [hord, hob]
      exact filter_contains_cons _ _ _

/-! ### The extraction from a chain -/

theorem closedFrom_suffix {g : Graph} :
    ∀ (pre : List NodeId) {ins : List ValueId} {ns : List NodeId},
      IsClosedFrom g ins (pre ++ ns) → ∃ ins', IsClosedFrom g ins' ns := by
  intro pre
  induction pre with
  | nil => intro ins ns h; exact ⟨ins, h⟩
  | cons p pre ih =>
    intro ins ns h
    obtain ⟨_, v, _, _, _, _, _, _, _, _, _, hrest⟩ := h
    exact ih hrest

/-- The return node of a closed chain. -/
theorem closedFrom_ret {g : Graph} :
    ∀ (ns : List NodeId) (ins : List ValueId), IsClosedFrom g ins ns → ns ≠ [] →
      ∃ rn, g.node? g.return_node = some rn ∧ rn.kind = Kind.kReturn ∧ rn.outputs = [] := by
  intro ns
  induction ns with
  | nil => intro _ _ h; exact absurd rfl h
  | cons n rest ih =>
    intro ins hch _
    obtain ⟨_, v, _, _, _, _, _, _, _, _, hlast, hrest⟩ := hch
    cases rest with
    | nil =>
      obtain ⟨_, rn, hrn, hrk, _, hrout⟩ := hlast
      exact ⟨rn, hrn, hrk, hrout⟩
    | cons n' rest' => exact ih [v] hrest (List.cons_ne_nil _ _)

theorem closedFrom_ret_not_mem {g : Graph} {ns : List NodeId} {ins : List ValueId}
    (h : IsClosedFrom g ins ns) : g.return_node ∉ ns := by
  intro hm
  obtain ⟨rn, hrn, hrk, _⟩ := closedFrom_ret ns ins h (List.ne_nil_of_mem hm)
  obtain ⟨nd, _, _, hn, _, hk, _⟩ := closedFrom_node ns ins h _ hm
  rw [hrn] at hn
  cases hn
  exact hk hrk

/-- A closed chain is a chain. -/
theorem closedFrom_chainFrom {g : Graph} :
    ∀ (ns : List NodeId) (ins : List ValueId), IsClosedFrom g ins ns → IsChainFrom g ins ns := by
  intro ns
  induction ns with
  | nil => intro _ _; trivial
  | cons n rest ih =>
    intro ins hch
    obtain ⟨nd, v, val, hn, hk1, hk2, hin, hout, hv, hprod, hlast, hrest⟩ := hch
    refine ⟨nd, v, val, hn, hk1, hk2, hin, hout, hv, hprod, ?_, ih [v] hrest⟩
    cases rest with
    | nil =>
      obtain ⟨hu, rn, hrn, hrk, _, _⟩ := hlast
      exact ⟨0, rn, hu, hrn, hrk⟩
    | cons n' rest' => exact hlast

/-- The new graph object of `SplitSubGraph` is fresh. -/
theorem newGraph_fresh (name : String) : ({ Graph.new with name := name } : Graph).Fresh := by
  refine ⟨?_, ?_, ?_, ?_⟩
  · intro k hk
    have hk2 : 2 ≤ k := hk
    have h0 : (k == 0) = false := by
      have : k ≠ 0 := by omega
      simpa using this
    have h1 : (k == 1) = false := by
      have : k ≠ 1 := by omega
      simpa using this
    simp [Graph.node?, Graph.new, List.lookup, h0, h1]
  · intro k _
    rfl
  · intro k hk
    cases hk
  · exact Nat.le.step Nat.le.refl

theorem cloneOf_congr {g g' ng : Graph} {n c : NodeId} (h : CloneOf g ng n c)
    (hn : ∀ nd, g.node? n = some nd → ∃ nd', g'.node? n = some nd' ∧ nd'.kind = nd.kind ∧
      nd'.attrs = nd.attrs ∧ nd'.outputs = nd.outputs)
    (hv : ∀ nd, g.node? n = some nd → ∀ w ∈ nd.outputs, g'.value? w = g.value? w) :
    CloneOf g' ng n c := by
  obtain ⟨nd, ndc, v, vc, val, valc, h1, h2, h3, h4, h5, h6, h7, h8, h9, h10, h11⟩ := h
  obtain ⟨nd', hn', hk', ha', ho'⟩ := hn nd h1
  refine ⟨nd', ndc, v, vc, val, valc, hn', h2, by rw [h3, hk'], by rw [h4, ha'],
    by rw [ho', h5], h6, ?_, h8, h9, h10, h11⟩
  rw [hv nd h1 v (by rw [h5]; exact List.mem_singleton_self _)]
  exact h7

theorem forall₂_cloneOf_congr {g g' ng : Graph} :
    ∀ (ns cs : List NodeId), List.Forall₂ (CloneOf g ng) ns cs →
      (∀ n ∈ ns, ∀ nd, g.node? n = some nd → ∃ nd', g'.node? n = some nd' ∧
        nd'.kind = nd.kind ∧ nd'.attrs = nd.attrs ∧ nd'.outputs = nd.outputs) →
      (∀ n ∈ ns, ∀ nd, g.node? n = some nd → ∀ w ∈ nd.outputs, g'.value? w = g.value? w) →
      List.Forall₂ (CloneOf g' ng) ns cs := by
  intro ns cs h
  induction h with
  | nil => intro _ _; exact List.Forall₂.nil
  | cons hab _ ih =>
    intro hn hv
    exact List.Forall₂.cons
      (cloneOf_congr hab (hn _ (List.mem_cons_self _ _)) (hv _ (List.mem_cons_self _ _)))
      (ih (fun n h => hn n (List.mem_cons_of_mem _ h))
        (fun n h => hv n (List.mem_cons_of_mem _ h)))

/-- The new graph of a chain: the clones of the chain `n :: rest` of `old`,
which has no input and ends in the return node, are made, linked and sorted;
the new graph is the chain of the clones, in the order of the old chain. -/
theorem newGraph_chain (H : HashOrder) {old : Graph} {n : NodeId} {rest : List NodeId}
    (name : String) (s : Option NodeId)
    (hch : IsClosedFrom old [] (n :: rest)) (hnd : (n :: rest).Nodup) :
    ∃ c r ng, cloneAll old { Graph.new with name := name } [(n, s)] = some c ∧
      rebuildInputs H old c.1 c.2.1 = some r ∧ TopologicalSort r.1 = some ng ∧
      ng.order = cloneIds 2 (rest.length + 1) ∧ ng.return_node = 0 ∧ ng.name = name ∧
      IsClosedFrom ng [] (cloneIds 2 (rest.length + 1)) ∧
      List.Forall₂ (CloneOf old ng) (n :: rest) (cloneIds 2 (rest.length + 1)) ∧
      (∀ k : Nat, 2 ≤ k → k ∉ cloneIds 2 (rest.length + 1) → ng.node? k = none) ∧
      ng.node? 1 = Graph.new.node? 1 := by
  have hretn := closedFrom_ret_not_mem hch
  have hfuel : rest.length + 2 ≤ old.fuel := by
    have := @length_lt_fuel old (n :: rest) hnd (fun x hx => by
      obtain ⟨nd, _, _, h, _⟩ := closedFrom_node _ _ hch x hx
      exact ⟨nd, h⟩)
    simpa using this
  have hf := newGraph_fresh name
  obtain ⟨ng1, map, cloned, hclone, hcl, hlow, _, hhi, _, hord, hret, hname, hkeys, _⟩ :=
    clone_chain old rest n [] old.fuel { Graph.new with name := name } [] [] hch hf
      (fun x _ => ⟨List.not_mem_nil _, rfl⟩) (List.not_mem_nil _) rfl hnd hretn hfuel
  obtain ⟨ng2, map2, hreb, ho2, hr2, hn2, hc2, hcl2, hlow2, hhi2⟩ :=
    @rebuild_chain H old { Graph.new with name := name } ng1 map n rest
      (Node.mk Kind.kReturn [] [] Attributes.empty) hch hnd hretn hf hcl hlow hhi hord hret
      hname (by simpa using hkeys) rfl rfl rfl rfl
  have hchain : IsChain ng2 (cloneIds 2 (rest.length + 1)) := by
    refine ⟨?_, cloneIds_nodup _ _, [], fun _ h => absurd h (List.not_mem_nil _),
      closedFrom_chainFrom _ _ hc2⟩
    rw [ho2]
    rfl
  have hts := topoSort_chain hchain (by rw [cloneIds]; exact List.cons_ne_nil _ _)
  refine ⟨(ng1, map, cloned), (ng2, map2), ng2, ?_, hreb, hts, ?_, hr2, hn2, hc2, hcl2, hhi2, ?_⟩
  · unfold cloneAll cloneNodeAndSuccessors
    simp only [List.foldlM_cons, List.foldlM_nil, hclone, Option.bind_eq_bind, Option.some_bind]
    rfl
  · rw [ho2]
    rfl
  · exact hlow2 1 (Nat.lt_succ_self 1) (Nat.succ_ne_zero 0)

theorem filter_not_contains (A B : List NodeId) (h : ∀ x ∈ A, x ∉ B) :
    (A ++ B).filter (fun k => !B.contains k) = A := by
  rw [List.filter_append]
  have h1 : A.filter (fun k => !B.contains k) = A := by
    apply List.filter_eq_self.mpr
    intro a ha
    simpa using h a ha
  have h2 : B.filter (fun k => !B.contains k) = [] := by
    apply List.filter_eq_nil_iff.mpr
    intro a ha
    simpa using ha
  rw [h1, h2, List.append_nil]

/-- The parent graph of a chain: the SubGraph node is made, the chain
`n :: rest` that starts at the Load `n` is removed, the output of the Store
`s` becomes the input of the SubGraph node, which is put last and feeds the
return node. -/
theorem parent_chain {g1 : Graph} {n s : NodeId} {rest A : List NodeId} {sn : Node}
    {so : ValueId} {sval : Value} (newId : GraphId)
    (hf : g1.Fresh) (hch : IsClosedFrom g1 [] (n :: rest))
    (hord : g1.order = A ++ n :: rest) (hnd : g1.order.Nodup)
    (hretA : g1.return_node ∉ A)
    (hsA : s ∈ A) (hs : g1.node? s = some sn) (hsout : sn.outputs = [so])
    (hso : g1.value? so = some sval) (hsp : sval.node = some s) :
    ∃ s1 snd g4 g5 parent,
      g1.create Kind.SubGraph 1 = some s1 ∧ s1.1.node? s1.2 = some snd ∧
      [(n, some s)].foldlM (connectStep s1.2)
        (s1.1.setNode s1.2 { snd with attrs := { snd.attrs with g := some newId } },
          ([] : List NodeId)) = some g4 ∧
      g4.1.insertBefore s1.2 g4.1.return_node = some g5 ∧
      g5.output s1.2 = some (g1.next_unique + 1) ∧
      g5.addInput g5.return_node (g1.next_unique + 1) = some parent ∧
      parent.order = A ++ [g1.next_unique] ∧
      (∀ k ∈ A, parent.node? k = g1.node? k) ∧
      (∀ w : Nat, w < g1.next_unique → w ≠ so →
        (∀ x ∈ n :: rest, ∀ nd, g1.node? x = some nd → w ∉ nd.outputs) →
        parent.value? w = g1.value? w) ∧
      parent.value? so = some { sval with uses := sval.uses ++ [⟨g1.next_unique, 0⟩] } ∧
      parent.node? g1.next_unique = some (Node.mk Kind.SubGraph [so] [g1.next_unique + 1]
        { Attributes.empty with g := some newId }) ∧
      parent.return_node = g1.return_node := by
  obtain ⟨g2, hg2, hn2, hv2, ho2, hr2, hx2, hm2⟩ := create1_view hf Kind.SubGraph
  have hX2 : g2.node? g1.next_unique
      = some (Node.mk Kind.SubGraph [] [g1.next_unique + 1] Attributes.empty) := by
    rw [hn2, Function.update_same]
  obtain ⟨hn3, hv3, hf3⟩ := setNode_view g2 g1.next_unique
    (Node.mk Kind.SubGraph [] [g1.next_unique + 1] { Attributes.empty with g := some newId })
    _ hX2
  -- the chain and the arena
  have hRlt : Nat.succ g1.return_node ≤ g1.next_unique := hf.ret
  have hRne : g1.return_node ≠ g1.next_unique := Nat.ne_of_lt hf.ret
  have hlt : ∀ x : Nat, x ∈ n :: rest → x < g1.next_unique ∧ ∀ nd, g1.node? x = some nd →
      ∀ w : Nat, w ∈ nd.outputs → w < g1.next_unique ∧ ∃ val, g1.value? w = some val ∧
        val.node = some x := by
    intro x hx
    obtain ⟨nd, v, val, hnx, _, _, hout, hv, hprod⟩ := closedFrom_node _ _ hch x hx
    refine ⟨hf.node_lt hnx, ?_⟩
    intro nd' hnd' w hw
    rw [hnx] at hnd'
    cases hnd'
    rw [hout] at hw
    rw [List.mem_singleton.mp hw]
    exact ⟨hf.value_lt hv, val, hv, hprod⟩
  have hnode3 : ∀ k : Nat, k < g1.next_unique →
      (g2.setNode g1.next_unique (Node.mk Kind.SubGraph [] [g1.next_unique + 1]
        { Attributes.empty with g := some newId })).node? k = g1.node? k := by
    intro k hk
    rw [hn3, Function.update_noteq (Nat.ne_of_lt hk), hn2,
      Function.update_noteq (Nat.ne_of_lt hk)]
  have hval3 : ∀ k : Nat, k ≠ g1.next_unique + 1 →
      (g2.setNode g1.next_unique (Node.mk Kind.SubGraph [] [g1.next_unique + 1]
        { Attributes.empty with g := some newId })).value? k = g1.value? k := by
    intro k hk
    rw [hv3, hv2, Function.update_noteq hk]
  have hch3 := closedFrom_congr (hf3.ret.trans hr2) (hnode3 _ hf.ret) (n :: rest) [] hch
    (fun x hx => hnode3 x (hlt x hx).1)
    (fun x hx nd hnx w hw => hval3 w (Nat.ne_of_lt (by
      have := ((hlt x hx).2 nd hnx w hw).1
      omega)))
  rw [hord] at hnd
  have hndc : (n :: rest).Nodup := (List.nodup_append.mp hnd).2.1
  have hdisj : ∀ x ∈ A, x ∉ n :: rest := fun x hx hx' =>
    (List.nodup_append.mp hnd).2.2 hx hx'
  have hmem3 : ∀ x ∈ n :: rest, x ∈ (g2.setNode g1.next_unique
      (Node.mk Kind.SubGraph [] [g1.next_unique + 1]
        { Attributes.empty with g := some newId })).order := by
    intro x hx
    rw [hf3.order, ho2, hord]
    exact List.mem_append_right _ hx
  have hfuel : rest.length + 2 ≤ (g2.setNode g1.next_unique
      (Node.mk Kind.SubGraph [] [g1.next_unique + 1]
        { Attributes.empty with g := some newId })).fuel := by
    have := @length_lt_fuel _ (n :: rest) hndc (fun x hx => by
      obtain ⟨nd, _, _, h, _⟩ := closedFrom_node _ _ hch3 x hx
      exact ⟨nd, h⟩)
    simpa using this
  obtain ⟨g4a, removed, hloop, hnode, ⟨rn, hrn, hrn'⟩, hval, hord4, hret4, hnext4, hname4⟩ :=
    remove_chain rest n _ _ [] hch3 hndc (closedFrom_ret_not_mem hch3)
      (fun _ _ => List.not_mem_nil _) hmem3 (by rw [hf3.order, ho2, hord]; exact hnd) hfuel
  have hR3 : (g2.setNode g1.next_unique (Node.mk Kind.SubGraph [] [g1.next_unique + 1]
      { Attributes.empty with g := some newId })).return_node = g1.return_node :=
    hf3.ret.trans hr2
  rw [hR3] at hnode hrn hrn'
  have hslt := hf.node_lt hs
  have hsolt := hf.value_lt hso
  have hsR : s ≠ g1.return_node := fun e => hretA (e ▸ hsA)
  have hnotchain : ∀ k : Nat, g1.next_unique ≤ k → k ∉ n :: rest := by
    intro k hk hm
    have := (hlt k hm).1
    omega
  have hnotout : ∀ w : Nat,
      (∀ x ∈ n :: rest, ∀ nd, g1.node? x = some nd → w ∉ nd.outputs) →
      g4a.value? w = (g2.setNode g1.next_unique (Node.mk Kind.SubGraph []
        [g1.next_unique + 1] { Attributes.empty with g := some newId })).value? w := by
    intro w hw
    apply hval
    intro x hx nd hnx
    rw [hnode3 x (hlt x hx).1] at hnx
    exact hw x hx nd hnx
  have hhigh : ∀ w : Nat, g1.next_unique ≤ w →
      ∀ x ∈ n :: rest, ∀ nd, g1.node? x = some nd → w ∉ nd.outputs := by
    intro w hw x hx nd hnx hm
    have := ((hlt x hx).2 nd hnx w hm).1
    omega
  have hs4 : g4a.node? s = some sn := by
    rw [hnode s (hdisj s hsA) hsR, hnode3 s hslt]
    exact hs
  have hout4 : g4a.output s = some so := by
    unfold Graph.output
    rw [hs4]
    simp [hsout]
  have hX4 : g4a.node? g1.next_unique = some (Node.mk Kind.SubGraph [] [g1.next_unique + 1]
      { Attributes.empty with g := some newId }) := by
    rw [hnode _ (hnotchain _ (Nat.le_refl _)) hRne.symm, hn3, Function.update_same]
  have hsochain : ∀ x ∈ n :: rest, ∀ nd, g1.node? x = some nd → so ∉ nd.outputs := by
    intro x hx nd hnx hm
    obtain ⟨_, val, hv, hprod⟩ := (hlt x hx).2 nd hnx so hm
    rw [hso] at hv
    cases hv
    rw [hsp] at hprod
    exact hdisj s hsA (Option.some.inj hprod ▸ hx)
  have hso4 : g4a.value? so = some sval := by
    rw [hnotout so hsochain, hval3 so (Nat.ne_of_lt (by omega))]
    exact hso
  obtain ⟨g4, hadd, hn4, hv4, hf4⟩ := addInput_view hX4 hso4
  have hl4 : g4.inGraphList g1.next_unique = false := by
    apply inGraphList_false
    · rw [hf4.ret, hret4, hR3]
      exact hRne.symm
    · rw [hf4.order, hord4]
      intro hm
      have hm' := (List.mem_filter.mp hm).1
      rw [hf3.order, ho2] at hm'
      exact Nat.lt_irrefl _ (hf.order _ hm')
  have hins := insertBefore_ret_view hl4
  have hX5 : (g4.withOrder (g4.order ++ [g1.next_unique])).node? g1.next_unique
      = some (Node.mk Kind.SubGraph [so] [g1.next_unique + 1]
        { Attributes.empty with g := some newId }) := by
    show g4.node? g1.next_unique = _
    rw [hn4, Function.update_same]
    rfl
  have hout5 : (g4.withOrder (g4.order ++ [g1.next_unique])).output g1.next_unique
      = some (g1.next_unique + 1) := by
    unfold Graph.output
    rw [hX5]
    rfl
  have hR5 : (g4.withOrder (g4.order ++ [g1.next_unique])).return_node = g1.return_node := by
    show g4.return_node = _
    rw [hf4.ret, hret4, hR3]
  have hrn5 : (g4.withOrder (g4.order ++ [g1.next_unique])).node? g1.return_node
      = some { rn with inputs := [] } := by
    show g4.node? g1.return_node = _
    rw [hn4, Function.update_noteq hRne]
    exact hrn'
  have hv5 : (g4.withOrder (g4.order ++ [g1.next_unique])).value? (g1.next_unique + 1)
      = some (Value.mk (some g1.next_unique) 0 [] none 0 []) := by
    show g4.value? (g1.next_unique + 1) = _
    rw [hv4, Function.update_noteq (Nat.ne_of_gt (by omega)),
      hnotout _ (hhigh _ (Nat.le_succ _)), hv3, hv2, Function.update_same]
  obtain ⟨g6, hadd6, hn6, hv6, hf6⟩ := addInput_view hrn5 hv5
  refine ⟨(g2, g1.next_unique), _, (g4, removed), _, g6, hg2, hX2, ?_, ?_, hout5, ?_, ?_, ?_,
    ?_, ?_, ?_, ?_⟩
  · show (connectStep g1.next_unique ((g2.setNode g1.next_unique (Node.mk Kind.SubGraph []
        [g1.next_unique + 1] { Attributes.empty with g := some newId })), []) (n, some s)).bind
        pure = _
    simp only [connectStep, removeNodeAndSuccessors, Option.bind_eq_bind, hloop,
      Option.some_bind, hout4, hadd, Option.pure_def]
  · exact hins
  · rw [hR5]
    exact hadd6
  · rw [hf6.order]
    show g4.order ++ _ = _
    rw [hf4.order, hord4, hf3.order, ho2, hord, filter_not_contains A (n :: rest) hdisj]
  · intro k hk
    have hkR : k ≠ g1.return_node := fun e => hretA (e ▸ hk)
    have hklt : k < g1.next_unique := hf.order k (by rw [hord]; exact List.mem_append_left _ hk)
    rw [hn6, Function.update_noteq hkR]
    show g4.node? k = _
    rw [hn4, Function.update_noteq (Nat.ne_of_lt hklt), hnode k (hdisj k hk) hkR,
      hnode3 k hklt]
  · intro w hw hwso hwout
    rw [hv6, Function.update_noteq (Nat.ne_of_lt (Nat.lt_succ_of_lt hw))]
    show g4.value? w = _
    rw [hv4, Function.update_noteq hwso, hnotout w hwout,
      hval3 w (Nat.ne_of_lt (Nat.lt_succ_of_lt hw))]
  · rw [hv6, Function.update_noteq (Nat.ne_of_lt (Nat.lt_succ_of_lt hsolt))]
    show g4.value? so = _
    rw [hv4, Function.update_same]
    rfl
  · rw [hn6, Function.update_noteq hRne.symm]
    exact hX5
  · rw [hf6.ret]
    exact hR5

theorem nodup_insert_two {pre rest : List NodeId} {p a b : NodeId}
    (h : (pre ++ p :: rest).Nodup) (ha : a ∉ pre ++ p :: rest) (hb : b ∉ pre ++ p :: rest)
    (hab : a ≠ b) : (pre ++ p :: a :: b :: rest).Nodup := by
  have hperm : (pre ++ p :: a :: b :: rest).Perm (a :: b :: (pre ++ p :: rest)) := by
    have h1 : (pre ++ p :: a :: b :: rest) = (pre ++ [p]) ++ a :: (b :: rest) := by simp
    have h2 : (pre ++ p :: rest) = (pre ++ [p]) ++ rest := by simp
    rw [h1, h2]
    exact List.perm_middle.trans (List.Perm.cons a List.perm_middle)
  rw [hperm.nodup_iff]
  refine List.nodup_cons.mpr ⟨?_, List.nodup_cons.mpr ⟨hb, h⟩⟩
  intro hm
  rcases List.mem_cons.mp hm with e | hm'
  · exact hab e
  · exact ha hm'

/-- The extraction at the split point `p`, which is no Load, of a graph whose
node list ends in the chain `p :: q :: post`: the steps of `SplitSubGraph` and
their results.  The nodes `pre` before `p` are not touched. -/
theorem split_chain (H : HashOrder) (g : Graph) (newId : GraphId) (pre post : List NodeId)
    (p q : NodeId) (ins : List ValueId) (hf : g.Fresh) (hord : g.order = pre ++ p :: q :: post)
    (hnd : (pre ++ p :: q :: post).Nodup) (hretn : g.return_node ∉ pre ++ p :: q :: post)
    (hch' : IsClosedFrom g ins (p :: q :: post))
    (hp : ∀ nd, g.node? p = some nd → nd.kind ≠ Kind.Load) :
    ∃ g1 parent ng ndp v val,
      g.node? p = some ndp ∧ ndp.outputs = [v] ∧ g.value? v = some val ∧
      val.uses = [⟨q, 0⟩] ∧
      createPairs g [p] = some (g1, [(g.next_unique, some (g.next_unique + 2))]) ∧
      SplitSubGraph H g newId [p] = some (parent, ng) ∧
      (∀ k : Nat, k ≠ g.next_unique → k ≠ g.next_unique + 2 →
        ((g1.node? k).isSome ↔ (g.node? k).isSome)) ∧
      g1.node? g.next_unique
        = some (Node.mk Kind.Load [] [g.next_unique + 1] Attributes.empty) ∧
      g1.value? (g.next_unique + 1)
        = some (Value.mk (some g.next_unique) 0 val.sizes val.unique_name val.elemType
            [⟨q, 0⟩]) ∧
      ng.order = cloneIds 2 (post.length + 2) ∧ ng.return_node = 0 ∧
      ng.name = g.name ++ ".sub" ∧
      IsClosedFrom ng [] (cloneIds 2 (post.length + 2)) ∧
      List.Forall₂ (CloneOf g1 ng) (g.next_unique :: q :: post)
        (cloneIds 2 (post.length + 2)) ∧
      List.Forall₂ (CloneOf g ng) (q :: post) (cloneIds 4 (post.length + 1)) ∧
      (∀ k : Nat, 2 ≤ k → k ∉ cloneIds 2 (post.length + 2) → ng.node? k = none) ∧
      ng.node? 1 = Graph.new.node? 1 ∧
      parent.order = pre ++ [p, g.next_unique + 2, g.next_unique + 4] ∧
      parent.node? p = some ndp ∧
      parent.node? (g.next_unique + 2)
        = some (Node.mk Kind.Store [v] [g.next_unique + 3] Attributes.empty) ∧
      parent.value? v = some { val with uses := [⟨g.next_unique + 2, 0⟩] } ∧
      parent.value? (g.next_unique + 3)
        = some (Value.mk (some (g.next_unique + 2)) 0 val.sizes
            (some (val.unique_name.getD (toString v) ++ ".store")) val.elemType
            [⟨g.next_unique + 4, 0⟩]) := by
  obtain ⟨ndp, v, val, hn, _, _, _, hout, hv, hprod, hu, hchq⟩ := hch'
  have hu' : val.uses = [⟨q, 0⟩] := hu
  obtain ⟨ndq, vq, valq, hq, hqk1, hqk2, hqin, hqout, hvq, hqprod, hqlast, hchrest⟩ :=
    id hchq
  have hpmem : p ∈ pre ++ p :: q :: post := List.mem_append_right _ (List.mem_cons_self _ _)
  have hqmem : q ∈ pre ++ p :: q :: post :=
    List.mem_append_right _ (List.mem_cons_of_mem _ (List.mem_cons_self _ _))
  have hpr : p ≠ g.return_node := fun e => hretn (e ▸ hpmem)
  have hqr : q ≠ g.return_node := fun e => hretn (e ▸ hqmem)
  obtain ⟨g1, hpairs, hn1, hv1, ho1, hr1, hx1, hm1, hf1⟩ :=
    pairs_view hf hord (hord ▸ hnd) hpr hqr hn (hp ndp hn) hout hv hu' hq hqin
  -- the arena of the parent graph with its Load and its Store
  have hordlt : ∀ x : Nat, x ∈ pre ++ p :: q :: post → x < g.next_unique :=
    fun x hx => hf.order x (hord ▸ hx)
  have hRlt : Nat.succ g.return_node ≤ g.next_unique := hf.ret
  have hvlt := hf.value_lt hv
  have hqlt := hordlt q hqmem
  have hplt := hordlt p hpmem
  have hnd2 : (p :: q :: post).Nodup := (List.nodup_append.mp hnd).2.1
  have hpq : p ∉ q :: post := (List.nodup_cons.mp hnd2).1
  have hqpost : q ∉ post := (List.nodup_cons.mp (List.nodup_cons.mp hnd2).2).1
  have hpostmem : ∀ x, x ∈ q :: post → x ∈ pre ++ p :: q :: post :=
    fun x hx => List.mem_append_right _ (List.mem_cons_of_mem _ hx)
  have hg1node : ∀ k : Nat, k < g.next_unique → k ≠ q → g1.node? k = g.node? k := by
    intro k hk hkq
    rw [hn1, Function.update_noteq (Nat.ne_of_lt (by omega)), Function.update_noteq hkq,
      Function.update_noteq (Nat.ne_of_lt hk)]
  have hg1q : g1.node? q = some { ndq with inputs := [g.next_unique + 1] } := by
    rw [hn1, Function.update_noteq (Nat.ne_of_lt (by omega)), Function.update_same]
  have hg1val : ∀ w : Nat, w < g.next_unique → w ≠ v → g1.value? w = g.value? w := by
    intro w hw hwv
    rw [hv1, Function.update_noteq (Nat.ne_of_lt (by omega)), Function.update_noteq hwv,
      Function.update_noteq (Nat.ne_of_lt (by omega))]
  have hg1L : g1.node? g.next_unique
      = some (Node.mk Kind.Load [] [g.next_unique + 1] Attributes.empty) := by
    rw [hn1, Function.update_noteq (Nat.ne_of_lt (by omega)),
      Function.update_noteq (Nat.ne_of_gt hqlt), Function.update_same]
  have hg1LV : g1.value? (g.next_unique + 1)
      = some (Value.mk (some g.next_unique) 0 val.sizes val.unique_name val.elemType
          [⟨q, 0⟩]) := by
    rw [hv1, Function.update_noteq (Nat.ne_of_lt (by omega)),
      Function.update_noteq (Nat.ne_of_gt (by omega)), Function.update_same]
  have hg1S : g1.node? (g.next_unique + 2)
      = some (Node.mk Kind.Store [v] [g.next_unique + 3] Attributes.empty) := by
    rw [hn1, Function.update_same]
  have hg1SV : g1.value? (g.next_unique + 3)
      = some (Value.mk (some (g.next_unique + 2)) 0 val.sizes
          (some (val.unique_name.getD (toString v) ++ ".store")) val.elemType []) := by
    rw [hv1, Function.update_same]
  have hg1v : g1.value? v = some { val with uses := [⟨g.next_unique + 2, 0⟩] } := by
    rw [hv1, Function.update_noteq (Nat.ne_of_lt (by omega)), Function.update_same]
  have houts : ∀ x : Nat, x ∈ q :: post → ∀ nd, g.node? x = some nd →
      ∀ w : Nat, w ∈ nd.outputs → w ≠ v ∧ w < g.next_unique := by
    intro x hx nd hnx w hw
    obtain ⟨nd2, v2, val2, h1, _, _, h2, h3, h4⟩ := closedFrom_node _ _ hchq x hx
    rw [hnx] at h1
    cases h1
    rw [h2] at hw
    rw [List.mem_singleton.mp hw]
    refine ⟨?_, hf.value_lt h3⟩
    intro e
    rw [e, hv] at h3
    cases h3
    rw [hprod] at h4
    exact hpq (Option.some.inj h4 ▸ hx)
  have hchq1 : IsClosedFrom g1 [g.next_unique + 1] (q :: post) := by
    refine closedFrom_head hchq hr1 ?_ ?_ ?_ ?_
    · exact hg1node _ hf.ret (fun e => hqr e.symm)
    · intro nd hnd0
      rw [hq] at hnd0
      cases hnd0
      exact hg1q
    · intro x hx
      exact hg1node x (hordlt x (hpostmem x (List.mem_cons_of_mem _ hx)))
        (fun e => hqpost (e ▸ hx))
    · intro x hx nd hnx w hw
      obtain ⟨h1, h2⟩ := houts x hx nd hnx w hw
      exact hg1val w h2 h1
  have hchL : IsClosedFrom g1 [] (g.next_unique :: q :: post) := by
    refine ⟨Node.mk Kind.Load [] [g.next_unique + 1] Attributes.empty, g.next_unique + 1,
      Value.mk (some g.next_unique) 0 val.sizes val.unique_name val.elemType [⟨q, 0⟩],
      hg1L, ?_, ?_, rfl, rfl, hg1LV, rfl, rfl, hchq1⟩
    · intro h; cases h
    · intro h; cases h
  have hndL : (g.next_unique :: q :: post).Nodup := by
    refine List.nodup_cons.mpr ⟨?_, (List.nodup_cons.mp hnd2).2⟩
    intro hm
    exact Nat.lt_irrefl _ (hordlt _ (hpostmem _ hm))
  -- the new graph
  obtain ⟨c, r, ng, hclone, hreb, hts, hngo, hngr, hngn, hngc, hngf, hnghi, hngp⟩ :=
    newGraph_chain H (g.name ++ ".sub") (some (g.next_unique + 2)) hchL hndL
  -- the parent graph
  have hord1 : g1.order = (pre ++ [p, g.next_unique + 2]) ++ g.next_unique :: q :: post := by
    rw [ho1]
    simp
  have hnd1 : g1.order.Nodup := by
    rw [ho1]
    refine nodup_insert_two hnd ?_ ?_ (Nat.ne_of_gt (by omega))
    · intro hm
      have := hordlt _ hm
      omega
    · intro hm
      exact Nat.lt_irrefl _ (hordlt _ hm)
  have hretA : g1.return_node ∉ pre ++ [p, g.next_unique + 2] := by
    rw [hr1]
    intro hm
    rcases List.mem_append.mp hm with h | h
    · exact hretn (List.mem_append_left _ h)
    · rcases List.mem_cons.mp h with e | h
      · exact hpr e.symm
      · have e : g.return_node = g.next_unique + 2 := List.mem_singleton.mp h
        have e' : @Eq Nat g.return_node (g.next_unique + 2) := e
        omega
  obtain ⟨s1, snd, g4, g5, parent, hcreate, hsnd, hfold, hins, hout5, hadd, hpo, hpn, hpv,
    hpso, hpX, hpr'⟩ :=
    @parent_chain g1 g.next_unique (g.next_unique + 2) (q :: post)
      (pre ++ [p, g.next_unique + 2]) _ (g.next_unique + 3) _ newId hf1 hchL hord1 hnd1 hretA
      (by simp) hg1S rfl hg1SV rfl
  have hg1chain : ∀ x : Nat, x ∈ q :: post → ∀ nd, g1.node? x = some nd →
      ∃ nd', g.node? x = some nd' ∧ nd'.kind = nd.kind ∧ nd'.attrs = nd.attrs ∧
        nd'.outputs = nd.outputs := by
    intro x hx nd hnx
    rcases List.mem_cons.mp hx with e | hx'
    · rw [e, hg1q] at hnx
      cases hnx
      exact ⟨ndq, e ▸ hq, rfl, rfl, rfl⟩
    · rw [hg1node x (hordlt x (hpostmem x hx)) (fun e => hqpost (e ▸ hx'))] at hnx
      exact ⟨nd, hnx, rfl, rfl, rfl⟩
  have hngf' : List.Forall₂ (CloneOf g1 ng) (g.next_unique :: q :: post)
      (2 :: cloneIds 4 (post.length + 1)) := hngf
  have hApmem : p ∈ pre ++ [p, g.next_unique + 2] := by simp
  have hASmem : g.next_unique + 2 ∈ pre ++ [p, g.next_unique + 2] := by simp
  refine ⟨g1, parent, ng, ndp, v, val, hn, hout, hv, hu', hpairs, ?_, ?_, hg1L, hg1LV, hngo,
    hngr, hngn, hngc, hngf, ?_, hnghi, hngp, ?_, ?_, ?_, ?_, ?_⟩
  · rw [SplitSubGraph_eq, hpairs]
    simp only [Option.bind_eq_bind, Option.some_bind, hclone, hreb, hcreate, hsnd, hfold, hins,
      hout5, hadd, hts, Option.pure_def]
  · intro k hk1 hk2
    rw [hn1, Function.update_noteq hk2]
    by_cases hkq : k = q
    · rw [hkq, Function.update_same, hq]
      rfl
    · rw [Function.update_noteq hkq, Function.update_noteq hk1]
  · refine forall₂_cloneOf_congr _ _ (List.forall₂_cons.mp hngf').2 hg1chain ?_
    intro x hx nd hnx w hw
    obtain ⟨nd', hnx', _, _, ho'⟩ := hg1chain x hx nd hnx
    obtain ⟨h1, h2⟩ := houts x hx nd' hnx' w (by rw [ho']; exact hw)
    exact (hg1val w h2 h1).symm
  · rw [hpo, hx1]
    simp
  · rw [hpn p hApmem, hg1node p hplt (fun e => hpq (e ▸ List.mem_cons_self _ _))]
    exact hn
  · rw [hpn _ hASmem]
    exact hg1S
  · rw [hpv v (by rw [hx1]; omega) (Nat.ne_of_lt (by omega)) ?_]
    · exact hg1v
    · intro x hx nd hnx hm
      rcases List.mem_cons.mp hx with e | hx'
      · rw [e, hg1L] at hnx
        cases hnx
        have e' : @Eq Nat v (g.next_unique + 1) := List.mem_singleton.mp hm
        omega
      · obtain ⟨nd', hnx', _, _, ho'⟩ := hg1chain x hx' nd hnx
        exact (houts x hx' nd' hnx' v (by rw [ho']; exact hm)).1 rfl
  · rw [hpso, hx1]
    rfl

/-! ### The extraction from a chain: the claims -/

theorem Graph.Fresh.from_check {g : Graph} (h : g.freshCheck = true) : g.Fresh := by
  unfold Graph.freshCheck at h
  simp only [Bool.and_eq_true, List.all_eq_true, decide_eq_true_eq] at h
  obtain ⟨⟨⟨h1, h2⟩, h3⟩, h4⟩ := h
  refine ⟨?_, ?_, fun k hk => h3 k hk, h4⟩
  · intro k hk
    cases hn : g.node? k with
    | none => rfl
    | some nd =>
      obtain ⟨e, he, hek⟩ := List.mem_map.mp (mem_keys_of_lookup _ _ _ hn)
      have hlt := h1 e he
      rw [hek] at hlt
      exact absurd hlt (Nat.not_lt.mpr hk)
  · intro k hk
    cases hn : g.value? k with
    | none => rfl
    | some nd =>
      obtain ⟨e, he, hek⟩ := List.mem_map.mp (mem_keys_of_lookup _ _ _ hn)
      have hlt := h2 e he
      rw [hek] at hlt
      exact absurd hlt (Nat.not_lt.mpr hk)

theorem sixGraph_closed : IsClosedChain sixGraph [2, 3, 4, 5, 6, 7] :=
  { order := rfl
    nodup := by decide
    fresh := Graph.Fresh.from_check (by decide)
    links := ⟨[14], by decide,
      ⟨_, _, _, rfl, by decide, by decide, rfl, rfl, rfl, rfl, rfl,
      ⟨_, _, _, rfl, by decide, by decide, rfl, rfl, rfl, rfl, rfl,
      ⟨_, _, _, rfl, by decide, by decide, rfl, rfl, rfl, rfl, rfl,
      ⟨_, _, _, rfl, by decide, by decide, rfl, rfl, rfl, rfl, rfl,
      ⟨_, _, _, rfl, by decide, by decide, rfl, rfl, rfl, rfl, rfl,
      ⟨_, _, _, rfl, by decide, by decide, rfl, rfl, rfl, rfl,
        ⟨rfl, _, rfl, rfl, rfl, rfl⟩, trivial⟩⟩⟩⟩⟩⟩⟩ }

theorem chainGraph_closed : IsClosedChain chainGraph [2, 3, 4] :=
  { order := rfl
    nodup := by decide
    fresh := Graph.Fresh.from_check (by decide)
    links := ⟨[], by decide,
      ⟨_, _, _, rfl, by decide, by decide, rfl, rfl, rfl, rfl, rfl,
      ⟨_, _, _, rfl, by decide, by decide, rfl, rfl, rfl, rfl, rfl,
      ⟨_, _, _, rfl, by decide, by decide, rfl, rfl, rfl, rfl,
        ⟨rfl, _, rfl, rfl, rfl, rfl⟩, trivial⟩⟩⟩⟩ }

/-- C19 (amended). For every linear chain `pre ++ p :: q :: post` that ends in
the return node and every split-point list `[p]` whose split point `p` is not
a Load and is not the last node of the chain: `SplitSubGraph` returns, and the
node list of the graph it returns has one node more than there are nodes
after `p`: a Load `l` followed by the clones `cs` of the nodes `q :: post`
after `p`, in their order; the new graph has no other node object than its
return node, its parameter node and these; the nodes of its node list form a
chain from `l`, without inputs, to its own return node, each taking the output
of the node before it as its only input; no node other than its own return
node is a return node; and the first loop makes exactly one pair, of a new
Load `ld` and a new Store `st`, and no other node. -/
theorem SplitSubGraph_chain (H : HashOrder) (g : Graph) (newId : GraphId)
    (pre post : List NodeId) (p q : NodeId) (hc : IsClosedChain g (pre ++ p :: q :: post))
    (hp : ∀ nd, g.node? p = some nd → nd.kind ≠ Kind.Load) :
    ∃ parent ng l cs lnd g1 ld st,
      SplitSubGraph H g newId [p] = some (parent, ng) ∧
      ng.order = l :: cs ∧ cs.length = post.length + 1 ∧
      (∀ k nd, ng.node? k = some nd →
        k = ng.return_node ∨ nd.kind = Kind.kParam ∨ k ∈ ng.order) ∧
      ng.node? l = some lnd ∧ lnd.kind = Kind.Load ∧
      List.Forall₂ (CloneOf g ng) (q :: post) cs ∧
      IsClosedFrom ng [] (l :: cs) ∧
      (∀ k nd, ng.node? k = some nd → nd.kind = Kind.kReturn → k = ng.return_node) ∧
      createPairs g [p] = some (g1, [(ld, some st)]) ∧
      g.node? ld = none ∧ g.node? st = none ∧
      (g1.node? ld).map Node.kind = some Kind.Load ∧
      (parent.node? st).map Node.kind = some Kind.Store ∧
      (∀ k, k ≠ ld → k ≠ st → ((g1.node? k).isSome ↔ (g.node? k).isSome)) := by
  obtain ⟨ins0, _, hch⟩ := hc.links
  obtain ⟨ins, hch'⟩ := closedFrom_suffix pre hch
  obtain ⟨g1, parent, ng, ndp, v, val, _, _, _, _, hpairs, hsplit, hsame, hg1L, _, hngo, hngr,
    _, hngc, hngf, hngf', hnghi, hngp, _, _, hpS, _, _⟩ :=
    split_chain H g newId pre post p q ins hc.fresh hc.order hc.nodup
      (closedFrom_ret_not_mem hch) hch' hp
  have hkinds : ∀ k nd, ng.node? k = some nd →
      k = ng.return_node ∨ nd.kind = Kind.kParam ∨ k ∈ ng.order := by
    intro k nd hk
    have hk1 : ∀ j : Nat, ng.node? j = some nd →
        j = 0 ∨ nd.kind = Kind.kParam ∨ j ∈ cloneIds 2 (post.length + 2) := by
      intro j hj
      by_cases h0 : j = 0
      · exact Or.inl h0
      · by_cases h1 : j = 1
        · rw [h1, hngp] at hj
          cases hj
          exact Or.inr (Or.inl rfl)
        · by_cases hm : j ∈ cloneIds 2 (post.length + 2)
          · exact Or.inr (Or.inr hm)
          · rw [hnghi j (by omega) hm] at hj
            cases hj
    rw [hngr, hngo]
    exact hk1 k hk
  have hngf2 : List.Forall₂ (CloneOf g1 ng) (g.next_unique :: q :: post)
      (2 :: cloneIds 4 (post.length + 1)) := hngf
  obtain ⟨nd, lnd, _, _, _, _, h1, hl, h3, _⟩ := (List.forall₂_cons.mp hngf2).1
  rw [hg1L] at h1
  cases h1
  refine ⟨parent, ng, 2, cloneIds 4 (post.length + 1), lnd, g1, _, _, hsplit, hngo,
    cloneIds_length _ _, hkinds, hl, h3, hngf', hngc, ?_, hpairs,
    hc.fresh.nodes _ (Nat.le_refl _), hc.fresh.nodes _ (Nat.le_add_right _ _),
    by rw [hg1L]; rfl, by rw [hpS]; rfl, hsame⟩
  intro k nd hk hret
  rcases hkinds k nd hk with h | h | h
  · exact h
  · rw [hret] at h
    cases h
  · rw [hngo] at h
    obtain ⟨nd', _, _, hn', _, hk', _⟩ := closedFrom_node _ _ hngc k h
    rw [hk] at hn'
    cases hn'
    exact absurd hret hk'

/-- Witness of C19: the chain of six nodes cut after its third node; the new
graph has the four nodes 2, 4, 6 and 8. -/
theorem SplitSubGraph_chain_witness :
    IsClosedChain sixGraph ([2, 3] ++ 4 :: 5 :: [6, 7]) ∧
    (∀ nd, sixGraph.node? 4 = some nd → nd.kind ≠ Kind.Load) ∧
    (SplitSubGraph insertionOrder sixGraph 1 [4]).map (fun r => r.2.order)
      = some [2, 4, 6, 8] ∧
    ∃ parent ng l cs lnd g1 ld st,
      SplitSubGraph insertionOrder sixGraph 1 [4] = some (parent, ng) ∧
      ng.order = l :: cs ∧ cs.length = [6, 7].length + 1 ∧
      (∀ k nd, ng.node? k = some nd →
        k = ng.return_node ∨ nd.kind = Kind.kParam ∨ k ∈ ng.order) ∧
      ng.node? l = some lnd ∧ lnd.kind = Kind.Load ∧
      List.Forall₂ (CloneOf sixGraph ng) (5 :: [6, 7]) cs ∧
      IsClosedFrom ng [] (l :: cs) ∧
      (∀ k nd, ng.node? k = some nd → nd.kind = Kind.kReturn → k = ng.return_node) ∧
      createPairs sixGraph [4] = some (g1, [(ld, some st)]) ∧
      sixGraph.node? ld = none ∧ sixGraph.node? st = none ∧
      (g1.node? ld).map Node.kind = some Kind.Load ∧
      (parent.node? st).map Node.kind = some Kind.Store ∧
      (∀ k, k ≠ ld → k ≠ st → ((g1.node? k).isSome ↔ (sixGraph.node? k).isSome)) :=
  ⟨sixGraph_closed, by decide, by decide,
    SplitSubGraph_chain insertionOrder sixGraph 1 [2, 3] [6, 7] 4 5 sixGraph_closed
      (by decide)⟩

/-- Counterexample to C19 as stated: `chainGraph` is the linear chain Load 2,
`a`, `b`, return, and its first node is the split point.  The first loop of
`SplitSubGraph` pairs the Load with the null pointer and creates no node, so
no Load/Store pair is created in the parent: after the extraction the parent
holds its return node, its parameter node and the SubGraph node only. -/
theorem SplitSubGraph_load_split_point :
    IsClosedChain chainGraph ([] ++ 2 :: 3 :: [4]) ∧
    (chainGraph.node? 2).map Node.kind = some Kind.Load ∧
    createPairs chainGraph [2] = some (chainGraph, [(2, none)]) ∧
    (SplitSubGraph insertionOrder chainGraph 1 [2]).map
        (fun r => (r.1.order, r.1.nodeTable.map (fun e => (e.1, e.2.kind))))
      = some ([8], [(0, Kind.kReturn), (1, Kind.kParam), (8, Kind.SubGraph)]) :=
  ⟨chainGraph_closed, by decide, by decide, by decide⟩

/-- The chain Conv, Relu, return cut after the Conv: the node list of the new
graph is a Load and the clone of the Relu. -/
theorem SplitSubGraph_conv_relu :
    (SplitSubGraph insertionOrder pairGraph 1 [1]).map
        (fun r => (r.2.order, r.2.nodeTable.map (fun e => (e.1, e.2.kind))))
      = some ([2, 4], [(0, Kind.kReturn), (1, Kind.kParam), (2, Kind.Load),
          (4, Kind.other 0)]) := by
  decide

/-- The Stores of a split point with several outputs: the split point 2 of
`twoOutGraph` is no Load and has the two outputs 4 and 5.  Each Store is put
right after the split point, so that the Store 15 of the second output comes
to stand between the split point and the Store 11 of the first output: in the
node list 2, 15, 11, 17 of the parent the only node that takes the value 4 as
an input, the Store 11, is not placed immediately after the node 2. -/
theorem SplitSubGraph_store_not_adjacent :
    (twoOutGraph.node? 2).map (fun nd => (nd.kind, nd.outputs))
      = some (Kind.other 2, [4, 5]) ∧
    (SplitSubGraph insertionOrder twoOutGraph 1 [2]).map
        (fun r => (r.1.order, r.1.nodeTable.filterMap (fun e =>
          if e.2.inputs.contains 4 then some (e.1, e.2.kind) else none)))
      = some ([2, 15, 11, 17], [(11, Kind.Store)]) :=
  ⟨by decide, by decide⟩

/-! ## Kahn's algorithm

### The degree update -/

theorem foldlM_append_some {α β : Type} {f : β → α → Option β} :
    ∀ (l1 l2 : List α) (b b' : β),
      (l1 ++ l2).foldlM f b = some b' ↔
        ∃ c, l1.foldlM f b = some c ∧ l2.foldlM f c = some b' := by
  intro l1
  induction l1 with
  | nil =>
    intro l2 b b'
    simp
  | cons a l1 ih =>
    intro l2 b b'
    rw [List.cons_append, foldlM_cons_some]
    constructor
    · rintro ⟨c, hc, h⟩
      obtain ⟨c', hc', h'⟩ := (ih l2 c b').mp h
      exact ⟨c', foldlM_cons_some.mpr ⟨c, hc, hc'⟩, h'⟩
    · rintro ⟨c', hc', h'⟩
      obtain ⟨c, hc, h⟩ := foldlM_cons_some.mp hc'
      exact ⟨c, hc, (ih l2 c b').mpr ⟨c', h, h'⟩⟩

/-- The loop of `updateDegrees` over the uses of a value lowers the degree of
the users that are no return nodes. -/
theorem updateUses_users (g : Graph) :
    ∀ (uses : List Use) (st r : DegreeMap × List NodeId),
      uses.foldlM (updateUse g) st = some r →
      ((uses.map Use.user).filter g.counted).foldlM lowerDegree st = some r := by
  intro uses
  induction uses with
  | nil => intro st r h; exact h
  | cons u uses ih =>
    intro st r h
    obtain ⟨c, hc, hrest⟩ := foldlM_cons_some.mp h
    unfold updateUse at hc
    obtain ⟨un, hun, hc⟩ := bind_some_iff.mp hc
    rw [List.map_cons, List.filter_cons]
    by_cases hk : un.kind = Kind.kReturn
    · have hcnt : g.counted u.user = false := by
        unfold Graph.counted
        rw [hun]
        simp [hk]
      rw [if_pos hk] at hc
      cases hc
      simp only [hcnt, Bool.false_eq_true, if_false]
      exact ih st r hrest
    · have hcnt : g.counted u.user = true := by
        unfold Graph.counted
        rw [hun]
        simp [hk]
      rw [if_neg hk] at hc
      simp only [hcnt, if_true]
      exact foldlM_cons_some.mpr ⟨c, hc, ih c r hrest⟩

theorem updateValues_users (g : Graph) :
    ∀ (outs : List ValueId) (st r : DegreeMap × List NodeId),
      outs.foldlM (updateValue g) st = some r →
      ((outs.flatMap g.valueUsers).filter g.counted).foldlM lowerDegree st = some r := by
  intro outs
  induction outs with
  | nil => intro st r h; exact h
  | cons v outs ih =>
    intro st r h
    obtain ⟨c, hc, hrest⟩ := foldlM_cons_some.mp h
    unfold updateValue at hc
    obtain ⟨val, hval, hc⟩ := bind_some_iff.mp hc
    rw [List.flatMap_cons, List.filter_append]
    refine (foldlM_append_some _ _ _ _).mpr ⟨c, ?_, ih c r hrest⟩
    have : g.valueUsers v = val.uses.map Use.user := by
      unfold Graph.valueUsers
      rw [hval]
    rw [this]
    exact updateUses_users g _ _ _ hc

/-- Function `updateDegrees` of a node lowers the degree of its users, once
for each use. -/
theorem updateDegrees_users {g : Graph} {n : NodeId} {dmap : DegreeMap} {wl : List NodeId}
    {r : DegreeMap × List NodeId} (h : updateDegrees g n dmap wl = some r) :
    (g.users n).foldlM lowerDegree (dmap, wl) = some r := by
  rw [updateDegrees_eq] at h
  obtain ⟨nd, hn, h⟩ := bind_some_iff.mp h
  unfold Graph.users
  rw [hn]
  exact updateValues_users g _ _ _ h

/-- The degrees and the worklist after the degrees of the users `l` were
lowered, when no degree goes below zero. -/
theorem lower_fold :
    ∀ (l : List NodeId) (dmap : DegreeMap) (wl : List NodeId) (r : DegreeMap × List NodeId),
      l.foldlM lowerDegree (dmap, wl) = some r →
      (∀ (x : NodeId) (d : Nat), dmap.lookup x = some d → l.count x ≤ d ∧ d < UNSIGNED) →
      (∀ x : NodeId, r.1.lookup x = (dmap.lookup x).map (fun d => d - l.count x)) ∧
      (∀ x : NodeId, x ∈ r.2 ↔ x ∈ wl ∨ (0 < l.count x ∧ dmap.lookup x = some (l.count x))) ∧
      (wl.Nodup → (∀ x ∈ l, x ∉ wl) → r.2.Nodup) := by
  intro l
  induction l with
  | nil =>
    intro dmap wl r h _
    simp only [List.foldlM_nil, Option.pure_def, Option.some.injEq] at h
    subst h
    refine ⟨?_, ?_, fun h _ => h⟩
    · intro x
      cases dmap.lookup x <;> simp
    · intro x
      simp
  | cons a l ih =>
    intro dmap wl r h hpre
    obtain ⟨c, hc, hrest⟩ := foldlM_cons_some.mp h
    unfold lowerDegree at hc
    obtain ⟨d, hd, hc⟩ := bind_some_iff.mp hc
    obtain ⟨hcnt, hdU⟩ := hpre a d hd
    have hcnt' : l.count a + 1 ≤ d := by
      rw [List.count_cons_self] at hcnt
      exact hcnt
    have hd1 : (d + UNSIGNED - 1) % UNSIGNED = d - 1 := by
      have : d + UNSIGNED - 1 = (d - 1) + UNSIGNED := by omega
      rw [this, Nat.add_mod_right, Nat.mod_eq_of_lt (by omega)]
    simp only [Option.pure_def, Option.some.injEq] at hc
    rw [hd1] at hc
    subst hc
    have hl1 : ∀ x : NodeId, (tableSet dmap a (d - 1)).lookup x
        = if x = a then some (d - 1) else dmap.lookup x := by
      intro x
      by_cases hx : x = a
      · rw [if_pos hx, hx]
        exact lookup_tableSet_self _ _ _ _ hd
      · rw [if_neg hx]
        exact lookup_tableSet_ne _ _ _ _ hx
    obtain ⟨h1, h2, h3⟩ := ih _ _ r hrest (by
      intro x d' hx
      rw [hl1] at hx
      by_cases hxa : x = a
      · rw [if_pos hxa] at hx
        cases hx
        rw [hxa]
        omega
      · rw [if_neg hxa] at hx
        have := hpre x d' hx
        rw [List.count_cons_of_ne hxa] at this
        exact this)
    refine ⟨?_, ?_, ?_⟩
    · intro x
      rw [h1 x, hl1 x]
      by_cases hxa : x = a
      · rw [if_pos hxa, hxa, hd, List.count_cons_self]
        simp only [Option.map_some']
        exact congrArg some (by omega)
      · rw [if_neg hxa, List.count_cons_of_ne hxa]
    · intro x
      rw [h2 x, hl1 x]
      by_cases hxa : x = a
      · subst hxa
        rw [if_pos rfl, List.count_cons_self, hd]
        simp only [Option.some.injEq]
        by_cases hz : d - 1 = 0
        · simp only [hz, if_true, List.mem_cons, true_or]
          constructor
          · intro _
            right
            omega
          · intro _
            trivial
        · simp only [hz, if_false]
          constructor
          · rintro (h | ⟨_, h⟩)
            · exact Or.inl h
            · right
              omega
          · rintro (h | ⟨_, h⟩)
            · exact Or.inl h
            · right
              omega
      · rw [if_neg hxa, List.count_cons_of_ne hxa]
        by_cases hz : d - 1 = 0
        · simp only [hz, if_true, List.mem_cons, hxa, false_or]
        · simp only [hz, if_false]
    · intro hwl hdis
      apply h3
      · by_cases hz : d - 1 = 0
        · simp only [hz, if_true]
          exact List.nodup_cons.mpr ⟨hdis a (List.mem_cons_self _ _), hwl⟩
        · simp only [hz, if_false]
          exact hwl
      · intro x hx
        by_cases hz : d - 1 = 0
        · simp only [hz, if_true, List.mem_cons, not_or]
          refine ⟨?_, hdis x (List.mem_cons_of_mem _ hx)⟩
          intro hxa
          have : 0 < l.count a := List.count_pos_iff.mpr (hxa ▸ hx)
          omega
        · simp only [hz, if_false]
          exact hdis x (List.mem_cons_of_mem _ hx)

/-! ### The invariant of Kahn's loop -/

theorem countP_not_contains_snoc (out : List NodeId) (n : NodeId) (hn : n ∉ out) :
    ∀ L : List NodeId, L.countP (fun m => !out.contains m)
      = L.countP (fun m => !(out ++ [n]).contains m) + L.count n := by
  intro L
  induction L with
  | nil => rfl
  | cons a L ih =>
    rw [List.countP_cons, List.countP_cons, List.count_cons, ih]
    by_cases han : a = n
    · subst han
      simp [hn]
      omega
    · by_cases hao : a ∈ out
      · simp [han, hao]
      · simp [han, hao]
        omega

theorem count_le_countP_not_contains (out : List NodeId) (n : NodeId) (hn : n ∉ out)
    (L : List NodeId) : L.count n ≤ L.countP (fun m => !out.contains m) := by
  rw [countP_not_contains_snoc out n hn L]
  omega

theorem preds_length_le {g : Graph} {x : NodeId} {nd : Node} (h : g.node? x = some nd) :
    (g.preds x).length ≤ nd.inputs.length := by
  unfold Graph.preds
  rw [h]
  exact List.length_filterMap_le _ _

theorem mem_preds {g : Graph} {x m : NodeId} (h : m ∈ g.preds x) :
    ∃ nd w val, g.node? x = some nd ∧ w ∈ nd.inputs ∧ g.value? w = some val ∧
      val.node = some m := by
  unfold Graph.preds at h
  cases hn : g.node? x with
  | none => rw [hn] at h; cases h
  | some nd =>
    rw [hn] at h
    obtain ⟨w, hw, hm⟩ := List.mem_filterMap.mp h
    obtain ⟨val, hv, hp⟩ := bind_some_iff.mp hm
    exact ⟨nd, w, val, rfl, hw, hv, hp⟩

/-- One round of Kahn's loop keeps the invariant. -/
theorem kahn_step {g : Graph} (hk : g.Kahnable) {dmap : DegreeMap} {wl out : List NodeId}
    {n : NodeId} {r : DegreeMap × List NodeId} (hinv : KahnInv g (dmap, n :: wl, out))
    (h : updateDegrees g n dmap wl = some r) : KahnInv g (r.1, r.2, out ++ [n]) := by
  have hfold := updateDegrees_users h
  obtain ⟨hnd, hmem, hdeg, hkeys, hready, hsorted⟩ := hinv
  simp only at hnd hmem hdeg hkeys hready hsorted
  have hn_ord : n ∈ g.order := hmem n (List.mem_append_right _ (List.mem_cons_self _ _))
  have hnd' := List.nodup_append.mp hnd
  have hn_out : n ∉ out := fun hm => hnd'.2.2 hm (List.mem_cons_self _ _)
  have hn_wl : n ∉ wl := (List.nodup_cons.mp hnd'.2.1).1
  have hwl_nd : wl.Nodup := (List.nodup_cons.mp hnd'.2.1).2
  have hwl_out : ∀ x ∈ wl, x ∉ out := fun x hx hm => hnd'.2.2 hm (List.mem_cons_of_mem _ hx)
  have hcount : ∀ x ∈ g.order, (g.users n).count x = (g.preds x).count n :=
    fun x hx => hk.count n hn_ord x hx
  have hpre : ∀ (x : NodeId) (d : Nat), dmap.lookup x = some d →
      (g.users n).count x ≤ d ∧ d < UNSIGNED := by
    intro x d hx
    have hxo := hkeys x d hx
    rw [hdeg x hxo] at hx
    cases hx
    rw [hcount x hxo]
    refine ⟨count_le_countP_not_contains out n hn_out _, ?_⟩
    obtain ⟨nd, hnx, _, hlen, _⟩ := hk.node x hxo
    exact Nat.lt_of_le_of_lt (Nat.le_trans (List.countP_le_length _) (preds_length_le hnx)) hlen
  obtain ⟨h1, h2, h3⟩ := lower_fold _ _ _ _ hfold hpre
  have hsplit : ∀ x, (g.preds x).countP (fun m => !out.contains m)
      = (g.preds x).countP (fun m => !(out ++ [n]).contains m) + (g.preds x).count n :=
    fun x => countP_not_contains_snoc out n hn_out _
  have hself : n ∉ g.preds n := by
    intro hm
    obtain ⟨rk, hrk⟩ := hk.acyclic
    exact Nat.lt_irrefl _ (hrk n hn_ord n hm)
  have hnew : ∀ x, x ∈ r.2 → x ∈ g.order ∧ x ∉ out ∧ x ≠ n := by
    intro x hx
    rcases (h2 x).mp hx with hw | ⟨hpos, hl⟩
    · exact ⟨hmem x (List.mem_append_right _ (List.mem_cons_of_mem _ hw)), hwl_out x hw,
        fun e => hn_wl (e ▸ hw)⟩
    · have hxo := hkeys x _ hl
      rw [hcount x hxo] at hpos
      have hnp : n ∈ g.preds x := List.count_pos_iff.mp hpos
      refine ⟨hxo, ?_, fun e => hself (e ▸ hnp)⟩
      intro hxout
      obtain ⟨l1, l2, hsp⟩ := List.append_of_mem hxout
      exact hn_out (hsp ▸ List.mem_append_left _ (hsorted l1 x l2 hsp n hnp))
  refine ⟨?_, ?_, ?_, ?_, ?_, ?_⟩
  · show ((out ++ [n]) ++ r.2).Nodup
    refine List.Nodup.append ?_ ?_ ?_
    · exact List.Nodup.append hnd'.1 (List.nodup_singleton _) (by
        intro x hx hx'
        exact hn_out (List.mem_singleton.mp hx' ▸ hx))
    · apply h3 hwl_nd
      intro x hx hw
      have hxo := hmem x (List.mem_append_right _ (List.mem_cons_of_mem _ hw))
      have hz := (hready x hxo (hwl_out x hw)).mpr (List.mem_cons_of_mem _ hw)
      have hc := hcount x hxo
      have hle := count_le_countP_not_contains out n hn_out (g.preds x)
      have : 0 < (g.users n).count x := List.count_pos_iff.mpr hx
      omega
    · intro x hx hx'
      obtain ⟨_, h4, h5⟩ := hnew x hx'
      rcases List.mem_append.mp hx with h | h
      · exact h4 h
      · exact h5 (List.mem_singleton.mp h)
  · show ∀ x ∈ (out ++ [n]) ++ r.2, x ∈ g.order
    intro x hx
    rcases List.mem_append.mp hx with h | h
    · rcases List.mem_append.mp h with h | h
      · exact hmem x (List.mem_append_left _ h)
      · exact List.mem_singleton.mp h ▸ hn_ord
    · exact (hnew x h).1
  · show ∀ x ∈ g.order, r.1.lookup x
        = some ((g.preds x).countP (fun m => !(out ++ [n]).contains m))
    intro x hx
    rw [h1 x, hdeg x hx, hcount x hx]
    simp only [Option.map_some']
    exact congrArg some (by have := hsplit x; omega)
  · show ∀ x d, r.1.lookup x = some d → x ∈ g.order
    intro x d hx
    rw [h1 x] at hx
    cases hl : dmap.lookup x with
    | none => rw [hl] at hx; cases hx
    | some d' => exact hkeys x d' hl
  · show ∀ x ∈ g.order, x ∉ out ++ [n] →
        ((g.preds x).countP (fun m => !(out ++ [n]).contains m) = 0 ↔ x ∈ r.2)
    intro x hx hxo
    have hxout : x ∉ out := fun hm => hxo (List.mem_append_left _ hm)
    have hxn : x ≠ n := fun e => hxo (e ▸ List.mem_append_right _ (List.mem_singleton_self _))
    have hc := hcount x hx
    have hs := hsplit x
    rw [h2 x]
    constructor
    · intro hz
      by_cases hc0 : (g.preds x).count n = 0
      · left
        have := (hready x hx hxout).mp (by omega)
        rcases List.mem_cons.mp this with e | hw
        · exact absurd e hxn
        · exact hw
      · right
        refine ⟨by omega, ?_⟩
        rw [hdeg x hx]
        exact congrArg some (by omega)
    · rintro (hw | ⟨hpos, hl⟩)
      · have := (hready x hx hxout).mpr (List.mem_cons_of_mem _ hw)
        omega
      · rw [hdeg x hx] at hl
        have := Option.some.inj hl
        omega
  · show ∀ l1 x l2, out ++ [n] = l1 ++ x :: l2 → ∀ m ∈ g.preds x, m ∈ l1
    intro l1 x l2 hsp m hm
    rcases List.eq_nil_or_concat l2 with e | ⟨l2', y, e⟩
    · subst e
      have := List.append_inj' hsp rfl
      obtain ⟨e1, e2⟩ := this
      cases e2
      rw [← e1]
      have hz := (hready n hn_ord hn_out).mpr (List.mem_cons_self _ _)
      have := List.countP_eq_zero.mp hz m hm
      simpa using this
    · subst e
      have hsp' : out ++ [n] = (l1 ++ x :: l2') ++ [y] := by
        rw [hsp]; simp
      obtain ⟨e1, _⟩ := List.append_inj' hsp' rfl
      exact hsorted l1 x l2' e1 m hm

/-! ### The start and the end of Kahn's loop -/

theorem lookup_mapInsert {α : Type} (m : List (Nat × α)) (k x : Nat) (a : α) :
    (mapInsert m k a).lookup x = if x = k then some a else m.lookup x := by
  unfold mapInsert
  cases hl : m.lookup k with
  | none =>
    simp only [Option.isSome_none, Bool.false_eq_true, if_false]
    by_cases hx : x = k
    · rw [if_pos hx, hx]
      exact lookup_append_self _ _ _ hl
    · rw [if_neg hx]
      exact lookup_snoc_ne _ _ _ _ hx
  | some b =>
    simp only [Option.isSome_some, if_true]
    by_cases hx : x = k
    · rw [if_pos hx, hx]
      exact lookup_tableSet_self _ _ _ _ hl
    · rw [if_neg hx]
      exact lookup_tableSet_ne _ _ _ _ hx

theorem degree_fold (g : Graph) :
    ∀ (l : List ValueId) (k : Nat), (∀ w ∈ l, ∃ val, g.value? w = some val) →
      k + l.countP (fun w => ((g.value? w).bind (fun val => val.node)).isNone) < UNSIGNED →
      l.foldlM (fun degcnt v => do
          let val ← g.value? v
          pure (if val.node = none then (degcnt + UNSIGNED - 1) % UNSIGNED else degcnt))
        (k + l.countP (fun w => ((g.value? w).bind (fun val => val.node)).isNone)) = some k := by
  intro l
  induction l with
  | nil => intro k _ _; rfl
  | cons w l ih =>
    intro k h hlt
    obtain ⟨val, hv⟩ := h w (List.mem_cons_self _ _)
    rw [List.foldlM_cons, hv]
    simp only [Option.bind_eq_bind, Option.some_bind, Option.pure_def]
    rw [List.countP_cons] at hlt ⊢
    cases hp : val.node with
    | none =>
      have e : ((g.value? w).bind (fun val => val.node)).isNone = true := by
        rw [hv, Option.some_bind, hp]
        rfl
      rw [if_pos e] at hlt ⊢
      rw [if_pos rfl]
      have e2 : (k + (l.countP (fun w => ((g.value? w).bind (fun val => val.node)).isNone) + 1)
          + UNSIGNED - 1) % UNSIGNED
          = k + l.countP (fun w => ((g.value? w).bind (fun val => val.node)).isNone) := by
        have e3 : k + (l.countP (fun w => ((g.value? w).bind (fun val => val.node)).isNone) + 1)
            + UNSIGNED - 1
            = k + l.countP (fun w => ((g.value? w).bind (fun val => val.node)).isNone)
              + UNSIGNED := by omega
        rw [e3, Nat.add_mod_right]
        exact Nat.mod_eq_of_lt (by omega)
      rw [e2]
      exact ih k (fun w' hw' => h w' (List.mem_cons_of_mem _ hw')) (by omega)
    | some m =>
      have e : ¬ ((g.value? w).bind (fun val => val.node)).isNone = true := by
        rw [hv, Option.some_bind, hp]
        simp
      rw [if_neg e] at hlt ⊢
      rw [if_neg (by simp)]
      exact ih k (fun w' hw' => h w' (List.mem_cons_of_mem _ hw')) (by omega)

theorem length_filterMap_add_countP {α β : Type} (f : α → Option β) (l : List α) :
    (l.filterMap f).length + l.countP (fun w => (f w).isNone) = l.length := by
  induction l with
  | nil => rfl
  | cons a l ih =>
    rw [List.filterMap_cons, List.countP_cons, List.length_cons]
    cases hf : f a with
    | none =>
      simp only [Option.isNone_none, if_true]
      omega
    | some b =>
      simp only [Option.isNone_some, Bool.false_eq_true, if_false, List.length_cons]
      omega

/-- The degree that `BuildDegreeMap` counts for a node is the number of its
inputs that have a producer. -/
theorem degreeCount_preds {g : Graph} {x : NodeId} {nd : Node} (hn : g.node? x = some nd)
    (h : ∀ w ∈ nd.inputs, ∃ val, g.value? w = some val) (hlen : nd.inputs.length < UNSIGNED) :
    degreeCount g nd = some (g.preds x).length := by
  have hp : g.preds x = nd.inputs.filterMap (fun w => (g.value? w).bind (fun val => val.node)) := by
    unfold Graph.preds
    rw [hn]
  have hsum := length_filterMap_add_countP (fun w => (g.value? w).bind (fun val => val.node))
    nd.inputs
  unfold degreeCount
  rw [Nat.mod_eq_of_lt hlen, hp]
  have := degree_fold g nd.inputs
    (nd.inputs.filterMap (fun w => (g.value? w).bind (fun val => val.node))).length h
    (by rw [hsum]; exact hlen)
  rw [hsum] at this
  exact this

/-- The loop of `BuildDegreeMap` over distinct nodes of a sortable graph. -/
theorem buildDegree_fold {g : Graph} (hk : g.Kahnable) :
    ∀ (l : List NodeId) (dmap dmap' : DegreeMap), l.Nodup → (∀ x ∈ l, x ∈ g.order) →
      l.foldlM (degreeStep g) dmap = some dmap' →
      (∀ x ∈ l, dmap'.lookup x = some (g.preds x).length) ∧
      (∀ x, x ∉ l → dmap'.lookup x = dmap.lookup x) := by
  intro l
  induction l with
  | nil =>
    intro dmap dmap' _ _ h
    simp only [List.foldlM_nil, Option.pure_def, Option.some.injEq] at h
    subst h
    exact ⟨fun x hx => absurd hx (List.not_mem_nil _), fun _ _ => rfl⟩
  | cons a l ih =>
    intro dmap dmap' hnd hsub h
    obtain ⟨c, hc, hrest⟩ := foldlM_cons_some.mp h
    obtain ⟨nd, hn, hkind, hlen, _⟩ := hk.node a (hsub a (List.mem_cons_self _ _))
    have hin : ∀ w ∈ nd.inputs, ∃ val, g.value? w = some val := by
      intro w hw
      obtain ⟨val, hv, _⟩ := hk.input a (hsub a (List.mem_cons_self _ _)) nd hn w hw
      exact ⟨val, hv⟩
    unfold degreeStep at hc
    rw [hn] at hc
    simp only [Option.bind_eq_bind, Option.some_bind, if_neg hkind, degreeCount_preds hn hin hlen,
      Option.pure_def, Option.some.injEq] at hc
    subst hc
    have hnd' := List.nodup_cons.mp hnd
    obtain ⟨h1, h2⟩ := ih _ dmap' hnd'.2 (fun x hx => hsub x (List.mem_cons_of_mem _ hx)) hrest
    refine ⟨?_, ?_⟩
    · intro x hx
      rcases List.mem_cons.mp hx with e | hx'
      · rw [e, h2 a hnd'.1, lookup_mapInsert, if_pos rfl]
      · exact h1 x hx'
    · intro x hx
      have hxa : x ≠ a := fun e => hx (e ▸ List.mem_cons_self _ _)
      rw [h2 x (fun hm => hx (List.mem_cons_of_mem _ hm)), lookup_mapInsert, if_neg hxa]

/-- The loop that fills the worklist. -/
theorem worklist_fold {g : Graph} (hk : g.Kahnable) (dmap : DegreeMap) :
    ∀ (l : List NodeId) (wl wl' : List NodeId), (∀ x ∈ l, x ∈ g.order) →
      l.foldlM (worklistStep g dmap) wl = some wl' →
      (∀ x, x ∈ wl' ↔ x ∈ wl ∨ (x ∈ l ∧ (dmap.lookup x).getD 0 = 0)) ∧
      (wl.Nodup → l.Nodup → (∀ x ∈ l, x ∉ wl) → wl'.Nodup) := by
  intro l
  induction l with
  | nil =>
    intro wl wl' _ h
    simp only [List.foldlM_nil, Option.pure_def, Option.some.injEq] at h
    subst h
    exact ⟨fun x => by simp, fun h _ _ => h⟩
  | cons a l ih =>
    intro wl wl' hsub h
    obtain ⟨c, hc, hrest⟩ := foldlM_cons_some.mp h
    obtain ⟨nd, hn, hkind, _, _⟩ := hk.node a (hsub a (List.mem_cons_self _ _))
    unfold worklistStep at hc
    rw [hn] at hc
    simp only [Option.bind_eq_bind, Option.some_bind, if_neg hkind] at hc
    obtain ⟨h1, h2⟩ := ih c wl' (fun x hx => hsub x (List.mem_cons_of_mem _ hx)) hrest
    by_cases hz : (dmap.lookup a).getD 0 = 0
    · rw [if_pos hz] at hc
      simp only [Option.pure_def, Option.some.injEq] at hc
      subst hc
      refine ⟨?_, ?_⟩
      · intro x
        rw [h1 x]
        simp only [List.mem_cons]
        constructor
        · rintro ((e | hw) | ⟨hl, hx⟩)
          · exact Or.inr ⟨Or.inl e, e ▸ hz⟩
          · exact Or.inl hw
          · exact Or.inr ⟨Or.inr hl, hx⟩
        · rintro (hw | ⟨e | hl, hx⟩)
          · exact Or.inl (Or.inr hw)
          · exact Or.inl (Or.inl e)
          · exact Or.inr ⟨hl, hx⟩
      · intro hwl hnd hdis
        have hnd' := List.nodup_cons.mp hnd
        apply h2 (List.nodup_cons.mpr ⟨hdis a (List.mem_cons_self _ _), hwl⟩) hnd'.2
        intro x hx hm
        rcases List.mem_cons.mp hm with e | hw
        · exact hnd'.1 (e ▸ hx)
        · exact hdis x (List.mem_cons_of_mem _ hx) hw
    · rw [if_neg hz] at hc
      simp only [Option.pure_def, Option.some.injEq] at hc
      subst hc
      refine ⟨?_, ?_⟩
      · intro x
        rw [h1 x]
        simp only [List.mem_cons]
        constructor
        · rintro (hw | ⟨hl, hx⟩)
          · exact Or.inl hw
          · exact Or.inr ⟨Or.inr hl, hx⟩
        · rintro (hw | ⟨e | hl, hx⟩)
          · exact Or.inl hw
          · exact absurd (e ▸ hx) hz
          · exact Or.inr ⟨hl, hx⟩
      · intro hwl hnd hdis
        exact h2 hwl (List.nodup_cons.mp hnd).2
          (fun x hx => hdis x (List.mem_cons_of_mem _ hx))

/-- The invariant holds when Kahn's loop starts. -/
theorem kahn_init {g : Graph} (hk : g.Kahnable) {dmap : DegreeMap} {wl : List NodeId}
    (hd : BuildDegreeMap g = some dmap) (hw : initWorklist g dmap = some wl) :
    KahnInv g (dmap, wl, []) := by
  rw [BuildDegreeMap_eq] at hd
  rw [initWorklist_eq] at hw
  obtain ⟨h1, h2⟩ := buildDegree_fold hk g.order [] dmap hk.nodup (fun _ h => h) hd
  obtain ⟨h3, h4⟩ := worklist_fold hk dmap g.order [] wl (fun _ h => h) hw
  have hcnt : ∀ x, (g.preds x).countP (fun m => !([] : List NodeId).contains m)
      = (g.preds x).length := by
    intro x
    simp
  refine ⟨?_, ?_, ?_, ?_, ?_, ?_⟩
  · show ([] ++ wl).Nodup
    rw [List.nil_append]
    exact h4 List.nodup_nil hk.nodup (fun _ _ => List.not_mem_nil _)
  · show ∀ x ∈ [] ++ wl, x ∈ g.order
    intro x hx
    rw [List.nil_append] at hx
    rcases (h3 x).mp hx with h | ⟨h, _⟩
    · cases h
    · exact h
  · show ∀ x ∈ g.order, dmap.lookup x
        = some ((g.preds x).countP (fun m => !([] : List NodeId).contains m))
    intro x hx
    rw [hcnt, h1 x hx]
  · show ∀ x d, dmap.lookup x = some d → x ∈ g.order
    intro x d hx
    by_contra hno
    rw [h2 x hno] at hx
    cases hx
  · show ∀ x ∈ g.order, x ∉ ([] : List NodeId) →
        ((g.preds x).countP (fun m => !([] : List NodeId).contains m) = 0 ↔ x ∈ wl)
    intro x hx _
    rw [hcnt, h3 x]
    constructor
    · intro hz
      exact Or.inr ⟨hx, by rw [h1 x hx, hz]; rfl⟩
    · rintro (h | ⟨_, h⟩)
      · cases h
      · rw [h1 x hx] at h
        exact h
  · show ∀ l1 x l2, ([] : List NodeId) = l1 ++ x :: l2 → ∀ m ∈ g.preds x, m ∈ l1
    intro l1 x l2 h
    exact absurd h.symm (by simp)

/-- Kahn's loop keeps the invariant up to its end, where the worklist is
empty. -/
theorem kahn_loop {g : Graph} (hk : g.Kahnable) :
    ∀ (fuel : Nat) (dmap : DegreeMap) (wl out res : List NodeId),
      KahnInv g (dmap, wl, out) → topoLoop g fuel (dmap, wl, out) = some res →
      ∃ dmap', KahnInv g (dmap', [], res) := by
  intro fuel
  induction fuel with
  | zero =>
    intro dmap wl out res hinv h
    cases wl with
    | nil =>
      simp only [topoLoop, List.isEmpty_nil, if_true, Option.some.injEq] at h
      exact ⟨dmap, h ▸ hinv⟩
    | cons n wl => simp [topoLoop] at h
  | succ fuel ih =>
    intro dmap wl out res hinv h
    cases wl with
    | nil =>
      simp only [topoLoop, Option.some.injEq] at h
      exact ⟨dmap, h ▸ hinv⟩
    | cons n wl =>
      rw [topoLoop] at h
      obtain ⟨r, hr, h⟩ := bind_some_iff.mp h
      exact ih r.1 r.2 (out ++ [n]) res (kahn_step hk hinv hr) h

/-- At the end of Kahn's loop every node of the list is in the output, after
its producers. -/
theorem kahn_complete {g : Graph} (hk : g.Kahnable) {dmap : DegreeMap} {out : List NodeId}
    (hinv : KahnInv g (dmap, [], out)) :
    out.Perm g.order ∧ ∀ l1 x l2, out = l1 ++ x :: l2 → ∀ m ∈ g.preds x, m ∈ l1 := by
  obtain ⟨hnd, hmem, _, _, hready, hsorted⟩ := hinv
  simp only [List.append_nil] at hnd hmem
  simp only at hready hsorted
  obtain ⟨rk, hrk⟩ := hk.acyclic
  have hall : ∀ (k : Nat) (x : NodeId), rk x = k → x ∈ g.order → x ∈ out := by
    intro k
    induction k using Nat.strong_induction_on with
    | _ k ih =>
      intro x hxk hx
      by_contra hxo
      have hz : (g.preds x).countP (fun m => !out.contains m) = 0 := by
        apply List.countP_eq_zero.mpr
        intro m hm
        obtain ⟨nd, w, val, hn, hw, hv, hp⟩ := mem_preds hm
        obtain ⟨val', hv', hmo⟩ := hk.input x hx nd hn w hw
        rw [hv] at hv'
        cases hv'
        have := ih (rk m) (hxk ▸ hrk x hx m hm) m rfl (hmo m hp)
        simpa using this
      exact absurd ((hready x hx hxo).mp hz) (List.not_mem_nil _)
  refine ⟨?_, hsorted⟩
  apply (List.perm_ext_iff_of_nodup hnd hk.nodup).mpr
  intro x
  exact ⟨hmem x, hall _ x rfl⟩

/-! ### The reordering loop -/

/-- The reordering loop of `TopologicalSort`: the nodes `done` stand in front,
the cursor is at the head of the nodes `rem` that follow, and the nodes `todo`
that remain to be placed are those of `rem`; in the end the node list is
`done ++ todo`. -/
theorem reorder_perm (g : Graph) :
    ∀ (todo done rem : List NodeId) (it : NodeId) (res : Graph × NodeId),
      (done ++ rem).Nodup → g.return_node ∉ done ++ rem →
      it = rem.head?.getD g.return_node → todo.Perm rem →
      todo.foldlM reorderStep (g.withOrder (done ++ rem), it) = some res →
      res.1 = g.withOrder (done ++ todo) := by
  intro todo
  induction todo with
  | nil =>
    intro done rem it res _ _ _ hperm h
    have hrem : rem = [] := List.Perm.eq_nil hperm.symm
    simp only [List.foldlM_nil, Option.pure_def, Option.some.injEq] at h
    rw [← h, hrem]
  | cons n todo ih =>
    intro done rem it res hnd hret hit hperm h
    obtain ⟨c, hc, hrest⟩ := foldlM_cons_some.mp h
    have hn_rem : n ∈ rem := hperm.subset (List.mem_cons_self _ _)
    obtain ⟨t, rem1, hrem⟩ : ∃ t rem1, rem = t :: rem1 := by
      cases rem with
      | nil => cases hn_rem
      | cons t rem1 => exact ⟨t, rem1, rfl⟩
    subst hrem
    have hit' : it = t := by simpa using hit
    subst hit'
    have hnd_app := List.nodup_append.mp hnd
    have hit_done : it ∉ done := fun hm => hnd_app.2.2 hm (List.mem_cons_self _ _)
    have hit_ret : it ≠ g.return_node := fun e =>
      hret (e ▸ List.mem_append_right _ (List.mem_cons_self _ _))
    by_cases hin : it = n
    · subst hin
      have hnext : (g.withOrder (done ++ it :: rem1)).next it
          = some (rem1.head?.getD g.return_node) :=
        @next_of_order (g.withOrder (done ++ it :: rem1)) done rem1 it rfl hnd hit_ret
      unfold reorderStep at hc
      simp only [ne_eq, not_true_eq_false, if_false, hnext, Option.bind_eq_bind,
        Option.some_bind, Option.pure_def, Option.some.injEq] at hc
      subst hc
      have := ih (done ++ [it]) rem1 _ res (by simpa using hnd) (by simpa using hret) rfl
        (List.Perm.cons_inv hperm) (by simpa using hrest)
      rw [this]
      simp
    · have hn_rem1 : n ∈ rem1 := by
        rcases List.mem_cons.mp hn_rem with e | h
        · exact absurd e.symm hin
        · exact h
      obtain ⟨a, b, hab⟩ := List.append_of_mem hn_rem1
      subst hab
      have hn_ret : n ≠ g.return_node := fun e =>
        hret (e ▸ List.mem_append_right _ (List.mem_cons_of_mem _ hn_rem1))
      have hord : done ++ it :: (a ++ n :: b) = (done ++ it :: a) ++ n :: b := by simp
      have hnd2 : ((done ++ it :: a) ++ n :: b).Nodup := hord ▸ hnd
      have hnd2' := List.nodup_append.mp hnd2
      have hn_pre : n ∉ done ++ it :: a := fun hm => hnd2'.2.2 hm (List.mem_cons_self _ _)
      have hn_post : n ∉ b := (List.nodup_cons.mp hnd2'.2.1).1
      have hrm : (g.withOrder (done ++ it :: (a ++ n :: b))).removeFromList n
          = some (g.withOrder (done ++ it :: (a ++ b))) := by
        unfold Graph.removeFromList
        have hc1 : (g.withOrder (done ++ it :: (a ++ n :: b))).order.contains n = true := by
          show (done ++ it :: (a ++ n :: b)).contains n = true
          simp
        rw [if_pos hc1]
        show some (g.withOrder ((done ++ it :: (a ++ n :: b)).filter _)) = _
        rw [hord, filter_ne_append hn_pre hn_post]
        simp
      have hgl : (g.withOrder (done ++ it :: (a ++ b))).inGraphList n = false := by
        refine @inGraphList_false (g.withOrder (done ++ it :: (a ++ b))) n hn_ret ?_
        show n ∉ done ++ it :: (a ++ b)
        intro hm
        rcases List.mem_append.mp hm with h | h
        · exact hn_pre (List.mem_append_left _ h)
        · rcases List.mem_cons.mp h with e | h
          · exact hin e.symm
          · rcases List.mem_append.mp h with h | h
            · exact hn_pre (List.mem_append_right _ (List.mem_cons_of_mem _ h))
            · exact hn_post h
      have hins := @insertBefore_mid_view (g.withOrder (done ++ it :: (a ++ b))) n it done
        (a ++ b) hgl hit_ret rfl hit_done
      unfold reorderStep at hc
      simp only [ne_eq, hin, not_false_eq_true, if_true, Graph.moveBefore, hrm,
        Option.bind_eq_bind, Option.some_bind, hins, Option.pure_def, Option.some.injEq] at hc
      subst hc
      have hperm' : todo.Perm (it :: (a ++ b)) := by
        have h1 : (it :: (a ++ n :: b)).Perm (n :: it :: (a ++ b)) := by
          have : it :: (a ++ n :: b) = (it :: a) ++ n :: b := rfl
          rw [this]
          exact List.perm_middle
        exact List.Perm.cons_inv (hperm.trans h1)
      have hnd3 : ((done ++ [n]) ++ it :: (a ++ b)).Nodup := by
        have h1 : ((done ++ [n]) ++ it :: (a ++ b)).Perm (done ++ it :: (a ++ n :: b)) := by
          have e1 : (done ++ [n]) ++ it :: (a ++ b) = done ++ n :: (it :: (a ++ b)) := by simp
          rw [e1]
          refine List.Perm.append_left done ?_
          have h2 : ((it :: a) ++ n :: b).Perm (n :: ((it :: a) ++ b)) := List.perm_middle
          exact h2.symm
        exact h1.nodup_iff.mpr hnd
      have hret3 : g.return_node ∉ (done ++ [n]) ++ it :: (a ++ b) := by
        intro hm
        apply hret
        simp only [List.mem_append, List.mem_cons, List.mem_singleton] at hm ⊢
        tauto
      have := ih (done ++ [n]) (it :: (a ++ b)) it res hnd3 hret3 rfl hperm'
        (by
          have e : (g.withOrder (done ++ it :: (a ++ b))).withOrder
              (done ++ n :: it :: (a ++ b)) = g.withOrder ((done ++ [n]) ++ it :: (a ++ b)) := by
            show g.withOrder _ = _
            simp
          rw [← e]
          exact hrest)
      rw [this]
      simp

/-! ### The sorted graph -/

theorem withOrder_self (g : Graph) : g.withOrder g.order = g := by
  cases g
  rfl

/-- Function `TopologicalSort` on a sortable graph: the tables stay, the node
list is permuted and every node comes after the producers of its inputs. -/
theorem topoSort_kahnable {g g' : Graph} (hk : g.Kahnable) (h : TopologicalSort g = some g') :
    ∃ out, g' = g.withOrder out ∧ out.Perm g.order ∧
      ∀ l1 x l2, out = l1 ++ x :: l2 → ∀ m ∈ g.preds x, m ∈ l1 := by
  rw [TopologicalSort_eq] at h
  obtain ⟨dmap, hd, h⟩ := bind_some_iff.mp h
  obtain ⟨wl, hw, h⟩ := bind_some_iff.mp h
  obtain ⟨out, hloop, h⟩ := bind_some_iff.mp h
  obtain ⟨bnd, hb, h⟩ := bind_some_iff.mp h
  obtain ⟨it, r, hit, hr, h⟩ : ∃ it r,
      (if bnd.kind = Kind.kUndefined then g.next (g.order.head?.getD g.return_node)
        else some (g.order.head?.getD g.return_node)) = some it ∧
      out.foldlM reorderStep (g, it) = some r ∧ r.1 = g' := by
    by_cases hkind : bnd.kind = Kind.kUndefined
    · simp only [hkind, if_true] at h ⊢
      obtain ⟨it, hit, h⟩ := bind_some_iff.mp h
      obtain ⟨r, hr, h⟩ := bind_some_iff.mp h
      simp only [Option.pure_def, Option.some.injEq] at h
      exact ⟨it, r, hit, hr, h⟩
    · simp only [hkind, if_false] at h ⊢
      obtain ⟨it, hit, h⟩ := bind_some_iff.mp h
      obtain ⟨r, hr, h⟩ := bind_some_iff.mp h
      simp only [Option.pure_def, Option.some.injEq] at h
      exact ⟨it, r, hit, hr, h⟩
  obtain ⟨dmap', hinv⟩ := kahn_loop hk g.fuel dmap wl [] out (kahn_init hk hd hw) hloop
  obtain ⟨hperm, hsorted⟩ := kahn_complete hk hinv
  have hit' : it = g.order.head?.getD g.return_node := by
    cases hord : g.order with
    | nil =>
      rw [hord] at hb hit
      simp only [List.head?_nil, Option.getD_none] at hb hit ⊢
      by_cases hkind : bnd.kind = Kind.kUndefined
      · rw [if_pos hkind] at hit
        unfold Graph.next at hit
        simp only [if_true, hord, List.head?_nil, Option.getD_none, Option.some.injEq] at hit
        exact hit.symm
      · rw [if_neg hkind] at hit
        exact (Option.some.inj hit).symm
    | cons x rest =>
      rw [hord] at hb hit
      simp only [List.head?_cons, Option.getD_some] at hb hit ⊢
      obtain ⟨nd, hn, hkind, _⟩ := hk.node x (by rw [hord]; exact List.mem_cons_self _ _)
      rw [hn] at hb
      cases hb
      rw [if_neg hkind] at hit
      exact (Option.some.inj hit).symm
  have hres := reorder_perm g out [] g.order it r (by simpa using hk.nodup)
    (by simpa using hk.ret) hit' hperm (by
      rw [List.nil_append, withOrder_self]
      exact hr)
  refine ⟨out, ?_, hperm, hsorted⟩
  rw [← h, hres, List.nil_append]

theorem order_split_at (l : List NodeId) (i : Nat) (hi : i < l.length) :
    l = l.take i ++ l[i] :: l.drop (i + 1) := by
  rw [← List.drop_eq_getElem_cons hi, List.take_append_drop]

/-- A node list in which every node is defined, reads values that exist and
comes after those producers of its inputs that are in the list is in
topological order. -/
theorem inTopologicalOrder_of_sorted {g : Graph}
    (hnode : ∀ x ∈ g.order, ∃ nd, g.node? x = some nd)
    (hval : ∀ x ∈ g.order, ∀ nd, g.node? x = some nd → ∀ w ∈ nd.inputs,
      ∃ val, g.value? w = some val)
    (hs : ∀ l1 x l2, g.order = l1 ++ x :: l2 → ∀ m ∈ g.preds x, m ∈ l1 ∨ m ∉ g.order) :
    g.inTopologicalOrder = true := by
  unfold Graph.inTopologicalOrder
  rw [List.all_eq_true]
  intro i hi
  have hi' : i < g.order.length := List.mem_range.mp hi
  have hx : g.order[i] ∈ g.order := List.getElem_mem hi'
  rw [List.getElem?_eq_getElem hi']
  obtain ⟨nd, hn⟩ := hnode _ hx
  simp only [hn]
  rw [List.all_eq_true]
  intro w hw
  obtain ⟨val, hv⟩ := hval _ hx nd hn w hw
  simp only [hv]
  cases hp : val.node with
  | none => rfl
  | some p =>
    simp only
    have hpm : p ∈ g.preds g.order[i] := by
      unfold Graph.preds
      rw [hn]
      exact List.mem_filterMap.mpr ⟨w, hw, by rw [hv]; exact hp⟩
    rcases hs _ _ _ (order_split_at g.order i hi') p hpm with h | h
    · simp [h]
    · simp [h]

/-! ### `TopologicalSort` returns -/

theorem foldlM_some_of_steps {α β : Type} (f : β → α → Option β) :
    ∀ (l : List α) (b : β), (∀ a ∈ l, ∀ x, ∃ y, f x a = some y) →
      ∃ b', l.foldlM f b = some b' := by
  intro l
  induction l with
  | nil => intro b _; exact ⟨b, rfl⟩
  | cons a l ih =>
    intro b h
    obtain ⟨c, hc⟩ := h a (List.mem_cons_self _ _) b
    obtain ⟨b', hb'⟩ := ih c (fun a' ha' => h a' (List.mem_cons_of_mem _ ha'))
    exact ⟨b', foldlM_cons_some.mpr ⟨c, hc, hb'⟩⟩

/-- On a sortable graph `BuildDegreeMap` returns. -/
theorem buildDegree_some {g : Graph} (hk : g.Kahnable) : ∃ dmap, BuildDegreeMap g = some dmap := by
  rw [BuildDegreeMap_eq]
  apply foldlM_some_of_steps
  intro a ha dmap
  obtain ⟨nd, hn, hkind, hlen, _⟩ := hk.node a ha
  have hin : ∀ w ∈ nd.inputs, ∃ val, g.value? w = some val := by
    intro w hw
    obtain ⟨val, hv, _⟩ := hk.input a ha nd hn w hw
    exact ⟨val, hv⟩
  unfold degreeStep
  rw [hn]
  simp only [Option.bind_eq_bind, Option.some_bind, if_neg hkind, degreeCount_preds hn hin hlen,
    Option.pure_def]
  exact ⟨_, rfl⟩

/-- On a sortable graph the worklist is filled. -/
theorem initWorklist_some {g : Graph} (hk : g.Kahnable) (dmap : DegreeMap) :
    ∃ wl, initWorklist g dmap = some wl := by
  rw [initWorklist_eq]
  apply foldlM_some_of_steps
  intro a ha wl
  obtain ⟨nd, hn, hkind, _, _⟩ := hk.node a ha
  unfold worklistStep
  rw [hn]
  simp only [Option.bind_eq_bind, Option.some_bind, if_neg hkind]
  by_cases hz : (dmap.lookup a).getD 0 = 0
  · rw [if_pos hz]
    exact ⟨_, rfl⟩
  · rw [if_neg hz]
    exact ⟨_, rfl⟩

theorem updateUses_total (g : Graph) :
    ∀ (uses : List Use) (st : DegreeMap × List NodeId),
      (∀ u ∈ uses, ∃ un, g.node? u.user = some un) →
      uses.foldlM (updateUse g) st =
        ((uses.map Use.user).filter g.counted).foldlM lowerDegree st := by
  intro uses
  induction uses with
  | nil => intro st _; rfl
  | cons u uses ih =>
    intro st h
    obtain ⟨un, hun⟩ := h u (List.mem_cons_self _ _)
    have ih' := fun st' => ih st' (fun u' hu' => h u' (List.mem_cons_of_mem _ hu'))
    rw [List.foldlM_cons, List.map_cons, List.filter_cons]
    by_cases hkind : un.kind = Kind.kReturn
    · have hcnt : g.counted u.user = false := by
        unfold Graph.counted
        rw [hun]
        simp [hkind]
      have hstep : updateUse g st u = some st := by
        unfold updateUse
        rw [hun]
        simp only [Option.bind_eq_bind, Option.some_bind, if_pos hkind, Option.pure_def]
      rw [hstep]
      simp only [hcnt, Bool.false_eq_true, if_false, Option.bind_eq_bind, Option.some_bind]
      exact ih' st
    · have hcnt : g.counted u.user = true := by
        unfold Graph.counted
        rw [hun]
        simp [hkind]
      have hstep : updateUse g st u = lowerDegree st u.user := by
        unfold updateUse lowerDegree
        rw [hun]
        simp only [Option.bind_eq_bind, Option.some_bind, if_neg hkind, Option.pure_def]
      rw [hstep]
      simp only [hcnt, if_true, List.foldlM_cons]
      cases lowerDegree st u.user with
      | none => rfl
      | some c =>
        simp only [Option.bind_eq_bind, Option.some_bind]
        exact ih' c

theorem updateValues_total (g : Graph) :
    ∀ (outs : List ValueId) (st : DegreeMap × List NodeId),
      (∀ v ∈ outs, ∃ val, g.value? v = some val ∧
        ∀ u ∈ val.uses, ∃ un, g.node? u.user = some un) →
      outs.foldlM (updateValue g) st =
        ((outs.flatMap g.valueUsers).filter g.counted).foldlM lowerDegree st := by
  intro outs
  induction outs with
  | nil => intro st _; rfl
  | cons v outs ih =>
    intro st h
    obtain ⟨val, hv, hu⟩ := h v (List.mem_cons_self _ _)
    have ih' := fun st' => ih st' (fun v' hv' => h v' (List.mem_cons_of_mem _ hv'))
    have hvu : g.valueUsers v = val.uses.map Use.user := by
      unfold Graph.valueUsers
      rw [hv]
    have hstep : updateValue g st v =
        ((val.uses.map Use.user).filter g.counted).foldlM lowerDegree st := by
      unfold updateValue
      rw [hv]
      simp only [Option.bind_eq_bind, Option.some_bind]
      exact updateUses_total g val.uses st hu
    rw [List.foldlM_cons, List.flatMap_cons, List.filter_append, List.foldlM_append, hstep, hvu]
    cases ((val.uses.map Use.user).filter g.counted).foldlM lowerDegree st with
    | none => rfl
    | some c =>
      simp only [Option.bind_eq_bind, Option.some_bind]
      exact ih' c

/-- On a sortable graph `updateDegrees` of a node of the list lowers the
degree of its users, once for each use. -/
theorem updateDegrees_total {g : Graph} (hk : g.Kahnable) {n : NodeId} (hn : n ∈ g.order)
    (dmap : DegreeMap) (wl : List NodeId) :
    updateDegrees g n dmap wl = (g.users n).foldlM lowerDegree (dmap, wl) := by
  obtain ⟨nd, hnd, _⟩ := hk.node n hn
  rw [updateDegrees_eq, hnd, Option.some_bind]
  unfold Graph.users
  rw [hnd]
  exact updateValues_total g nd.outputs (dmap, wl) (hk.uses n hn nd hnd)

theorem lower_some :
    ∀ (l : List NodeId) (st : DegreeMap × List NodeId),
      (∀ x ∈ l, ∃ d, st.1.lookup x = some d) → ∃ r, l.foldlM lowerDegree st = some r := by
  intro l
  induction l with
  | nil => intro st _; exact ⟨st, rfl⟩
  | cons a l ih =>
    intro st h
    obtain ⟨d, hd⟩ := h a (List.mem_cons_self _ _)
    have hstep : lowerDegree st a = some (tableSet st.1 a ((d + UNSIGNED - 1) % UNSIGNED),
        if (d + UNSIGNED - 1) % UNSIGNED = 0 then a :: st.2 else st.2) := by
      unfold lowerDegree
      rw [hd]
      rfl
    obtain ⟨r, hr⟩ := ih (tableSet st.1 a ((d + UNSIGNED - 1) % UNSIGNED),
        if (d + UNSIGNED - 1) % UNSIGNED = 0 then a :: st.2 else st.2) (by
      intro x hx
      obtain ⟨dx, hdx⟩ := h x (List.mem_cons_of_mem _ hx)
      by_cases hxa : x = a
      · subst hxa
        exact ⟨_, lookup_tableSet_self _ _ _ _ hdx⟩
      · exact ⟨dx, by rw [lookup_tableSet_ne _ _ _ _ hxa]; exact hdx⟩)
    exact ⟨r, foldlM_cons_some.mpr ⟨_, hstep, hr⟩⟩

/-- Kahn's loop returns when the fuel covers the nodes that are not yet in
the output. -/
theorem kahn_loop_some {g : Graph} (hk : g.Kahnable) :
    ∀ (fuel : Nat) (dmap : DegreeMap) (wl out : List NodeId),
      KahnInv g (dmap, wl, out) → g.order.length + 1 ≤ fuel + out.length →
      ∃ res, topoLoop g fuel (dmap, wl, out) = some res := by
  intro fuel
  induction fuel with
  | zero =>
    intro dmap wl out hinv hf
    exfalso
    have hsub : out ++ wl ⊆ g.order := fun x hx => hinv.mem x hx
    have hle := (List.subperm_of_subset hinv.nodup hsub).length_le
    have hle' : out.length + wl.length ≤ g.order.length := by
      rw [← List.length_append]
      exact hle
    omega
  | succ fuel ih =>
    intro dmap wl out hinv hf
    cases wl with
    | nil => exact ⟨out, by simp [topoLoop]⟩
    | cons n wl =>
      have hn : n ∈ g.order :=
        hinv.mem n (List.mem_append_right _ (List.mem_cons_self _ _))
      obtain ⟨r, hr⟩ : ∃ r, updateDegrees g n dmap wl = some r := by
        rw [updateDegrees_total hk hn]
        apply lower_some
        intro x hx
        exact ⟨_, hinv.degree x (hk.users n hn x hx)⟩
      have hinv' := kahn_step hk hinv hr
      obtain ⟨res, hres⟩ := ih r.1 r.2 (out ++ [n]) hinv' (by
        rw [List.length_append, List.length_singleton]
        omega)
      refine ⟨res, ?_⟩
      rw [topoLoop, hr]
      exact hres

/-- The reordering loop of `TopologicalSort` returns, with the node list
`done ++ todo`. -/
theorem reorder_total (g : Graph) :
    ∀ (todo done rem : List NodeId) (it : NodeId),
      (done ++ rem).Nodup → g.return_node ∉ done ++ rem →
      it = rem.head?.getD g.return_node → todo.Perm rem →
      ∃ it', todo.foldlM reorderStep (g.withOrder (done ++ rem), it)
        = some (g.withOrder (done ++ todo), it') := by
  intro todo
  induction todo with
  | nil =>
    intro done rem it _ _ _ hperm
    have hrem : rem = [] := List.Perm.eq_nil hperm.symm
    subst hrem
    exact ⟨it, rfl⟩
  | cons n todo ih =>
    intro done rem it hnd hret hit hperm
    have hn_rem : n ∈ rem := hperm.subset (List.mem_cons_self _ _)
    obtain ⟨t, rem1, hrem⟩ : ∃ t rem1, rem = t :: rem1 := by
      cases rem with
      | nil => cases hn_rem
      | cons t rem1 => exact ⟨t, rem1, rfl⟩
    subst hrem
    have hit' : it = t := by simpa using hit
    subst hit'
    have hnd_app := List.nodup_append.mp hnd
    have hit_done : it ∉ done := fun hm => hnd_app.2.2 hm (List.mem_cons_self _ _)
    have hit_ret : it ≠ g.return_node := fun e =>
      hret (e ▸ List.mem_append_right _ (List.mem_cons_self _ _))
    by_cases hin : it = n
    · subst hin
      have hnext : (g.withOrder (done ++ it :: rem1)).next it
          = some (rem1.head?.getD g.return_node) :=
        @next_of_order (g.withOrder (done ++ it :: rem1)) done rem1 it rfl hnd hit_ret
      have hc : reorderStep (g.withOrder (done ++ it :: rem1), it) it
          = some (g.withOrder (done ++ it :: rem1), rem1.head?.getD g.return_node) := by
        unfold reorderStep
        simp only [ne_eq, not_true_eq_false, if_false, hnext, Option.bind_eq_bind,
          Option.some_bind, Option.pure_def]
      obtain ⟨it', hrest⟩ := ih (done ++ [it]) rem1 (rem1.head?.getD g.return_node)
        (by simpa using hnd) (by simpa using hret) rfl (List.Perm.cons_inv hperm)
      refine ⟨it', foldlM_cons_some.mpr ⟨_, hc, ?_⟩⟩
      have e1 : (done ++ [it]) ++ rem1 = done ++ it :: rem1 := by simp
      have e2 : (done ++ [it]) ++ todo = done ++ it :: todo := by simp
      rw [e1, e2] at hrest
      exact hrest
    · have hn_rem1 : n ∈ rem1 := by
        rcases List.mem_cons.mp hn_rem with e | h
        · exact absurd e.symm hin
        · exact h
      obtain ⟨a, b, hab⟩ := List.append_of_mem hn_rem1
      subst hab
      have hn_ret : n ≠ g.return_node := fun e =>
        hret (e ▸ List.mem_append_right _ (List.mem_cons_of_mem _ hn_rem1))
      have hord : done ++ it :: (a ++ n :: b) = (done ++ it :: a) ++ n :: b := by simp
      have hnd2 : ((done ++ it :: a) ++ n :: b).Nodup := hord ▸ hnd
      have hnd2' := List.nodup_append.mp hnd2
      have hn_pre : n ∉ done ++ it :: a := fun hm => hnd2'.2.2 hm (List.mem_cons_self _ _)
      have hn_post : n ∉ b := (List.nodup_cons.mp hnd2'.2.1).1
      have hrm : (g.withOrder (done ++ it :: (a ++ n :: b))).removeFromList n
          = some (g.withOrder (done ++ it :: (a ++ b))) := by
        unfold Graph.removeFromList
        have hc1 : (g.withOrder (done ++ it :: (a ++ n :: b))).order.contains n = true := by
          show (done ++ it :: (a ++ n :: b)).contains n = true
          simp
        rw [if_pos hc1]
        show some (g.withOrder ((done ++ it :: (a ++ n :: b)).filter _)) = _
        rw [hord, filter_ne_append hn_pre hn_post]
        simp
      have hgl : (g.withOrder (done ++ it :: (a ++ b))).inGraphList n = false := by
        refine @inGraphList_false (g.withOrder (done ++ it :: (a ++ b))) n hn_ret ?_
        show n ∉ done ++ it :: (a ++ b)
        intro hm
        rcases List.mem_append.mp hm with h | h
        · exact hn_pre (List.mem_append_left _ h)
        · rcases List.mem_cons.mp h with e | h
          · exact hin e.symm
          · rcases List.mem_append.mp h with h | h
            · exact hn_pre (List.mem_append_right _ (List.mem_cons_of_mem _ h))
            · exact hn_post h
      have hins := @insertBefore_mid_view (g.withOrder (done ++ it :: (a ++ b))) n it done
        (a ++ b) hgl hit_ret rfl hit_done
      have hc : reorderStep (g.withOrder (done ++ it :: (a ++ n :: b)), it) n
          = some ((g.withOrder (done ++ it :: (a ++ b))).withOrder
              (done ++ n :: it :: (a ++ b)), it) := by
        unfold reorderStep
        simp only [ne_eq, hin, not_false_eq_true, if_true, Graph.moveBefore, hrm,
          Option.bind_eq_bind, Option.some_bind, hins, Option.pure_def]
      have hperm' : todo.Perm (it :: (a ++ b)) := by
        have h1 : (it :: (a ++ n :: b)).Perm (n :: it :: (a ++ b)) := by
          have : it :: (a ++ n :: b) = (it :: a) ++ n :: b := rfl
          rw [this]
          exact List.perm_middle
        exact List.Perm.cons_inv (hperm.trans h1)
      have hnd3 : ((done ++ [n]) ++ it :: (a ++ b)).Nodup := by
        have h1 : ((done ++ [n]) ++ it :: (a ++ b)).Perm (done ++ it :: (a ++ n :: b)) := by
          have e1 : (done ++ [n]) ++ it :: (a ++ b) = done ++ n :: (it :: (a ++ b)) := by simp
          rw [e1]
          refine List.Perm.append_left done ?_
          have h2 : ((it :: a) ++ n :: b).Perm (n :: ((it :: a) ++ b)) := List.perm_middle
          exact h2.symm
        exact h1.nodup_iff.mpr hnd
      have hret3 : g.return_node ∉ (done ++ [n]) ++ it :: (a ++ b) := by
        intro hm
        apply hret
        simp only [List.mem_append, List.mem_cons, List.mem_singleton] at hm ⊢
        tauto
      obtain ⟨it', hrest⟩ := ih (done ++ [n]) (it :: (a ++ b)) it hnd3 hret3 rfl hperm'
      refine ⟨it', foldlM_cons_some.mpr ⟨_, hc, ?_⟩⟩
      have e : (g.withOrder (done ++ it :: (a ++ b))).withOrder
          (done ++ n :: it :: (a ++ b)) = g.withOrder ((done ++ [n]) ++ it :: (a ++ b)) := by
        show g.withOrder _ = _
        simp
      have e2 : (done ++ [n]) ++ todo = done ++ n :: todo := by simp
      rw [e, ← e2]
      exact hrest

/-- Function `TopologicalSort` on a sortable graph returns the graph with the
node list that Kahn's loop puts out, a permutation of the node list in which
every node comes after the producers of its inputs. -/
theorem topoSort_total {g : Graph} (hk : g.Kahnable) :
    ∃ dmap wl out, BuildDegreeMap g = some dmap ∧ initWorklist g dmap = some wl ∧
      topoLoop g g.fuel (dmap, wl, []) = some out ∧
      TopologicalSort g = some (g.withOrder out) ∧ out.Perm g.order ∧
      ∀ l1 x l2, out = l1 ++ x :: l2 → ∀ m ∈ g.preds x, m ∈ l1 := by
  obtain ⟨dmap, hd⟩ := buildDegree_some hk
  obtain ⟨wl, hw⟩ := initWorklist_some hk dmap
  have hinv := kahn_init hk hd hw
  have hfuel : g.order.length + 1 ≤ g.fuel :=
    length_lt_fuel hk.nodup (fun x hx => (hk.node x hx).imp (fun nd h => h.1))
  obtain ⟨out, hloop⟩ := kahn_loop_some hk g.fuel dmap wl [] hinv (by simpa using hfuel)
  obtain ⟨dmap', hinv'⟩ := kahn_loop hk g.fuel dmap wl [] out hinv hloop
  obtain ⟨hperm, hsorted⟩ := kahn_complete hk hinv'
  refine ⟨dmap, wl, out, hd, hw, hloop, ?_, hperm, hsorted⟩
  obtain ⟨bnd, hb, hit⟩ : ∃ bnd, g.node? (g.order.head?.getD g.return_node) = some bnd ∧
      (if bnd.kind = Kind.kUndefined then g.next (g.order.head?.getD g.return_node)
        else some (g.order.head?.getD g.return_node))
        = some (g.order.head?.getD g.return_node) := by
    cases hord : g.order with
    | nil =>
      obtain ⟨rn, hrn⟩ := hk.retNode
      refine ⟨rn, by simpa using hrn, ?_⟩
      simp only [List.head?_nil, Option.getD_none]
      by_cases hkind : rn.kind = Kind.kUndefined
      · rw [if_pos hkind]
        unfold Graph.next
        simp [hord]
      · rw [if_neg hkind]
    | cons x rest =>
      obtain ⟨nd, hn, hkind, _⟩ := hk.node x (by rw [hord]; exact List.mem_cons_self _ _)
      refine ⟨nd, by simpa using hn, ?_⟩
      simp only [List.head?_cons, Option.getD_some]
      rw [if_neg hkind]
  obtain ⟨it', hre⟩ := reorder_total g out [] g.order (g.order.head?.getD g.return_node)
    (by simpa using hk.nodup) (by simpa using hk.ret) rfl hperm
  rw [List.nil_append, withOrder_self, List.nil_append] at hre
  rw [TopologicalSort_eq, hd]
  simp only [Option.bind_eq_bind, Option.some_bind, hw, hloop, hb, Option.pure_def]
  by_cases hkind : bnd.kind = Kind.kUndefined
  · rw [if_pos hkind] at hit ⊢
    rw [hit, Option.some_bind, hre, Option.some_bind]
  · rw [if_neg hkind, hre, Option.some_bind]

/-! ## The states of a split graph

### Tables with distinct keys -/

theorem tableSet_of_not_mem {α : Type} (t : List (Nat × α)) (k : Nat) (a : α)
    (h : k ∉ t.map Prod.fst) : tableSet t k a = t := by
  induction t with
  | nil => rfl
  | cons p t ih =>
    obtain ⟨pk, pv⟩ := p
    simp only [List.map_cons, List.mem_cons, not_or] at h
    have hne : ¬ pk = k := fun e => h.1 e.symm
    show (if pk = k then (k, a) else (pk, pv)) :: tableSet t k a = _
    rw [if_neg hne, ih h.2]

theorem map_tableSet {α β : Type} (G : Nat × α → β) (t : List (Nat × α)) (k : Nat) (a b : α)
    (hk : (t.map Prod.fst).Nodup) (hl : t.lookup k = some b) (hG : G (k, a) = G (k, b)) :
    (tableSet t k a).map G = t.map G := by
  induction t with
  | nil => rfl
  | cons p t ih =>
    obtain ⟨pk, pv⟩ := p
    simp only [List.map_cons, List.nodup_cons] at hk
    by_cases hpk : pk = k
    · subst hpk
      simp only [List.lookup_cons, beq_self_eq_true, Option.some.injEq] at hl
      subst hl
      show G (if pk = pk then (pk, a) else (pk, pv)) :: (tableSet t pk a).map G = _
      rw [if_pos rfl, hG, tableSet_of_not_mem t pk a hk.1]
      rfl
    · have h1 : (k == pk) = false := by
        simpa using (fun e : k = pk => hpk e.symm)
      simp only [List.lookup_cons, h1] at hl
      show G (if pk = k then (k, a) else (pk, pv)) :: (tableSet t k a).map G = _
      rw [if_neg hpk, ih hk.2 hl]
      rfl

theorem tableSet_same {α : Type} (t : List (Nat × α)) (k : Nat) (a : α)
    (hk : (t.map Prod.fst).Nodup) (hl : t.lookup k = some a) : tableSet t k a = t := by
  have h := map_tableSet (fun p => p) t k a a hk hl rfl
  simpa using h

theorem map_fst_tableSet {α : Type} (t : List (Nat × α)) (k : Nat) (a : α) :
    (tableSet t k a).map Prod.fst = t.map Prod.fst := by
  induction t with
  | nil => rfl
  | cons p t ih =>
    obtain ⟨pk, pv⟩ := p
    show (if pk = k then (k, a) else (pk, pv)).1 :: (tableSet t k a).map Prod.fst = _
    rw [ih]
    by_cases hpk : pk = k
    · rw [if_pos hpk, hpk]
      rfl
    · rw [if_neg hpk]
      rfl

/-! ### `splitNodeBySize` changes tiles only -/

theorem splitNodeBySize_succ (g : Graph) (fuel : Nat) (sg : SplitGraph) (pN : NodeId)
    (pNewOutSize : LongInts) (pUpdateUpper : Bool) :
    SplitGraph.splitNodeBySize g (fuel + 1) sg pN pNewOutSize pUpdateUpper =
      (sg.getSplitNode pN).bind (fun ns =>
        if pUpdateUpper = false then
          some ({ sg with
                    m_SplitNodes := tableSet sg.m_SplitNodes pN (ns.useNewOutSize pNewOutSize).1 },
                true)
        else
          (g.node? ns.m_Node).bind (fun nd =>
            (List.range (nd.inputs.length % UNSIGNED)).foldlM
              (fun (st : SplitGraph × Bool) i =>
                (nd.inputs[i]?).bind (fun v => (g.value? v).bind (fun val =>
                  match val.node with
                  | none => some st
                  | some child => (g.node? child).bind (fun cnd =>
                      if cnd.kind = Kind.kParam then some st
                      else (st.1.getSplitNode pN).bind (fun ns1 =>
                        (ns1.calNewInputSize g i).bind (fun newInS =>
                          (SplitGraph.splitNodeBySize g fuel st.1 child newInS true).bind
                            (fun r1 => some (r1.1, st.2 && r1.2))))))))
              ({ sg with
                    m_SplitNodes := tableSet sg.m_SplitNodes pN (ns.useNewOutSize pNewOutSize).1 },
                true))) := by
  rw [SplitGraph.splitNodeBySize]
  cases hns : sg.getSplitNode pN with
  | none => rfl
  | some ns =>
    cases pUpdateUpper with
    | false => rfl
    | true =>
      simp only [Option.bind_eq_bind, Option.some_bind, SplitNode.useNewOutSize, Bool.not_true,
        Bool.false_eq_true, if_false, Option.pure_def]
      cases hnd : g.node? ns.m_Node with
      | none => rfl
      | some nd =>
        rfl

/-- A call of `splitNodeBySize` on a split graph with distinct keys changes
nothing but the proposed sizes of split nodes. -/
theorem splitNodeBySize_resetNodes (g : Graph) :
    ∀ (fuel : Nat) (sg : SplitGraph) (pN : NodeId) (S : LongInts) (up : Bool)
      (r : SplitGraph × Bool), (sg.m_SplitNodes.map Prod.fst).Nodup →
      SplitGraph.splitNodeBySize g fuel sg pN S up = some r →
      r.1.resetNodes = sg.resetNodes := by
  intro fuel
  induction fuel with
  | zero =>
    intro sg pN S up r _ h
    rw [SplitGraph.splitNodeBySize] at h
    cases h
  | succ fuel ih =>
    intro sg pN S up r hk h
    rw [splitNodeBySize_succ] at h
    obtain ⟨ns, hns, h⟩ := bind_some_iff.mp h
    have h1 : ({ sg with
                  m_SplitNodes := tableSet sg.m_SplitNodes pN (ns.useNewOutSize S).1 }
                : SplitGraph).resetNodes = sg.resetNodes := by
      unfold SplitGraph.resetNodes
      have e := map_tableSet (fun p : Nat × SplitNode => (p.1, p.2.resetSize)) sg.m_SplitNodes pN
        (ns.useNewOutSize S).1 ns hk hns rfl
      simp only [e]
    by_cases hup : up = false
    · rw [if_pos hup] at h
      cases h
      exact h1
    · rw [if_neg hup] at h
      obtain ⟨nd, _, h⟩ := bind_some_iff.mp h
      refine foldlM_invariant _ (fun st : SplitGraph × Bool => st.1.resetNodes = sg.resetNodes)
        _ _ r h1 ?_ h
      intro x y i _ hx hstep
      obtain ⟨v, _, hstep⟩ := bind_some_iff.mp hstep
      obtain ⟨val, _, hstep⟩ := bind_some_iff.mp hstep
      cases hc : val.node with
      | none =>
        rw [hc] at hstep
        cases hstep
        exact hx
      | some child =>
        rw [hc] at hstep
        obtain ⟨cnd, _, hstep⟩ := bind_some_iff.mp hstep
        by_cases hkind : cnd.kind = Kind.kParam
        · rw [if_pos hkind] at hstep
          cases hstep
          exact hx
        · rw [if_neg hkind] at hstep
          obtain ⟨ns1, _, hstep⟩ := bind_some_iff.mp hstep
          obtain ⟨newInS, _, hstep⟩ := bind_some_iff.mp hstep
          obtain ⟨r1, hr1, hstep⟩ := bind_some_iff.mp hstep
          cases hstep
          have hkx : (x.1.m_SplitNodes.map Prod.fst).Nodup := by
            have e : x.1.m_SplitNodes.map Prod.fst = sg.m_SplitNodes.map Prod.fst := by
              have := congrArg (fun s : SplitGraph => s.m_SplitNodes.map Prod.fst) hx
              simpa [SplitGraph.resetNodes, List.map_map, Function.comp] using this
            rw [e]
            exact hk
          exact (ih x.1 child newInS true r1 hkx hr1).trans hx

/-! ### The construction of a split graph -/

theorem SplitNode.new_sizes {g : Graph} {n : NodeId} {b : Bool} {sn : SplitNode}
    (h : SplitNode.new g n b = some sn) : sn.m_NewOutSizes = sn.m_OutSizes := by
  unfold SplitNode.new at h
  obtain ⟨nd, _, h⟩ := bind_some_iff.mp h
  obtain ⟨out, _, h⟩ := bind_some_iff.mp h
  cases h
  rfl

/-- A split node that the factory returns proposes its original size. -/
theorem SplitNodeCreator_sizes {T : Target} {g : Graph} {n : NodeId} {sn : SplitNode}
    (h : SplitNodeCreator T g n = some sn) : sn.m_NewOutSizes = sn.m_OutSizes := by
  unfold SplitNodeCreator at h
  obtain ⟨nd, hnd, h⟩ := bind_some_iff.mp h
  split at h
  · exact SplitNode.new_sizes h
  · split at h
    · exact SplitNode.new_sizes h
    · split at h
      · unfold SplitConv at h
        obtain ⟨sn0, h0, h⟩ := bind_some_iff.mp h
        obtain ⟨nd', _, h⟩ := bind_some_iff.mp h
        split at h
        · cases h
          exact @SplitNode.new_sizes g n false sn0 h0
        · cases h
      · split at h
        · unfold SplitPool at h
          obtain ⟨sn0, h0, h⟩ := bind_some_iff.mp h
          obtain ⟨nd', _, h⟩ := bind_some_iff.mp h
          split at h
          · cases h
            exact @SplitNode.new_sizes g n false sn0 h0
          · cases h
        · split at h
          · unfold SplitGemm at h
            obtain ⟨sn0, h0, h⟩ := bind_some_iff.mp h
            cases h
            exact @SplitNode.new_sizes g n false sn0 h0
          · split at h
            · unfold SplitReshape at h
              obtain ⟨sn0, h0, h⟩ := bind_some_iff.mp h
              cases h
              exact @SplitNode.new_sizes g n false sn0 h0
            · cases h

theorem lookup_eq_none_of_not_mem {α : Type} (t : List (Nat × α)) (k : Nat)
    (h : t.lookup k = none) : k ∉ t.map Prod.fst := by
  induction t with
  | nil => simp
  | cons p t ih =>
    obtain ⟨pk, pv⟩ := p
    by_cases hk : k = pk
    · subst hk
      simp [List.lookup_cons] at h
    · have h1 : (k == pk) = false := by simpa using hk
      simp only [List.lookup_cons, h1] at h
      simp only [List.map_cons, List.mem_cons, not_or]
      exact ⟨hk, ih h⟩

theorem mapInsert_keys {α : Type} (m : List (Nat × α)) (k : Nat) (a : α)
    (h : (m.map Prod.fst).Nodup) : ((mapInsert m k a).map Prod.fst).Nodup := by
  unfold mapInsert
  cases hl : m.lookup k with
  | some b =>
    simp only [Option.isSome_some, if_true]
    rw [map_fst_tableSet]
    exact h
  | none =>
    simp only [Option.isSome_none, Bool.false_eq_true, if_false, List.map_append, List.map_cons,
      List.map_nil]
    apply List.Nodup.append h (List.nodup_singleton _)
    intro x hx hx'
    rw [List.mem_singleton] at hx'
    subst hx'
    exact lookup_eq_none_of_not_mem m x hl hx

theorem mem_tableSet {α : Type} {t : List (Nat × α)} {k : Nat} {a : α} {p : Nat × α}
    (h : p ∈ tableSet t k a) : p ∈ t ∨ p = (k, a) := by
  unfold tableSet at h
  obtain ⟨q, hq, rfl⟩ := List.mem_map.mp h
  by_cases hk : q.1 = k
  · rw [if_pos hk]
    exact Or.inr rfl
  · rw [if_neg hk]
    exact Or.inl hq

theorem mem_mapInsert {α : Type} {m : List (Nat × α)} {k : Nat} {a : α} {p : Nat × α}
    (h : p ∈ mapInsert m k a) : p ∈ m ∨ p = (k, a) := by
  unfold mapInsert at h
  split at h
  · exact mem_tableSet h
  · rcases List.mem_append.mp h with h | h
    · exact Or.inl h
    · exact Or.inr (List.mem_singleton.mp h)

/-- One step of `rebuildSplitNodes` keeps the state well built. -/
theorem rebuildStep_built {T : Target} {g : Graph} {sg sg' : SplitGraph} {n : NodeId}
    (hb : sg.Built) (h : SplitGraph.rebuildStep T g sg n = some sg') : sg'.Built := by
  unfold SplitGraph.rebuildStep at h
  obtain ⟨nd, _, h⟩ := bind_some_iff.mp h
  split at h
  · cases h
    exact hb
  · obtain ⟨sn, hsn, h⟩ := bind_some_iff.mp h
    have hsz := SplitNodeCreator_sizes hsn
    have hkeys := mapInsert_keys sg.m_SplitNodes n sn hb.keys
    have hsizes : ∀ p ∈ mapInsert sg.m_SplitNodes n sn, p.2.m_NewOutSizes = p.2.m_OutSizes := by
      intro p hp
      rcases mem_mapInsert hp with hp | hp
      · exact hb.sizes p hp
      · subst hp
        exact hsz
    split at h
    · cases h
      refine ⟨hkeys, hsizes, ?_, ?_⟩
      · show sg.m_CurSplitAxis ++ [0] = List.replicate (sg.m_Stores ++ [n]).length 0
        rw [hb.axis, List.length_append, List.length_singleton, List.replicate_succ']
      · show sg.m_CurSplitFactor ++ [1] = List.replicate (sg.m_Stores ++ [n]).length 1
        rw [hb.factor, List.length_append, List.length_singleton, List.replicate_succ']
    · cases h
      exact SplitGraph.Built.mk hkeys hsizes hb.axis hb.factor

/-- The constructor of a split graph leaves it well built. -/
theorem SplitGraph.new_built {T : Target} {g : Graph} {id : GraphId} {sg0 : SplitGraph}
    (h : SplitGraph.new T g id = some sg0) : sg0.Built := by
  unfold SplitGraph.new SplitGraph.rebuildSplitNodes at h
  refine foldlM_invariant _ SplitGraph.Built _ _ sg0 ?_ ?_ h
  · exact ⟨List.nodup_nil, fun _ hp => (by cases hp), rfl, rfl⟩
  · intro x y a _ hx hstep
    exact rebuildStep_built hx hstep

theorem built_resetNodes {sg : SplitGraph} (hb : sg.Built) : sg.resetNodes = sg := by
  unfold SplitGraph.resetNodes
  have : sg.m_SplitNodes.map (fun p => (p.1, p.2.resetSize)) = sg.m_SplitNodes := by
    have h1 : ∀ p ∈ sg.m_SplitNodes, (fun p : Nat × SplitNode => (p.1, p.2.resetSize)) p = p := by
      intro p hp
      have := hb.sizes p hp
      obtain ⟨k, sn⟩ := p
      simp only [SplitNode.resetSize]
      cases sn
      simp only at this
      subst this
      rfl
    rw [List.map_congr_left h1, List.map_id']
  rw [this]

/-! ### The states reached from the construction -/

theorem SplitGraph.Retiled.unchanged (sg : SplitGraph) : sg.Retiled sg := ⟨rfl, rfl, rfl, rfl, rfl⟩

theorem SplitGraph.Retiled.keys {sg0 sg : SplitGraph} (h : sg0.Retiled sg) :
    sg.m_SplitNodes.map Prod.fst = sg0.m_SplitNodes.map Prod.fst := by
  have := congrArg (fun t : List (NodeId × SplitNode) => t.map Prod.fst) h.nodes
  simpa [SplitGraph.resetNodes, List.map_map, Function.comp] using this

theorem SplitGraph.Retiled.of_resetNodes {sg0 sg sg' : SplitGraph} (h : sg0.Retiled sg)
    (e : sg'.resetNodes = sg.resetNodes) : sg0.Retiled sg' := by
  have e1 : sg'.m_Graph = sg.m_Graph := by
    show sg'.resetNodes.m_Graph = sg.resetNodes.m_Graph
    rw [e]
  have e2 : sg'.resetNodes.m_SplitNodes = sg.resetNodes.m_SplitNodes := by rw [e]
  have e3 : sg'.m_Stores = sg.m_Stores := by
    show sg'.resetNodes.m_Stores = sg.resetNodes.m_Stores
    rw [e]
  have e4 : sg'.m_CurSplitAxis = sg.m_CurSplitAxis := by
    show sg'.resetNodes.m_CurSplitAxis = sg.resetNodes.m_CurSplitAxis
    rw [e]
  have e5 : sg'.m_CurSplitFactor = sg.m_CurSplitFactor := by
    show sg'.resetNodes.m_CurSplitFactor = sg.resetNodes.m_CurSplitFactor
    rw [e]
  exact ⟨e1.trans h.graph, e2.trans h.nodes, e3.trans h.stores, by rw [e4]; exact h.axis,
    by rw [e5]; exact h.factor⟩

theorem splitNodeBySize_retiled {g : Graph} {sg0 sg : SplitGraph} {fuel : Nat} {pN : NodeId}
    {S : LongInts} {up : Bool} {r : SplitGraph × Bool} (hb : sg0.Built) (h : sg0.Retiled sg)
    (hr : SplitGraph.splitNodeBySize g fuel sg pN S up = some r) : sg0.Retiled r.1 :=
  h.of_resetNodes (splitNodeBySize_resetNodes g fuel sg pN S up r (by rw [h.keys]; exact hb.keys) hr)

theorem splitNodeByFactor_retiled {g : Graph} {sg0 sg sg' : SplitGraph} {pN : NodeId}
    {pAxis pFactor : Nat} {up : Bool} (hb : sg0.Built) (h : sg0.Retiled sg)
    (hr : sg.splitNodeByFactor g pN pAxis pFactor up = some sg') : sg0.Retiled sg' := by
  unfold SplitGraph.splitNodeByFactor at hr
  obtain ⟨ns, _, hr⟩ := bind_some_iff.mp hr
  obtain ⟨d, _, hr⟩ := bind_some_iff.mp hr
  obtain ⟨q, _, hr⟩ := bind_some_iff.mp hr
  obtain ⟨newS1, _, hr⟩ := bind_some_iff.mp hr
  obtain ⟨r, hr1, hr⟩ := bind_some_iff.mp hr
  cases hr
  exact splitNodeBySize_retiled hb h hr1

theorem shrinkStep_retiled {g : Graph} {sg0 sg sg' : SplitGraph} {i : Nat} (hb : sg0.Built)
    (h : sg0.Retiled sg) (hr : sg.shrinkStep g i = some sg') : sg0.Retiled sg' := by
  unfold SplitGraph.shrinkStep at hr
  obtain ⟨n, _, hr⟩ := bind_some_iff.mp hr
  obtain ⟨nd, _, hr⟩ := bind_some_iff.mp hr
  obtain ⟨v, _, hr⟩ := bind_some_iff.mp hr
  obtain ⟨val, _, hr⟩ := bind_some_iff.mp hr
  obtain ⟨factor, _, hr⟩ := bind_some_iff.mp hr
  obtain ⟨splitAxis, _, hr⟩ := bind_some_iff.mp hr
  obtain ⟨d, _, hr⟩ := bind_some_iff.mp hr
  have h1 : ∀ (a b : List Nat), a.length = sg.m_CurSplitFactor.length →
      b.length = sg.m_CurSplitAxis.length →
      sg0.Retiled { sg with m_CurSplitFactor := a, m_CurSplitAxis := b } := by
    intro a b ha hb'
    exact ⟨h.graph, h.nodes, h.stores, hb'.trans h.axis, ha.trans h.factor⟩
  by_cases hd : d < (((factor + 1) % UNSIGNED : Nat) : Int)
  · simp only [hd, if_true] at hr
    by_cases hl : val.sizes.length = (splitAxis + 1) % UNSIGNED
    · rw [if_pos hl] at hr
      cases hr
      exact h1 _ _ (List.length_set _ _ _) (List.length_set _ _ _)
    · rw [if_neg hl] at hr
      exact splitNodeByFactor_retiled hb
        (h1 _ _ (List.length_set _ _ _) (List.length_set _ _ _)) hr
  · simp only [hd, if_false] at hr
    by_cases hl : val.sizes.length = splitAxis
    · rw [if_pos hl] at hr
      cases hr
      exact h1 _ _ (List.length_set _ _ _) (List.length_set _ _ _)
    · rw [if_neg hl] at hr
      exact splitNodeByFactor_retiled hb
        (h1 _ _ (List.length_set _ _ _) (List.length_set _ _ _)) hr

/-- Every state reached from a well-built split graph is that split graph up
to the proposed sizes, the axis and factor entries and the allocation
status. -/
theorem reaches_retiled {g : Graph} {sg0 sg : SplitGraph} (hb : sg0.Built)
    (h : SplitGraph.Reaches g sg0 sg) : sg0.Retiled sg := by
  induction h with
  | start => exact SplitGraph.Retiled.unchanged sg0
  | shrinkSize _ hs ih =>
    unfold SplitGraph.shrinkSize at hs
    exact foldlM_invariant _ (fun s => sg0.Retiled s) _ _ _ ih
      (fun x y i _ hx hstep => shrinkStep_retiled hb hx hstep) hs
  | splitNodeBySize fuel pN S up _ hs ih => exact splitNodeBySize_retiled hb ih hs
  | splitNodeByFactor pN pAxis pFactor up _ hs ih => exact splitNodeByFactor_retiled hb ih hs
  | setAllocStatus success size _ ih => exact ⟨ih.graph, ih.nodes, ih.stores, ih.axis, ih.factor⟩

/-! ### Reset and rebuild -/

theorem set_replicate_drop {α : Type} (a : α) :
    ∀ (k : Nat) (l : List α), k < l.length →
      (List.replicate k a ++ l.drop k).set k a = List.replicate (k + 1) a ++ l.drop (k + 1) := by
  intro k
  induction k with
  | zero =>
    intro l hl
    cases l with
    | nil => simp at hl
    | cons x t => rfl
  | succ k ih =>
    intro l hl
    cases l with
    | nil => simp at hl
    | cons x t =>
      have hl' : k < t.length := by simpa using hl
      show a :: ((List.replicate k a ++ t.drop k).set k a) = a :: _
      rw [ih t hl']
      rfl

/-- The second loop of `resetToOrigSize` over the first `k` Stores. -/
theorem resetLoop (s : SplitGraph) :
    ∀ k : Nat, k ≤ s.m_CurSplitAxis.length → k ≤ s.m_CurSplitFactor.length →
      (List.range k).foldlM SplitGraph.resetStep s =
        some { s with m_CurSplitAxis := List.replicate k 0 ++ s.m_CurSplitAxis.drop k,
                      m_CurSplitFactor := List.replicate k 1 ++ s.m_CurSplitFactor.drop k } := by
  intro k
  induction k with
  | zero =>
    intro _ _
    rfl
  | succ k ih =>
    intro h1 h2
    rw [List.range_succ, List.foldlM_append, ih (by omega) (by omega)]
    have l1 : k < (List.replicate k 0 ++ s.m_CurSplitAxis.drop k).length := by
      rw [List.length_append, List.length_replicate, List.length_drop]
      omega
    have l2 : k < (List.replicate k 1 ++ s.m_CurSplitFactor.drop k).length := by
      rw [List.length_append, List.length_replicate, List.length_drop]
      omega
    simp only [Option.bind_eq_bind, Option.some_bind, List.foldlM_cons, List.foldlM_nil,
      SplitGraph.resetStep, assignAt, l1, l2, if_true, Option.pure_def,
      set_replicate_drop 0 k _ h1, set_replicate_drop 1 k _ h2]

/-- Method `resetToOrigSize` on a state reached from a well-built split graph
gives that split graph back, with the allocation status of the state. -/
theorem reset_retiled {sg0 sg : SplitGraph} (hb : sg0.Built) (h : sg0.Retiled sg)
    (hlen : sg.m_Stores.length < UNSIGNED) :
    sg.resetToOrigSize = some { sg0 with m_AllocSuccess := sg.m_AllocSuccess,
                                         m_AllocSize := sg.m_AllocSize } := by
  have ha : sg.m_CurSplitAxis.length = sg.m_Stores.length := by
    rw [h.axis, hb.axis, List.length_replicate, h.stores]
  have hf : sg.m_CurSplitFactor.length = sg.m_Stores.length := by
    rw [h.factor, hb.factor, List.length_replicate, h.stores]
  unfold SplitGraph.resetToOrigSize
  rw [if_pos hlen, resetLoop sg.resetNodes sg.m_Stores.length (by
    show sg.m_Stores.length ≤ sg.m_CurSplitAxis.length
    omega) (by
    show sg.m_Stores.length ≤ sg.m_CurSplitFactor.length
    omega)]
  have hn : sg.resetNodes.m_SplitNodes = sg0.m_SplitNodes := by
    rw [h.nodes, built_resetNodes hb]
  have ha2 : List.replicate sg.m_Stores.length 0 ++ sg.m_CurSplitAxis.drop sg.m_Stores.length
      = sg0.m_CurSplitAxis := by
    rw [List.drop_of_length_le (by omega), List.append_nil, hb.axis, h.stores]
  have hf2 : List.replicate sg.m_Stores.length 1 ++ sg.m_CurSplitFactor.drop sg.m_Stores.length
      = sg0.m_CurSplitFactor := by
    rw [List.drop_of_length_le (by omega), List.append_nil, hb.factor, h.stores]
  have hg := h.graph
  have hs := h.stores
  cases sg
  cases sg0
  simp only [SplitGraph.resetNodes] at hn ha2 hf2 hg hs ⊢
  subst hs
  subst hg
  rw [hn, ha2, hf2]

theorem rebuildStep_alloc (T : Target) (g : Graph) (s : SplitGraph) (b : Bool) (z : Nat)
    (n : NodeId) :
    SplitGraph.rebuildStep T g { s with m_AllocSuccess := b, m_AllocSize := z } n =
      (SplitGraph.rebuildStep T g s n).map
        (fun s' => { s' with m_AllocSuccess := b, m_AllocSize := z }) := by
  unfold SplitGraph.rebuildStep
  cases hnd : g.node? n with
  | none => rfl
  | some nd =>
    simp only [Option.bind_eq_bind, Option.some_bind, Option.pure_def]
    split
    · rfl
    · cases hsn : SplitNodeCreator T g n with
      | none => rfl
      | some sn =>
        simp only [Option.some_bind]
        split <;> rfl

theorem rebuildLoop_alloc (T : Target) (g : Graph) (b : Bool) (z : Nat) :
    ∀ (l : List NodeId) (s : SplitGraph),
      l.foldlM (SplitGraph.rebuildStep T g) { s with m_AllocSuccess := b, m_AllocSize := z } =
        (l.foldlM (SplitGraph.rebuildStep T g) s).map
          (fun s' => { s' with m_AllocSuccess := b, m_AllocSize := z }) := by
  intro l
  induction l with
  | nil => intro s; rfl
  | cons n l ih =>
    intro s
    rw [List.foldlM_cons, List.foldlM_cons, rebuildStep_alloc]
    cases hstep : SplitGraph.rebuildStep T g s n with
    | none => rfl
    | some s1 =>
      simp only [Option.map_some', Option.bind_eq_bind, Option.some_bind]
      exact ih s1

/-- Method `rebuildSplitNodes` on any state of a split graph over the graph of
its construction builds the constructed split graph again, with the
allocation status of the state. -/
theorem rebuild_of_new {T : Target} {g : Graph} {id : GraphId} {sg0 sg : SplitGraph}
    (h0 : SplitGraph.new T g id = some sg0) (hg : sg.m_Graph = sg0.m_Graph) :
    sg.rebuildSplitNodes T g = some { sg0 with m_AllocSuccess := sg.m_AllocSuccess,
                                               m_AllocSize := sg.m_AllocSize } := by
  have hid : sg0.m_Graph = id := by
    have := rebuildSplitNodes_m_Graph h0
    exact this
  unfold SplitGraph.new SplitGraph.rebuildSplitNodes at h0
  unfold SplitGraph.rebuildSplitNodes
  have e : sg.clear = { (SplitGraph.mk id [] [] [] [] false 0).clear with
      m_AllocSuccess := sg.m_AllocSuccess, m_AllocSize := sg.m_AllocSize } := by
    unfold SplitGraph.clear
    simp only [hg, hid]
  rw [e, rebuildLoop_alloc]
  have h0' : List.foldlM (SplitGraph.rebuildStep T g) (SplitGraph.mk id [] [] [] [] false 0).clear
      g.order = some sg0 := h0
  rw [h0']
  rfl

/-! ### Reading a split graph -/

theorem lookup_map_snd {α β : Type} (f : α → β) (t : List (Nat × α)) (k : Nat) :
    (t.map (fun p => (p.1, f p.2))).lookup k = (t.lookup k).map f := by
  induction t with
  | nil => rfl
  | cons p t ih =>
    obtain ⟨pk, pv⟩ := p
    by_cases hk : (k == pk) = true
    · simp [List.lookup_cons, hk]
    · have h1 : (k == pk) = false := by simpa using hk
      simp only [List.map_cons, List.lookup_cons, h1]
      exact ih

theorem mem_of_lookup {α : Type} (t : List (Nat × α)) (k : Nat) (a : α)
    (h : t.lookup k = some a) : (k, a) ∈ t := by
  induction t with
  | nil => simp at h
  | cons p t ih =>
    obtain ⟨pk, pv⟩ := p
    by_cases hk : (k == pk) = true
    · simp only [List.lookup_cons, hk, Option.some.injEq] at h
      have : k = pk := by simpa using hk
      subst this
      subst h
      exact List.mem_cons_self _ _
    · have h1 : (k == pk) = false := by simpa using hk
      simp only [List.lookup_cons, h1] at h
      exact List.mem_cons_of_mem _ (ih h)

theorem getSplitNode_resetNodes (sg : SplitGraph) (n : NodeId) :
    sg.resetNodes.getSplitNode n = (sg.getSplitNode n).map SplitNode.resetSize :=
  lookup_map_snd SplitNode.resetSize sg.m_SplitNodes n

theorem set_same {α : Type} (l : List α) (i : Nat) (a : α) (h : l[i]? = some a) :
    l.set i a = l := by
  apply List.ext_getElem?
  intro j
  rw [List.getElem?_set]
  by_cases hij : i = j
  · subst hij
    rw [if_pos rfl]
    have hlt : i < l.length := by
      by_contra hge
      rw [List.getElem?_eq_none (Nat.le_of_not_lt hge)] at h
      cases h
    rw [if_pos hlt, h]
  · rw [if_neg hij]

/-! ### The quotient of `splitNodeByFactor` -/

theorem factor_quotient (d : Int) (f : Nat) (hf : 1 ≤ f) (h : 0 ≤ d + (f : Int) - 1) :
    ∃ r : Int, 0 ≤ r ∧ r < (f : Int) ∧
      (f : Int) * (d + (f : Int) - 1).tdiv (f : Int) + r = d + (f : Int) - 1 := by
  have hf0 : (0 : Int) < (f : Int) := by exact_mod_cast hf
  rw [Int.tdiv_eq_ediv h (le_of_lt hf0)]
  exact ⟨(d + (f : Int) - 1) % (f : Int), Int.emod_nonneg _ (ne_of_gt hf0),
    Int.emod_lt_of_pos _ hf0, Int.ediv_add_emod _ _⟩

/-- The quotient `(d + f - 1) / f` of C++ is the ceiling of `d / f` when
`d + f - 1` is not negative. -/
theorem factor_quotient_ceil (d : Int) (f : Nat) (hf : 1 ≤ f) (h : 0 ≤ d + (f : Int) - 1) :
    (d + (f : Int) - 1).tdiv (f : Int) = ⌈(d : ℚ) / (f : ℚ)⌉ := by
  obtain ⟨r, hr0, hr1, he⟩ := factor_quotient d f hf h
  have hfQ : (0 : ℚ) < (f : ℚ) := by exact_mod_cast hf
  symm
  rw [Int.ceil_eq_iff]
  generalize (d + (f : Int) - 1).tdiv (f : Int) = q at he
  have heQ : ((f : Int) : ℚ) * (q : ℚ) + (r : ℚ) = (d : ℚ) + ((f : Int) : ℚ) - 1 := by
    exact_mod_cast he
  have hr0Q : (0 : ℚ) ≤ (r : ℚ) := by exact_mod_cast hr0
  have hr1Q : (r : ℚ) + 1 ≤ ((f : Int) : ℚ) := by exact_mod_cast hr1
  have hc : (((f : Int) : ℚ)) = (f : ℚ) := by norm_cast
  rw [hc] at heQ hr1Q
  constructor
  · rw [lt_div_iff hfQ]
    nlinarith
  · rw [div_le_iff hfQ]
    nlinarith

/-- The quotient of an extent of at least 1 is between 1 and the extent. -/
theorem factor_quotient_bounds (d : Int) (f : Nat) (hf : 1 ≤ f) (hd : 1 ≤ d) :
    1 ≤ (d + (f : Int) - 1).tdiv (f : Int) ∧ (d + (f : Int) - 1).tdiv (f : Int) ≤ d := by
  have hf0 : (1 : Int) ≤ (f : Int) := by exact_mod_cast hf
  obtain ⟨r, hr0, hr1, he⟩ := factor_quotient d f hf (by omega)
  generalize (d + (f : Int) - 1).tdiv (f : Int) = q at he ⊢
  constructor
  · by_contra hq
    have hq' : q ≤ 0 := by omega
    nlinarith
  · by_contra hq
    have hq' : d + 1 ≤ q := by omega
    nlinarith

theorem factor_one (d : Int) : (d + ((1 : Nat) : Int) - 1).tdiv ((1 : Nat) : Int) = d := by
  simp

theorem inInt64_iff (x : Int) : inInt64 x = true ↔ INT64_MIN ≤ x ∧ x ≤ INT64_MAX := by
  unfold inInt64
  simp only [Bool.and_eq_true, decide_eq_true_eq]

/-- The quotient of C++ lies between its dividend and zero. -/
theorem tdiv_between (t f : Int) (hf : 0 < f) :
    (0 ≤ t → 0 ≤ t.tdiv f ∧ t.tdiv f ≤ t) ∧ (t < 0 → t ≤ t.tdiv f ∧ t.tdiv f ≤ 0) := by
  have pos : ∀ a : Int, 0 ≤ a → 0 ≤ a.tdiv f ∧ a.tdiv f ≤ a := fun a ha =>
    ⟨Int.tdiv_nonneg ha (le_of_lt hf), by
      rw [Int.tdiv_eq_ediv ha (le_of_lt hf)]
      exact Int.ediv_le_self f ha⟩
  refine ⟨pos t, ?_⟩
  intro ht
  have h := pos (-t) (by omega)
  rw [Int.neg_tdiv] at h
  constructor <;> omega

/-- Without signed overflow, that is, when the sum of the extent and the
factor is a value of `int64_t`, the expression of `splitNodeByFactor` has its
value in the integers. -/
theorem factorQuotient_eq (d : Int) (f : Nat) (hf : 1 ≤ f) (hfu : f < UNSIGNED)
    (hlo : INT64_MIN ≤ d) (hhi : d + (f : Int) ≤ INT64_MAX) :
    factorQuotient d f = some ((d + (f : Int) - 1).tdiv (f : Int)) := by
  have hf1 : (1 : Int) ≤ (f : Int) := by exact_mod_cast hf
  have hf2 : (f : Int) < 4294967296 := by
    have : f < 4294967296 := hfu
    exact_mod_cast this
  have hb := tdiv_between (d + (f : Int) - 1) (f : Int) (by omega)
  unfold INT64_MIN at hlo
  unfold INT64_MAX at hhi
  have h1 : inInt64 d = true := by
    rw [inInt64_iff]; unfold INT64_MIN INT64_MAX; constructor <;> omega
  have h2 : inInt64 (f : Int) = true := by
    rw [inInt64_iff]; unfold INT64_MIN INT64_MAX; constructor <;> omega
  have h3 : inInt64 (d + (f : Int)) = true := by
    rw [inInt64_iff]; unfold INT64_MIN INT64_MAX; constructor <;> omega
  have h4 : inInt64 (d + (f : Int) - 1) = true := by
    rw [inInt64_iff]; unfold INT64_MIN INT64_MAX; constructor <;> omega
  have h5 : inInt64 ((d + (f : Int) - 1).tdiv (f : Int)) = true := by
    rw [inInt64_iff]; unfold INT64_MIN INT64_MAX
    by_cases ht : 0 ≤ d + (f : Int) - 1
    · have := hb.1 ht
      constructor <;> omega
    · have := hb.2 (by omega)
      constructor <;> omega
  have hf0 : ¬ (f : Int) = 0 := by omega
  unfold factorQuotient
  simp only [Option.bind_eq_bind, int64_of_fits h1, int64_of_fits h2, int64_of_fits h3,
    int64_of_fits h4, int64_of_fits h5, Option.some_bind, hf0, if_false]

/-! ## The split points of the partition finder -/

theorem setInsert_nodup {s : List NodeId} (n : NodeId) (h : s.Nodup) : (setInsert s n).Nodup := by
  unfold setInsert
  by_cases hc : s.contains n = true
  · rw [if_pos hc]
    exact h
  · rw [if_neg hc]
    apply List.Nodup.append h (List.nodup_singleton _)
    intro x hx hx'
    rw [List.mem_singleton] at hx'
    subst hx'
    exact hc (by simpa using hx)

/-- The traversal keeps the two groups free of repetitions. -/
theorem findLoop_nodup (T : Target) (g : Graph) (total : Nat) :
    ∀ (fuel : Nat) (st st' : FinderState), st.grpA.Nodup → st.grpB.Nodup →
      findLoop T g total fuel st = some st' → st'.grpA.Nodup ∧ st'.grpB.Nodup := by
  intro fuel
  induction fuel with
  | zero =>
    intro st st' hA hB h
    unfold findLoop at h
    split at h
    · cases h
      exact ⟨hA, hB⟩
    · cases h
  | succ fuel ih =>
    intro st st' hA hB h
    unfold findLoop at h
    split at h
    · cases h
      exact ⟨hA, hB⟩
    · obtain ⟨r, _, h⟩ := bind_some_iff.mp h
      obtain ⟨nd, _, h⟩ := bind_some_iff.mp h
      split at h
      · refine ih _ st' ?_ ?_ h
        · exact hA
        · exact hB
      · by_cases hlt : st.accumulateSize < total / 2
        · simp only [hlt, if_true] at h
          refine ih _ st' ?_ ?_ h
          · exact setInsert_nodup _ hA
          · exact hB
        · simp only [hlt, if_false] at h
          refine ih _ st' ?_ ?_ h
          · exact hA
          · exact setInsert_nodup _ hB

theorem groupStep_nodup {g : Graph} {grp grp' : List NodeId × List NodeId} {n : NodeId}
    (hA : grp.1.Nodup ∧ grp.2.Nodup) (h : groupStep g grp n = some grp') :
    grp'.1.Nodup ∧ grp'.2.Nodup := by
  have key : ∀ b : Bool,
      (if b = true then some (setInsert grp.1 n, grp.2) else some (grp.1, setInsert grp.2 n))
        = some grp' → grp'.1.Nodup ∧ grp'.2.Nodup := by
    intro b hb
    cases b with
    | true =>
      cases hb
      exact ⟨setInsert_nodup _ hA.1, hA.2⟩
    | false =>
      cases hb
      exact ⟨hA.1, setInsert_nodup _ hA.2⟩
  unfold groupStep at h
  obtain ⟨nd, _, h⟩ := bind_some_iff.mp h
  split at h
  · obtain ⟨out, _, h⟩ := bind_some_iff.mp h
    obtain ⟨val, _, h⟩ := bind_some_iff.mp h
    obtain ⟨u, _, h⟩ := bind_some_iff.mp h
    exact key _ h
  · split at h
    · obtain ⟨inp, _, h⟩ := bind_some_iff.mp h
      obtain ⟨val, _, h⟩ := bind_some_iff.mp h
      exact key _ h
    · cases h
      exact hA

/-- The groups that the search for split points walks have no repetitions. -/
theorem halfSizeGroups_nodup {T : Target} {g : Graph} {grpA grpB : List NodeId}
    (h : halfSizeGroups T g = some (some (grpA, grpB))) : grpA.Nodup ∧ grpB.Nodup := by
  unfold halfSizeGroups at h
  obtain ⟨st, hst, h⟩ := bind_some_iff.mp h
  have hnd : st.grpA.Nodup ∧ st.grpB.Nodup := by
    unfold traverse at hst
    obtain ⟨total, _, hst⟩ := bind_some_iff.mp hst
    obtain ⟨dmap, _, hst⟩ := bind_some_iff.mp hst
    obtain ⟨wl, _, hst⟩ := bind_some_iff.mp hst
    exact findLoop_nodup T g total g.fuel _ st List.nodup_nil List.nodup_nil hst
  have fin : ∀ grp : List NodeId × List NodeId, grp.1.Nodup ∧ grp.2.Nodup →
      (groupLoadStore g grp.1 grp.2).bind (fun grp => some (some grp)) = some (some (grpA, grpB)) →
      grpA.Nodup ∧ grpB.Nodup := by
    intro grp h1 h2
    obtain ⟨grp2, hgrp2, h2⟩ := bind_some_iff.mp h2
    cases h2
    rw [groupLoadStore_eq] at hgrp2
    exact foldlM_invariant _ (fun p : List NodeId × List NodeId => p.1.Nodup ∧ p.2.Nodup)
      _ _ _ h1 (fun x y a _ hx hs => groupStep_nodup hx hs) hgrp2
  by_cases hE : (st.grpB.isEmpty && st.grpA.length == 1) = true
  · simp only [hE, if_true] at h
    cases h
  · simp only [hE] at h
    by_cases hB : st.grpB.isEmpty = true
    · simp only [hB, if_true] at h
      cases hl : st.lastNode with
      | none =>
        rw [hl] at h
        cases h
      | some lastNode =>
        rw [hl] at h
        exact fin (st.grpA.erase lastNode, [lastNode]) ⟨hnd.1.erase _, List.nodup_singleton _⟩ h
    · simp only [hB] at h
      exact fin (st.grpA, st.grpB) hnd h

theorem count_flatMap_replicate (c : NodeId → Nat) (n : NodeId) :
    ∀ l : List NodeId, l.Nodup →
      (l.flatMap (fun m => List.replicate (c m) m)).count n = if n ∈ l then c n else 0 := by
  intro l
  induction l with
  | nil => intro _; rfl
  | cons a t ih =>
    intro hnd
    rw [List.nodup_cons] at hnd
    rw [List.flatMap_cons, List.count_append, ih hnd.2, List.count_replicate]
    by_cases han : a = n
    · subst han
      simp [hnd.1]
    · have hna : ¬ n = a := fun e => han e.symm
      simp [han, hna]

theorem count_filter_nodup (p : NodeId → Bool) (n : NodeId) :
    ∀ l : List NodeId, l.Nodup →
      (l.filter p).count n = if n ∈ l ∧ p n = true then 1 else 0 := by
  intro l hnd
  by_cases h : n ∈ l ∧ p n = true
  · rw [if_pos h]
    exact List.count_eq_one_of_mem (hnd.filter p) (List.mem_filter.mpr h)
  · rw [if_neg h]
    exact List.count_eq_zero_of_not_mem (fun hm => h (List.mem_filter.mp hm))

/-- The innermost loop of the search for split points has a result only if
every use outside group A is by a node of group B. -/
theorem collectUses_lands (grpA grpB : List NodeId) (n : NodeId) (uses : List Use) :
    ∀ (pts pts' : List NodeId),
      uses.foldlM (fun pts u =>
          if grpA.contains u.user then some pts
          else if grpB.contains u.user then some (pts ++ [n])
          else none) pts = some pts' →
      ∀ u ∈ uses, u.user ∉ grpA → u.user ∈ grpB := by
  induction uses with
  | nil => intro _ _ _ u hu; cases hu
  | cons u us ih =>
    intro pts pts' h w hw hwA
    obtain ⟨c, hc, hrest⟩ := foldlM_cons_some.mp h
    rcases List.mem_cons.mp hw with rfl | hw'
    · have hA : ¬ grpA.contains w.user = true := by simpa using hwA
      rw [if_neg hA] at hc
      by_cases hB : grpB.contains w.user = true
      · simpa using hB
      · rw [if_neg hB] at hc
        cases hc
    · exact ih c pts' hrest w hw' hwA

theorem collectOutputs_lands (g : Graph) (grpA grpB : List NodeId) (n : NodeId)
    (outs : List ValueId) :
    ∀ (pts pts' : List NodeId),
      outs.foldlM (fun pts outv => do
          let val ← g.value? outv
          val.uses.foldlM (fun pts u =>
            if grpA.contains u.user then some pts
            else if grpB.contains u.user then some (pts ++ [n])
            else none) pts) pts = some pts' →
      ∀ u ∈ outs.flatMap (valueUses g), u.user ∉ grpA → u.user ∈ grpB := by
  induction outs with
  | nil => intro _ _ _ u hu; cases hu
  | cons v vs ih =>
    intro pts pts' h u hu huA
    obtain ⟨c, hc, hrest⟩ := foldlM_cons_some.mp h
    obtain ⟨val, hv, hf⟩ := bind_some_iff.mp hc
    rw [List.flatMap_cons, List.mem_append] at hu
    rcases hu with hu | hu
    · simp only [valueUses, hv] at hu
      exact collectUses_lands grpA grpB n val.uses pts c hf u hu huA
    · exact ih c pts' hrest u hu huA

theorem collectGroupA_lands (g : Graph) (grpA grpB : List NodeId) (l : List NodeId) :
    ∀ (pts pts' : List NodeId),
      l.foldlM (fun pts n => do
          let nd ← g.node? n
          nd.outputs.foldlM (fun pts outv => do
            let val ← g.value? outv
            val.uses.foldlM (fun pts u =>
              if grpA.contains u.user then some pts
              else if grpB.contains u.user then some (pts ++ [n])
              else none) pts) pts) pts = some pts' →
      ∀ n ∈ l, ∀ u ∈ usesOf g n, u.user ∉ grpA → u.user ∈ grpB := by
  induction l with
  | nil => intro _ _ _ n hn; cases hn
  | cons m ms ih =>
    intro pts pts' h n hn u hu huA
    obtain ⟨c, hc, hrest⟩ := foldlM_cons_some.mp h
    obtain ⟨nd, hnd, hf⟩ := bind_some_iff.mp hc
    rcases List.mem_cons.mp hn with rfl | hn'
    · simp only [usesOf, hnd] at hu
      exact collectOutputs_lands g grpA grpB n nd.outputs pts c hf u hu huA
    · exact ih c pts' hrest n hn' u hu huA

/-- The search for split points has a result only if every use of an output
of a node of group A by a node outside group A is by a node of group B. -/
theorem collectSplitPts_lands {H : HashOrder} {g : Graph} {grpA grpB pts : List NodeId}
    (h : collectSplitPts H g grpA grpB = some pts) :
    ∀ n ∈ grpA, ∀ u ∈ usesOf g n, u.user ∉ grpA → u.user ∈ grpB := by
  unfold collectSplitPts at h
  obtain ⟨p1, h1, _⟩ := bind_some_iff.mp h
  intro n hn
  exact collectGroupA_lands g grpA grpB (H.iter grpA) [] p1 h1 n ((H.perm grpA).mem_iff.mpr hn)

theorem crossingCount_pos (g : Graph) (grpA : List NodeId) (n : NodeId) :
    0 < crossingCount g grpA n ↔ ∃ u ∈ usesOf g n, u.user ∉ grpA := by
  unfold crossingCount
  rw [List.countP_pos_iff]
  constructor
  · rintro ⟨u, hu, hc⟩
    exact ⟨u, hu, by simpa using hc⟩
  · rintro ⟨u, hu, hc⟩
    exact ⟨u, hu, by simpa using hc⟩

/-! ## Sortable graphs by test -/

/-- A graph that passes the test is sortable. -/
theorem Graph.Kahnable.of_kahnCheck {g : Graph} (r : NodeId → Nat) (h : g.kahnCheck r = true) :
    g.Kahnable := by
  unfold Graph.kahnCheck at h
  simp only [Bool.and_eq_true, decide_eq_true_eq, Bool.not_eq_true', List.all_eq_true] at h
  obtain ⟨⟨⟨hnd, hret⟩, hrn⟩, hall⟩ := h
  have hnode : ∀ x ∈ g.order, ∃ nd, g.node? x = some nd ∧ g.kahnCheckNode r x nd = true := by
    intro x hx
    have := hall x hx
    cases hn : g.node? x with
    | none => rw [hn] at this; cases this
    | some nd => rw [hn] at this; exact ⟨nd, rfl, this⟩
  have hfields : ∀ x ∈ g.order, ∀ nd, g.node? x = some nd →
      (nd.kind ≠ Kind.kUndefined ∧ nd.inputs.length < UNSIGNED ∧
        (nd.kind = Kind.kReturn → nd.inputs = [])) ∧
      (∀ w ∈ nd.inputs, ∃ val, g.value? w = some val ∧ ∀ m, val.node = some m → m ∈ g.order) ∧
      (∀ v ∈ nd.outputs, ∃ val, g.value? v = some val ∧
        ∀ u ∈ val.uses, ∃ un, g.node? u.user = some un) ∧
      (∀ y ∈ g.users x, y ∈ g.order) ∧
      (∀ y ∈ g.order, (g.users x).count y = (g.preds y).count x) ∧
      (∀ m ∈ g.preds x, r m < r x) := by
    intro x hx nd hn
    obtain ⟨nd', hn', hc⟩ := hnode x hx
    rw [hn] at hn'
    cases hn'
    unfold Graph.kahnCheckNode at hc
    simp only [Bool.and_eq_true, decide_eq_true_eq, Bool.or_eq_true, List.all_eq_true,
      List.isEmpty_iff, beq_iff_eq] at hc
    obtain ⟨⟨⟨⟨⟨⟨⟨h1, h2⟩, h3⟩, h4⟩, h5⟩, h6⟩, h7⟩, h8⟩ := hc
    refine ⟨⟨h1, h2, ?_⟩, ?_, ?_, ?_, h7, h8⟩
    · intro hk
      rcases h3 with h | h
      · exact absurd hk h
      · exact h
    · intro w hw
      have := h4 w hw
      cases hv : g.value? w with
      | none => rw [hv] at this; cases this
      | some val =>
        rw [hv] at this
        refine ⟨val, rfl, ?_⟩
        intro m hm
        simp only [hm] at this
        simpa using this
    · intro v hv
      have := h5 v hv
      cases hval : g.value? v with
      | none => rw [hval] at this; cases this
      | some val =>
        rw [hval] at this
        refine ⟨val, rfl, ?_⟩
        intro u hu
        simp only at this
        have h' := List.all_eq_true.mp this u hu
        exact Option.isSome_iff_exists.mp h'
    · intro y hy
      simpa using h6 y hy
  refine ⟨hnd, ?_, Option.isSome_iff_exists.mp hrn, ?_, ?_, ?_, ?_, ?_, ⟨r, ?_⟩⟩
  · intro hm
    have : g.order.contains g.return_node = true := by simpa using hm
    rw [hret] at this
    cases this
  · intro x hx
    obtain ⟨nd, hn, _⟩ := hnode x hx
    exact ⟨nd, hn, (hfields x hx nd hn).1.1, (hfields x hx nd hn).1.2.1,
      (hfields x hx nd hn).1.2.2⟩
  · intro x hx nd hn
    exact (hfields x hx nd hn).2.1
  · intro x hx nd hn
    exact (hfields x hx nd hn).2.2.1
  · intro x hx
    obtain ⟨nd, hn, _⟩ := hnode x hx
    exact (hfields x hx nd hn).2.2.2.1
  · intro n hn x hx
    obtain ⟨nd, hnd', _⟩ := hnode n hn
    exact (hfields n hn nd hnd').2.2.2.2.1 x hx
  · intro x hx m hm
    obtain ⟨nd, hn, _⟩ := hnode x hx
    exact (hfields x hx nd hn).2.2.2.2.2 m hm

/-! ## The propagation of a tile to the producers -/

theorem producerAt_some {g : Graph} {m p : NodeId} {i : Nat} (h : g.producerAt m i = some p) :
    ∃ nd v val cnd, g.node? m = some nd ∧ nd.inputs[i]? = some v ∧ g.value? v = some val ∧
      val.node = some p ∧ g.node? p = some cnd ∧ cnd.kind ≠ Kind.kParam := by
  unfold Graph.producerAt at h
  obtain ⟨nd, hnd, h⟩ := bind_some_iff.mp h
  obtain ⟨v, hv, h⟩ := bind_some_iff.mp h
  obtain ⟨val, hval, h⟩ := bind_some_iff.mp h
  obtain ⟨q, hq, h⟩ := bind_some_iff.mp h
  obtain ⟨cnd, hcnd, h⟩ := bind_some_iff.mp h
  by_cases hk : cnd.kind = Kind.kParam
  · rw [if_pos hk] at h
    cases h
  · rw [if_neg hk] at h
    cases h
    exact ⟨nd, v, val, cnd, hnd, hv, hval, hq, hcnd, hk⟩

theorem producerAt_eq {g : Graph} {m p : NodeId} {i : Nat} {nd cnd : Node} {v : ValueId}
    {val : Value} (hnd : g.node? m = some nd) (hv : nd.inputs[i]? = some v)
    (hval : g.value? v = some val) (hp : val.node = some p) (hcnd : g.node? p = some cnd) :
    g.producerAt m i = if cnd.kind = Kind.kParam then none else some p := by
  unfold Graph.producerAt
  simp only [hnd, hv, hval, hp, hcnd, Option.bind_eq_bind, Option.some_bind]

theorem producerAt_none {g : Graph} {m : NodeId} {i : Nat} {nd : Node} {v : ValueId}
    {val : Value} (hnd : g.node? m = some nd) (hv : nd.inputs[i]? = some v)
    (hval : g.value? v = some val) (hp : val.node = none) : g.producerAt m i = none := by
  unfold Graph.producerAt
  simp only [hnd, hv, hval, hp, Option.bind_eq_bind, Option.some_bind, Option.none_bind]

theorem mem_producers {g : Graph} {m p : NodeId} {i : Nat} (h : g.producerAt m i = some p) :
    p ∈ g.producers m := by
  obtain ⟨nd, v, _, _, hnd, hv, _⟩ := producerAt_some h
  have hi : i < nd.inputs.length := by
    by_contra hge
    rw [List.getElem?_eq_none (Nat.le_of_not_lt hge)] at hv
    cases hv
  unfold Graph.producers
  rw [hnd]
  exact List.mem_filterMap.mpr ⟨i, List.mem_range.mpr hi, h⟩

theorem propagatesAt_spec {g : Graph} {sg : SplitGraph} {tile : NodeId → LongInts} {m : NodeId}
    (h : sg.propagatesAt g tile m = true) :
    ∃ nd sn, g.node? m = some nd ∧ sg.getSplitNode m = some sn ∧ sn.m_Node = m ∧
      nd.inputs.length < UNSIGNED ∧
      ∀ i v, nd.inputs[i]? = some v → ∃ val, g.value? v = some val ∧
        ∀ p, val.node = some p → ∃ cnd, g.node? p = some cnd ∧
          (cnd.kind ≠ Kind.kParam →
            (sn.useNewOutSize (tile m)).1.calNewInputSize g i = some (tile p)) := by
  unfold SplitGraph.propagatesAt at h
  cases hnd : g.node? m with
  | none => simp [hnd] at h
  | some nd =>
    cases hsn : sg.getSplitNode m with
    | none => simp [hnd, hsn] at h
    | some sn =>
      simp only [hnd, hsn, Bool.and_eq_true, decide_eq_true_eq, List.all_eq_true,
        List.mem_range] at h
      obtain ⟨⟨h1, h2⟩, h3⟩ := h
      refine ⟨nd, sn, rfl, rfl, h1, h2, ?_⟩
      intro i v hv
      have hi : i < nd.inputs.length := by
        by_contra hge
        rw [List.getElem?_eq_none (Nat.le_of_not_lt hge)] at hv
        cases hv
      have h4 := h3 i hi
      rw [hv, Option.some_bind] at h4
      cases hval : g.value? v with
      | none => simp [hval] at h4
      | some val =>
        refine ⟨val, rfl, ?_⟩
        intro p hp
        simp only [hval, hp] at h4
        cases hcnd : g.node? p with
        | none => simp [hcnd] at h4
        | some cnd =>
          refine ⟨cnd, rfl, ?_⟩
          intro hk
          simp only [hcnd, Bool.or_eq_true, decide_eq_true_eq] at h4
          rcases h4 with h4 | h4
          · exact absurd h4 hk
          · exact h4

theorem SplitGraph.TiledOn.congr {tile : NodeId → LongInts} {V W : NodeId → Prop}
    {sg sg' : SplitGraph} (h : SplitGraph.TiledOn tile V sg sg') (e : ∀ m, V m ↔ W m) :
    SplitGraph.TiledOn tile W sg sg' :=
  ⟨fun m hm => h.inside m ((e m).mpr hm), fun m hm => h.outside m (fun hv => hm ((e m).mp hv)),
    h.graph, h.stores, h.axis, h.factor, h.allocSuccess, h.allocSize⟩

theorem SplitGraph.TiledOn.union {tile : NodeId → LongInts} {V W : NodeId → Prop}
    {sg sg1 sg2 : SplitGraph} (h1 : SplitGraph.TiledOn tile V sg sg1)
    (h2 : SplitGraph.TiledOn tile W sg1 sg2) :
    SplitGraph.TiledOn tile (fun m => V m ∨ W m) sg sg2 := by
  refine ⟨?_, ?_, h2.graph.trans h1.graph, h2.stores.trans h1.stores, h2.axis.trans h1.axis,
    h2.factor.trans h1.factor, h2.allocSuccess.trans h1.allocSuccess,
    h2.allocSize.trans h1.allocSize⟩
  · intro m hm
    by_cases hw : W m
    · rw [h2.inside m hw]
      by_cases hv : V m
      · rw [h1.inside m hv]
        cases sg.getSplitNode m <;> rfl
      · rw [h1.outside m hv]
    · rw [h2.outside m hw]
      exact h1.inside m (hm.resolve_right hw)
  · intro m hm
    rw [h2.outside m (fun hw => hm (Or.inr hw)), h1.outside m (fun hv => hm (Or.inl hv))]

theorem propagatesAt_tiled {g : Graph} {tile : NodeId → LongInts} {V : NodeId → Prop}
    {sg sg' : SplitGraph} (h : SplitGraph.TiledOn tile V sg sg') (m : NodeId) :
    sg'.propagatesAt g tile m = sg.propagatesAt g tile m := by
  unfold SplitGraph.propagatesAt
  by_cases hv : V m
  · rw [h.inside m hv]
    cases g.node? m with
    | none => rfl
    | some nd =>
      cases sg.getSplitNode m with
      | none => rfl
      | some sn => rfl
  · rw [h.outside m hv]

theorem tableSet_tiled (sg : SplitGraph) (tile : NodeId → LongInts) (n : NodeId) (ns : SplitNode)
    (hns : sg.getSplitNode n = some ns) :
    SplitGraph.TiledOn tile (fun m => m = n) sg
      { sg with m_SplitNodes := tableSet sg.m_SplitNodes n (ns.useNewOutSize (tile n)).1 } := by
  refine ⟨?_, ?_, rfl, rfl, rfl, rfl, rfl, rfl⟩
  · intro m hm
    subst hm
    show (tableSet sg.m_SplitNodes m _).lookup m = _
    rw [lookup_tableSet_self _ _ _ _ hns]
    have : sg.getSplitNode m = some ns := hns
    rw [this]
    rfl
  · intro m hm
    exact lookup_tableSet_ne _ _ _ _ hm

/-- Method `splitNodeBySize` with propagation, from a node `n` of a set `C` of
nodes that holds the producers of its nodes, ranked below their users, and on
which the tiles `tile` pass the test: the call returns `true` and leaves the
tiles `tile` on the upstream cone of `n`. -/
theorem propagate_cone (g : Graph) (tile : NodeId → LongInts) (r : NodeId → Nat)
    (C : List NodeId) (hC : ∀ m ∈ C, ∀ p ∈ g.producers m, p ∈ C ∧ r p < r m) :
    ∀ (fuel : Nat) (sg : SplitGraph) (n : NodeId), n ∈ C → r n < fuel →
      (∀ m ∈ C, sg.propagatesAt g tile m = true) →
      ∃ sg', SplitGraph.splitNodeBySize g fuel sg n (tile n) true = some (sg', true) ∧
        SplitGraph.TiledOn tile (g.Upstream n) sg sg' := by
  intro fuel
  induction fuel with
  | zero =>
    intro sg n _ hr _
    exact absurd hr (Nat.not_lt_zero _)
  | succ fuel ih =>
    intro sg n hn hr hprop
    obtain ⟨nd, sn, hnd, hsn, hnode, hlen, hin⟩ := propagatesAt_spec (hprop n hn)
    rw [splitNodeBySize_succ, hsn, Option.some_bind, if_neg (by decide), hnode, hnd,
      Option.some_bind, Nat.mod_eq_of_lt hlen]
    have h1 := tableSet_tiled sg tile n sn hsn
    generalize hsg1 : ({ sg with
        m_SplitNodes := tableSet sg.m_SplitNodes n (sn.useNewOutSize (tile n)).1 } : SplitGraph)
      = sg1 at h1 ⊢
    have key : ∀ j, j ≤ nd.inputs.length →
        ∃ sgj, (List.range j).foldlM
            (fun (st : SplitGraph × Bool) i =>
              (nd.inputs[i]?).bind (fun v => (g.value? v).bind (fun val =>
                match val.node with
                | none => some st
                | some child => (g.node? child).bind (fun cnd =>
                    if cnd.kind = Kind.kParam then some st
                    else (st.1.getSplitNode n).bind (fun ns1 =>
                      (ns1.calNewInputSize g i).bind (fun newInS =>
                        (SplitGraph.splitNodeBySize g fuel st.1 child newInS true).bind
                          (fun r1 => some (r1.1, st.2 && r1.2))))))))
            (sg1, true) = some (sgj, true) ∧
          SplitGraph.TiledOn tile
            (fun m => m = n ∨ ∃ i p, i < j ∧ g.producerAt n i = some p ∧ g.Upstream p m)
            sg sgj := by
      intro j
      induction j with
      | zero =>
        intro _
        refine ⟨sg1, rfl, h1.congr ?_⟩
        intro m
        constructor
        · intro h
          exact Or.inl h
        · rintro (h | ⟨i, p, hi, _⟩)
          · exact h
          · exact absurd hi (Nat.not_lt_zero _)
      | succ j ihj =>
        intro hj
        obtain ⟨sgj, hfold, htile⟩ := ihj (by omega)
        have hjlt : j < nd.inputs.length := by omega
        have hv : nd.inputs[j]? = some nd.inputs[j] := List.getElem?_eq_getElem hjlt
        obtain ⟨val, hval, hp⟩ := hin j _ hv
        rw [List.range_succ, List.foldlM_append, hfold]
        simp only [Option.bind_eq_bind, Option.some_bind, List.foldlM_cons, List.foldlM_nil, hv,
          hval, Option.pure_def]
        have hsame : ∀ (hnone : g.producerAt n j = none) (m : NodeId),
            (m = n ∨ ∃ i p, i < j ∧ g.producerAt n i = some p ∧ g.Upstream p m) ↔
            (m = n ∨ ∃ i p, i < j + 1 ∧ g.producerAt n i = some p ∧ g.Upstream p m) := by
          intro hnone m
          constructor
          · rintro (h | ⟨i, p, hi, h⟩)
            · exact Or.inl h
            · exact Or.inr ⟨i, p, by omega, h⟩
          · rintro (h | ⟨i, p, hi, hpi, hup⟩)
            · exact Or.inl h
            · by_cases hij : i = j
              · subst hij
                rw [hnone] at hpi
                cases hpi
              · exact Or.inr ⟨i, p, by omega, hpi, hup⟩
        cases hvn : val.node with
        | none =>
          refine ⟨sgj, by simp only [Option.bind_some], htile.congr (hsame ?_)⟩
          exact producerAt_none hnd hv hval hvn
        | some p =>
          obtain ⟨cnd, hcnd, hrec⟩ := hp p hvn
          simp only [hcnd, Option.some_bind]
          by_cases hk : cnd.kind = Kind.kParam
          · rw [if_pos hk]
            refine ⟨sgj, by simp only [Option.bind_some], htile.congr (hsame ?_)⟩
            rw [producerAt_eq hnd hv hval hvn hcnd, if_pos hk]
          · rw [if_neg hk]
            have hpa : g.producerAt n j = some p := by
              rw [producerAt_eq hnd hv hval hvn hcnd, if_neg hk]
            have hpC := hC n hn p (mem_producers hpa)
            have hns1 : sgj.getSplitNode n = some (sn.useNewOutSize (tile n)).1 := by
              rw [htile.inside n (Or.inl rfl), hsn]
              rfl
            obtain ⟨sg2, hcall, htile2⟩ := ih sgj p hpC.1 (by omega) (by
              intro m hm
              rw [propagatesAt_tiled htile m]
              exact hprop m hm)
            refine ⟨sg2, ?_, (htile.union htile2).congr ?_⟩
            · simp only [hns1, Option.some_bind, hrec hk, hcall, Bool.and_self]
            · intro m
              constructor
              · rintro ((h | ⟨i, q, hi, h⟩) | h)
                · exact Or.inl h
                · exact Or.inr ⟨i, q, by omega, h⟩
                · exact Or.inr ⟨j, p, by omega, hpa, h⟩
              · rintro (h | ⟨i, q, hi, hpi, hup⟩)
                · exact Or.inl (Or.inl h)
                · by_cases hij : i = j
                  · subst hij
                    rw [hpa] at hpi
                    cases hpi
                    exact Or.inr hup
                  · exact Or.inl (Or.inr ⟨i, q, by omega, hpi, hup⟩)
    obtain ⟨sg', hfold, htile⟩ := key nd.inputs.length (Nat.le_refl _)
    refine ⟨sg', hfold, htile.congr ?_⟩
    intro m
    constructor
    · rintro (h | ⟨i, p, _, hpi, hup⟩)
      · rw [h]
        exact Graph.Upstream.self n
      · exact Graph.Upstream.step i hpi hup
    · intro h
      cases h with
      | self => exact Or.inl rfl
      | step i hpi hup =>
        obtain ⟨nd', v, _, _, hnd', hv, _⟩ := producerAt_some hpi
        rw [hnd] at hnd'
        cases hnd'
        have hi : i < nd.inputs.length := by
          by_contra hge
          rw [List.getElem?_eq_none (Nat.le_of_not_lt hge)] at hv
          cases hv
        exact Or.inr ⟨i, _, hi, hpi, hup⟩

theorem upstream_mem {g : Graph} {r : NodeId → Nat} {C : List NodeId}
    (hC : ∀ m ∈ C, ∀ p ∈ g.producers m, p ∈ C ∧ r p < r m) {n m : NodeId}
    (h : g.Upstream n m) : n ∈ C → m ∈ C := by
  induction h with
  | self => exact fun hn => hn
  | step i hpi _ ih => exact fun hn => ih (hC _ hn _ (mem_producers hpi)).1

theorem upstream_tail {g : Graph} {n m p : NodeId} {i : Nat} (h : g.Upstream n m)
    (hpi : g.producerAt m i = some p) : g.Upstream n p := by
  induction h with
  | self => exact Graph.Upstream.step i hpi (Graph.Upstream.self p)
  | step j hpj _ ih => exact Graph.Upstream.step j hpj (ih hpi)

/-- After the propagation the tiles of the upstream cone satisfy the
recurrence: the tile of a producer is the input size that its user computes
from its own tile. -/
theorem tiled_recurrence {g : Graph} {sg sg' : SplitGraph} {tile : NodeId → LongInts}
    {r : NodeId → Nat} {C : List NodeId} {n : NodeId} (hn : n ∈ C)
    (hC : ∀ m ∈ C, ∀ p ∈ g.producers m, p ∈ C ∧ r p < r m)
    (hprop : ∀ m ∈ C, sg.propagatesAt g tile m = true)
    (ht : SplitGraph.TiledOn tile (g.Upstream n) sg sg') :
    ∀ m, g.Upstream n m → ∀ i p, g.producerAt m i = some p →
      ∃ snm snp, sg'.getSplitNode m = some snm ∧ sg'.getSplitNode p = some snp ∧
        snm.m_NewOutSizes = tile m ∧ snp.m_NewOutSizes = tile p ∧
        snm.calNewInputSize g i = some snp.m_NewOutSizes := by
  intro m hm i p hpi
  have hmC := upstream_mem hC hm hn
  have hp := upstream_tail hm hpi
  have hpC := upstream_mem hC hp hn
  obtain ⟨nd, sn, hnd, hsn, _, _, hin⟩ := propagatesAt_spec (hprop m hmC)
  obtain ⟨_, snp0, _, hsnp, _⟩ := propagatesAt_spec (hprop p hpC)
  obtain ⟨nd', v, val, cnd, hnd', hv, hval, hvp, hcnd, hk⟩ := producerAt_some hpi
  rw [hnd] at hnd'
  cases hnd'
  obtain ⟨val', hval', hrec⟩ := hin i v hv
  rw [hval] at hval'
  cases hval'
  obtain ⟨cnd', hcnd', hrec⟩ := hrec p hvp
  rw [hcnd] at hcnd'
  cases hcnd'
  refine ⟨(sn.useNewOutSize (tile m)).1, (snp0.useNewOutSize (tile p)).1, ?_, ?_, rfl, rfl,
    hrec hk⟩
  · rw [ht.inside m hm, hsn]
    rfl
  · rw [ht.inside p hp, hsnp]
    rfl

/-! ## The propagation in a cone of single consumers -/

theorem tracksAt_spec {g : Graph} {sg : SplitGraph} {m : NodeId} (h : sg.tracksAt g m = true) :
    ∃ nd sn, g.node? m = some nd ∧ sg.getSplitNode m = some sn ∧ sn.m_Node = m ∧
      nd.inputs.length < UNSIGNED := by
  unfold SplitGraph.tracksAt at h
  cases hnd : g.node? m with
  | none => simp [hnd] at h
  | some nd =>
    cases hsn : sg.getSplitNode m with
    | none => simp [hnd, hsn] at h
    | some sn =>
      simp only [hnd, hsn, Bool.and_eq_true, decide_eq_true_eq] at h
      exact ⟨nd, sn, rfl, rfl, h.1, h.2⟩

theorem mem_consumersOf {g : Graph} {m p : NodeId} {i : Nat} (h : g.producerAt m i = some p) :
    (m, i) ∈ g.consumersOf p := by
  obtain ⟨nd, v, _, _, hnd, hv, _⟩ := producerAt_some h
  have hi : i < nd.inputs.length := by
    by_contra hge
    rw [List.getElem?_eq_none (Nat.le_of_not_lt hge)] at hv
    cases hv
  unfold Graph.consumersOf
  rw [List.mem_flatMap]
  refine ⟨(m, nd), mem_of_lookup _ _ _ hnd, ?_⟩
  rw [List.mem_filterMap]
  exact ⟨i, List.mem_range.mpr hi, by simp only [h, if_true]⟩

theorem single_consumer {g : Graph} {p m m' : NodeId} {i i' : Nat}
    (hs : (g.consumersOf p).length ≤ 1) (h : g.producerAt m i = some p)
    (h' : g.producerAt m' i' = some p) : m = m' ∧ i = i' := by
  have a := mem_consumersOf h
  have b := mem_consumersOf h'
  generalize g.consumersOf p = l at hs a b
  cases l with
  | nil => cases a
  | cons x t =>
    cases t with
    | nil =>
      rw [List.mem_singleton] at a b
      rw [← b] at a
      exact ⟨congrArg Prod.fst a, congrArg Prod.snd a⟩
    | cons y t =>
      simp only [List.length_cons] at hs
      omega

theorem upstream_rank {g : Graph} {r : NodeId → Nat} {C : List NodeId}
    (hC : ∀ m ∈ C, ∀ p ∈ g.producers m, p ∈ C ∧ r p < r m) {a b : NodeId}
    (h : g.Upstream a b) : a ∈ C → r b ≤ r a := by
  induction h with
  | self => exact fun _ => Nat.le_refl _
  | step i hpi _ ih =>
    intro ha
    have := hC _ ha _ (mem_producers hpi)
    exact Nat.le_trans (ih this.1) (Nat.le_of_lt this.2)

theorem upstream_last {g : Graph} {n m : NodeId} (h : g.Upstream n m) :
    m = n ∨ ∃ c i, g.Upstream n c ∧ g.producerAt c i = some m := by
  induction h with
  | self => exact Or.inl rfl
  | step i hpi hup ih =>
    rcases ih with e | ⟨c, k, hc, hk⟩
    · subst e
      exact Or.inr ⟨_, i, Graph.Upstream.self _, hpi⟩
    · exact Or.inr ⟨c, k, Graph.Upstream.step i hpi hc, hk⟩

theorem upstream_comparable {g : Graph} {r : NodeId → Nat} {C : List NodeId}
    (hC : ∀ m ∈ C, ∀ p ∈ g.producers m, p ∈ C ∧ r p < r m)
    (hs : ∀ p ∈ C, (g.consumersOf p).length ≤ 1) {a b m : NodeId} (h1 : g.Upstream a m) :
    g.Upstream b m → a ∈ C → g.Upstream a b ∨ g.Upstream b a := by
  induction h1 with
  | self => exact fun h2 _ => Or.inr h2
  | step i hpi _ ih =>
    intro h2 ha
    have ha' := (hC _ ha _ (mem_producers hpi)).1
    rcases ih h2 ha' with h | h
    · exact Or.inl (Graph.Upstream.step i hpi h)
    · rcases upstream_last h with e | ⟨c, k, hc, hk⟩
      · subst e
        exact Or.inl (Graph.Upstream.step i hpi (Graph.Upstream.self _))
      · obtain ⟨e1, _⟩ := single_consumer (hs _ ha') hk hpi
        rw [e1] at hc
        exact Or.inr hc

theorem upstream_no_return {g : Graph} {r : NodeId → Nat} {C : List NodeId}
    (hC : ∀ m ∈ C, ∀ p ∈ g.producers m, p ∈ C ∧ r p < r m) {n q : NodeId} {i : Nat}
    (hn : n ∈ C) (hi : g.producerAt n i = some q) : ¬ g.Upstream q n := by
  intro h
  have hq := hC n hn q (mem_producers hi)
  have := upstream_rank hC h hq.1
  omega

theorem cones_apart {g : Graph} {r : NodeId → Nat} {C : List NodeId}
    (hC : ∀ m ∈ C, ∀ p ∈ g.producers m, p ∈ C ∧ r p < r m)
    (hs : ∀ p ∈ C, (g.consumersOf p).length ≤ 1) {n q p m : NodeId} {i j : Nat} (hn : n ∈ C)
    (hi : g.producerAt n i = some q) (hj : g.producerAt n j = some p) (hij : i ≠ j)
    (h1 : g.Upstream q m) (h2 : g.Upstream p m) : False := by
  have aux : ∀ (q p : NodeId) (i j : Nat), g.producerAt n i = some q →
      g.producerAt n j = some p → i ≠ j → g.Upstream q p → False := by
    intro q p i j hi hj hij h
    have hp := (hC n hn p (mem_producers hj)).1
    rcases upstream_last h with e | ⟨c, k, hc, hk⟩
    · subst e
      exact hij (single_consumer (hs _ hp) hi hj).2
    · obtain ⟨e1, _⟩ := single_consumer (hs _ hp) hk hj
      rw [e1] at hc
      exact upstream_no_return hC hn hi hc
  have hq := (hC n hn q (mem_producers hi)).1
  rcases upstream_comparable hC hs h1 h2 hq with h | h
  · exact aux q p i j hi hj hij h
  · exact aux p q j i hj hi (Ne.symm hij) h

theorem foldlM_range_invariant {β : Type} (f : β → Nat → Option β) (R : Nat → β → Prop) (b : β)
    (hb : R 0 b) :
    ∀ (k : Nat), (∀ j x y, j < k → R j x → f x j = some y → R (j + 1) y) →
      ∀ b', (List.range k).foldlM f b = some b' → R k b' := by
  intro k
  induction k with
  | zero =>
    intro _ b' h
    simp only [List.range_zero, List.foldlM_nil, Option.pure_def, Option.some.injEq] at h
    exact h ▸ hb
  | succ k ih =>
    intro hstep b' h
    rw [List.range_succ] at h
    obtain ⟨c, hc, hlast⟩ := (foldlM_append_some _ _ _ _).mp h
    obtain ⟨d, hd, hnil⟩ := foldlM_cons_some.mp hlast
    simp only [List.foldlM_nil, Option.pure_def, Option.some.injEq] at hnil
    subst hnil
    exact hstep k c d (Nat.lt_succ_self k)
      (ih (fun j x y hj => hstep j x y (Nat.lt_succ_of_lt hj)) c hc) hd

theorem retiledOn_refl (V : NodeId → Prop) (sg : SplitGraph) : SplitGraph.RetiledOn V sg sg :=
  ⟨fun _ _ => rfl, fun _ => rfl, rfl, rfl, rfl, rfl, rfl, rfl⟩

theorem retiledOn_trans {V W : NodeId → Prop} {sg sg1 sg2 : SplitGraph}
    (h1 : SplitGraph.RetiledOn V sg sg1) (h2 : SplitGraph.RetiledOn W sg1 sg2) :
    SplitGraph.RetiledOn (fun m => V m ∨ W m) sg sg2 :=
  ⟨fun m hm => (h2.outside m (fun hw => hm (Or.inr hw))).trans
      (h1.outside m (fun hv => hm (Or.inl hv))),
    fun m => (h2.nodes m).trans (h1.nodes m), h2.graph.trans h1.graph, h2.stores.trans h1.stores,
    h2.axis.trans h1.axis, h2.factor.trans h1.factor, h2.allocSuccess.trans h1.allocSuccess,
    h2.allocSize.trans h1.allocSize⟩

theorem retiledOn_mono {V W : NodeId → Prop} {sg sg' : SplitGraph}
    (h : SplitGraph.RetiledOn V sg sg') (e : ∀ m, V m → W m) : SplitGraph.RetiledOn W sg sg' :=
  ⟨fun m hm => h.outside m (fun hv => hm (e m hv)), h.nodes, h.graph, h.stores, h.axis, h.factor,
    h.allocSuccess, h.allocSize⟩

theorem tableSet_retiledOn (sg : SplitGraph) (S : LongInts) (n : NodeId) (ns : SplitNode)
    (hns : sg.getSplitNode n = some ns) :
    SplitGraph.RetiledOn (fun m => m = n) sg
      { sg with m_SplitNodes := tableSet sg.m_SplitNodes n (ns.useNewOutSize S).1 } := by
  refine ⟨?_, ?_, rfl, rfl, rfl, rfl, rfl, rfl⟩
  · intro m hm
    exact lookup_tableSet_ne _ _ _ _ hm
  · intro m
    by_cases hm : m = n
    · subst hm
      show ((tableSet sg.m_SplitNodes m _).lookup m).map SplitNode.resetSize = _
      rw [lookup_tableSet_self _ _ _ _ hns]
      have : sg.getSplitNode m = some ns := hns
      rw [this]
      rfl
    · show ((tableSet sg.m_SplitNodes n _).lookup m).map SplitNode.resetSize = _
      rw [lookup_tableSet_ne _ _ _ _ hm]
      rfl

theorem tracksAt_retiledOn {g : Graph} {V : NodeId → Prop} {sg sg' : SplitGraph}
    (h : SplitGraph.RetiledOn V sg sg') (m : NodeId) : sg'.tracksAt g m = sg.tracksAt g m := by
  have e := h.nodes m
  unfold SplitGraph.tracksAt
  cases h1 : sg'.getSplitNode m with
  | none =>
    cases h2 : sg.getSplitNode m with
    | none => rfl
    | some sn => rw [h1, h2] at e; cases e
  | some sn' =>
    cases h2 : sg.getSplitNode m with
    | none => rw [h1, h2] at e; cases e
    | some sn =>
      rw [h1, h2] at e
      have e1 : sn'.m_Node = sn.m_Node := by
        have := congrArg (fun o : Option SplitNode => o.map SplitNode.m_Node) e
        simpa [SplitNode.resetSize] using this
      cases g.node? m with
      | none => rfl
      | some nd =>
        show (decide (sn'.m_Node = m) && _) = (decide (sn.m_Node = m) && _)
        rw [e1]

theorem inputTiled_outside {g : Graph} {sg sg' : SplitGraph} {m : NodeId}
    (hm : sg'.getSplitNode m = sg.getSplitNode m)
    (hp : ∀ i p, g.producerAt m i = some p → sg'.getSplitNode p = sg.getSplitNode p)
    (h : sg.InputTiled g m) : sg'.InputTiled g m := by
  intro i p hpi
  obtain ⟨snm, snp, h1, h2, h3⟩ := h i p hpi
  exact ⟨snm, snp, hm.trans h1, (hp i p hpi).trans h2, h3⟩

/-- Method `splitNodeBySize` with propagation, from a node `n` of a set `C` of
nodes that holds the producers of its nodes, ranked below their users, each
with one use at most: when the call returns, it returns `true`, the proposed
size of `n` is the given one, the tiles satisfy the recurrence on the upstream
cone of `n`, and nothing but the proposed sizes in the cone has changed. -/
theorem propagate_single (g : Graph) (r : NodeId → Nat) (C : List NodeId)
    (hC : ∀ m ∈ C, ∀ p ∈ g.producers m, p ∈ C ∧ r p < r m)
    (hs : ∀ p ∈ C, (g.consumersOf p).length ≤ 1) :
    ∀ (fuel : Nat) (sg : SplitGraph) (n : NodeId) (S : LongInts) (res : SplitGraph × Bool),
      n ∈ C → (∀ m ∈ C, sg.tracksAt g m = true) →
      SplitGraph.splitNodeBySize g fuel sg n S true = some res →
      res.2 = true ∧ (res.1.getSplitNode n).map SplitNode.m_NewOutSizes = some S ∧
        (∀ m, g.Upstream n m → res.1.InputTiled g m) ∧
        SplitGraph.RetiledOn (g.Upstream n) sg res.1 := by
  intro fuel
  induction fuel with
  | zero =>
    intro sg n S res _ _ h
    rw [SplitGraph.splitNodeBySize] at h
    cases h
  | succ fuel ih =>
    intro sg n S res hn htr h
    obtain ⟨nd, sn, hnd, hsn, hnode, hlen⟩ := tracksAt_spec (htr n hn)
    rw [splitNodeBySize_succ, hsn, Option.some_bind, if_neg (by decide), hnode, hnd,
      Option.some_bind, Nat.mod_eq_of_lt hlen] at h
    have h1 := tableSet_retiledOn sg S n sn hsn
    have hself : ({ sg with
        m_SplitNodes := tableSet sg.m_SplitNodes n (sn.useNewOutSize S).1 } : SplitGraph).getSplitNode
        n = some (sn.useNewOutSize S).1 := lookup_tableSet_self _ _ _ _ hsn
    generalize hsg1 : ({ sg with
        m_SplitNodes := tableSet sg.m_SplitNodes n (sn.useNewOutSize S).1 } : SplitGraph)
      = sg1 at h h1 hself
    have key := foldlM_range_invariant _
      (fun j (st : SplitGraph × Bool) =>
        st.2 = true ∧ st.1.getSplitNode n = some (sn.useNewOutSize S).1 ∧
        (∀ i, i < j → ∀ p, g.producerAt n i = some p →
          (∃ snp, st.1.getSplitNode p = some snp ∧
            (sn.useNewOutSize S).1.calNewInputSize g i = some snp.m_NewOutSizes) ∧
          ∀ m, g.Upstream p m → st.1.InputTiled g m) ∧
        SplitGraph.RetiledOn
          (fun m => m = n ∨ ∃ i p, i < j ∧ g.producerAt n i = some p ∧ g.Upstream p m) sg st.1)
      (sg1, true)
      ⟨rfl, hself, fun i hi => absurd hi (Nat.not_lt_zero _),
        retiledOn_mono h1 (fun m hm => Or.inl hm)⟩
      nd.inputs.length ?_ res h
    · obtain ⟨hb, hsn', hin, hret⟩ := key
      have hidx : ∀ i p, g.producerAt n i = some p → i < nd.inputs.length := by
        intro i p hpi
        obtain ⟨nd', v, _, _, hnd', hv, _⟩ := producerAt_some hpi
        rw [hnd] at hnd'
        cases hnd'
        by_contra hge
        rw [List.getElem?_eq_none (Nat.le_of_not_lt hge)] at hv
        cases hv
      refine ⟨hb, by rw [hsn']; rfl, ?_, retiledOn_mono hret ?_⟩
      · intro m hm
        cases hm with
        | self =>
          intro i p hpi
          obtain ⟨⟨snp, hsnp, hcal⟩, _⟩ := hin i (hidx i p hpi) p hpi
          exact ⟨_, snp, hsn', hsnp, hcal⟩
        | step i hpi hup => exact (hin i (hidx i _ hpi) _ hpi).2 m hup
      · rintro m (h | ⟨i, p, _, hpi, hup⟩)
        · rw [h]
          exact Graph.Upstream.self n
        · exact Graph.Upstream.step i hpi hup
    · intro j x y hj hx hstep
      obtain ⟨hxb, hxn, hxin, hxret⟩ := hx
      have hnone : g.producerAt n j = none →
          x.2 = true ∧ x.1.getSplitNode n = some (sn.useNewOutSize S).1 ∧
          (∀ i, i < j + 1 → ∀ p, g.producerAt n i = some p →
            (∃ snp, x.1.getSplitNode p = some snp ∧
              (sn.useNewOutSize S).1.calNewInputSize g i = some snp.m_NewOutSizes) ∧
            ∀ m, g.Upstream p m → x.1.InputTiled g m) ∧
          SplitGraph.RetiledOn
            (fun m => m = n ∨ ∃ i p, i < j + 1 ∧ g.producerAt n i = some p ∧ g.Upstream p m)
            sg x.1 := by
        intro hno
        refine ⟨hxb, hxn, ?_, retiledOn_mono hxret ?_⟩
        · intro i hi p hpi
          by_cases hij : i = j
          · rw [hij, hno] at hpi
            cases hpi
          · exact hxin i (by omega) p hpi
        · rintro m (h | ⟨i, p, hi, hrest⟩)
          · exact Or.inl h
          · exact Or.inr ⟨i, p, by omega, hrest⟩
      simp only [] at hstep
      obtain ⟨v, hv, hstep⟩ := bind_some_iff.mp hstep
      obtain ⟨val, hval, hstep⟩ := bind_some_iff.mp hstep
      cases hvn : val.node with
      | none =>
        rw [hvn] at hstep
        cases hstep
        exact hnone (producerAt_none hnd hv hval hvn)
      | some p =>
        rw [hvn] at hstep
        obtain ⟨cnd, hcnd, hstep⟩ := bind_some_iff.mp hstep
        by_cases hk : cnd.kind = Kind.kParam
        · rw [if_pos hk] at hstep
          cases hstep
          apply hnone
          rw [producerAt_eq hnd hv hval hvn hcnd, if_pos hk]
        · rw [if_neg hk] at hstep
          obtain ⟨ns1, hns1, hstep⟩ := bind_some_iff.mp hstep
          obtain ⟨newInS, hnew, hstep⟩ := bind_some_iff.mp hstep
          obtain ⟨r1, hr1, hstep⟩ := bind_some_iff.mp hstep
          cases hstep
          rw [hxn] at hns1
          cases hns1
          have hpa : g.producerAt n j = some p := by
            rw [producerAt_eq hnd hv hval hvn hcnd, if_neg hk]
          have hpC := (hC n hn p (mem_producers hpa)).1
          obtain ⟨hb, hsz, hrec, hret⟩ := ih x.1 p newInS r1 hpC (by
            intro m hm
            rw [tracksAt_retiledOn hxret m]
            exact htr m hm) hr1
          refine ⟨by rw [hxb, hb]; rfl, ?_, ?_, retiledOn_mono (retiledOn_trans hxret hret) ?_⟩
          · show r1.1.getSplitNode n = _
            rw [hret.outside n (upstream_no_return hC hn hpa)]
            exact hxn
          · intro i hi q hq
            by_cases hij : i = j
            · subst hij
              rw [hpa] at hq
              cases hq
              refine ⟨?_, hrec⟩
              cases hsp : r1.1.getSplitNode p with
              | none =>
                rw [hsp] at hsz
                cases hsz
              | some snp =>
                rw [hsp] at hsz
                simp only [Option.map_some', Option.some.injEq] at hsz
                exact ⟨snp, rfl, by rw [hsz]; exact hnew⟩
            · obtain ⟨⟨snq, hsnq, hcal⟩, hall⟩ := hxin i (by omega) q hq
              have hout : ∀ m, g.Upstream q m → r1.1.getSplitNode m = x.1.getSplitNode m :=
                fun m hm => hret.outside m (fun hpm => cones_apart hC hs hn hq hpa hij hm hpm)
              refine ⟨⟨snq, (hout q (Graph.Upstream.self q)).trans hsnq, hcal⟩, ?_⟩
              intro m hm
              exact inputTiled_outside (hout m hm)
                (fun k p' hk' => hout p' (upstream_tail hm hk')) (hall m hm)
          · rintro m ((h | ⟨i, q, hi, hrest⟩) | h)
            · exact Or.inl h
            · exact Or.inr ⟨i, q, by omega, hrest⟩
            · exact Or.inr ⟨j, p, by omega, hpa, h⟩

/-! ## Properties of the split graph -/

/-- C21 (amended). For a node `pN` with the split node `ns`, an axis inside
the proposed output size `S` of `ns`, `d = S[pAxis]`, and a factor of at least
1, when the evaluation in `int64_t` meets no signed overflow, that is, when
`d + pFactor` is a value of `int64_t`: `splitNodeByFactor` is
`splitNodeBySize` with the size `S'` that has `(d + pFactor - 1) / pFactor`
(the division of C++) at `pAxis` and the entries of `S` elsewhere.  The new
entry is the ceiling of `d / pFactor` when `d + pFactor - 1` is not negative,
it is between 1 and `d` when `d` is at least 1, and the factor 1 leaves the
size as it is. -/
theorem splitNodeByFactor_ceil (g : Graph) (sg : SplitGraph) (pN : NodeId) (ns : SplitNode)
    (pAxis pFactor : Nat) (pUpdateUpper : Bool) (d : Int)
    (hns : sg.getSplitNode pN = some ns) (hd : (ns.getNewOutputSize 0)[pAxis]? = some d)
    (hf : 1 ≤ pFactor) (hfu : pFactor < UNSIGNED) (hlo : INT64_MIN ≤ d)
    (hhi : d + (pFactor : Int) ≤ INT64_MAX) :
    sg.splitNodeByFactor g pN pAxis pFactor pUpdateUpper =
        (SplitGraph.splitNodeBySize g g.fuel sg pN
          ((ns.getNewOutputSize 0).set pAxis ((d + (pFactor : Int) - 1).tdiv (pFactor : Int)))
          pUpdateUpper).map Prod.fst ∧
      ((ns.getNewOutputSize 0).set pAxis ((d + (pFactor : Int) - 1).tdiv (pFactor : Int)))[pAxis]?
        = some ((d + (pFactor : Int) - 1).tdiv (pFactor : Int)) ∧
      (∀ j, j ≠ pAxis →
        ((ns.getNewOutputSize 0).set pAxis
          ((d + (pFactor : Int) - 1).tdiv (pFactor : Int)))[j]? = (ns.getNewOutputSize 0)[j]?) ∧
      (0 ≤ d + (pFactor : Int) - 1 →
        (d + (pFactor : Int) - 1).tdiv (pFactor : Int) = ⌈(d : ℚ) / (pFactor : ℚ)⌉) ∧
      (1 ≤ d → 1 ≤ (d + (pFactor : Int) - 1).tdiv (pFactor : Int) ∧
        (d + (pFactor : Int) - 1).tdiv (pFactor : Int) ≤ d) ∧
      (pFactor = 1 →
        (ns.getNewOutputSize 0).set pAxis ((d + (pFactor : Int) - 1).tdiv (pFactor : Int))
          = ns.getNewOutputSize 0) := by
  have hlt : pAxis < (ns.getNewOutputSize 0).length := by
    by_contra hge
    rw [List.getElem?_eq_none (Nat.le_of_not_lt hge)] at hd
    cases hd
  refine ⟨?_, List.getElem?_set_self hlt, fun j hj => List.getElem?_set_ne (Ne.symm hj),
    factor_quotient_ceil d pFactor hf, factor_quotient_bounds d pFactor hf, ?_⟩
  · unfold SplitGraph.splitNodeByFactor
    simp only [hns, hd, Option.bind_eq_bind, Option.some_bind,
      factorQuotient_eq d pFactor hf hfu hlo hhi, setAt, hlt, if_true, Option.pure_def]
    cases SplitGraph.splitNodeBySize g g.fuel sg pN
      ((ns.getNewOutputSize 0).set pAxis ((d + (pFactor : Int) - 1).tdiv (pFactor : Int)))
      pUpdateUpper <;> rfl
  · intro h1
    subst h1
    rw [factor_one]
    exact set_same _ _ _ hd

/-- Witness of C21 (amended): the Store of `tinyParent`, whose proposed size
is `(2)`, with the axis 0 and the factor 2. -/
theorem splitNodeByFactor_ceil_witness :
    (tinySplit [2] 0 1).getSplitNode 10 =
        some { plainSplitNode 10 true [2] with m_NewOutSizes := [2] } ∧
      (tinySplit [2] 0 1).splitNodeByFactor tinyParent 10 0 2 true =
        (SplitGraph.splitNodeBySize tinyParent tinyParent.fuel (tinySplit [2] 0 1) 10
          (([2] : LongInts).set 0 ((2 + ((2 : Nat) : Int) - 1).tdiv ((2 : Nat) : Int)))
          true).map Prod.fst :=
  ⟨by decide,
    (splitNodeByFactor_ceil tinyParent (tinySplit [2] 0 1) 10
      { plainSplitNode 10 true [2] with m_NewOutSizes := [2] } 0 2 true 2 (by decide) (by decide)
      (by decide) (by decide) (by decide) (by decide)).1⟩

/-- Counterexample to C21 as stated: the split graph of `tinyParent` with the
proposed size `(-4)`, which `splitNodeBySize` sets; `splitNodeByFactor` with
the factor 3 computes `(-4 + 3 - 1) / 3 = 0`, while the ceiling of `-4 / 3`
is `-1`. -/
theorem splitNodeByFactor_negative_extent :
    SplitGraph.splitNodeBySize tinyParent tinyParent.fuel (tinySplit [2] 0 1) 10 [-4] true =
        some (tinySplit [-4] 0 1, true) ∧
      ((tinySplit [-4] 0 1).splitNodeByFactor tinyParent 3 0 3 false).bind
          (fun s => (s.getSplitNode 3).map (fun sn => sn.m_NewOutSizes)) = some [0] ∧
      ⌈((-4 : Int) : ℚ) / ((3 : Nat) : ℚ)⌉ = -1 := by
  refine ⟨by decide, by decide, ?_⟩
  rw [Int.ceil_eq_iff]
  norm_num

/-- C23. On a split graph constructed over the graph `g`, after whatever
calls of `shrinkSize`, `splitNodeBySize`, `splitNodeByFactor` and
`setAllocStatus`, a call of `resetToOrigSize` returns (the Store list has
less than `2^32` entries, the range of the counter of the loop); after it the
split node of every node is the one before the call with its original size as
the proposed size, which is the split node of the construction, and every
tracked Store has the split axis 0 and the split factor 1. -/
theorem resetToOrigSize_restores (T : Target) (g : Graph) (id : GraphId) (sg0 sg : SplitGraph)
    (h0 : SplitGraph.new T g id = some sg0) (hr : SplitGraph.Reaches g sg0 sg)
    (hlen : sg.m_Stores.length < UNSIGNED) :
    ∃ sg', sg.resetToOrigSize = some sg' ∧
      (∀ n, sg'.getSplitNode n = (sg.getSplitNode n).map SplitNode.resetSize) ∧
      (∀ n sn, sg'.getSplitNode n = some sn →
        sn.m_NewOutSizes = sn.m_OutSizes ∧ sg0.getSplitNode n = some sn) ∧
      sg'.m_Stores = sg.m_Stores ∧
      sg'.m_CurSplitAxis.length = sg'.m_Stores.length ∧
      sg'.m_CurSplitFactor.length = sg'.m_Stores.length ∧
      (∀ i, i < sg'.m_Stores.length →
        sg'.m_CurSplitAxis[i]? = some 0 ∧ sg'.m_CurSplitFactor[i]? = some 1) := by
  have hb := SplitGraph.new_built h0
  have hrt := reaches_retiled hb hr
  refine ⟨_, reset_retiled hb hrt hlen, ?_, ?_, hrt.stores.symm, ?_, ?_, ?_⟩
  · intro n
    rw [← getSplitNode_resetNodes]
    show sg0.m_SplitNodes.lookup n = sg.resetNodes.m_SplitNodes.lookup n
    rw [hrt.nodes, built_resetNodes hb]
  · intro n sn hsn
    refine ⟨?_, hsn⟩
    have hmem : (n, sn) ∈ sg0.m_SplitNodes := by
      have : sg0.m_SplitNodes.lookup n = some sn := hsn
      exact mem_of_lookup _ _ _ this
    exact hb.sizes _ hmem
  · show sg0.m_CurSplitAxis.length = sg0.m_Stores.length
    rw [hb.axis, List.length_replicate]
  · show sg0.m_CurSplitFactor.length = sg0.m_Stores.length
    rw [hb.factor, List.length_replicate]
  · intro i hi
    have hi' : i < sg0.m_Stores.length := hi
    constructor
    · show sg0.m_CurSplitAxis[i]? = some 0
      rw [hb.axis, List.getElem?_replicate, if_pos hi']
    · show sg0.m_CurSplitFactor[i]? = some 1
      rw [hb.factor, List.getElem?_replicate, if_pos hi']

/-- Witness of C23: the split graph of `tinyParent` after one call of
`shrinkSize`, which halves the tiles and raises the factor of the Store
to 2. -/
theorem resetToOrigSize_restores_witness :
    SplitGraph.new exampleTarget tinyParent 0 = some (tinySplit [2] 0 1) ∧
      (tinySplit [2] 0 1).shrinkSize tinyParent = some (tinySplit [1] 0 2) ∧
      ∃ sg', (tinySplit [1] 0 2).resetToOrigSize = some sg' ∧
        (∀ n, sg'.getSplitNode n = ((tinySplit [1] 0 2).getSplitNode n).map SplitNode.resetSize) ∧
        (∀ n sn, sg'.getSplitNode n = some sn →
          sn.m_NewOutSizes = sn.m_OutSizes ∧ (tinySplit [2] 0 1).getSplitNode n = some sn) ∧
        sg'.m_Stores = (tinySplit [1] 0 2).m_Stores ∧
        sg'.m_CurSplitAxis.length = sg'.m_Stores.length ∧
        sg'.m_CurSplitFactor.length = sg'.m_Stores.length ∧
        (∀ i, i < sg'.m_Stores.length →
          sg'.m_CurSplitAxis[i]? = some 0 ∧ sg'.m_CurSplitFactor[i]? = some 1) :=
  ⟨by decide, by decide,
    resetToOrigSize_restores exampleTarget tinyParent 0 (tinySplit [2] 0 1) (tinySplit [1] 0 2)
      (by decide) (SplitGraph.Reaches.shrinkSize SplitGraph.Reaches.start (by decide))
      (by decide)⟩

/-- C24 (amended). On a split graph constructed over the graph `g`, after
whatever calls of `shrinkSize`, `splitNodeBySize`, `splitNodeByFactor` and
`setAllocStatus`, the graph being the same, `resetToOrigSize` followed by
`rebuildSplitNodes` returns the split graph of the construction, map, Store
list, axes 0 and factors 1 included, except for the allocation status, which
is the one before the two calls; when the status is that of the construction
the result is the constructed split graph. -/
theorem reset_rebuild_initial (T : Target) (g : Graph) (id : GraphId) (sg0 sg : SplitGraph)
    (h0 : SplitGraph.new T g id = some sg0) (hr : SplitGraph.Reaches g sg0 sg)
    (hlen : sg.m_Stores.length < UNSIGNED) :
    sg.resetToOrigSize.bind (fun s => s.rebuildSplitNodes T g) =
        some { sg0 with m_AllocSuccess := sg.m_AllocSuccess, m_AllocSize := sg.m_AllocSize } ∧
      (sg.m_AllocSuccess = sg0.m_AllocSuccess → sg.m_AllocSize = sg0.m_AllocSize →
        sg.resetToOrigSize.bind (fun s => s.rebuildSplitNodes T g) = some sg0) := by
  have hb := SplitGraph.new_built h0
  have hrt := reaches_retiled hb hr
  have h1 : sg.resetToOrigSize.bind (fun s => s.rebuildSplitNodes T g) =
      some { sg0 with m_AllocSuccess := sg.m_AllocSuccess, m_AllocSize := sg.m_AllocSize } := by
    rw [reset_retiled hb hrt hlen, Option.some_bind]
    exact rebuild_of_new h0 rfl
  refine ⟨h1, ?_⟩
  intro e1 e2
  rw [h1, e1, e2]

/-- Witness of C24 (amended): the split graph of `tinyParent` after one call
of `shrinkSize`. -/
theorem reset_rebuild_initial_witness :
    SplitGraph.new exampleTarget tinyParent 0 = some (tinySplit [2] 0 1) ∧
      (tinySplit [2] 0 1).shrinkSize tinyParent = some (tinySplit [1] 0 2) ∧
      (tinySplit [1] 0 2).resetToOrigSize.bind
          (fun s => s.rebuildSplitNodes exampleTarget tinyParent) = some (tinySplit [2] 0 1) :=
  ⟨by decide, by decide,
    (reset_rebuild_initial exampleTarget tinyParent 0 (tinySplit [2] 0 1) (tinySplit [1] 0 2)
      (by decide) (SplitGraph.Reaches.shrinkSize SplitGraph.Reaches.start (by decide))
      (by decide)).2 rfl rfl⟩

/-- Counterexample to C24 as stated: after `setAllocStatus(true, 5)` on the
split graph constructed over `tinyParent`, whose allocation status is
`(false, 0)`, `resetToOrigSize` and `rebuildSplitNodes` leave the status
`(true, 5)`: the result is not the constructed split graph. -/
theorem reset_rebuild_keeps_alloc_status :
    SplitGraph.new exampleTarget tinyParent 0 = some (tinySplit [2] 0 1) ∧
      (((tinySplit [2] 0 1).setAllocStatus true 5).resetToOrigSize.bind
          (fun s => s.rebuildSplitNodes exampleTarget tinyParent)).map
        (fun s => (s.m_AllocSuccess, s.m_AllocSize)) = some (true, 5) ∧
      ((tinySplit [2] 0 1).m_AllocSuccess, (tinySplit [2] 0 1).m_AllocSize) = (false, 0) ∧
      ((tinySplit [2] 0 1).setAllocStatus true 5).resetToOrigSize.bind
          (fun s => s.rebuildSplitNodes exampleTarget tinyParent) ≠ some (tinySplit [2] 0 1) := by
  refine ⟨by decide, by decide, by decide, by decide⟩

/-- C25. For a node `pN` of a split graph, the keys of whose map are distinct
as those of a hash map are, `splitNodeBySize` with the current proposed
output size of `pN` and without propagation returns `true` and leaves the
split graph as it is: every split node, the Store list, the axis and factor
vectors and the allocation status. -/
theorem splitNodeBySize_current_noop (g : Graph) (sg : SplitGraph) (fuel : Nat) (pN : NodeId)
    (ns : SplitNode) (hkeys : (sg.m_SplitNodes.map Prod.fst).Nodup)
    (hns : sg.getSplitNode pN = some ns) :
    SplitGraph.splitNodeBySize g (fuel + 1) sg pN (ns.getNewOutputSize 0) false =
      some (sg, true) := by
  rw [splitNodeBySize_succ, hns, Option.some_bind, if_pos rfl]
  have e : (ns.useNewOutSize (ns.getNewOutputSize 0)).1 = ns := by
    cases ns
    rfl
  rw [e, tableSet_same sg.m_SplitNodes pN ns hkeys hns]

/-- Witness of C25: the node 3 of the split graph of `tinyParent`. -/
theorem splitNodeBySize_current_noop_witness :
    ((tinySplit [2] 0 1).m_SplitNodes.map Prod.fst).Nodup ∧
      (tinySplit [2] 0 1).getSplitNode 3 =
        some { plainSplitNode 3 false [2] with m_NewOutSizes := [2] } ∧
      SplitGraph.splitNodeBySize tinyParent 1 (tinySplit [2] 0 1) 3 [2] false =
        some (tinySplit [2] 0 1, true) :=
  ⟨by decide, by decide,
    splitNodeBySize_current_noop tinyParent (tinySplit [2] 0 1) 0 3
      { plainSplitNode 3 false [2] with m_NewOutSizes := [2] } (by decide) (by decide)⟩

/-! ## Properties of the search for split points -/

/-- C26, a defect of the code.  In `fanGraph` the output of the node 2 has
two users, the nodes 3 and 4.  With the usages 300, 100, 100 the node 2 is
alone in group A, both users are in group B, and the node 2 is returned
twice, once for each use, because `splitPts.push_back(n)` stands inside the
loop over the uses.  With the usage 100 for every node group A holds the
nodes 2 and 4 and group B the node 3; the output of the node 4 of group A is
used by the return node, which is in neither group: the assertion on
crossing uses fails and there is no result. -/
theorem finder_split_point_twice :
    halfSizeGroups heavyHeadTarget fanGraph = some (some ([2], [4, 3])) ∧
      findHalfSizeSplitPoints heavyHeadTarget insertionOrder fanGraph = some [2, 2] ∧
      findHalfSizeSplitPoints heavyHeadTarget reverseOrder fanGraph = some [2, 2] ∧
      halfSizeGroups (uniformTarget 100) fanGraph = some (some ([2, 4], [3])) ∧
      usesOf fanGraph 4 = [⟨fanGraph.return_node, 1⟩] ∧
      findHalfSizeSplitPoints (uniformTarget 100) insertionOrder fanGraph = none := by
  refine ⟨by decide, by decide, by decide, by decide, by decide, by decide⟩

/-! ## Properties of the memory usage -/

/-- C28, a defect of the code.  For the split graph of `loneConvGraph`, whose
Conv node 1 is not skipped and proposes the output size `(10, 64, 224, 224)`,
`getMemUsage` records for the output value 3 the usage that the target
reports for the size `(10, 3, 224, 224)`, which is `calNewInputSize(0)`, the
tile of input 0, and not for the proposed output size. -/
theorem getMemUsage_output_size :
    SplitGraph.new plainTarget loneConvGraph 0 = some loneConvSplit ∧
      (loneConvSplit.getSplitNode 1).map
          (fun sn => (sn.skipWhenCalMemSize, sn.getNewOutputSize 0, sn.calNewInputSize loneConvGraph 0))
        = some (false, [10, 64, 224, 224], some [10, 3, 224, 224]) ∧
      (loneConvGraph.node? 1).map (fun nd => nd.outputs) = some [3] ∧
      (loneConvSplit.getMemUsage volumeInfo insertionOrder loneConvGraph []).map
          (fun m => m.lookup 3)
        = some (some (volumeInfo.getOperatorOutputMemUsage loneConvGraph 1 0 [10, 3, 224, 224])) ∧
      volumeInfo.getOperatorOutputMemUsage loneConvGraph 1 0 [10, 3, 224, 224] ≠
        volumeInfo.getOperatorOutputMemUsage loneConvGraph 1 0 [10, 64, 224, 224] := by
  refine ⟨by decide, by decide, by decide, by decide, by decide⟩

/-! ## Properties of the topological sort -/

/-- C22. Let `C` be a set of nodes that holds `n` and, with a node, the
producers of its inputs that are no parameter nodes, each ranked below its
user (the graph is acyclic there); every node of `C` has a node object with
less than `2^32` inputs and a split node of its own, has a single consumer,
one use at most, and, if it is a Load, has no inputs, as every Load that
`createLoadStoreAtNode` creates.
First, when `splitNodeBySize` on `n` with the size `S` and with propagation
returns, it returns `true`, the tile of `n` is `S`, for every node `m` of the
upstream cone of `n` and every input index `i` of `m` whose producer `p`
exists and is no parameter node the tile of `p` is `calNewInputSize(i)` of `m`
under the tile of `m`, and the split graph is as before up to the tiles of the
nodes of the cone.
Second, the call does return: let the tiles `tile` pass the test
`propagatesAt` on `C`, that is, satisfy this recurrence; then the call with
the size `tile n` and enough fuel returns `true`, and afterwards every node of
the cone has its tile.
Third, the propagation stops at Loads and at parameter nodes: from a Load of
the cone no producer is followed, and no node that the propagation reaches
from a node of the cone is a parameter node.
Fourth, without propagation the call returns `true` and changes the tile of
`n` only. -/
theorem splitNodeBySize_propagates (g : Graph) (sg : SplitGraph) (r : NodeId → Nat)
    (C : List NodeId) (n : NodeId) (fuel : Nat) (hn : n ∈ C)
    (hC : ∀ m ∈ C, ∀ p ∈ g.producers m, p ∈ C ∧ r p < r m)
    (htr : ∀ m ∈ C, sg.tracksAt g m = true) (hfuel : r n < fuel)
    (hs : ∀ p ∈ C, (g.consumersOf p).length ≤ 1)
    (hload : ∀ m ∈ C, g.loadIsSource m = true) :
    (∀ S res, SplitGraph.splitNodeBySize g fuel sg n S true = some res →
        res.2 = true ∧ (res.1.getSplitNode n).map SplitNode.m_NewOutSizes = some S ∧
        (∀ m, g.Upstream n m → res.1.InputTiled g m) ∧
        SplitGraph.RetiledOn (g.Upstream n) sg res.1) ∧
    (∀ tile : NodeId → LongInts, (∀ m ∈ C, sg.propagatesAt g tile m = true) →
      ∃ sg', SplitGraph.splitNodeBySize g fuel sg n (tile n) true = some (sg', true) ∧
        SplitGraph.TiledOn tile (g.Upstream n) sg sg' ∧
        (∀ m, g.Upstream n m → ∀ i p, g.producerAt m i = some p →
          ∃ snm snp, sg'.getSplitNode m = some snm ∧ sg'.getSplitNode p = some snp ∧
            snm.m_NewOutSizes = tile m ∧ snp.m_NewOutSizes = tile p ∧
            snm.calNewInputSize g i = some snp.m_NewOutSizes)) ∧
    (∀ m, g.Upstream n m → ∀ nd, g.node? m = some nd →
      (nd.kind = Kind.Load → ∀ i, g.producerAt m i = none) ∧
      (∀ i p, g.producerAt m i = some p →
        ∃ pnd, g.node? p = some pnd ∧ pnd.kind ≠ Kind.kParam)) ∧
    (∀ S, ∃ sg', SplitGraph.splitNodeBySize g fuel sg n S false = some (sg', true) ∧
      SplitGraph.TiledOn (fun _ => S) (fun m => m = n) sg sg') := by
  refine ⟨?_, ?_, ?_, ?_⟩
  · intro S res hcall
    exact propagate_single g r C hC hs fuel sg n S res hn htr hcall
  · intro tile hprop
    obtain ⟨sg', hcall, ht⟩ := propagate_cone g tile r C hC fuel sg n hn hfuel hprop
    exact ⟨sg', hcall, ht, tiled_recurrence hn hC hprop ht⟩
  · intro m hm nd hnd
    refine ⟨?_, ?_⟩
    · intro hk i
      have hl := hload m (upstream_mem hC hm hn)
      unfold Graph.loadIsSource at hl
      rw [hnd] at hl
      have hin : nd.inputs = [] := by
        simpa [hk] using hl
      unfold Graph.producerAt
      simp [hnd, hin]
    · intro i p hp
      obtain ⟨_, _, _, cnd, _, _, _, _, hcnd, hk⟩ := producerAt_some hp
      exact ⟨cnd, hcnd, hk⟩
  · intro S
    obtain ⟨k, rfl⟩ : ∃ k, fuel = k + 1 := ⟨fuel - 1, by omega⟩
    obtain ⟨_, sn, _, hsn, _⟩ := tracksAt_spec (htr n hn)
    rw [splitNodeBySize_succ, hsn, Option.some_bind, if_pos rfl]
    exact ⟨_, rfl, tableSet_tiled sg (fun _ => S) n sn hsn⟩

/-- Witness of C22: the Store 10 of `tinyParent` with the tile `(1)`; its
upstream cone holds the node 3 and the Load 2, each with one consumer, and the
propagation ends at the Load 2, which has no inputs. -/
theorem splitNodeBySize_propagates_witness :
    (∀ m ∈ [10, 3, 2], ∀ p ∈ tinyParent.producers m,
        p ∈ [10, 3, 2] ∧ (fun k : NodeId => k) p < (fun k : NodeId => k) m) ∧
      (∀ m ∈ [10, 3, 2], (tinySplit [2] 0 1).tracksAt tinyParent m = true) ∧
      (∀ p ∈ [10, 3, 2], (tinyParent.consumersOf p).length ≤ 1) ∧
      (∀ m ∈ [10, 3, 2], tinyParent.loadIsSource m = true) ∧
      (∀ m ∈ [10, 3, 2], (tinySplit [2] 0 1).propagatesAt tinyParent (fun _ => [1]) m = true) ∧
      SplitGraph.splitNodeBySize tinyParent 11 (tinySplit [2] 0 1) 10 [1] true =
        some (tinySplit [1] 0 1, true) ∧
      ((tinySplit [1] 0 1).getSplitNode 10).map SplitNode.m_NewOutSizes = some [1] ∧
      (∀ m, tinyParent.Upstream 10 m → (tinySplit [1] 0 1).InputTiled tinyParent m) ∧
      SplitGraph.RetiledOn (tinyParent.Upstream 10) (tinySplit [2] 0 1) (tinySplit [1] 0 1) ∧
      (∀ i, tinyParent.producerAt 2 i = none) ∧
      ∃ sg', SplitGraph.splitNodeBySize tinyParent 11 (tinySplit [2] 0 1) 10 [1] true =
          some (sg', true) ∧
        SplitGraph.TiledOn (fun _ => [1]) (tinyParent.Upstream 10) (tinySplit [2] 0 1) sg' := by
  have h := splitNodeBySize_propagates tinyParent (tinySplit [2] 0 1) (fun k => k) [10, 3, 2] 10 11
    (by decide) (by decide) (by decide) (by decide) (by decide) (by decide)
  obtain ⟨sg', h1, h2, _⟩ := h.2.1 (fun _ => [1]) (by decide)
  obtain ⟨_, h3, h4, h5⟩ := h.1 [1] (tinySplit [1] 0 1, true) (by decide)
  have h6 := (h.2.2.1 2
    (Graph.Upstream.step 0 (by decide : tinyParent.producerAt 10 0 = some 3)
      (Graph.Upstream.step 0 (by decide : tinyParent.producerAt 3 0 = some 2)
        (Graph.Upstream.self 2)))
    (mkNode Kind.Load [] [5]) (by decide)).1 rfl
  exact ⟨by decide, by decide, by decide, by decide, by decide, by decide, h3, h4, h5, h6,
    sg', h1, h2⟩

/-! ### Graphs with one ready node at a time -/

/-- An element of the tail of a list stands right behind another element. -/
theorem mem_tail_split {α : Type} (x z : α) (l : List α) (hz : z ∈ l) :
    ∃ l1 w l2, x :: l = l1 ++ w :: z :: l2 := by
  obtain ⟨s, t, rfl⟩ := List.append_of_mem hz
  rcases List.eq_nil_or_concat s with rfl | ⟨s', w, rfl⟩
  · exact ⟨[], x, t, rfl⟩
  · exact ⟨x :: s', w, t, by simp⟩

/-- A permutation `out` of a list `l` without repetition in which every
element stands behind the elements that `preds` names, up to the elements of
`E`, is `l` itself when each element of `l` names the element before it. -/
theorem perm_eq_of_sorted {α : Type} (preds : α → List α) :
    ∀ (l out E : List α), l.Nodup → out.Perm l → (∀ w ∈ l, w ∉ E) →
      (∀ l1 x l2, out = l1 ++ x :: l2 → ∀ m ∈ preds x, m ∈ E ∨ m ∈ l1) →
      (∀ l1 x y l2, l = l1 ++ x :: y :: l2 → x ∈ preds y) → out = l := by
  intro l
  induction l with
  | nil =>
    intro out E _ hperm _ _ _
    exact List.Perm.eq_nil hperm
  | cons x l ih =>
    intro out E hnd hperm hdis hout hchain
    cases out with
    | nil => exact absurd (List.Perm.symm hperm).eq_nil (by simp)
    | cons z out =>
      have hzx : z = x := by
        by_contra hne
        have hz : z ∈ x :: l := hperm.subset (List.mem_cons_self z out)
        have hzl : z ∈ l := by
          rcases List.mem_cons.mp hz with h | h
          · exact absurd h hne
          · exact h
        obtain ⟨l1, w, l2, hsplit⟩ := mem_tail_split x z l hzl
        have hw : w ∈ preds z := hchain l1 w z l2 hsplit
        have hwl : w ∈ x :: l := by
          rw [hsplit]
          simp
        rcases hout [] z out rfl w hw with h | h
        · exact hdis w hwl h
        · cases h
      subst hzx
      have hperm' : out.Perm l := List.Perm.cons_inv hperm
      have hnd' := List.nodup_cons.mp hnd
      have := ih out (z :: E) hnd'.2 hperm'
        (by
          intro w hw hmem
          rcases List.mem_cons.mp hmem with h | h
          · subst h
            exact hnd'.1 hw
          · exact hdis w (List.mem_cons_of_mem _ hw) h)
        (by
          intro l1 y l2 hsplit m hm
          rcases hout (z :: l1) y l2 (by rw [hsplit]; rfl) m hm with h | h
          · exact Or.inl (List.mem_cons_of_mem _ h)
          · rcases List.mem_cons.mp h with h | h
            · subst h
              exact Or.inl (List.mem_cons_self _ _)
            · exact Or.inr h)
        (by
          intro l1 a b l2 hsplit
          exact hchain (z :: l1) a b l2 (by rw [hsplit]; rfl))
      rw [this]

/-- On a sortable graph the test `inTopologicalOrder` says that every node
of the node list stands behind the producers of its inputs. -/
theorem sorted_of_inTopologicalOrder {g : Graph} (hk : g.Kahnable)
    (h : g.inTopologicalOrder = true) :
    ∀ l1 x l2, g.order = l1 ++ x :: l2 → ∀ m ∈ g.preds x, m ∈ l1 := by
  intro l1 x l2 hord m hm
  unfold Graph.inTopologicalOrder at h
  rw [List.all_eq_true] at h
  have hlen : l1.length < g.order.length := by
    rw [hord]
    simp
  have hi := h l1.length (List.mem_range.mpr hlen)
  have hget : g.order[l1.length]? = some x := by
    rw [hord, List.getElem?_append_right (Nat.le_refl _)]
    simp
  have hx : x ∈ g.order := by
    rw [hord]
    simp
  obtain ⟨nd, hnd, _⟩ := hk.node x hx
  rw [hget] at hi
  simp only [hnd] at hi
  rw [List.all_eq_true] at hi
  unfold Graph.preds at hm
  rw [hnd] at hm
  simp only [List.mem_filterMap] at hm
  obtain ⟨w, hw, hwm⟩ := hm
  obtain ⟨val, hval, hin⟩ := hk.input x hx nd hnd w hw
  rw [hval] at hwm
  simp only [Option.some_bind] at hwm
  have hiw := hi w hw
  simp only [hval, hwm] at hiw
  have hmo : m ∈ g.order := hin m hwm
  have htake : g.order.take l1.length = l1 := by
    rw [hord]
    simp
  rw [htake] at hiw
  simpa [hmo] using hiw

/-- In a sortable graph whose node list is in topological order and in which
no two nodes are ready at once, every node of the list takes an output of the
node before it. -/
theorem pred_of_oneReady {g : Graph} (hk : g.Kahnable) (htopo : g.inTopologicalOrder = true)
    (hone : g.oneReady = true) :
    ∀ l1 x y l2, g.order = l1 ++ x :: y :: l2 → x ∈ g.preds y := by
  intro l1 x y l2 hord
  by_contra hxy
  have hsorted := sorted_of_inTopologicalOrder hk htopo
  have hnd : (l1 ++ x :: y :: l2).Nodup := hord ▸ hk.nodup
  have hx1 : x ∉ l1 := fun hx =>
    (List.nodup_append.mp hnd).2.2 hx (List.mem_cons_self _ _)
  have hy1 : y ∉ l1 := fun hy =>
    (List.nodup_append.mp hnd).2.2 hy (List.mem_cons_of_mem _ (List.mem_cons_self _ _))
  have hne : x ≠ y := by
    intro e
    have := (List.nodup_cons.mp (List.nodup_append.mp hnd).2.1).1
    exact this (e ▸ List.mem_cons_self _ _)
  have htake : g.order.take l1.length = l1 := by
    rw [hord]
    simp
  have hxr : g.readyAfter l1 x = true := by
    unfold Graph.readyAfter
    simp only [Bool.and_eq_true, Bool.not_eq_true', List.all_eq_true]
    refine ⟨by simpa using hx1, ?_⟩
    intro m hm
    simpa using hsorted l1 x (y :: l2) hord m hm
  have hyr : g.readyAfter l1 y = true := by
    unfold Graph.readyAfter
    simp only [Bool.and_eq_true, Bool.not_eq_true', List.all_eq_true]
    refine ⟨by simpa using hy1, ?_⟩
    intro m hm
    have := hsorted (l1 ++ [x]) y l2 (by rw [hord]; simp) m hm
    rcases List.mem_append.mp this with h | h
    · simpa using h
    · have : m = x := by simpa using h
      subst this
      exact absurd hm hxy
  unfold Graph.oneReady at hone
  rw [List.all_eq_true] at hone
  have h1 := hone l1.length (List.mem_range.mpr (by rw [hord]; simp; omega))
  rw [List.all_eq_true] at h1
  have h2 := h1 x (by rw [hord]; simp)
  rw [List.all_eq_true] at h2
  have h3 := h2 y (by rw [hord]; simp)
  rw [htake, hxr, hyr] at h3
  simp at h3
  exact hne h3

/-- Function `TopologicalSort` on a sortable graph whose node list is in
topological order and in which no two nodes are ready at once returns the
graph as it is. -/
theorem topoSort_oneReady {g : Graph} (hk : g.Kahnable) (htopo : g.inTopologicalOrder = true)
    (hone : g.oneReady = true) : TopologicalSort g = some g := by
  obtain ⟨dmap, wl, out, _, _, _, hsort, hperm, hsorted⟩ := topoSort_total hk
  have : out = g.order :=
    perm_eq_of_sorted g.preds g.order out [] hk.nodup hperm (fun _ _ h => by cases h)
      (fun l1 x l2 h m hm => Or.inr (hsorted l1 x l2 h m hm))
      (pred_of_oneReady hk htopo hone)
  rw [hsort, this, withOrder_self]

/-- The successor of the first node of the node list, or of the return node
when the list is empty, exists. -/
theorem next_begin_some (g : Graph) :
    ∃ it, g.next (g.order.head?.getD g.return_node) = some it := by
  unfold Graph.next
  by_cases h : g.order.head?.getD g.return_node = g.return_node
  · rw [if_pos h]
    exact ⟨_, rfl⟩
  · rw [if_neg h]
    cases ho : g.order with
    | nil =>
      rw [ho] at h
      simp at h
    | cons a l =>
      simp

/-- With no node ready Kahn's loop puts out the empty list. -/
theorem topoLoop_empty (g : Graph) (fuel : Nat) (dmap : DegreeMap) :
    topoLoop g fuel (dmap, [], []) = some [] := by
  cases fuel with
  | zero => simp [topoLoop]
  | succ f => simp [topoLoop]

/-- Function `TopologicalSort` on a graph in which no node is ready returns
the graph as it is. -/
theorem topoSort_none_ready {g : Graph} {dmap : DegreeMap} (hd : BuildDegreeMap g = some dmap)
    (hw : initWorklist g dmap = some [])
    (hb : (g.node? (g.order.head?.getD g.return_node)).isSome = true) :
    TopologicalSort g = some g := by
  obtain ⟨bnd, hbnd⟩ := Option.isSome_iff_exists.mp hb
  obtain ⟨it, hit⟩ := next_begin_some g
  unfold TopologicalSort
  simp only [hd, hw, topoLoop_empty, hbnd, Option.bind_eq_bind, Option.some_bind]
  by_cases hk : bnd.kind = Kind.kUndefined
  · simp [hk, hit]
  · simp [hk]

/-- With no node ready the search for split points has no result: `lastNode`
is the null pointer when it is put into group B. -/
theorem finder_none_of_no_ready (T : Target) (H : HashOrder) {g : Graph} {dmap : DegreeMap}
    (hd : BuildDegreeMap g = some dmap) (hw : initWorklist g dmap = some []) :
    findHalfSizeSplitPoints T H g = none := by
  unfold findHalfSizeSplitPoints
  cases h1 : (g.order.foldlM (fun total n => do
      let nd ← g.node? n
      if nd.kind = Kind.kUndefined || SkipWhenCalMemSize nd then pure total
      else pure ((total + T.getOperatorMemUsage g n) % UINT64)) 0 : Option Nat) with
  | none => simp [h1]
  | some total =>
    simp only [h1, hd, hw, Option.bind_eq_bind, Option.some_bind]
    rw [findLoop_empty T g total g.fuel _ rfl]
    simp

/-- The manager built for the graph `g` holds `g` and one split graph over
it. -/
theorem manager_new_eq {T : Target} {g : Graph} {m : SplitGraphManager}
    (h : SplitGraphManager.new T g = some m) :
    ∃ sg, m = { graphs := [g], m_SubGraphs := [sg] } ∧ sg.m_Graph = 0 := by
  unfold SplitGraphManager.new at h
  cases hs : SplitGraph.new T g 0 with
  | none => simp [hs] at h
  | some sg =>
    simp only [hs, Option.bind_eq_bind, Option.some_bind, Option.pure_def, Option.some.injEq] at h
    refine ⟨sg, h.symm, ?_⟩
    unfold SplitGraph.new at hs
    exact rebuildSplitNodes_m_Graph hs

/-- When the search for split points has no result on the graph `g`, neither
has `splitNewSubGraph` on the manager built for `g`. -/
theorem manager_none_of_finder_none (T : Target) (H : HashOrder) {g : Graph}
    (hf : findHalfSizeSplitPoints T H g = none) :
    (SplitGraphManager.new T g).bind (fun m => m.splitNewSubGraph T H 0) = none := by
  cases hm : SplitGraphManager.new T g with
  | none => rfl
  | some m =>
    obtain ⟨sg, rfl, hsg⟩ := manager_new_eq hm
    simp only [Option.some_bind]
    unfold SplitGraphManager.splitNewSubGraph
    simp [hsg, hf]

/-- When the last loop of `SplitSubGraph`, which removes the Loads and their
successors from the parent graph, has no result, `SplitSubGraph` has none,
whatever the order of the hash sets. -/
theorem SplitSubGraph_none_of_connect (H : HashOrder) (g : Graph) (newId : GraphId)
    (pts : List NodeId)
    (h : (createPairs g pts).bind (fun p =>
      (p.1.create Kind.SubGraph 1).bind (fun s =>
        (s.1.node? s.2).bind (fun snd =>
          p.2.foldlM (connectStep s.2)
            (s.1.setNode s.2 { snd with attrs := { snd.attrs with g := some newId } },
              ([] : List NodeId))))) = none) :
    SplitSubGraph H g newId pts = none := by
  rw [SplitSubGraph_eq]
  cases hp : createPairs g pts with
  | none => rfl
  | some p =>
    rw [hp, Option.some_bind] at h
    simp only [Option.bind_eq_bind, Option.some_bind]
    cases hc : cloneAll p.1 { Graph.new with name := g.name ++ ".sub" } p.2 with
    | none => rfl
    | some c =>
      simp only [Option.some_bind]
      cases hr : rebuildInputs H p.1 c.1 c.2.1 with
      | none => rfl
      | some r =>
        simp only [Option.some_bind]
        cases hs : p.1.create Kind.SubGraph 1 with
        | none => rfl
        | some s =>
          rw [hs, Option.some_bind] at h
          simp only [Option.some_bind]
          cases hn : s.1.node? s.2 with
          | none => rfl
          | some snd =>
            rw [hn, Option.some_bind] at h
            simp only [Option.some_bind]
            rw [h]
            rfl

/-! ## Graphs whose first nodes take graph inputs -/

/-- C11, a defect of the code.  In `convGraph` the only operator node is the
Conv 1, whose inputs are graph inputs, outputs of the parameter node.
`BuildDegreeMap` discounts inputs without producer only, so the Conv has the
degree 3 and the worklist of `findHalfSizeSplitPoints` starts empty: the loop
does not run, both groups stay empty and `lastNode` stays null; group A does
not have one element, the null pointer is put into group B and is
dereferenced in the search for the Loads of group B.  Whatever the target
reports and whatever the order of the hash sets, there is no result, the
empty list included, and `splitNewSubGraph` on the manager of the graph has
none either, while the manager itself is built. -/
theorem finder_param_fed_conv (T : Target) (H : HashOrder) :
    BuildDegreeMap convGraph = some [(1, 3)] ∧ initWorklist convGraph [(1, 3)] = some [] ∧
      findHalfSizeSplitPoints T H convGraph = none ∧
      (SplitGraphManager.new T convGraph).bind (fun m => m.splitNewSubGraph T H 0) = none ∧
      (SplitGraphManager.new plainTarget convGraph).isSome = true := by
  have hf : findHalfSizeSplitPoints T H convGraph = none :=
    finder_none_of_no_ready T H (by decide : BuildDegreeMap convGraph = some [(1, 3)]) (by decide)
  exact ⟨by decide, by decide, hf, manager_none_of_finder_none T H hf, by decide⟩

/-- C12, a defect of the code.  In `paramPairGraph`, the chain Conv, Relu,
return, the inputs of the Conv are graph inputs, outputs of the parameter
node.  The Conv has the degree 3 and the Relu the degree 1, so the worklist of
`findHalfSizeSplitPoints` starts empty, no node is put into a group and
`lastNode` stays null: the null pointer is put into group B and dereferenced.
Whatever the target reports and whatever the order of the hash sets, there is
no result: the list with the Conv is not returned. -/
theorem finder_param_fed_pair (T : Target) (H : HashOrder) :
    (paramPairGraph.node? 1).map (fun nd => (nd.kind, nd.inputs, nd.outputs))
        = some (Kind.kConv, [0, 1, 2], [3]) ∧
      (paramPairGraph.node? 3).map (fun nd => (nd.inputs, nd.outputs)) = some ([3], [4]) ∧
      BuildDegreeMap paramPairGraph = some [(1, 3), (3, 1)] ∧
      initWorklist paramPairGraph [(1, 3), (3, 1)] = some [] ∧
      findHalfSizeSplitPoints T H paramPairGraph = none := by
  exact ⟨by decide, by decide, by decide, by decide,
    finder_none_of_no_ready T H
      (by decide : BuildDegreeMap paramPairGraph = some [(1, 3), (3, 1)]) (by decide)⟩

/-- C13, a defect of the code.  In `paramSixGraph`, a chain of six counted
nodes, the input of the first node is a graph input, an output of the
parameter node.  Every node of the chain has the degree 1, so the worklist of
`findHalfSizeSplitPoints` starts empty, no node is put into a group and
`lastNode` stays null: the null pointer is put into group B and dereferenced.
Whatever the target reports, the same usage for every node included, and
whatever the order of the hash sets, there is no result: the list with the
third node is not returned. -/
theorem finder_param_fed_chain (T : Target) (H : HashOrder) :
    paramSixGraph.order = [2, 3, 4, 5, 6, 7] ∧
      BuildDegreeMap paramSixGraph = some [(2, 1), (3, 1), (4, 1), (5, 1), (6, 1), (7, 1)] ∧
      initWorklist paramSixGraph [(2, 1), (3, 1), (4, 1), (5, 1), (6, 1), (7, 1)] = some [] ∧
      findHalfSizeSplitPoints T H paramSixGraph = none ∧
      findHalfSizeSplitPoints (uniformTarget 100) insertionOrder paramSixGraph = none := by
  have hf : ∀ T H, findHalfSizeSplitPoints T H paramSixGraph = none := fun T H =>
    finder_none_of_no_ready T H
      (by decide : BuildDegreeMap paramSixGraph
        = some [(2, 1), (3, 1), (4, 1), (5, 1), (6, 1), (7, 1)]) (by decide)
  exact ⟨rfl, by decide, by decide, hf T H, hf _ _⟩

/-! ## Extractions that do not return -/

/-- C9, a defect of the code.  First, `fanGraph` with the target `fanTarget`:
the manager is built, the search for split points returns the non-empty list
2, 2, and `splitNewSubGraph` has no result, because the extraction at 2, 2
reaches the new SubGraph node in `removeNodeAndSuccessors` and destroys it
while it is not in the node list: the list of split graphs does not grow by
one.  Second, `chainGraph` with the target `strictTarget`, whose predicate
`OutputSizeIsInputSize` does not hold of SubGraph nodes: the manager is built,
the search returns the list 3 and the extraction returns with the SubGraph
node 12 in the parent graph; `rebuildSplitNodes` skips the kind
`SubGraphKind`, which no node has, and not the kind `SubGraph`, so the factory
is called on the SubGraph node and fails on the unsupported kind:
`splitNewSubGraph` has no result. -/
theorem splitNewSubGraph_aborts :
    (SplitGraphManager.new fanTarget fanGraph).isSome = true ∧
      findHalfSizeSplitPoints fanTarget insertionOrder fanGraph = some [2, 2] ∧
      (SplitGraphManager.new fanTarget fanGraph).bind
          (fun m => m.splitNewSubGraph fanTarget insertionOrder 0) = none ∧
      SplitGraphManager.new strictTarget chainGraph = some chainManager ∧
      findHalfSizeSplitPoints strictTarget insertionOrder chainGraph = some [3] ∧
      (SplitSubGraph insertionOrder chainGraph 1 [3]).bind
          (fun r => (r.1.node? 12).map (fun nd => nd.kind)) = some Kind.SubGraph ∧
      (SplitSubGraph insertionOrder chainGraph 1 [3]).bind
          (fun r => SplitNodeCreator strictTarget r.1 12) = none ∧
      chainManager.splitNewSubGraph strictTarget insertionOrder 0 = none := by
  refine ⟨by decide, by decide, by decide, by decide, by decide, by decide, by decide, by decide⟩

/-- C15, a defect of the code.  First, `fanGraph` with the split-point list
2, 2, which `findHalfSizeSplitPoints` returns for it: the first loop of
`SplitSubGraph` creates the pairs (11, 13) and (15, 17), the second Load 15
taking over the use of the value 8 by the first Store 13; the removal of the
Load 15 and its successors then reaches the Store 13 and, through its output,
the new SubGraph node, which is not yet in the node list, and `destroy` fails.
Second, `fanThreeGraph` with the split-point list 2: the output of the Load
has three users, the removal loop walks the use vector while
`removeAllInputs` erases from it and skips the user 4, and `destroy` of the
Load fails on an output that is still in use.  In both cases `SplitSubGraph`
has no result, whatever the order of the hash sets: there is no parent graph
with a SubGraph node. -/
theorem SplitSubGraph_aborts (H : HashOrder) :
    (createPairs fanGraph [2, 2]).map (fun p => (p.1.order, p.2))
        = some ([2, 17, 15, 13, 11, 3, 4], [(11, some 13), (15, some 17)]) ∧
      SplitSubGraph H fanGraph 1 [2, 2] = none ∧
      (createPairs fanThreeGraph [2]).map (fun p => (p.1.order, p.2))
        = some ([2, 14, 12, 3, 4, 5], [(12, some 14)]) ∧
      SplitSubGraph H fanThreeGraph 1 [2] = none := by
  refine ⟨by decide, ?_, by decide, ?_⟩
  · exact SplitSubGraph_none_of_connect H fanGraph 1 [2, 2] (by decide)
  · exact SplitSubGraph_none_of_connect H fanThreeGraph 1 [2] (by decide)

/-- C16, a defect of the code.  The split point 2 of `fanThreeGraph` is no
Load and has the single output 8, which the nodes 3, 4 and 5 use.
`createLoadStoreAtNode` puts the Store 14 right after the split point and the
Load 12 before the node 3, and the Load takes over the three uses.  In
`removeNodeAndSuccessors` the loop over the uses of the output 13 of the Load
runs while `removeAllInputs` erases the uses from the same vector: it visits
the users 3, 5 and 5 again, the use by the node 4 stays, and `destroy` of the
Load fails on an output that is still in use.  The extraction has no result,
whatever the order of the hash sets: there is no parent graph with the Store
and no extracted graph with the Load. -/
theorem extraction_three_consumers (H : HashOrder) :
    (fanThreeGraph.node? 2).map (fun nd => (nd.kind, nd.outputs)) = some (Kind.other 1, [8]) ∧
      (fanThreeGraph.value? 8).map (fun v => v.uses.map Use.user) = some [3, 4, 5] ∧
      (createLoadStoreAtNode fanThreeGraph 2 []).map (fun p => (p.1.order, p.2))
        = some ([2, 14, 12, 3, 4, 5], [(12, some 14)]) ∧
      (createLoadStoreAtNode fanThreeGraph 2 []).bind (fun p =>
          (detachUses 13 (p.1, [])).map (fun r =>
            (r.2, (r.1.value? 13).map (fun v => v.uses.map Use.user))))
        = some ([5, 5, 3], some [4]) ∧
      (createLoadStoreAtNode fanThreeGraph 2 []).bind (fun p =>
          removeNodeAndSuccessors p.1 12 []) = none ∧
      SplitSubGraph H fanThreeGraph 1 [2] = none := by
  refine ⟨by decide, by decide, by decide, by decide, by decide, ?_⟩
  exact SplitSubGraph_none_of_connect H fanThreeGraph 1 [2] (by decide)

/-! ## Stability of the sort -/

/-- C18 (amended).  First, let the graph be one that Kahn's algorithm sorts
entirely (`Graph.Kahnable`: an acyclic graph of defined nodes whose inputs
have no producer or a producer in the node list), let its node list be in
topological order and let no two of its nodes be ready at once:
`TopologicalSort` returns the graph as it is, node list included.  Second, let
no node of the graph be ready at all, as in a graph whose first nodes take
graph inputs: `TopologicalSort` returns the graph as it is. -/
theorem TopologicalSort_single_ready (g : Graph) :
    (g.Kahnable → g.inTopologicalOrder = true → g.oneReady = true →
      TopologicalSort g = some g) ∧
    (∀ dmap, BuildDegreeMap g = some dmap → initWorklist g dmap = some [] →
      (g.node? (g.order.head?.getD g.return_node)).isSome = true →
      TopologicalSort g = some g) :=
  ⟨fun hk htopo hone => topoSort_oneReady hk htopo hone,
    fun _ hd hw hb => topoSort_none_ready hd hw hb⟩

/-- Witness of C18 (amended): `ladderGraph`, where the node 2 feeds the nodes
3 and 4 and the node 3 feeds the node 4, so that one node is ready at a time,
and `paramPairGraph`, where no node is ready. -/
theorem TopologicalSort_single_ready_witness :
    ladderGraph.kahnCheck (fun m => m) = true ∧ ladderGraph.inTopologicalOrder = true ∧
      ladderGraph.oneReady = true ∧ TopologicalSort ladderGraph = some ladderGraph ∧
      BuildDegreeMap paramPairGraph = some [(1, 3), (3, 1)] ∧
      initWorklist paramPairGraph [(1, 3), (3, 1)] = some [] ∧
      TopologicalSort paramPairGraph = some paramPairGraph :=
  ⟨by decide, by decide, by decide,
    (TopologicalSort_single_ready ladderGraph).1
      (Graph.Kahnable.of_kahnCheck (fun m => m) (by decide)) (by decide) (by decide),
    by decide, by decide,
    (TopologicalSort_single_ready paramPairGraph).2 _
      (by decide : BuildDegreeMap paramPairGraph = some [(1, 3), (3, 1)]) (by decide) (by decide)⟩

end Onnc
